import Mathlib

/-!
# The schema-driven RPC client stack of `C++/repl`

A shallow embedding of the wire codec (`endian.h`, `serializer.cpp`,
`deserializer.cpp`), of the data model (`my_types.h`, `request_classes.h`) and of
the two text front ends (`request_parser.cpp`, `schema_parser.cpp`) and of the
completion engine (`autocomplete.cpp`), followed by the properties proved about
them.

Conventions of the embedding.

* A `std::string` is a list of characters; a C++ `char` is the Lean character of
  the same code (the one-byte chars of the source have codes `0 .. 255`).
* A `std::byte` is the natural number it holds.
* `int64_t` / `uint64_t` payloads are an `Int` / a `Nat`; the range of the machine
  type is the predicate `Value.in_range`, and every narrowing conversion of the
  source is written as an explicit `%`.
* A thrown exception is `Except.error` of its kind; the message is dropped.
* `std::unordered_map` is an association list searched from the front; `emplace`
  keeps an existing key. Its iteration order is the order of the list.
* Undefined behaviour of the completion engine is `Except.error` of its kind
  (`Undefined`); a run that reaches the bound `fuel` is `none`.
-/

namespace ct

set_option autoImplicit false

deriving instance DecidableEq for Except

/-! ## Data model -/

/-- The exception types thrown by the subsystem. `bad_variant_access` is the
`std::bad_variant_access` that `std::get` raises on the wrong alternative. -/
inductive Error
  | SchemaError
  | ParseError
  | SerializeError
  | DeserError
  | bad_variant_access
  deriving DecidableEq, Repr

/-- A `std::string`. -/
abbrev Str := List Char

/-- A `std::byte`. -/
abbrev Byte := Nat

/-- The enum `Builtin` of `my_types.h`. -/
inductive Builtin
  | Int32
  | Int64
  | Uint32
  | Uint64
  | String
  deriving DecidableEq, Repr

/-- The struct `Type` of `my_types.h`. The source keeps two optionals of which
`Type::builtin_of` and `Type::user_of` (the only producers) fill exactly one;
the two constructors are those two producers. -/
inductive Ty
  | builtin_of (b : Builtin)
  | user_of (user : Str)
  deriving DecidableEq, Repr

/-- Method `Type::is_builtin`. -/
def Ty.is_builtin : Ty → Bool
  | .builtin_of _ => true
  | .user_of _ => false

/-- The struct `Field` (and the identical struct `Arg`) of `my_types.h`. -/
structure Field where
  name : Str
  type : Ty
  deriving DecidableEq, Repr

/-- The struct `Arg` has the members of `Field`. -/
abbrev Arg := Field

/-- The struct `Struct` of `my_types.h`. -/
structure Struct where
  name : Str
  fields : List Field
  deriving DecidableEq, Repr

/-- The struct `Function` of `my_types.h`. -/
structure Function where
  name : Str
  return_type : Ty
  args : List Arg
  deriving DecidableEq, Repr

/-- Function `unordered_map::find` on an association list: the first entry under the key. -/
def map_find {α : Type} (k : Str) : List (Str × α) → Option α
  | [] => none
  | (k', a) :: rest => if k' = k then some a else map_find k rest

/-- Function `unordered_map::emplace`: nothing happens when the key is present. -/
def map_emplace {α : Type} (k : Str) (a : α) (m : List (Str × α)) : List (Str × α) :=
  match map_find k m with
  | some _ => m
  | none => m ++ [(k, a)]

/-- The struct `Schema` of `my_types.h`. -/
structure Schema where
  structs : List (Str × Struct)
  functions : List (Str × Function)
  deriving DecidableEq, Repr

/-- Method `Schema::find_struct`; `none` is the null pointer. -/
def Schema.find_struct (sch : Schema) (n : Str) : Option Struct :=
  map_find n sch.structs

/-- Method `Schema::find_function`; `none` is the null pointer. -/
def Schema.find_function (sch : Schema) (n : Str) : Option Function :=
  map_find n sch.functions

/-- The variant `Value` of `request_classes.h`. The last alternative is
`StructValue`: its `struct_name` and its `fields` map. -/
inductive Value
  | str (s : Str)
  | int (n : Int)
  | uint (n : Nat)
  | struct (struct_name : Str) (fields : List (Str × Value))

/-- The struct `NamedArg`. -/
abbrev NamedArg := Str × Value

/-- The struct `Call` of `request_classes.h`. -/
structure Call where
  func_name : Str
  args : List NamedArg

def INT32_MAX : Int := 2147483647
def INT32_MIN : Int := -2147483648
def INT64_MAX : Int := 9223372036854775807
def INT64_MIN : Int := -9223372036854775808
def UINT64_MAX : Nat := 18446744073709551615

/-- Method `Value::is_int`. -/
def Value.is_int : Value → Bool
  | .uint v => decide ((v : Int) ≤ INT64_MAX)
  | .int _ => true
  | _ => false

/-- Method `Value::as_int`. The conversion `long long ll = vvv` is the two's-complement
reading of the 64 bits. -/
def Value.as_int : Value → Except Error Int
  | .uint vvv => .ok (if (vvv : Int) ≤ INT64_MAX then (vvv : Int) else (vvv : Int) - 2 ^ 64)
  | .int n => .ok n
  | _ => .error .bad_variant_access

/-! ## `endian.h` -/

/-- Function `put_be<T>` for a `T` of `size` bytes: `uv` is `static_cast<U>(v)`. -/
def put_be (size : Nat) (out : List Byte) (v : Int) : List Byte :=
  let uv : Nat := (v % 2 ^ (8 * size)).toNat
  out ++ (List.range size).reverse.map (fun k => (uv >>> (8 * k)) &&& 0xff)

/-- Function `put_bytes`. -/
def put_bytes (out : List Byte) (bytes : List Byte) : List Byte :=
  out ++ bytes

/-- Function `std::as_bytes(std::span(s))`. -/
def as_bytes (s : Str) : List Byte :=
  s.map Char.toNat

/-! ## `serializer.cpp` -/

/-- Method `Serializer::serialize_builtin`; `out` is the member buffer before the call
and the result is the buffer after it. -/
def serialize_builtin (b : Builtin) (v : Value) (out : List Byte) : Except Error (List Byte) :=
  match b with
  | .String =>
    match v with
    | .str s => .ok (put_bytes (put_be 4 out ((s.length : Int) % 2 ^ 32)) (as_bytes s))
    | _ => .error .SerializeError
  | .Int32 =>
    if v.is_int then
      match v.as_int with
      | .error e => .error e
      | .ok x =>
        if x > INT32_MAX then .error .SerializeError
        else if x < INT32_MIN then .error .SerializeError
        else .ok (put_be 4 out x)
    else .error .SerializeError
  | .Int64 =>
    if v.is_int then
      match v.as_int with
      | .error e => .error e
      | .ok x => .ok (put_be 8 out x)
    else .error .SerializeError
  | .Uint32 =>
    if v.is_int then
      match v.as_int with
      | .error e => .error e
      | .ok x =>
        if x < 0 then .error .SerializeError
        else if x % 2 ^ 64 > 0xffffffff then .error .SerializeError
        else .ok (put_be 4 out (x % 2 ^ 64))
    else
      match v with
      | .uint x =>
        if x > 0xffffffff then .error .SerializeError
        else .ok (put_be 4 out x)
      | _ => .error .SerializeError
  | .Uint64 =>
    if v.is_int then
      match v.as_int with
      | .error e => .error e
      | .ok x =>
        if x < 0 then .error .SerializeError
        else .ok (put_be 8 out (x % 2 ^ 64))
    else
      match v with
      | .uint x => .ok (put_be 8 out x)
      | _ => .error .SerializeError

/-- The `for` loop of `Serializer::serialize_struct` over the declared fields,
with the loop body as a parameter. -/
def struct_loop (body : Field → List Byte → Except Error (List Byte)) :
    List Field → List Byte → Except Error (List Byte)
  | [], out => .ok out
  | fld :: rest, out =>
    match body fld out with
    | .error e => .error e
    | .ok out' => struct_loop body rest out'

mutual
/-- Method `Serializer::serialize_value`. The call of `serialize_struct` is its loop over
`st.fields`; see `serialize_struct` and `serialize_value_struct`. -/
def serialize_value (sch : Schema) : Value → Ty → List Byte → Except Error (List Byte)
  | v, .builtin_of b, out => serialize_builtin b v out
  | v, .user_of user, out =>
    match sch.find_struct user with
    | none => .error .SerializeError
    | some st =>
      match v with
      | .struct struct_name fields =>
        if struct_name ≠ [] ∧ struct_name ≠ st.name then .error .SerializeError
        else struct_loop (fun fld o => serialize_field sch fields fld.name fld.type o) st.fields out
      | _ => .error .bad_variant_access
/-- The body of the loop of `Serializer::serialize_struct`: `sv.fields.find(name)`,
the throw on `end()`, and `serialize_value(type, it->second)`. -/
def serialize_field (sch : Schema) : List (Str × Value) → Str → Ty → List Byte → Except Error (List Byte)
  | [], _, _, _ => .error .SerializeError
  | (k, v) :: rest, name, type, out =>
    if k = name then serialize_value sch v type out
    else serialize_field sch rest name type out
end

/-- Method `Serializer::serialize_struct` on `st` and the field map of `sv`. -/
def serialize_struct (sch : Schema) (st : Struct) (sv_fields : List (Str × Value))
    (out : List Byte) : Except Error (List Byte) :=
  struct_loop (fun fld o => serialize_field sch sv_fields fld.name fld.type o) st.fields out

/-- The loop of `serialize_call` over the declared arguments `fn->args`. -/
def call_loop (sch : Schema) (provided : List (Str × Value)) :
    List Arg → List Byte → Except Error (List Byte)
  | [], out => .ok out
  | df :: rest, out =>
    match map_find df.name provided with
    | none => .error .SerializeError
    | some v =>
      match serialize_value sch v df.type out with
      | .error e => .error e
      | .ok out' => call_loop sch provided rest out'

/-- The free function `serialize_call`. `XXH32 s` stands for the library call
`XXH32(s.data(), s.size(), 0)` of xxhash, which is not part of the repository. -/
def serialize_call (XXH32 : Str → Nat) (sch : Schema) (call : Call) : Except Error (List Byte) :=
  match sch.find_function call.func_name with
  | none => .error .SerializeError
  | some fn =>
    let provided := call.args.foldl (fun m a => map_emplace a.1 a.2 m) []
    let h : Nat := XXH32 call.func_name % 2 ^ 32
    call_loop sch provided fn.args (put_be 4 [] (h : Int))

/-! ## `deserializer.h`, `deserializer.cpp` -/

/-- The struct `Cursor`: the buffer `p`, its size `n` and the read position `i`. -/
structure Cursor where
  p : List Byte
  n : Nat
  i : Nat
  deriving DecidableEq, Repr

/-- Method `Cursor::get8`: the byte read and the advanced cursor. -/
def Cursor.get8 (c : Cursor) : Except Error (Nat × Cursor) :=
  if c.i ≥ c.n then .error .DeserError
  else .ok (c.p.getD c.i 0, { c with i := c.i + 1 })

/-- The loop of `Cursor::get_be<T>` with `k` rounds left; `v` is the bit pattern of
the accumulator, kept within the `size` bytes of `T`. -/
def Cursor.get_be_loop (size : Nat) : Nat → Nat → Cursor → Except Error (Nat × Cursor)
  | 0, v, c => .ok (v, c)
  | k + 1, v, c =>
    match c.get8 with
    | .error e => .error e
    | .ok (b, c') => Cursor.get_be_loop size k (((v <<< 8) ||| b) % 2 ^ (8 * size)) c'

/-- Method `Cursor::get_be<T>` for a `T` of `size` bytes; for a signed `T` the bit pattern
is read as two's complement. -/
def Cursor.get_be (signed : Bool) (size : Nat) (c : Cursor) : Except Error (Int × Cursor) :=
  match Cursor.get_be_loop size size 0 c with
  | .error e => .error e
  | .ok (v, c') =>
    .ok (if signed ∧ v ≥ 2 ^ (8 * size - 1) then (v : Int) - 2 ^ (8 * size) else (v : Int), c')

/-- The loop of `Cursor::get_string` with `k` characters left. -/
def Cursor.get_string_loop : Nat → Str → Cursor → Except Error (Str × Cursor)
  | 0, s, c => .ok (s, c)
  | k + 1, s, c =>
    match c.get8 with
    | .error e => .error e
    | .ok (b, c') => Cursor.get_string_loop k (s ++ [Char.ofNat b]) c'

/-- Method `Cursor::get_string`. -/
def Cursor.get_string (c : Cursor) : Except Error (Str × Cursor) :=
  match c.get_be false 4 with
  | .error e => .error e
  | .ok (len, c') => Cursor.get_string_loop len.toNat [] c'

/-- Function `std::to_string` on an integer: the decimal digits, after a minus sign for a
negative number. -/
def to_string (n : Int) : Str :=
  if n < 0 then '-' :: Nat.toDigits 10 n.natAbs else Nat.toDigits 10 n.natAbs

/-- The loop of `read_struct` over the declared fields; `rv` is `read_value`.
`none` means that the recursion has not returned. -/
def read_fields (rv : Cursor → Ty → Str → Option (Except Error (Cursor × Str))) :
    List Field → Bool → Cursor → Str → Option (Except Error (Cursor × Str))
  | [], _, c, out => some (.ok (c, out))
  | f :: rest, first, c, out =>
    let out₁ := if first then out else out ++ ", ".toList
    match rv c f.type (out₁ ++ f.name ++ "=".toList) with
    | none => none
    | some (.error e) => some (.error e)
    | some (.ok (c', out')) => read_fields rv rest false c' out'

/-- Function `read_struct`, with `read_value` passed as `rv`. -/
def read_struct (rv : Cursor → Ty → Str → Option (Except Error (Cursor × Str)))
    (c : Cursor) (st : Struct) (out : Str) : Option (Except Error (Cursor × Str)) :=
  match read_fields rv st.fields true c (out ++ st.name ++ "\x7b".toList) with
  | none => none
  | some (.error e) => some (.error e)
  | some (.ok (c', out')) => some (.ok (c', out' ++ "\x7d".toList))

/-- The builtin arm of `read_value`. -/
def read_builtin (c : Cursor) (b : Builtin) (out : Str) : Except Error (Cursor × Str) :=
  match b with
  | .String =>
    match c.get_string with
    | .error e => .error e
    | .ok (s, c') => .ok (c', out ++ ("\"".toList ++ s ++ "\"".toList))
  | .Int32 =>
    match c.get_be true 4 with
    | .error e => .error e
    | .ok (x, c') => .ok (c', out ++ to_string x)
  | .Int64 =>
    match c.get_be true 8 with
    | .error e => .error e
    | .ok (x, c') => .ok (c', out ++ to_string x)
  | .Uint32 =>
    match c.get_be false 4 with
    | .error e => .error e
    | .ok (x, c') => .ok (c', out ++ to_string x)
  | .Uint64 =>
    match c.get_be false 8 with
    | .error e => .error e
    | .ok (x, c') => .ok (c', out ++ to_string x)

/-- Function `read_value`. The recursion through `read_struct` follows the schema and need
not end, so it is bounded by `fuel`, the number of nested calls allowed; `none`
means that the bound was reached. The result is the cursor and `out` after the call. -/
def read_value : Nat → Cursor → Schema → Ty → Str → Option (Except Error (Cursor × Str))
  | 0, _, _, _, _ => none
  | fuel + 1, c, sch, t, out =>
    match t with
    | .builtin_of b => some (read_builtin c b out)
    | .user_of user =>
      match sch.find_struct user with
      | none => some (.error .DeserError)
      | some st => read_struct (fun c' t' out' => read_value fuel c' sch t' out') c st out

/-- Function `deserialize_response_to_string`, with the bound `fuel` of `read_value`. -/
def deserialize_response_to_string (fuel : Nat) (sch : Schema) (fn : Function)
    (bytes : List Byte) : Option (Except Error Str) :=
  match read_value fuel ⟨bytes, bytes.length, 0⟩ sch fn.return_type [] with
  | none => none
  | some (.error e) => some (.error e)
  | some (.ok (cur, out)) =>
    if cur.i ≠ cur.n then some (.error .DeserError) else some (.ok out)

/-! ## `request_parser.h`, `request_parser.cpp` -/

/-- The function `isspace` of `<cctype>` in the "C" locale. -/
def isspace (c : Char) : Bool :=
  c = ' ' ∨ c = '\t' ∨ c = '\n' ∨ c = '\x0b' ∨ c = '\x0c' ∨ c = '\r'

/-- The function `isdigit` of `<cctype>`. -/
def isdigit (c : Char) : Bool :=
  48 ≤ c.toNat ∧ c.toNat ≤ 57

/-- The function `isalpha` of `<cctype>` in the "C" locale. -/
def isalpha (c : Char) : Bool :=
  (65 ≤ c.toNat ∧ c.toNat ≤ 90) ∨ (97 ≤ c.toNat ∧ c.toNat ≤ 122)

/-- The function `isalnum` of `<cctype>` in the "C" locale. -/
def isalnum (c : Char) : Bool :=
  isalpha c || isdigit c

/-- The class `Lexer`: the part of `src` from the position `i` on. The position only
moves forward and only `src[i]` is read, so the unread part is the whole state. -/
abbrev Lexer := Str

/-- Method `Lexer::eof`. -/
def Lexer.eof (lx : Lexer) : Bool :=
  lx.isEmpty

/-- Method `Lexer::peek`. -/
def Lexer.peek : Lexer → Char
  | [] => '\x00'
  | c :: _ => c

/-- Method `Lexer::get`: the character and the lexer after it. -/
def Lexer.get : Lexer → Char × Lexer
  | [] => ('\x00', [])
  | c :: rest => (c, rest)

/-- Method `Lexer::skip_ws`. -/
def Lexer.skip_ws : Lexer → Lexer
  | [] => []
  | c :: rest => if isspace c then Lexer.skip_ws rest else c :: rest

/-- The loop of `Lexer::ident`. -/
def Lexer.ident_loop : Lexer → Str → Str × Lexer
  | [], out => (out, [])
  | c :: rest, out =>
    if isalnum c ∨ c = '_' then Lexer.ident_loop rest (out ++ [c]) else (out, c :: rest)

/-- Method `Lexer::ident`. -/
def Lexer.ident (lx : Lexer) : Except Error (Str × Lexer) :=
  let lx := lx.skip_ws
  if ¬ (isalpha lx.peek ∨ lx.peek = '_') then .error .ParseError
  else .ok (Lexer.ident_loop lx [])

/-- The loop of `Lexer::string_lit`: it stops in front of the closing quote or at
the end of the input. -/
def Lexer.string_lit_loop : Lexer → Str → Except Error (Str × Lexer)
  | [], out => .ok (out, [])
  | c :: rest, out =>
    if c = '"' then .ok (out, c :: rest)
    else if c = '\\' then
      match rest with
      | [] => .error .ParseError
      | e :: rest' =>
        if e = 'n' then Lexer.string_lit_loop rest' (out ++ ['\n'])
        else if e = 't' then Lexer.string_lit_loop rest' (out ++ ['\t'])
        else if e = '\\' then Lexer.string_lit_loop rest' (out ++ ['\\'])
        else if e = '"' then Lexer.string_lit_loop rest' (out ++ ['"'])
        else .error .ParseError
    else Lexer.string_lit_loop rest (out ++ [c])

/-- Method `Lexer::string_lit`. -/
def Lexer.string_lit (lx : Lexer) : Except Error (Str × Lexer) :=
  let lx := lx.skip_ws
  if lx.peek ≠ '"' then .error .ParseError
  else
    match Lexer.string_lit_loop lx.get.2 [] with
    | .error e => .error e
    | .ok (out, lx') =>
      let lx'' := lx'.get.2
      if lx''.eof then .error .ParseError else .ok (out, lx'')

/-- The loop of `Lexer::integer` over the digits, with the overflow test. -/
def Lexer.integer_loop : Lexer → Nat → Except Error (Nat × Lexer)
  | [], acc => .ok (acc, [])
  | c :: rest, acc =>
    if isdigit c then
      let d := c.toNat - '0'.toNat
      if acc > (UINT64_MAX - d) / 10 then .error .ParseError
      else Lexer.integer_loop rest ((acc * 10 % 2 ^ 64 + d) % 2 ^ 64)
    else .ok (acc, c :: rest)

/-- Method `Lexer::integer`: `Sum.inl` is the `int64_t` alternative of the returned variant
and `Sum.inr` the `uint64_t` alternative. -/
def Lexer.integer (lx : Lexer) : Except Error ((Int ⊕ Nat) × Lexer) :=
  let lx := lx.skip_ws
  let (neg, lx) :=
    if lx.peek = '+' ∨ lx.peek = '-' then (decide (lx.get.1 = '-'), lx.get.2) else (false, lx)
  if ¬ isdigit lx.peek then .error .ParseError
  else
    match Lexer.integer_loop lx 0 with
    | .error e => .error e
    | .ok (acc, lx') =>
      if neg then
        if acc > 9223372036854775807 + 1 then .error .ParseError
        else if acc = 9223372036854775807 + 1 then .ok (.inl INT64_MIN, lx')
        else .ok (.inl (-1 * (acc : Int)), lx')
      else .ok (.inr acc, lx')

/-- Method `Lexer::consume`: the answer and the lexer after the call. -/
def Lexer.consume (c : Char) (lx : Lexer) : Bool × Lexer :=
  let lx := lx.skip_ws
  if lx.peek = c then (true, lx.get.2) else (false, lx)

/-- Method `Lexer::except`. -/
def Lexer.except (c : Char) (lx : Lexer) : Except Error Lexer :=
  match Lexer.consume c lx with
  | (true, lx') => .ok lx'
  | (false, _) => .error .ParseError

/-- The opening of a struct literal in `RequestParser::parse_value`: the optional
name and the brace. -/
def RequestParser.struct_open (c : Char) (lx : Lexer) : Except Error (Str × Lexer) :=
  if c ≠ '{' then
    match Lexer.ident lx with
    | .error e => .error e
    | .ok (maybeName, lx₁) =>
      match Lexer.consume '{' lx₁.skip_ws with
      | (true, lx₂) => .ok (maybeName, lx₂)
      | (false, _) => .error .ParseError
  else .ok ([], lx.get.2)

mutual
/-- Method `RequestParser::parse_value`. The recursion is bounded by `fuel`; `none` means
that the bound was reached. -/
def RequestParser.parse_value : Nat → Lexer → Option (Except Error (Value × Lexer))
  | 0, _ => none
  | fuel + 1, lx =>
    let lx := lx.skip_ws
    let c := lx.peek
    if c = '"' then
      match Lexer.string_lit lx with
      | .error e => some (.error e)
      | .ok (s, lx') => some (.ok (.str s, lx'))
    else if c = '{' ∨ isalpha c ∨ c = '_' then
      match RequestParser.struct_open c lx with
      | .error e => some (.error e)
      | .ok (maybeName, lx₁) =>
        match Lexer.consume '}' lx₁.skip_ws with
        | (true, lx₂) => some (.ok (.struct maybeName [], lx₂))
        | (false, lx₂) =>
          match RequestParser.parse_fields fuel lx₂ [] with
          | none => none
          | some (.error e) => some (.error e)
          | some (.ok (fields, lx₃)) => some (.ok (.struct maybeName fields, lx₃))
    else
      match Lexer.integer lx with
      | .error e => some (.error e)
      | .ok (.inl v, lx') => some (.ok (.int v, lx'))
      | .ok (.inr v, lx') => some (.ok (.uint v, lx'))
/-- The `for (;;)` loop over the fields of a struct literal in
`RequestParser::parse_value`; `fields` is `sv.fields` so far. -/
def RequestParser.parse_fields :
    Nat → Lexer → List (Str × Value) → Option (Except Error (List (Str × Value) × Lexer))
  | 0, _, _ => none
  | fuel + 1, lx, fields =>
    match Lexer.ident lx with
    | .error e => some (.error e)
    | .ok (fname, lx₁) =>
      match Lexer.except '=' lx₁ with
      | .error e => some (.error e)
      | .ok lx₂ =>
        match RequestParser.parse_value fuel lx₂ with
        | none => none
        | some (.error e) => some (.error e)
        | some (.ok (fval, lx₃)) =>
          if (map_find fname fields).isSome then some (.error .ParseError)
          else
            match Lexer.consume '}' lx₃.skip_ws with
            | (true, lx₄) => some (.ok (map_emplace fname fval fields, lx₄))
            | (false, lx₄) =>
              match Lexer.except ',' lx₄ with
              | .error e => some (.error e)
              | .ok lx₅ => RequestParser.parse_fields fuel lx₅.skip_ws (map_emplace fname fval fields)
end

/-- The `for (;;)` loop over the arguments in `RequestParser::parse`; `args` is
`call.args` so far. -/
def RequestParser.parse_args :
    Nat → Lexer → List NamedArg → Option (Except Error (List NamedArg × Lexer))
  | 0, _, _ => none
  | fuel + 1, lx, args =>
    match Lexer.ident lx with
    | .error e => some (.error e)
    | .ok (argname, lx₁) =>
      match Lexer.except '=' lx₁ with
      | .error e => some (.error e)
      | .ok lx₂ =>
        match RequestParser.parse_value fuel lx₂ with
        | none => none
        | some (.error e) => some (.error e)
        | some (.ok (val, lx₃)) =>
          match Lexer.consume ')' lx₃.skip_ws with
          | (true, lx₄) => some (.ok (args ++ [(argname, val)], lx₄))
          | (false, lx₄) =>
            match Lexer.except ',' lx₄ with
            | .error e => some (.error e)
            | .ok lx₅ =>
              RequestParser.parse_args fuel lx₅.skip_ws.skip_ws (args ++ [(argname, val)])

/-- Method `RequestParser::parse` with the recursion bound `fuel`. -/
def RequestParser.parse_bounded (fuel : Nat) (s : Str) : Option (Except Error Call) :=
  match Lexer.ident s with
  | .error e => some (.error e)
  | .ok (func_name, lx₁) =>
    match Lexer.except '(' lx₁ with
    | .error e => some (.error e)
    | .ok lx₂ =>
      let r : Option (Except Error (List NamedArg × Lexer)) :=
        match Lexer.consume ')' lx₂.skip_ws with
        | (true, lx₃) => some (.ok ([], lx₃))
        | (false, lx₃) => RequestParser.parse_args fuel lx₃ []
      match r with
      | none => none
      | some (.error e) => some (.error e)
      | some (.ok (args, lx₄)) =>
        if ¬ lx₄.skip_ws.eof then some (.error .ParseError)
        else some (.ok ⟨func_name, args⟩)

/-- Method `RequestParser::parse`. Every nested call of `parse_value` and every round of a
loop reads at least one character first, so the length of the text bounds the
recursion. -/
def RequestParser.parse (s : Str) : Option (Except Error Call) :=
  RequestParser.parse_bounded (s.length + 1) s

/-! ## `schema_parser.cpp` -/

/-- The terminals of `SCHEMA_PARSER`, in the order of its `terms(...)` list. -/
inductive Token
  | t_fn
  | t_struct
  | t_arrow
  | t_lbrace
  | t_rbrace
  | t_sc
  | t_i32
  | t_i64
  | t_u64
  | t_u32
  | t_str
  | t_ident (id : Str)
  deriving DecidableEq, Repr

/-- The terminal of a maximal run of identifier characters: a keyword when the run
is exactly that keyword (the string terms precede `t_ident` in `terms(...)`), the
identifier otherwise. -/
def Token.of_word (w : Str) : Token :=
  if w = "fn".toList then .t_fn
  else if w = "struct".toList then .t_struct
  else if w = "int32".toList then .t_i32
  else if w = "int64".toList then .t_i64
  else if w = "uint64".toList then .t_u64
  else if w = "uint32".toList then .t_u32
  else if w = "string".toList then .t_str
  else .t_ident w

/-- Modelled from the spec: the lexer of the parser that the third-party library ctpg
generates for `SCHEMA_PARSER` is not part of the repository. Tokens are the longest
match of the terms declared in `schema_parser.cpp` (`ident_pat` is
`[_A-Za-z][_A-Za-z0-9]*`), white space between tokens is skipped, and a character
that starts no term ends the parse. `word` holds the identifier characters read
since the last token; `none` is a lexical error. -/
def tokenize : Str → Str → Option (List Token)
  | [], word => some (if word = [] then [] else [Token.of_word word])
  | c :: rest, word =>
    if isalnum c ∨ c = '_' then
      if word = [] ∧ isdigit c then none else tokenize rest (word ++ [c])
    else
      let flush : List Token := if word = [] then [] else [Token.of_word word]
      if isspace c then (tokenize rest []).map (flush ++ ·)
      else if c = '{' then (tokenize rest []).map (flush ++ .t_lbrace :: ·)
      else if c = '}' then (tokenize rest []).map (flush ++ .t_rbrace :: ·)
      else if c = ';' then (tokenize rest []).map (flush ++ .t_sc :: ·)
      else if c = '-' then
        match rest with
        | '>' :: rest' => (tokenize rest' []).map (flush ++ .t_arrow :: ·)
        | _ => none
      else none

/-- Function `ensure_unique` (both overloads): the scan with the set `s` of names seen. -/
def ensure_unique_loop : List Field → List Str → Except Error Unit
  | [], _ => .ok ()
  | f :: rest, s => if f.name ∈ s then .error .SchemaError else ensure_unique_loop rest (f.name :: s)

/-- Function `ensure_unique`. -/
def ensure_unique (v : List Field) : Except Error Unit :=
  ensure_unique_loop v []

/-- Function `merge_items`. -/
def merge_items (a b : Schema) : Except Error Schema :=
  let structs : Except Error (List (Str × Struct)) :=
    a.structs.foldl (fun acc s =>
      match acc with
      | .error e => .error e
      | .ok m => if (map_find s.1 m).isSome then .error .SchemaError else .ok (map_emplace s.1 s.2 m))
      (.ok b.structs)
  match structs with
  | .error e => .error e
  | .ok ss =>
    let functions : Except Error (List (Str × Function)) :=
      a.functions.foldl (fun acc f =>
        match acc with
        | .error e => .error e
        | .ok m => if (map_find f.1 m).isSome then .error .SchemaError else .ok (map_emplace f.1 f.2 m))
        (.ok b.functions)
    match functions with
    | .error e => .error e
    | .ok fs => .ok ⟨ss, fs⟩

/-- Function `empty_items`. -/
def empty_items : Schema := ⟨[], []⟩

/-- Function `item_from_struct`. -/
def item_from_struct (s : Struct) : Schema := ⟨map_emplace s.name s [], []⟩

/-- Function `item_from_fn`. -/
def item_from_fn (f : Function) : Schema := ⟨[], map_emplace f.name f []⟩

/-- Function `make_struct`. -/
def make_struct (id : Str) (fs : List Field) : Except Error Struct :=
  match ensure_unique fs with
  | .error e => .error e
  | .ok _ => .ok ⟨id, fs⟩

/-- Function `append_field` and `append_arg`. -/
def append_field (rest : List Field) (f : Field) : Except Error (List Field) :=
  match ensure_unique (rest ++ [f]) with
  | .error e => .error e
  | .ok _ => .ok (rest ++ [f])

/-- Function `make_field` and `make_arg`. -/
def make_field (t : Ty) (id : Str) : Field := ⟨id, t⟩

/-- Function `make_function`. -/
def make_function (id : Str) (ret : Ty) (args : List Arg) : Except Error Function :=
  match ensure_unique args with
  | .error e => .error e
  | .ok _ => .ok ⟨id, ret, args⟩

/-- The rules of `N_TYPE`: `type_int32`, ..., `type_string`, `type_user`. -/
def type_of_token : Token → Option Ty
  | .t_i32 => some (.builtin_of .Int32)
  | .t_i64 => some (.builtin_of .Int64)
  | .t_u32 => some (.builtin_of .Uint32)
  | .t_u64 => some (.builtin_of .Uint64)
  | .t_str => some (.builtin_of .String)
  | .t_ident id => some (.user_of id)
  | _ => none

/-- Modelled from the spec: the LR driver generated by ctpg is not part of the
repository; the rules of `N_SFIELDS` / `N_SFIELD` (and of `N_FARGS` / `N_FARG`, which
have the same shape) are followed up to and including the closing brace, calling
the semantic actions `make_field` and `append_field` of the source. A token that
fits no rule is the failed parse, reported as `SchemaError` by `parse_schema_text`. -/
def parse_members : List Token → List Field → Except Error (List Field × List Token)
  | .t_rbrace :: rest, acc => .ok (acc, rest)
  | ty :: .t_ident id :: .t_sc :: rest, acc =>
    match type_of_token ty with
    | none => .error .SchemaError
    | some t =>
      match append_field acc (make_field t id) with
      | .error e => .error e
      | .ok acc' => parse_members rest acc'
  | _, _ => .error .SchemaError

/-- Modelled from the spec: the LR driver generated by ctpg is not part of the
repository; the rules of `N_ITEMS`, `N_ITEM`, `N_STRUCT` and `N_FN` are followed,
calling the semantic actions `make_struct`, `make_function`, `item_from_struct`,
`item_from_fn`, `merge_items` and `empty_items` of the source. `fuel` bounds the
number of items; `none` means that the bound was reached. -/
def parse_items : Nat → List Token → Option (Except Error Schema)
  | _, [] => some (.ok empty_items)
  | 0, _ :: _ => none
  | fuel + 1, .t_struct :: .t_ident id :: .t_lbrace :: rest =>
    match parse_members rest [] with
    | .error e => some (.error e)
    | .ok (fs, rest') =>
      match make_struct id fs with
      | .error e => some (.error e)
      | .ok st =>
        match parse_items fuel rest' with
        | none => none
        | some (.error e) => some (.error e)
        | some (.ok items) => some (merge_items (item_from_struct st) items)
  | fuel + 1, .t_fn :: .t_ident id :: .t_arrow :: ty :: .t_lbrace :: rest =>
    match type_of_token ty with
    | none => some (.error .SchemaError)
    | some ret =>
      match parse_members rest [] with
      | .error e => some (.error e)
      | .ok (args, rest') =>
        match make_function id ret args with
        | .error e => some (.error e)
        | .ok fn =>
          match parse_items fuel rest' with
          | none => none
          | some (.error e) => some (.error e)
          | some (.ok items) => some (merge_items (item_from_fn fn) items)
  | _ + 1, _ => some (.error .SchemaError)

/-- Function `check_user_type`. -/
def check_user_type (out : Schema) (t : Ty) : Except Error Unit :=
  match t with
  | .builtin_of _ => .ok ()
  | .user_of user => if (out.find_struct user).isNone then .error .SchemaError else .ok ()

/-- The checks of `parse_schema_text` on the fields of one struct. -/
def check_fields (out : Schema) (s : Struct) : List Field → Except Error Unit
  | [] => .ok ()
  | f :: rest =>
    match check_user_type out f.type with
    | .error e => .error e
    | .ok _ =>
      if f.type = .user_of s.name then .error .SchemaError else check_fields out s rest

/-- The first loop of `parse_schema_text`, over `out.structs`. -/
def check_structs (out : Schema) : List (Str × Struct) → Except Error Unit
  | [] => .ok ()
  | (_, s) :: rest =>
    match check_fields out s s.fields with
    | .error e => .error e
    | .ok _ => check_structs out rest

/-- The checks of `parse_schema_text` on the arguments of one function. -/
def check_args (out : Schema) : List Arg → Except Error Unit
  | [] => .ok ()
  | a :: rest =>
    match check_user_type out a.type with
    | .error e => .error e
    | .ok _ => check_args out rest

/-- The second loop of `parse_schema_text`, over `out.functions`. -/
def check_functions (out : Schema) : List (Str × Function) → Except Error Unit
  | [] => .ok ()
  | (_, f) :: rest =>
    match check_user_type out f.return_type with
    | .error e => .error e
    | .ok _ =>
      match check_args out f.args with
      | .error e => .error e
      | .ok _ => check_functions out rest

/-- Function `parse_schema_text`. A failed parse (`SCHEMA_PARSER.parse` returning no value)
is the `SchemaError` thrown at the end of the function. Every item has at least one
token, so the number of tokens bounds the number of items. -/
def parse_schema_text (text : Str) : Option (Except Error Schema) :=
  match tokenize text [] with
  | none => some (.error .SchemaError)
  | some toks =>
    match parse_items (toks.length + 1) toks with
    | none => none
    | some (.error e) => some (.error e)
    | some (.ok out) =>
      match check_structs out out.structs with
      | .error e => some (.error e)
      | .ok _ =>
        match check_functions out out.functions with
        | .error e => some (.error e)
        | .ok _ => some (.ok out)

/-! ## `autocomplete.h`, `autocomplete.cpp` -/

/-- Method `Type::str` of `my_types.cpp`. -/
def Ty.str : Ty → Str
  | .builtin_of .Int32 => "int32".toList
  | .builtin_of .Int64 => "int64".toList
  | .builtin_of .Uint32 => "uint32".toList
  | .builtin_of .Uint64 => "uint64".toList
  | .builtin_of .String => "string".toList
  | .user_of user => user

/-- The enum `ParseStruct`. -/
inductive ParseStruct
  | Finished
  | Incomplete
  deriving DecidableEq, Repr

/-- The two ways in which the engine leaves defined behaviour: it takes the value of
an empty `std::optional` (`*get_arg(...)` when no name matches), or it follows a
null pointer (`st->fields`, `fn->args` when the lookup finds nothing). -/
inductive Undefined
  | empty_optional
  | null_pointer
  deriving DecidableEq, Repr

/-- The struct `TextView`: the part of `sv` from the position `it` on. The position only
moves forward, and the text between two positions is the text passed over, so the
unread part is the whole state. -/
abbrev TextView := Str

/-- Function `skip_spaces`. -/
def skip_spaces : TextView → TextView
  | [] => []
  | c :: rest => if isspace c then skip_spaces rest else c :: rest

/-- Function `collect_until_any`: the text passed over and the view after it. -/
def collect_until_any (txt : TextView) (stops : Str) : Str × TextView :=
  (txt.takeWhile (fun c => !stops.contains c), txt.dropWhile (fun c => !stops.contains c))

/-- The test `f.rfind(token, 0) == 0`: the string `f` starts with `token`. -/
def starts_with (f token : Str) : Bool :=
  token.isPrefixOf f

/-- Function `get_func`: the name found, the view after the token and `out` after the call.
The loop `while (!txt.eof() && txt.peek() != '(')` passes over the token. -/
def get_func (txt : TextView) (funcs : List Str) (out : Str) : Option Str × TextView × Str :=
  let txt := skip_spaces txt
  let token := txt.takeWhile (fun c => c != '(')
  let txt := txt.dropWhile (fun c => c != '(')
  match funcs.find? (fun f => starts_with f token) with
  | some f => (some f, txt, out ++ f.drop token.length)
  | none => (none, txt, out)

/-- The order of `std::string`: lexicographic, characters compared by their codes. -/
def str_lt : Str → Str → Bool
  | [], [] => false
  | [], _ :: _ => true
  | _ :: _, [] => false
  | a :: as, b :: bs => decide (a.toNat < b.toNat) || (decide (a = b) && str_lt as bs)

/-- Method `std::set<std::string>::insert`, the set being the list of its elements in
increasing order. -/
def set_insert (x : Str) : List Str → List Str
  | [] => [x]
  | y :: ys =>
    if x = y then y :: ys
    else if str_lt x y then x :: y :: ys
    else y :: set_insert x ys

/-- Function `get_arg`: the name found, the set `args` without it, the view after the token
and `out` after the call. -/
def get_arg (txt : TextView) (args : List Str) (out : Str) :
    Option Str × List Str × TextView × Str :=
  let txt := skip_spaces txt
  let token := txt.takeWhile (fun c => c != '=')
  let txt := txt.dropWhile (fun c => c != '=')
  match args.find? (fun a => starts_with a token) with
  | some a => (some a, args.erase a, txt, out ++ a.drop token.length)
  | none => (none, args, txt, out)

/-- Function `append_if_missing`: the answer, the view and `out` after the call. -/
def append_if_missing : TextView → Char → Str → Bool × TextView × Str
  | [], ch, out => (false, [], out ++ [ch])
  | c :: rest, ch, out => if c = ch then (true, rest, out) else (false, c :: rest, out ++ [ch])

/-- The assignment `mapping[k] = v` of a `std::map<std::string, std::string>`, kept as the
list of its entries: the value under `k` is replaced, or the entry is added. -/
def map_assign (k v : Str) : List (Str × Str) → List (Str × Str)
  | [] => [(k, v)]
  | (k', v') :: rest => if k' = k then (k, v) :: rest else (k', v') :: map_assign k v rest

/-- The read `mapping[k]`: the empty string when there is no entry under `k`. -/
def map_at (k : Str) (m : List (Str × Str)) : Str :=
  (map_find k m).getD []

/-- The set `remaining` that `fill_structure` and `parse_function` build from the
declared members. -/
def remaining_of (ms : List Field) : List Str :=
  ms.foldl (fun s f => set_insert f.name s) []

/-- The map `mapping` that `fill_structure` and `parse_function` build from the
declared members. -/
def mapping_of (ms : List Field) : List (Str × Str) :=
  ms.foldl (fun m f => map_assign f.name f.type.str m) []

/-- The string arm of `fill_primitive`. -/
def fill_string (txt : TextView) (out : Str) : ParseStruct × TextView × Str :=
  match append_if_missing txt '"' out with
  | (true, txt₁, out₁) =>
    match (collect_until_any txt₁ "\"".toList).2 with
    | [] => (.Incomplete, [], out₁)
    | _ :: txt₂ => (.Finished, txt₂, out₁)
  | (false, txt₁, out₁) => (.Incomplete, txt₁, out₁)

/-- The integer arm of `fill_primitive`. -/
def fill_integer (txt : TextView) (out : Str) : ParseStruct × TextView × Str :=
  let r := collect_until_any txt "\x7d),".toList
  (if r.2 ≠ [] ∧ r.1 ≠ [] then .Finished else .Incomplete, r.2, out)

/-- The opening of `fill_structure`: the text up to `{` is passed over and, when the
name of the type starts with it, the rest of the name is appended; then `{` is
passed or appended. -/
def fill_open (type : Str) (txt : TextView) (out : Str) : TextView × Str :=
  match txt with
  | [] => ((append_if_missing [] '\x7b' out).2.1, (append_if_missing [] '\x7b' out).2.2)
  | c :: rest =>
    if c ≠ '\x7b' then
      let r := collect_until_any (c :: rest) "\x7b".toList
      let out₁ := if starts_with type r.1 then out ++ type.drop r.1.length else out
      ((append_if_missing r.2 '\x7b' out₁).2.1, (append_if_missing r.2 '\x7b' out₁).2.2)
    else (rest, out)

mutual
/-- Function `fill_primitive`. The recursion through `fill_structure` follows the schema
and need not end, so it is bounded by `fuel`, the number of nested calls and loop
rounds allowed; `none` means that the bound was reached. The result is the
returned `ParseStruct`, the view and `out` after the call. -/
def fill_primitive : Nat → Schema → Str → TextView → Str →
    Option (Except Undefined (ParseStruct × TextView × Str))
  | 0, _, _, _, _ => none
  | fuel + 1, sch, type, txt, out =>
    if type = "string".toList then some (.ok (fill_string txt out))
    else if type ∈ ["int32".toList, "uint32".toList, "int64".toList, "uint64".toList] then
      some (.ok (fill_integer txt out))
    else fill_structure fuel sch out type txt
/-- Function `fill_structure`. -/
def fill_structure : Nat → Schema → Str → Str → TextView →
    Option (Except Undefined (ParseStruct × TextView × Str))
  | 0, _, _, _, _ => none
  | fuel + 1, sch, out, type, txt =>
    match sch.find_struct type with
    | none => some (.error .null_pointer)
    | some st =>
      if st.fields = [] then
        let r := append_if_missing (fill_open type txt out).1 '\x7d' (fill_open type txt out).2
        some (.ok (.Finished, r.2.1, r.2.2))
      else
        fill_fields fuel sch (remaining_of st.fields) (mapping_of st.fields)
          (fill_open type txt out).1 (fill_open type txt out).2
/-- The loop `while (!remaining.empty())` of `fill_structure`, up to the return of the
function. -/
def fill_fields : Nat → Schema → List Str → List (Str × Str) → TextView → Str →
    Option (Except Undefined (ParseStruct × TextView × Str))
  | 0, _, _, _, _, _ => none
  | fuel + 1, sch, remaining, mapping, txt, out =>
    if remaining = [] then some (.ok (.Incomplete, txt, out))
    else
      match get_arg txt remaining out with
      | (none, _, _, _) => some (.error .empty_optional)
      | (some chosen, remaining₁, txt₁, out₁) =>
        let r := append_if_missing txt₁ '=' out₁
        match fill_primitive fuel sch (map_at chosen mapping) r.2.1 r.2.2 with
        | none => none
        | some (.error e) => some (.error e)
        | some (.ok (stt, txt₂, out₂)) =>
          if stt = .Finished then
            if remaining₁ = [] then
              let r₁ := append_if_missing txt₂ '\x7d' out₂
              some (.ok (.Finished, r₁.2.1, r₁.2.2))
            else
              let r₁ := append_if_missing txt₂ ',' out₂
              let r₂ := append_if_missing r₁.2.1 ' ' r₁.2.2
              fill_fields fuel sch remaining₁ mapping r₂.2.1 r₂.2.2
          else if txt₂ = [] then some (.ok (.Incomplete, txt₂, out₂))
          else fill_fields fuel sch remaining₁ mapping txt₂ out₂
end

/-- The loop `while (!remaining.empty())` of `parse_function`, up to the return of the
function: the view and `out` after it. -/
def parse_function_loop : Nat → Schema → List Str → List (Str × Str) → TextView → Str →
    Option (Except Undefined (TextView × Str))
  | 0, _, _, _, _, _ => none
  | fuel + 1, sch, remaining, mapping, txt, out =>
    if remaining = [] then some (.ok (txt, out))
    else
      match get_arg txt remaining out with
      | (none, _, _, _) => some (.error .empty_optional)
      | (some chosen, remaining₁, txt₁, out₁) =>
        let r := append_if_missing txt₁ '=' out₁
        match fill_primitive fuel sch (map_at chosen mapping) r.2.1 r.2.2 with
        | none => none
        | some (.error e) => some (.error e)
        | some (.ok (stt, txt₂, out₂)) =>
          if stt = .Finished then
            if remaining₁ = [] then
              let r₁ := append_if_missing txt₂ ')' out₂
              some (.ok (r₁.2.1, r₁.2.2))
            else
              let r₁ := append_if_missing txt₂ ',' out₂
              let r₂ := append_if_missing r₁.2.1 ' ' r₁.2.2
              parse_function_loop fuel sch remaining₁ mapping r₂.2.1 r₂.2.2
          else if txt₂ = [] then some (.ok (txt₂, out₂))
          else parse_function_loop fuel sch remaining₁ mapping txt₂ out₂

/-- Function `parse_function`: the view and `out` after the call. -/
def parse_function (fuel : Nat) (sch : Schema) (out : Str) (fnName : Str) (txt : TextView) :
    Option (Except Undefined (TextView × Str)) :=
  let r := append_if_missing txt '(' out
  match sch.find_function fnName with
  | none => some (.error .null_pointer)
  | some fn =>
    if fn.args = [] then
      let r₁ := append_if_missing r.2.1 ')' r.2.2
      some (.ok (r₁.2.1, r₁.2.2))
    else parse_function_loop fuel sch (remaining_of fn.args) (mapping_of fn.args) r.2.1 r.2.2

/-- Function `autocomplete`, with the bound `fuel` of `fill_primitive`. The vector `funcs` holds
the keys of `sch.functions` in the iteration order of the map. -/
def autocomplete (fuel : Nat) (input : Str) (sch : Schema) : Option (Except Undefined Str) :=
  match get_func input (sch.functions.map Prod.fst) [] with
  | (none, _, _) => some (.ok input)
  | (some fnName, txt, suffix) =>
    match parse_function fuel sch suffix fnName txt with
    | none => none
    | some (.error e) => some (.error e)
    | some (.ok (_, suffix₁)) => some (.ok (input ++ suffix₁))

/-! ## Predicates used in the statements -/

/-- The integer that an integer alternative of `Value` carries. -/
def Value.int_value : Value → Option Int
  | .int n => some n
  | .uint n => some (n : Int)
  | _ => none

mutual
/-- The payloads fit their machine types: `Int` is `int64_t`, `UInt` is `uint64_t`,
at every nesting depth. -/
def Value.in_range : Value → Bool
  | .str _ => true
  | .int n => decide (INT64_MIN ≤ n ∧ n ≤ INT64_MAX)
  | .uint n => decide (n ≤ UINT64_MAX)
  | .struct _ fields => fields_in_range fields
/-- The values of a field map fit their machine types. -/
def fields_in_range : List (Str × Value) → Bool
  | [] => true
  | (_, v) :: rest => v.in_range && fields_in_range rest
end

mutual
/-- Every string inside the value has fewer than `2^32` bytes. -/
def Value.short_strings : Value → Bool
  | .str s => decide (s.length < 2 ^ 32)
  | .int _ => true
  | .uint _ => true
  | .struct _ fields => fields_short_strings fields
/-- Every string inside the values of a field map has fewer than `2^32` bytes. -/
def fields_short_strings : List (Str × Value) → Bool
  | [] => true
  | (_, v) :: rest => v.short_strings && fields_short_strings rest
end

mutual
/-- The nesting depth of struct values inside a value. -/
def Value.depth : Value → Nat
  | .str _ => 0
  | .int _ => 0
  | .uint _ => 0
  | .struct _ fields => fields_depth fields + 1
/-- The largest nesting depth among the values of a field map. -/
def fields_depth : List (Str × Value) → Nat
  | [] => 0
  | (_, v) :: rest => max v.depth (fields_depth rest)
end

/-- All the texts of a list, if none is missing. -/
def all_some {α : Type} : List (Option α) → Option (List α)
  | [] => some []
  | none :: _ => none
  | some a :: rest =>
    match all_some rest with
    | none => none
    | some as => some (a :: as)

mutual
/-- The canonical text of a value at a type of the schema: an integer in decimal, a
string as its bytes between double quotes, a struct as `Name{f1=v1, f2=v2}` over the
declared fields in declared order, each value being the one stored under the
field's name. There is no such text (`none`) when the value does not fit the type. -/
def canonical_text (sch : Schema) : Value → Ty → Option Str
  | .str s, .builtin_of _ => some ("\"".toList ++ s ++ "\"".toList)
  | .int n, .builtin_of _ => some (to_string n)
  | .uint n, .builtin_of _ => some (to_string (n : Int))
  | .struct _ fields, .user_of user =>
    match sch.find_struct user with
    | none => none
    | some st =>
      match all_some (st.fields.map (fun f =>
          (canonical_field sch fields f.name f.type).map (fun txt => f.name ++ "=".toList ++ txt))) with
      | none => none
      | some parts => some (st.name ++ "\x7b".toList ++ ", ".toList.intercalate parts ++ "\x7d".toList)
  | _, _ => none
/-- The canonical text of the value stored under `name` in a field map. -/
def canonical_field (sch : Schema) : List (Str × Value) → Str → Ty → Option Str
  | [], _, _ => none
  | (k, v) :: rest, name, type =>
    if k = name then canonical_text sch v type else canonical_field sch rest name type
end

/-- The cursor stands in front of the bytes `e`, after `pre`, in a buffer that goes on
with `post`. -/
def Cursor.before (c : Cursor) (pre e post : List Byte) : Prop :=
  c.p = pre ++ e ++ post ∧ c.n = c.p.length ∧ c.i = pre.length

/-- The cursor moved forward by `k` bytes. -/
def Cursor.skip (c : Cursor) (k : Nat) : Cursor :=
  { c with i := c.i + k }

/-- The outcome of a serializing step started on `out`, from its outcome on the
empty buffer. -/
def onto (out : List Byte) : Except Error (List Byte) → Except Error (List Byte)
  | .ok e => .ok (out ++ e)
  | .error e => .error e

/-- The number that a string of decimal digits denotes. -/
def digits_value (ds : Str) : Nat :=
  ds.foldl (fun a c => 10 * a + (c.toNat - 48)) 0

/-- The text does not go on with a digit. -/
def no_digit_ahead (rest : Str) : Prop :=
  ∀ c t, rest = c :: t → isdigit c = false

/-- One element of the body of a string literal: a character written as itself, or a
backslash followed by the character `e`. -/
inductive StrItem
  | plain (c : Char)
  | esc (e : Char)
  deriving DecidableEq, Repr

/-- The element is allowed in a body: a plain character is neither the double quote
nor the backslash, and an escape is one of `\n`, `\t`, `\\`, `\"`. -/
def StrItem.valid : StrItem → Prop
  | .plain c => c ≠ '"' ∧ c ≠ '\\'
  | .esc e => e = 'n' ∨ e = 't' ∨ e = '\\' ∨ e = '"'

/-- The characters of the element in the text. -/
def StrItem.raw : StrItem → Str
  | .plain c => [c]
  | .esc e => ['\\', e]

/-- The character that the element stands for. -/
def StrItem.decoded : StrItem → Char
  | .plain c => c
  | .esc e => if e = 'n' then '\n' else if e = 't' then '\t' else e

/-- The text of a body. -/
def raw_body (items : List StrItem) : Str :=
  (items.map StrItem.raw).flatten

/-- The string that a body stands for. -/
def decoded_body (items : List StrItem) : Str :=
  items.map StrItem.decoded

/-- Every character of the text is white space. -/
def all_space (ws : Str) : Prop :=
  ∀ c ∈ ws, isspace c = true

instance all_space_decidable (ws : Str) : Decidable (all_space ws) := by
  unfold all_space
  infer_instance

/-- The cursor over the buffer extended by `extra`, at the same position. -/
def Cursor.widen (extra : List Byte) (c : Cursor) : Cursor :=
  ⟨c.p ++ extra, c.n + extra.length, c.i⟩

/-- The unsigned number that the bytes `bs` spell, most significant byte first. -/
def be_unsigned (bs : List Byte) : Nat :=
  bs.foldl (fun v b => 256 * v + b) 0

/-- The two's complement number that the bytes `bs` spell, most significant byte first. -/
def be_signed (bs : List Byte) : Int :=
  if be_unsigned bs < 2 ^ (8 * bs.length - 1) then (be_unsigned bs : Int)
  else (be_unsigned bs : Int) - 2 ^ (8 * bs.length)

/-- The text that the specification gives to a value of the builtin type `b` encoded
at the head of `bs`, with the bytes after the encoding: the decimal of the signed or
unsigned number, or the bytes of a string between double quotes. There is none when
`bs` ends before the encoding does. -/
def rendered_builtin (b : Builtin) (bs : List Byte) : Option (Str × List Byte) :=
  match b with
  | .Int32 =>
    if bs.length < 4 then none else some (to_string (be_signed (bs.take 4)), bs.drop 4)
  | .Int64 =>
    if bs.length < 8 then none else some (to_string (be_signed (bs.take 8)), bs.drop 8)
  | .Uint32 =>
    if bs.length < 4 then none else some (to_string (be_unsigned (bs.take 4) : Int), bs.drop 4)
  | .Uint64 =>
    if bs.length < 8 then none else some (to_string (be_unsigned (bs.take 8) : Int), bs.drop 8)
  | .String =>
    if bs.length < 4 then none
    else if (bs.drop 4).length < be_unsigned (bs.take 4) then none
    else some ("\"".toList ++ ((bs.drop 4).take (be_unsigned (bs.take 4))).map Char.ofNat
      ++ "\"".toList, (bs.drop 4).drop (be_unsigned (bs.take 4)))

/-- The texts `f=v` of the declared fields, in declared order, each value rendered by
`rv` from the bytes that follow the previous one. -/
def rendered_fields (rv : Ty → List Byte → Option (Str × List Byte)) :
    List Field → List Byte → Option (List Str × List Byte)
  | [], bs => some ([], bs)
  | f :: rest, bs =>
    match rv f.type bs with
    | none => none
    | some (txt, bs') =>
      match rendered_fields rv rest bs' with
      | none => none
      | some (parts, bs'') => some ((f.name ++ "=".toList ++ txt) :: parts, bs'')

/-- The text that the specification gives to a value of type `t` encoded at the head
of `bs`, with the bytes after the encoding: a builtin as `rendered_builtin` has it, a
struct as `Name{f1=v1, f2=v2}`. The nesting of structs is bounded by `fuel`. -/
def rendered : Nat → Schema → Ty → List Byte → Option (Str × List Byte)
  | 0, _, _, _ => none
  | fuel + 1, sch, t, bs =>
    match t with
    | .builtin_of b => rendered_builtin b bs
    | .user_of user =>
      match sch.find_struct user with
      | none => none
      | some st =>
        match rendered_fields (fun t' bs' => rendered fuel sch t' bs') st.fields bs with
        | none => none
        | some (parts, rest) =>
          some (st.name ++ "\x7b".toList ++ ", ".toList.intercalate parts ++ "\x7d".toList, rest)

/-! ### Call texts as they are written -/

instance StrItem.valid_decidable (i : StrItem) : Decidable i.valid := by
  cases i <;> (unfold StrItem.valid; infer_instance)

/-- The name is one that `Lexer::ident` reads: a letter or an underscore, then letters,
digits and underscores. -/
def valid_ident : Str → Bool
  | [] => false
  | c :: cs => (isalpha c || decide (c = '_')) && cs.all (fun d => isalnum d || decide (d = '_'))

/-- The text goes on with a character that is not part of a name or of a number. -/
def stops : Str → Bool
  | [] => false
  | c :: _ => !(isalnum c) && !(decide (c = '_'))

/-- The name of one entry `name = value` of a struct literal or of an argument list
and the white space of the entry: before the name, between the name and `=`, and
after the value. The white space before the value belongs to the value. -/
structure Slot where
  ws_name : Str
  name : Str
  ws_eq : Str
  ws_end : Str

mutual
/-- A value literal as it is written, token by token, with the white space in
front of each token: a string literal with the elements of its body; an integer
literal with its sign (empty, `+` or `-`), the characters `gap` between the sign and
the digits, and its digits; a struct literal with its optional name `hint` and
its entries. -/
inductive Lit
  | str (ws : Str) (items : List StrItem)
  | int (ws : Str) (sign : Str) (gap : Str) (digits : Str)
  | struct (ws : Str) (hint : Str) (ws_hint : Str) (ws_open : Str) (entries : Entries)
/-- The entries `name = value` between the brackets of a struct literal or of a call,
in the order in which they are written. -/
inductive Entries
  | nil
  | cons (s : Slot) (v : Lit) (rest : Entries)
end

/-- A call as it is written: the function name, the arguments, and the white space
before the name, before `(`, after `(` and after `)`. -/
structure CallText where
  ws_name : Str
  name : Str
  ws_paren : Str
  ws_open : Str
  entries : Entries
  ws_end : Str

/-- No entry is written. -/
def Entries.isEmpty : Entries → Bool
  | .nil => true
  | .cons _ _ _ => false

mutual
/-- The characters of a value literal. -/
def Lit.text : Lit → Str
  | .str ws items => ws ++ '"' :: (raw_body items ++ ['"'])
  | .int ws sign gap digits => ws ++ (sign ++ (gap ++ digits))
  | .struct ws hint ws_hint ws_open entries =>
    ws ++ (hint ++ (ws_hint ++ '\x7b' :: (ws_open ++ entries.text '\x7d')))
/-- The characters of the entries, separated by commas, and of the closing bracket
`close`. -/
def Entries.text (close : Char) : Entries → Str
  | .nil => [close]
  | .cons s v rest =>
    s.ws_name ++ (s.name ++ (s.ws_eq ++ '=' :: (v.text ++ (s.ws_end ++
      (if rest.isEmpty then rest.text close else ',' :: rest.text close)))))
end

/-- The characters of a call. -/
def CallText.text (c : CallText) : Str :=
  c.ws_name ++ (c.name ++ (c.ws_paren ++ '(' :: (c.ws_open ++ (c.entries.text ')' ++ c.ws_end))))

/-- The white space and the name of an entry are in order. -/
def Slot.wf (s : Slot) : Bool :=
  decide (all_space s.ws_name) && valid_ident s.name && decide (all_space s.ws_eq)
    && decide (all_space s.ws_end)

mutual
/-- The parts of a value literal are what they are said to be: white space is white
space, names are names, the elements of a string body are allowed, the sign is
empty, `+` or `-`, the digits are digits and there is one at least; `gap` is white
space after a sign and empty without a sign. -/
def Lit.wf : Lit → Bool
  | .str ws items => decide (all_space ws) && items.all (fun i => decide i.valid)
  | .int ws sign gap digits =>
    decide (all_space ws) && decide (sign = [] ∨ sign = ['+'] ∨ sign = ['-'])
      && decide (all_space gap) && decide (sign = [] → gap = [])
      && !digits.isEmpty && digits.all isdigit
  | .struct ws hint ws_hint ws_open entries =>
    decide (all_space ws)
      && (if hint = [] then decide (ws_hint = []) else valid_ident hint && decide (all_space ws_hint))
      && decide (all_space ws_open) && entries.wf
/-- The parts of every entry are what they are said to be. -/
def Entries.wf : Entries → Bool
  | .nil => true
  | .cons s v rest => s.wf && v.wf && rest.wf
end

/-- The parts of a call are what they are said to be. -/
def CallText.wf (c : CallText) : Bool :=
  decide (all_space c.ws_name) && valid_ident c.name && decide (all_space c.ws_paren)
    && decide (all_space c.ws_open) && c.entries.wf && decide (all_space c.ws_end)

/-- The value of an integer literal, if it has one: there is none when characters
stand between the sign and the digits, nor when the number is out of range. -/
def int_value (sign gap digits : Str) : Option Value :=
  if gap ≠ [] then none
  else if sign = ['-'] then
    (if digits_value digits ≤ 2 ^ 63 then some (.int (-(digits_value digits : Int))) else none)
  else
    (if digits_value digits ≤ 2 ^ 64 - 1 then some (.uint (digits_value digits)) else none)

mutual
/-- The value that a literal denotes, if it has one. A struct literal has none when
one of its entries has none or when a name is written twice. -/
def Lit.value : Lit → Option Value
  | .str _ items => some (.str (decoded_body items))
  | .int _ sign gap digits => int_value sign gap digits
  | .struct _ hint _ _ entries =>
    match entries.fields [] with
    | none => none
    | some fs => some (.struct hint fs)
/-- The field map of the entries of a struct literal added to `acc`. -/
def Entries.fields : Entries → List (Str × Value) → Option (List (Str × Value))
  | .nil, acc => some acc
  | .cons s v rest, acc =>
    match v.value with
    | none => none
    | some x =>
      if (map_find s.name acc).isSome then none
      else rest.fields (map_emplace s.name x acc)
end

/-- The named arguments of the entries of a call, after `acc`. -/
def Entries.args : Entries → List NamedArg → Option (List NamedArg)
  | .nil, acc => some acc
  | .cons s v rest, acc =>
    match v.value with
    | none => none
    | some x => rest.args (acc ++ [(s.name, x)])

/-- The call that a call text denotes, if it has one. -/
def CallText.call (c : CallText) : Option Call :=
  match c.entries.args [] with
  | none => none
  | some args => some ⟨c.name, args⟩

/-- The names of the entries, in the order in which they are written. -/
def Entries.names : Entries → List Str
  | .nil => []
  | .cons s _ rest => s.name :: rest.names

mutual
/-- A struct literal in which a name is written twice stands in the literal, at any
depth. -/
def Lit.has_dup : Lit → Bool
  | .str _ _ => false
  | .int _ _ _ _ => false
  | .struct _ _ _ _ entries => !(decide entries.names.Nodup) || entries.has_dup
/-- A struct literal in which a name is written twice stands in one of the values. -/
def Entries.has_dup : Entries → Bool
  | .nil => false
  | .cons _ v rest => v.has_dup || rest.has_dup
end

mutual
/-- An integer literal with white space between its sign and its digits stands in the
literal, at any depth. -/
def Lit.has_gap : Lit → Bool
  | .str _ _ => false
  | .int _ _ gap _ => !gap.isEmpty
  | .struct _ _ _ _ entries => entries.has_gap
/-- An integer literal with white space between its sign and its digits stands in one
of the values. -/
def Entries.has_gap : Entries → Bool
  | .nil => false
  | .cons _ v rest => v.has_gap || rest.has_gap
end

/-- The entry without its white space. -/
def Slot.strip (s : Slot) : Slot :=
  ⟨[], s.name, [], []⟩

mutual
/-- The literal without the white space around its tokens. -/
def Lit.strip : Lit → Lit
  | .str _ items => .str [] items
  | .int _ sign gap digits => .int [] sign gap digits
  | .struct _ hint _ _ entries => .struct [] hint [] [] entries.strip
/-- The entries without the white space around their tokens. -/
def Entries.strip : Entries → Entries
  | .nil => .nil
  | .cons s v rest => .cons s.strip v.strip rest.strip
end

/-- The call text without the white space around its tokens. -/
def CallText.strip (c : CallText) : CallText :=
  ⟨[], c.name, [], [], c.entries.strip, []⟩

/-! ### Schema texts as they are written -/

/-- The terminal with which a type is written. -/
def Ty.token : Ty → Token
  | .builtin_of .Int32 => .t_i32
  | .builtin_of .Int64 => .t_i64
  | .builtin_of .Uint32 => .t_u32
  | .builtin_of .Uint64 => .t_u64
  | .builtin_of .String => .t_str
  | .user_of id => .t_ident id

/-- The terminals of the member declarations `type name;` of a struct or of a
function, in the order in which they are written. -/
def member_tokens : List Field → List Token
  | [] => []
  | f :: rest => f.type.token :: .t_ident f.name :: .t_sc :: member_tokens rest

/-- One declaration of a schema text: `struct name { members }` or
`fn name -> ret { members }`, the members in the order in which they are written. -/
inductive Decl
  | struct (name : Str) (members : List Field)
  | fn (name : Str) (ret : Ty) (members : List Arg)
  deriving DecidableEq, Repr

/-- The members of a declaration. -/
def Decl.members : Decl → List Field
  | .struct _ ms => ms
  | .fn _ _ ms => ms

/-- The terminals of a declaration. -/
def Decl.tokens : Decl → List Token
  | .struct name ms =>
    .t_struct :: .t_ident name :: .t_lbrace :: (member_tokens ms ++ [.t_rbrace])
  | .fn name ret ms =>
    .t_fn :: .t_ident name :: .t_arrow :: ret.token :: .t_lbrace :: (member_tokens ms ++ [.t_rbrace])

/-- The terminals of a sequence of declarations. -/
def doc_tokens : List Decl → List Token
  | [] => []
  | d :: ds => d.tokens ++ doc_tokens ds

/-- The names of the structs that a sequence of declarations declares, in order. -/
def struct_names : List Decl → List Str
  | [] => []
  | .struct name _ :: ds => name :: struct_names ds
  | .fn _ _ _ :: ds => struct_names ds

/-- The names of the functions that a sequence of declarations declares, in order. -/
def fn_names : List Decl → List Str
  | [] => []
  | .struct _ _ :: ds => fn_names ds
  | .fn name _ _ :: ds => name :: fn_names ds

/-- The types that a declaration refers to: the types of its members and, for a
function, its return type. -/
def Decl.types : Decl → List Ty
  | .struct _ ms => ms.map Field.type
  | .fn _ ret ms => ret :: ms.map Field.type

/-- No two structs have the same name, no two functions have the same name, and no
two members of one declaration have the same name. -/
def doc_unique (ds : List Decl) : Prop :=
  (struct_names ds).Nodup ∧ (fn_names ds).Nodup
    ∧ ∀ d ∈ ds, (d.members.map Field.name).Nodup

/-- The type is a builtin type or one of the structs `names`. -/
def Ty.declared (names : List Str) : Ty → Bool
  | .builtin_of _ => true
  | .user_of user => decide (user ∈ names)

/-- Every user-defined type that a declaration refers to is a declared struct. -/
def doc_resolved (ds : List Decl) : Prop :=
  ∀ d ∈ ds, ∀ t ∈ d.types, t.declared (struct_names ds) = true

/-- The declaration is a struct with a member whose type is the struct itself. -/
def Decl.self_ref : Decl → Bool
  | .struct name ms => ms.any (fun f => decide (f.type = .user_of name))
  | .fn _ _ _ => false

/-- No struct has a member whose type is the struct itself. -/
def doc_no_self (ds : List Decl) : Prop :=
  ∀ d ∈ ds, d.self_ref = false

instance doc_unique_decidable (ds : List Decl) : Decidable (doc_unique ds) := by
  unfold doc_unique
  infer_instance

instance doc_resolved_decidable (ds : List Decl) : Decidable (doc_resolved ds) := by
  unfold doc_resolved
  infer_instance

instance doc_no_self_decidable (ds : List Decl) : Decidable (doc_no_self ds) := by
  unfold doc_no_self
  infer_instance

/-- The schema that a sequence of declarations denotes: each declaration is put under
its name, after the declarations that follow it. -/
def doc_schema : List Decl → Schema
  | [] => ⟨[], []⟩
  | .struct name ms :: ds =>
    ⟨(doc_schema ds).structs ++ [(name, ⟨name, ms⟩)], (doc_schema ds).functions⟩
  | .fn name ret ms :: ds =>
    ⟨(doc_schema ds).structs, (doc_schema ds).functions ++ [(name, ⟨name, ret, ms⟩)]⟩

/-- The leading token of an input of `autocomplete`: the text from the first character
that is not white space up to the first `(` or the end of the input. -/
def leading_token (input : Str) : Str :=
  (skip_spaces input).takeWhile (fun c => c != '(')

/-- Method `Serializer::serialize_builtin` with the conversion `v.as_int()` as the
parameter `conv`: the method itself is the instance at `Value.as_int`. -/
def serialize_builtin_with (conv : Value → Except Error Int) (b : Builtin) (v : Value)
    (out : List Byte) : Except Error (List Byte) :=
  match b with
  | .String =>
    match v with
    | .str s => .ok (put_bytes (put_be 4 out ((s.length : Int) % 2 ^ 32)) (as_bytes s))
    | _ => .error .SerializeError
  | .Int32 =>
    if v.is_int then
      match conv v with
      | .error e => .error e
      | .ok x =>
        if x > INT32_MAX then .error .SerializeError
        else if x < INT32_MIN then .error .SerializeError
        else .ok (put_be 4 out x)
    else .error .SerializeError
  | .Int64 =>
    if v.is_int then
      match conv v with
      | .error e => .error e
      | .ok x => .ok (put_be 8 out x)
    else .error .SerializeError
  | .Uint32 =>
    if v.is_int then
      match conv v with
      | .error e => .error e
      | .ok x =>
        if x < 0 then .error .SerializeError
        else if x % 2 ^ 64 > 0xffffffff then .error .SerializeError
        else .ok (put_be 4 out (x % 2 ^ 64))
    else
      match v with
      | .uint x =>
        if x > 0xffffffff then .error .SerializeError
        else .ok (put_be 4 out x)
      | _ => .error .SerializeError
  | .Uint64 =>
    if v.is_int then
      match conv v with
      | .error e => .error e
      | .ok x =>
        if x < 0 then .error .SerializeError
        else .ok (put_be 8 out (x % 2 ^ 64))
    else
      match v with
      | .uint x => .ok (put_be 8 out x)
      | _ => .error .SerializeError

/-- The characters that the completion engine writes as punctuation. -/
def structural : Str := "()\x7b\x7d=, \"".toList

/-- The schema declares the name: it is the name of a function or of a struct, as the
maps hold them, of an argument of a function or of a field of a struct. -/
def Schema.declares (sch : Schema) (name : Str) : Prop :=
  name ∈ sch.functions.map Prod.fst ∨ name ∈ sch.structs.map Prod.fst
    ∨ (∃ p ∈ sch.functions, name ∈ p.2.args.map Field.name)
    ∨ (∃ p ∈ sch.structs, name ∈ p.2.fields.map Field.name)

instance Schema.declares_decidable (sch : Schema) (name : Str) : Decidable (sch.declares name) := by
  unfold Schema.declares
  infer_instance

/-- One piece of a completion: a structural character, or the missing tail of a
declared name, the part that follows a written beginning `token` of the name. -/
def Schema.piece (sch : Schema) (p : Str) : Prop :=
  (∃ c ∈ structural, p = [c])
    ∨ ∃ name token, sch.declares name ∧ token <+: name ∧ p = name.drop token.length

/-- The text is made of structural characters and of missing tails of declared names. -/
def Schema.completion (sch : Schema) (s : Str) : Prop :=
  ∃ pieces : List Str, s = pieces.flatten ∧ ∀ p ∈ pieces, sch.piece p

/-- The struct found under `a` has a field whose type is the struct `b`. -/
def Schema.field_of (sch : Schema) (a b : Str) : Prop :=
  ∃ st f, sch.find_struct a = some st ∧ f ∈ st.fields ∧ f.type = .user_of b

/-- No struct is reachable from itself through field types. -/
def Schema.acyclic (sch : Schema) : Prop :=
  ∀ a, ¬ Relation.TransGen sch.field_of a a

/-- The largest of the depths `d` of the types of the fields, if each has one. -/
def depth_max (d : Ty → Option Nat) : List Field → Option Nat
  | [] => some 0
  | f :: rest =>
    match d f.type, depth_max d rest with
    | some a, some b => some (max a b)
    | _, _ => none

/-- The struct nesting depth of a type: 0 for a builtin type and for a struct that the
schema does not hold, and one more than the largest depth of its field types for
a struct. The search goes `n` structs deep; there is no depth (`none`) when the
nesting goes deeper. -/
def nesting_depth (sch : Schema) : Nat → Ty → Option Nat
  | 0, _ => none
  | _ + 1, .builtin_of _ => some 0
  | n + 1, .user_of user =>
    match sch.find_struct user with
    | none => some 0
    | some st => (depth_max (fun t => nesting_depth sch n t) st.fields).map (fun d => d + 1)

/-- The names of the integer types: the set `primitives` of `fill_primitive`. -/
def int_types : List Str :=
  ["int32".toList, "uint32".toList, "int64".toList, "uint64".toList]

/-- The declared member with the name, if there is one. -/
def field_named (ms : List Field) (name : Str) : Option Field :=
  ms.find? (fun f => decide (f.name = name))

mutual
/-- The literal is written with one space after each comma and no other white space. -/
def Lit.spaced : Lit → Bool
  | .str ws _ => ws.isEmpty
  | .int ws _ gap _ => ws.isEmpty && gap.isEmpty
  | .struct ws _ ws_hint ws_open entries =>
    ws.isEmpty && ws_hint.isEmpty && ws_open.isEmpty && entries.spaced true
/-- The entries are written with one space after each comma and no other white space;
`first` tells that no comma stands in front of the first entry. -/
def Entries.spaced : Entries → Bool → Bool
  | .nil, _ => true
  | .cons s v rest, first =>
    decide (s.ws_name = if first then [] else [' ']) && s.ws_eq.isEmpty && s.ws_end.isEmpty
      && v.spaced && rest.spaced false
end

/-- The call is written with one space after each comma and no other white space. -/
def CallText.spaced (c : CallText) : Bool :=
  c.ws_name.isEmpty && c.ws_paren.isEmpty && c.ws_open.isEmpty && c.entries.spaced true
    && c.ws_end.isEmpty

mutual
/-- The literal is a complete value of the type with the name `type`: a string literal
without an escaped double quote for `string`, an integer literal for an integer
type, and for a struct of the schema a struct literal, without a name or with the
name of the struct, that supplies every declared field once, by its name, with a
complete value of the type of the field. -/
def Lit.fits (sch : Schema) : Lit → Str → Bool
  | .str _ items, type =>
    decide (type = "string".toList) && items.all (fun i => decide (i ≠ .esc '"'))
  | .int _ _ _ _, type => decide (type ≠ "string".toList) && decide (type ∈ int_types)
  | .struct _ hint _ _ entries, type =>
    decide (type ≠ "string".toList) && decide (type ∉ int_types)
      && decide (hint = [] ∨ hint = type)
      && match sch.find_struct type with
        | none => false
        | some st =>
          decide (entries.names.Perm (st.fields.map Field.name)) && decide entries.names.Nodup
            && entries.fit sch st.fields
/-- Every entry has the name of a member among `ms` and a complete value of its type. -/
def Entries.fit (sch : Schema) : Entries → List Field → Bool
  | .nil, _ => true
  | .cons s v rest, ms =>
    (match field_named ms s.name with
      | none => false
      | some f => v.fits sch f.type.str)
    && rest.fit sch ms
end

/-- The call supplies every declared argument of the function that it names once, by its
name, with a complete value of the type of the argument. -/
def CallText.fits (sch : Schema) (c : CallText) : Bool :=
  match sch.find_function c.name with
  | none => false
  | some fn =>
    decide (c.entries.names.Perm (fn.args.map Field.name)) && decide c.entries.names.Nodup
      && c.entries.fit sch fn.args

/-- The text of the entries after the white space in front of the first name. -/
def Entries.body (close : Char) : Entries → Str
  | .nil => [close]
  | .cons s v rest =>
    s.name ++ (s.ws_eq ++ '=' :: (v.text ++ (s.ws_end ++
      (if rest.isEmpty then rest.text close else ',' :: rest.text close))))

/-- The number of bytes that the encoding of a value of type `t` occupies at the head of
`bs`, as the specification lays it out: 4 bytes for `int32` and `uint32`, 8 for `int64` and
`uint64`, 4 bytes of length and that many bytes for a string, the encodings of the
declared fields one after the other for a struct. It is what `rendered` takes from
`bs`; there is none when `bs` ends before the encoding does. -/
def encoded_size (fuel : Nat) (sch : Schema) (t : Ty) (bs : List Byte) : Option Nat :=
  (rendered fuel sch t bs).map (fun r => bs.length - r.2.length)

/-- The number of bytes that the encodings of the declared fields occupy at the head of
`bs`, one after the other in declared order, each of the size that `size` gives it. -/
def fields_size (size : Ty → List Byte → Option Nat) : List Field → List Byte → Option Nat
  | [], _ => some 0
  | f :: rest, bs =>
    match size f.type bs with
    | none => none
    | some n =>
      match fields_size size rest (bs.drop n) with
      | none => none
      | some m => some (n + m)

/-! ## Sample inputs -/

/-- The schema of `struct Point{int32 x; int32 y;} fn sum->int32{Point p;}`. -/
def point_schema : Schema where
  structs := [("Point".toList, ⟨"Point".toList,
    [⟨"x".toList, .builtin_of .Int32⟩, ⟨"y".toList, .builtin_of .Int32⟩]⟩)]
  functions := [("sum".toList, ⟨"sum".toList, .builtin_of .Int32,
    [⟨"p".toList, .user_of "Point".toList⟩]⟩)]

/-- A schema with one function of two arguments, a struct and an integer:
`struct P{} fn f->int32{P p; int32 b;}`. -/
def two_arg_schema : Schema where
  structs := [("P".toList, ⟨"P".toList, []⟩)]
  functions := [("f".toList, ⟨"f".toList, .builtin_of .Int32,
    [⟨"p".toList, .user_of "P".toList⟩, ⟨"b".toList, .builtin_of .Int32⟩]⟩)]

/-- The call text `f(s={a=1,a=2})`. -/
def dup_call_text : CallText :=
  ⟨[], "f".toList, [], [],
    .cons ⟨[], "s".toList, [], []⟩
      (.struct [] [] [] []
        (.cons ⟨[], "a".toList, [], []⟩ (.int [] [] [] "1".toList)
          (.cons ⟨[], "a".toList, [], []⟩ (.int [] [] [] "2".toList) .nil)))
      .nil, []⟩

/-- The call text ` sum ( p = { x = 1 , y = 2 } ) `. -/
def spaced_call_text : CallText :=
  ⟨" ".toList, "sum".toList, " ".toList, " ".toList,
    .cons ⟨[], "p".toList, " ".toList, " ".toList⟩
      (.struct " ".toList [] [] " ".toList
        (.cons ⟨[], "x".toList, " ".toList, " ".toList⟩ (.int " ".toList [] [] "1".toList)
          (.cons ⟨" ".toList, "y".toList, " ".toList, " ".toList⟩
            (.int " ".toList [] [] "2".toList) .nil)))
      .nil, " ".toList⟩

/-- The call text `f(a=- 1)`. -/
def gap_call_text : CallText :=
  ⟨[], "f".toList, [], [],
    .cons ⟨[], "a".toList, [], []⟩ (.int [] "-".toList " ".toList "1".toList) .nil, []⟩

/-- The declaration of `struct S{S x;}`. -/
def self_ref_doc : List Decl :=
  [.struct "S".toList [⟨"x".toList, .user_of "S".toList⟩]]

/-- The declarations of `fn f->int32{P p;} struct Q{P a;} struct P{}`: the struct `P` is
declared after its uses. -/
def forward_ref_doc : List Decl :=
  [.fn "f".toList (.builtin_of .Int32) [⟨"p".toList, .user_of "P".toList⟩],
    .struct "Q".toList [⟨"a".toList, .user_of "P".toList⟩],
    .struct "P".toList []]

/-- The declarations of `fn f->T{}`: the struct `T` is not declared. -/
def undeclared_doc : List Decl :=
  [.fn "f".toList (.user_of "T".toList) []]

/-- The declarations of `struct A{} fn f->int32{} struct B{} struct A{int32 x;}`: two
structs `A`, with two declarations between them. -/
def dup_struct_doc : List Decl :=
  [.struct "A".toList [], .fn "f".toList (.builtin_of .Int32) [], .struct "B".toList [],
    .struct "A".toList [⟨"x".toList, .builtin_of .Int32⟩]]

/-- The declarations of `struct A{int32 x; string y; int64 x;}`: two members `x`. -/
def dup_member_doc : List Decl :=
  [.struct "A".toList [⟨"x".toList, .builtin_of .Int32⟩, ⟨"y".toList, .builtin_of .String⟩,
    ⟨"x".toList, .builtin_of .Int64⟩]]

/-- The declarations of `struct P{string b; int32 a;} fn g->P{uint64 z; P y;}`. -/
def order_doc : List Decl :=
  [.struct "P".toList [⟨"b".toList, .builtin_of .String⟩, ⟨"a".toList, .builtin_of .Int32⟩],
    .fn "g".toList (.user_of "P".toList)
      [⟨"z".toList, .builtin_of .Uint64⟩, ⟨"y".toList, .user_of "P".toList⟩]]

/-- A schema with the functions `sum` and `summarize`, both without arguments, met in
this order by an iteration over the function map. -/
def sum_first_schema : Schema where
  structs := []
  functions := [("sum".toList, ⟨"sum".toList, .builtin_of .Int32, []⟩),
    ("summarize".toList, ⟨"summarize".toList, .builtin_of .Int32, []⟩)]

/-- The same schema with the two functions met in the other order. -/
def summarize_first_schema : Schema where
  structs := []
  functions := [("summarize".toList, ⟨"summarize".toList, .builtin_of .Int32, []⟩),
    ("sum".toList, ⟨"sum".toList, .builtin_of .Int32, []⟩)]

/-- A schema with the single function `sum`, without arguments. -/
def sum_only_schema : Schema where
  structs := []
  functions := [("sum".toList, ⟨"sum".toList, .builtin_of .Int32, []⟩)]

/-- The schema of `fn f->int32{string a;}`. -/
def string_arg_schema : Schema where
  structs := []
  functions := [("f".toList, ⟨"f".toList, .builtin_of .Int32,
    [⟨"a".toList, .builtin_of .String⟩]⟩)]

/-- The call text `f(a=1,a=2)`. -/
def repeated_arg_text : CallText :=
  ⟨[], "f".toList, [], [],
    .cons ⟨[], "a".toList, [], []⟩ (.int [] [] [] "1".toList)
      (.cons ⟨[], "a".toList, [], []⟩ (.int [] [] [] "2".toList) .nil), []⟩

/-- The schema of `fn f->int32{int32 a;}`. -/
def int_arg_schema : Schema where
  structs := []
  functions := [("f".toList, ⟨"f".toList, .builtin_of .Int32,
    [⟨"a".toList, .builtin_of .Int32⟩]⟩)]

/-- The declarations of `struct S{T t;} struct T{S s;}`. -/
def cycle_doc : List Decl :=
  [.struct "S".toList [⟨"t".toList, .user_of "T".toList⟩],
    .struct "T".toList [⟨"s".toList, .user_of "S".toList⟩]]

/-- The schema of `fn f->int32{string a; int32 b;}`. -/
def string_int_schema : Schema where
  structs := []
  functions := [("f".toList, ⟨"f".toList, .builtin_of .Int32,
    [⟨"a".toList, .builtin_of .String⟩, ⟨"b".toList, .builtin_of .Int32⟩]⟩)]

/-- The declarations of `struct In{string s;} struct Out{In a; int32 n;} fn g->Out{}`. -/
def nested_doc : List Decl :=
  [.struct "In".toList [⟨"s".toList, .builtin_of .String⟩],
    .struct "Out".toList [⟨"a".toList, .user_of "In".toList⟩, ⟨"n".toList, .builtin_of .Int32⟩],
    .fn "g".toList (.user_of "Out".toList) []]

/-- The declarations of `struct S{T t;} struct T{S s;} fn f->int32{S a;}`. -/
def cycle_call_doc : List Decl :=
  [.struct "S".toList [⟨"t".toList, .user_of "T".toList⟩],
    .struct "T".toList [⟨"s".toList, .user_of "S".toList⟩],
    .fn "f".toList (.builtin_of .Int32) [⟨"a".toList, .user_of "S".toList⟩]]

/-- The schema of `fn f->int32{int32 a; int32 b;}`. -/
def two_int_schema : Schema where
  structs := []
  functions := [("f".toList, ⟨"f".toList, .builtin_of .Int32,
    [⟨"a".toList, .builtin_of .Int32⟩, ⟨"b".toList, .builtin_of .Int32⟩]⟩)]

/-- The call text `sum(p={x=1, y=2})`. -/
def comma_space_call_text : CallText :=
  ⟨[], "sum".toList, [], [],
    .cons ⟨[], "p".toList, [], []⟩
      (.struct [] [] [] []
        (.cons ⟨[], "x".toList, [], []⟩ (.int [] [] [] "1".toList)
          (.cons ⟨" ".toList, "y".toList, [], []⟩ (.int [] [] [] "2".toList) .nil)))
      .nil, []⟩

/-- The call text `f(a=1, b=2)`. -/
def two_int_call_text : CallText :=
  ⟨[], "f".toList, [], [],
    .cons ⟨[], "a".toList, [], []⟩ (.int [] [] [] "1".toList)
      (.cons ⟨" ".toList, "b".toList, [], []⟩ (.int [] [] [] "2".toList) .nil), []⟩

/-! ## Properties -/

theorem put_be_append (size : Nat) (out : List Byte) (v : Int) :
    put_be size out v = out ++ put_be size [] v := by
  simp [put_be]

theorem byte_of_shift (u k : Nat) : (u >>> (8 * k)) &&& 0xff = u / 2 ^ (8 * k) % 256 := by
  rw [Nat.shiftRight_eq_div_pow]
  exact Nat.and_pow_two_sub_one_eq_mod _ 8

theorem put_be_four (out : List Byte) (x : Int) :
    put_be 4 out x = out ++ [(x / 2 ^ 24 % 256).toNat, (x / 2 ^ 16 % 256).toNat,
      (x / 2 ^ 8 % 256).toNat, (x % 256).toNat] := by
  simp only [put_be, List.range, List.range.loop, List.reverse_cons, List.reverse_nil,
    List.nil_append, List.cons_append, List.map_cons, List.map_nil, byte_of_shift]
  congr 1
  norm_num
  refine ⟨?_, ?_, ?_, ?_⟩ <;> omega

theorem put_be_eight (out : List Byte) (x : Int) :
    put_be 8 out x = out ++ [(x / 2 ^ 56 % 256).toNat, (x / 2 ^ 48 % 256).toNat,
      (x / 2 ^ 40 % 256).toNat, (x / 2 ^ 32 % 256).toNat, (x / 2 ^ 24 % 256).toNat,
      (x / 2 ^ 16 % 256).toNat, (x / 2 ^ 8 % 256).toNat, (x % 256).toNat] := by
  simp only [put_be, List.range, List.range.loop, List.reverse_cons, List.reverse_nil,
    List.nil_append, List.cons_append, List.map_cons, List.map_nil, byte_of_shift]
  congr 1
  norm_num
  refine ⟨?_, ?_, ?_, ?_, ?_, ?_, ?_, ?_⟩ <;> omega

/-- C5: an integer value `n` (held as a signed or as an unsigned `Value`) serializes
to int32 exactly when `-2^31 ≤ n ≤ 2^31 - 1`, giving the four big-endian bytes of the
two's complement of `n`, and to int64 exactly when `-2^63 ≤ n ≤ 2^63 - 1`, giving the
eight big-endian bytes; every other integer value is a `SerializeError`. In
particular 2147483647 is accepted for int32 and 2147483648 is rejected. -/
theorem serialize_builtin_signed_targets (v : Value) (n : Int) (out : List Byte)
    (hn : v.int_value = some n) (hr : v.in_range = true) :
    serialize_builtin .Int32 v out =
        (if -2 ^ 31 ≤ n ∧ n ≤ 2 ^ 31 - 1 then
          .ok (out ++ [(n / 2 ^ 24 % 256).toNat, (n / 2 ^ 16 % 256).toNat,
            (n / 2 ^ 8 % 256).toNat, (n % 256).toNat])
        else .error .SerializeError)
    ∧ serialize_builtin .Int64 v out =
        (if -2 ^ 63 ≤ n ∧ n ≤ 2 ^ 63 - 1 then
          .ok (out ++ [(n / 2 ^ 56 % 256).toNat, (n / 2 ^ 48 % 256).toNat,
            (n / 2 ^ 40 % 256).toNat, (n / 2 ^ 32 % 256).toNat, (n / 2 ^ 24 % 256).toNat,
            (n / 2 ^ 16 % 256).toNat, (n / 2 ^ 8 % 256).toNat, (n % 256).toNat])
        else .error .SerializeError)
    ∧ serialize_builtin .Int32 (.uint 2147483647) [] = .ok [0x7f, 0xff, 0xff, 0xff]
    ∧ serialize_builtin .Int32 (.uint 2147483648) [] = .error .SerializeError := by
  refine ⟨?_, ?_, by decide, by decide⟩
  · cases v with
    | str s => simp [Value.int_value] at hn
    | struct nm fs => simp [Value.int_value] at hn
    | int m =>
      simp only [Value.int_value, Option.some.injEq] at hn
      subst hn
      simp only [serialize_builtin, Value.is_int, Value.as_int, if_true, INT32_MAX, INT32_MIN,
        put_be_four]
      split_ifs <;> first | rfl | omega
    | uint m =>
      simp only [Value.int_value, Option.some.injEq] at hn
      subst hn
      simp only [serialize_builtin, Value.is_int, Value.as_int, INT32_MAX, INT32_MIN, INT64_MAX,
        put_be_four, decide_eq_true_eq]
      split_ifs <;> first | rfl | omega
  · cases v with
    | str s => simp [Value.int_value] at hn
    | struct nm fs => simp [Value.int_value] at hn
    | int m =>
      simp only [Value.int_value, Option.some.injEq] at hn
      subst hn
      simp only [Value.in_range, INT64_MIN, INT64_MAX, decide_eq_true_eq] at hr
      simp only [serialize_builtin, Value.is_int, Value.as_int, if_true, put_be_eight]
      split_ifs <;> first | rfl | omega
    | uint m =>
      simp only [Value.int_value, Option.some.injEq] at hn
      subst hn
      simp only [serialize_builtin, Value.is_int, Value.as_int, INT64_MAX,
        put_be_eight, decide_eq_true_eq]
      split_ifs <;> first | rfl | omega

theorem serialize_builtin_signed_targets_witness :
    serialize_builtin .Int32 (.int (-2)) [7] = .ok [7, 255, 255, 255, 254] := by
  have h := (serialize_builtin_signed_targets (.int (-2)) (-2) [7] rfl rfl).1
  rw [h]
  decide

/-- C6: an integer value `n` (held as a signed or as an unsigned `Value`) serializes
to uint32 exactly when `0 ≤ n ≤ 2^32 - 1`, giving the four big-endian bytes of `n`,
and to uint64 exactly when `0 ≤ n ≤ 2^64 - 1`, giving the eight big-endian bytes of
`n`; a negative input and a uint32 value above `2^32 - 1` are a `SerializeError`. -/
theorem serialize_builtin_unsigned_targets (v : Value) (n : Int) (out : List Byte)
    (hn : v.int_value = some n) (hr : v.in_range = true) :
    serialize_builtin .Uint32 v out =
        (if 0 ≤ n ∧ n ≤ 2 ^ 32 - 1 then
          .ok (out ++ [(n / 2 ^ 24 % 256).toNat, (n / 2 ^ 16 % 256).toNat,
            (n / 2 ^ 8 % 256).toNat, (n % 256).toNat])
        else .error .SerializeError)
    ∧ serialize_builtin .Uint64 v out =
        (if 0 ≤ n ∧ n ≤ 2 ^ 64 - 1 then
          .ok (out ++ [(n / 2 ^ 56 % 256).toNat, (n / 2 ^ 48 % 256).toNat,
            (n / 2 ^ 40 % 256).toNat, (n / 2 ^ 32 % 256).toNat, (n / 2 ^ 24 % 256).toNat,
            (n / 2 ^ 16 % 256).toNat, (n / 2 ^ 8 % 256).toNat, (n % 256).toNat])
        else .error .SerializeError) := by
  constructor
  · cases v with
    | str s => simp [Value.int_value] at hn
    | struct nm fs => simp [Value.int_value] at hn
    | int m =>
      simp only [Value.int_value, Option.some.injEq] at hn
      subst hn
      simp only [Value.in_range, INT64_MIN, INT64_MAX, decide_eq_true_eq] at hr
      simp only [serialize_builtin, Value.is_int, Value.as_int, if_true, put_be_four]
      split_ifs <;> first | rfl | omega | (rw [show m % 2 ^ 64 = m by omega])
    | uint m =>
      simp only [Value.int_value, Option.some.injEq] at hn
      subst hn
      simp only [Value.in_range, UINT64_MAX, decide_eq_true_eq] at hr
      simp only [serialize_builtin, Value.is_int, Value.as_int, INT64_MAX,
        put_be_four, decide_eq_true_eq]
      split_ifs <;> first | rfl | omega | (rw [show (m : Int) % 2 ^ 64 = m by omega])
  · cases v with
    | str s => simp [Value.int_value] at hn
    | struct nm fs => simp [Value.int_value] at hn
    | int m =>
      simp only [Value.int_value, Option.some.injEq] at hn
      subst hn
      simp only [Value.in_range, INT64_MIN, INT64_MAX, decide_eq_true_eq] at hr
      simp only [serialize_builtin, Value.is_int, Value.as_int, if_true, put_be_eight]
      split_ifs <;> first | rfl | omega | (rw [show m % 2 ^ 64 = m by omega])
    | uint m =>
      simp only [Value.int_value, Option.some.injEq] at hn
      subst hn
      simp only [Value.in_range, UINT64_MAX, decide_eq_true_eq] at hr
      simp only [serialize_builtin, Value.is_int, Value.as_int, INT64_MAX,
        put_be_eight, decide_eq_true_eq]
      split_ifs <;> first | rfl | omega | (rw [show (m : Int) % 2 ^ 64 = m by omega])

theorem serialize_builtin_unsigned_targets_witness :
    serialize_builtin .Uint64 (.uint 18446744073709551615) [] =
      .ok [255, 255, 255, 255, 255, 255, 255, 255] := by
  have h := (serialize_builtin_unsigned_targets (.uint 18446744073709551615)
    18446744073709551615 [] rfl rfl).2
  rw [h]
  decide

/-- C7: a string of fewer than `2^32` bytes serializes to the four big-endian bytes
of its length followed by exactly its bytes; any value that is not a string is a
`SerializeError` at the string type. -/
theorem serialize_builtin_string (out : List Byte) :
    (∀ s : Str, s.length < 2 ^ 32 →
      serialize_builtin .String (.str s) out =
        .ok (out ++ [s.length / 2 ^ 24 % 256, s.length / 2 ^ 16 % 256,
          s.length / 2 ^ 8 % 256, s.length % 256] ++ s.map Char.toNat))
    ∧ (∀ v : Value, (∀ s, v ≠ .str s) →
      serialize_builtin .String v out = .error .SerializeError) := by
  constructor
  · intro s hs
    simp only [serialize_builtin, put_bytes, as_bytes, put_be_four]
    congr 3
    norm_num at hs ⊢
    refine ⟨?_, ?_, ?_, ?_⟩ <;> omega
  · intro v hv
    cases v with
    | str s => exact absurd rfl (hv s)
    | int m => rfl
    | uint m => rfl
    | struct nm fs => rfl

theorem serialize_builtin_string_witness :
    serialize_builtin .String (.str ['h', 'i']) [9] = .ok [9, 0, 0, 0, 2, 104, 105] := by
  have h := (serialize_builtin_string [9]).1 ['h', 'i'] (by decide)
  rw [h]
  decide

/-! ### Association lists -/

theorem map_find_append {α : Type} (k : Str) (m l : List (Str × α)) :
    map_find k (m ++ l) = (match map_find k m with
      | some a => some a
      | none => map_find k l) := by
  induction m with
  | nil => rfl
  | cons p m ih =>
    obtain ⟨k', a⟩ := p
    by_cases hk : k' = k
    · simp [map_find, hk]
    · simp [map_find, hk, ih]

theorem map_find_emplace {α : Type} (k k' : Str) (a : α) (m : List (Str × α)) :
    map_find k (map_emplace k' a m) = (match map_find k m with
      | some b => some b
      | none => if k' = k then some a else none) := by
  unfold map_emplace
  cases hm : map_find k' m with
  | some b =>
    cases hk : map_find k m with
    | some c => rfl
    | none =>
      have : k' ≠ k := by
        rintro rfl
        rw [hm] at hk
        cases hk
      simp [hk, this]
  | none =>
    simp only [map_find_append, map_find]

/-- The map `provided` built by `serialize_call` answers `find` like the argument
vector searched from the front: the first occurrence of a name wins. -/
theorem map_find_provided (k : Str) (args m : List (Str × Value)) :
    map_find k (args.foldl (fun m a => map_emplace a.1 a.2 m) m) = (match map_find k m with
      | some a => some a
      | none => map_find k args) := by
  induction args generalizing m with
  | nil => simp only [List.foldl_nil, map_find]; cases map_find k m <;> rfl
  | cons p args ih =>
    obtain ⟨k', a⟩ := p
    simp only [List.foldl_cons, ih, map_find_emplace, map_find]
    cases hk : map_find k m with
    | some b => rfl
    | none =>
      by_cases h : k' = k
      · simp [h]
      · simp [h]

/-! ### The buffer before a call is left in place -/

theorem serialize_builtin_frame (b : Builtin) (v : Value) (out : List Byte) :
    serialize_builtin b v out = onto out (serialize_builtin b v []) := by
  cases b <;> cases v <;>
    simp only [serialize_builtin, Value.is_int, Value.as_int, put_bytes, put_be, onto,
      List.nil_append, List.append_assoc] <;>
    (try split_ifs) <;> rfl

theorem struct_loop_frame (body : Field → List Byte → Except Error (List Byte))
    (fields : List Field)
    (hbody : ∀ fld ∈ fields, ∀ out, body fld out = onto out (body fld [])) (out : List Byte) :
    struct_loop body fields out = onto out (struct_loop body fields []) := by
  induction fields generalizing out with
  | nil => simp [struct_loop, onto]
  | cons fld rest ih =>
    have hrest := ih (fun f hf => hbody f (List.mem_cons_of_mem _ hf))
    have hf := hbody fld (List.mem_cons_self _ _)
    simp only [struct_loop]
    rw [hf out]
    cases hb : body fld [] with
    | error e => simp [onto]
    | ok e =>
      simp only [onto]
      rw [hrest (out ++ e), hrest e]
      cases struct_loop body rest [] <;> simp [onto]

mutual
theorem serialize_value_frame (sch : Schema) :
    ∀ (v : Value) (t : Ty) (out : List Byte),
      serialize_value sch v t out = onto out (serialize_value sch v t [])
  | v, .builtin_of b, out => by
    simp only [serialize_value]
    exact serialize_builtin_frame b v out
  | .str s, .user_of user, out => by
    simp only [serialize_value]
    cases sch.find_struct user <;> rfl
  | .int n, .user_of user, out => by
    simp only [serialize_value]
    cases sch.find_struct user <;> rfl
  | .uint n, .user_of user, out => by
    simp only [serialize_value]
    cases sch.find_struct user <;> rfl
  | .struct nm fields, .user_of user, out => by
    simp only [serialize_value]
    cases sch.find_struct user with
    | none => rfl
    | some st =>
      simp only
      split_ifs
      · rfl
      · exact struct_loop_frame _ _
          (fun fld _ o => serialize_field_frame sch fields fld.name fld.type o) out
theorem serialize_field_frame (sch : Schema) :
    ∀ (fields : List (Str × Value)) (name : Str) (t : Ty) (out : List Byte),
      serialize_field sch fields name t out = onto out (serialize_field sch fields name t [])
  | [], _, _, _ => by simp [serialize_field, onto]
  | (k, v) :: rest, name, t, out => by
    simp only [serialize_field]
    split_ifs
    · exact serialize_value_frame sch v t out
    · exact serialize_field_frame sch rest name t out
end

/-! ### `serialize_call` -/

theorem call_loop_congr (sch : Schema) (p₁ p₂ : List (Str × Value)) (args : List Arg)
    (h : ∀ df ∈ args, map_find df.name p₁ = map_find df.name p₂) (out : List Byte) :
    call_loop sch p₁ args out = call_loop sch p₂ args out := by
  induction args generalizing out with
  | nil => rfl
  | cons df rest ih =>
    have hrest := ih (fun d hd => h d (List.mem_cons_of_mem _ hd))
    simp only [call_loop, h df (List.mem_cons_self _ _)]
    cases map_find df.name p₂ with
    | none => rfl
    | some v =>
      simp only
      cases serialize_value sch v df.type out with
      | error e => rfl
      | ok o => exact hrest o

/-- The function `serialize_call` without the intermediate map: the hash, then the
loop over the declared arguments, each found in the argument vector. -/
theorem serialize_call_eq (XXH32 : Str → Nat) (sch : Schema) (call : Call) :
    serialize_call XXH32 sch call = (match sch.find_function call.func_name with
      | none => .error .SerializeError
      | some fn => call_loop sch call.args fn.args
          (put_be 4 [] ((XXH32 call.func_name % 2 ^ 32 : Nat) : Int))) := by
  unfold serialize_call
  cases sch.find_function call.func_name with
  | none => rfl
  | some fn =>
    simp only
    apply call_loop_congr
    intro df _
    rw [map_find_provided]
    rfl

theorem call_loop_ok (sch : Schema) (provided : List (Str × Value)) (args : List Arg)
    (out b : List Byte) (h : call_loop sch provided args out = .ok b) :
    ∃ encs : List (List Byte),
      List.Forall₂ (fun (df : Arg) (e : List Byte) =>
        ∃ v, map_find df.name provided = some v ∧ serialize_value sch v df.type [] = .ok e)
        args encs
      ∧ b = out ++ encs.flatten := by
  induction args generalizing out with
  | nil =>
    simp only [call_loop, Except.ok.injEq] at h
    exact ⟨[], List.Forall₂.nil, by simp [h]⟩
  | cons df rest ih =>
    simp only [call_loop] at h
    cases hv : map_find df.name provided with
    | none => simp [hv] at h
    | some v =>
      simp only [hv] at h
      rw [serialize_value_frame] at h
      cases he : serialize_value sch v df.type [] with
      | error e => simp [he, onto] at h
      | ok e =>
        simp only [he, onto] at h
        obtain ⟨encs, hall, hb⟩ := ih (out ++ e) h
        exact ⟨e :: encs, List.Forall₂.cons ⟨v, hv, he⟩ hall, by simp [hb]⟩

/-- C2: when `serialize_call` succeeds, the buffer is the four big-endian bytes of
the 32-bit hash of the function name followed by the encodings, in declared order,
of the values supplied under the declared argument names, and nothing else; its
length is 4 plus the sum of the encoded sizes. -/
theorem serialize_call_layout (XXH32 : Str → Nat) (sch : Schema) (call : Call) (b : List Byte)
    (h : serialize_call XXH32 sch call = .ok b) :
    ∃ (fn : Function) (encs : List (List Byte)),
      sch.find_function call.func_name = some fn
      ∧ List.Forall₂ (fun (df : Arg) (e : List Byte) =>
          ∃ v, map_find df.name call.args = some v ∧ serialize_value sch v df.type [] = .ok e)
          fn.args encs
      ∧ b = [XXH32 call.func_name % 2 ^ 32 / 2 ^ 24 % 256,
             XXH32 call.func_name % 2 ^ 32 / 2 ^ 16 % 256,
             XXH32 call.func_name % 2 ^ 32 / 2 ^ 8 % 256,
             XXH32 call.func_name % 2 ^ 32 % 256] ++ encs.flatten
      ∧ b.length = 4 + (encs.map List.length).sum := by
  rw [serialize_call_eq] at h
  cases hf : sch.find_function call.func_name with
  | none => simp [hf] at h
  | some fn =>
    simp only [hf] at h
    obtain ⟨encs, hall, hb⟩ := call_loop_ok sch call.args fn.args _ b h
    have hb' : b = [XXH32 call.func_name % 2 ^ 32 / 2 ^ 24 % 256,
             XXH32 call.func_name % 2 ^ 32 / 2 ^ 16 % 256,
             XXH32 call.func_name % 2 ^ 32 / 2 ^ 8 % 256,
             XXH32 call.func_name % 2 ^ 32 % 256] ++ encs.flatten := by
      rw [hb, put_be_four]
      norm_num
      refine ⟨?_, ?_, ?_, ?_⟩ <;> omega
    refine ⟨fn, encs, rfl, hall, hb', ?_⟩
    rw [hb']
    simp only [List.length_append, List.length_flatten, List.length_cons, List.length_nil]

theorem serialize_call_layout_witness :
    ∃ (fn : Function) (encs : List (List Byte)),
      point_schema.find_function "sum".toList = some fn
      ∧ List.Forall₂ (fun (df : Arg) (e : List Byte) =>
          ∃ v, map_find df.name [("p".toList, Value.struct [] [("y".toList, .uint 2),
              ("x".toList, .uint 1)])] = some v
            ∧ serialize_value point_schema v df.type [] = .ok e)
          fn.args encs
      ∧ [0, 0, 1, 2, 0, 0, 0, 1, 0, 0, 0, 2] = [258 % 2 ^ 32 / 2 ^ 24 % 256,
             258 % 2 ^ 32 / 2 ^ 16 % 256, 258 % 2 ^ 32 / 2 ^ 8 % 256,
             258 % 2 ^ 32 % 256] ++ encs.flatten
      ∧ [0, 0, 1, 2, 0, 0, 0, 1, 0, 0, 0, 2].length = 4 + (encs.map List.length).sum :=
  serialize_call_layout (fun _ => 258) point_schema
    ⟨"sum".toList, [("p".toList, .struct [] [("y".toList, .uint 2), ("x".toList, .uint 1)])]⟩
    [0, 0, 1, 2, 0, 0, 0, 1, 0, 0, 0, 2] (by decide)

theorem map_find_perm {α : Type} (k : Str) {l₁ l₂ : List (Str × α)} (hp : l₁.Perm l₂)
    (hn : (l₁.map Prod.fst).Nodup) : map_find k l₁ = map_find k l₂ := by
  induction hp with
  | nil => rfl
  | cons x _ ih =>
    obtain ⟨k', a⟩ := x
    simp only [List.map_cons, List.nodup_cons] at hn
    simp only [map_find, ih hn.2]
  | swap x y l =>
    obtain ⟨kx, a⟩ := x
    obtain ⟨ky, b⟩ := y
    simp only [List.map_cons, List.nodup_cons, List.mem_cons, not_or] at hn
    have hne : ky ≠ kx := hn.1.1
    simp only [map_find]
    by_cases h1 : kx = k
    · have h2 : ky ≠ k := fun h => hne (h.trans h1.symm)
      simp [h1, h2]
    · simp [h1]
  | trans h₁ _ ih₁ ih₂ =>
    exact (ih₁ hn).trans (ih₂ ((h₁.map Prod.fst).nodup_iff.mp hn))

/-- C3: two calls of the same function whose argument lists, with pairwise
distinct names, are permutations of each other have the same outcome of
`serialize_call`: the same bytes or the same failure. -/
theorem serialize_call_perm (XXH32 : Str → Nat) (sch : Schema) (f : Str)
    (args₁ args₂ : List NamedArg) (hp : args₁.Perm args₂)
    (hn : (args₁.map Prod.fst).Nodup) :
    serialize_call XXH32 sch ⟨f, args₁⟩ = serialize_call XXH32 sch ⟨f, args₂⟩ := by
  simp only [serialize_call_eq]
  cases sch.find_function f with
  | none => rfl
  | some fn => exact call_loop_congr sch args₁ args₂ fn.args (fun df _ => map_find_perm _ hp hn) _

theorem serialize_call_perm_witness :
    serialize_call (fun _ => 258) two_arg_schema
        ⟨"f".toList, [("p".toList, .struct [] []), ("b".toList, .int (-1))]⟩
      = serialize_call (fun _ => 258) two_arg_schema
        ⟨"f".toList, [("b".toList, .int (-1)), ("p".toList, .struct [] [])]⟩ :=
  serialize_call_perm (fun _ => 258) two_arg_schema "f".toList _ _
    (List.Perm.swap _ _ _) (by decide)

/-- C8 (evaluation of the code at the failing input): the schema text
`struct P{} fn f->int32{P p; int32 b;}` and the call text `f(p=1)` are both
accepted; the call supplies no value for the declared argument `b`, and
`serialize_call` does not fail with `SerializeError`: the integer supplied for the
struct argument `p`, which is encoded first, raises `std::bad_variant_access`. -/
theorem serialize_call_missing_arg_bad_variant :
    parse_schema_text "struct P\x7b\x7d fn f->int32\x7bP p; int32 b;\x7d".toList
        = some (.ok two_arg_schema)
    ∧ RequestParser.parse "f(p=1)".toList
        = some (.ok ⟨"f".toList, [("p".toList, .uint 1)]⟩)
    ∧ map_find "b".toList [("p".toList, Value.uint 1)] = none
    ∧ ∀ XXH32 : Str → Nat,
      serialize_call XXH32 two_arg_schema ⟨"f".toList, [("p".toList, .uint 1)]⟩
        = .error .bad_variant_access := by
  refine ⟨by decide, rfl, rfl, fun XXH32 => ?_⟩
  rw [serialize_call_eq]
  rfl

/-- C9 (counterexample): with the schema of
`struct Point{int32 x; int32 y;} fn sum->int32{Point p;}` the call parsed from
`sum(p={x=1,y=2}, q=5)` supplies the argument `q`, which `sum` does not declare,
and `serialize_call` succeeds, with the bytes of `sum(p={x=1,y=2})`. -/
theorem serialize_call_accepts_undeclared_argument :
    RequestParser.parse "sum(p=\x7bx=1,y=2\x7d, q=5)".toList
        = some (.ok ⟨"sum".toList,
            [("p".toList, .struct [] [("x".toList, .uint 1), ("y".toList, .uint 2)]),
             ("q".toList, .uint 5)]⟩)
    ∧ point_schema.find_function "sum".toList
        = some ⟨"sum".toList, .builtin_of .Int32, [⟨"p".toList, .user_of "Point".toList⟩]⟩
    ∧ "q".toList ∉ [("p".toList : Str)]
    ∧ ∀ XXH32 : Str → Nat,
      serialize_call XXH32 point_schema
          ⟨"sum".toList, [("p".toList, .struct [] [("x".toList, .uint 1), ("y".toList, .uint 2)]),
            ("q".toList, .uint 5)]⟩
        = .ok (put_be 4 [] ((XXH32 "sum".toList % 2 ^ 32 : Nat) : Int)
            ++ [0, 0, 0, 1, 0, 0, 0, 2]) := by
  refine ⟨rfl, by decide, by decide, fun XXH32 => ?_⟩
  rw [serialize_call_eq]
  simp only [point_schema, Schema.find_function, map_find, if_true, call_loop]
  rw [serialize_value_frame]
  rfl

/-- C9 (amended): an argument whose name is not among the declared argument names
of the called function is ignored: `serialize_call` has the same outcome, bytes or
failure, as on the call without that argument. -/
theorem serialize_call_ignores_undeclared (XXH32 : Str → Nat) (sch : Schema) (f : Str)
    (fn : Function) (pre post : List NamedArg) (a : NamedArg)
    (hf : sch.find_function f = some fn) (ha : a.1 ∉ fn.args.map Field.name) :
    serialize_call XXH32 sch ⟨f, pre ++ a :: post⟩
      = serialize_call XXH32 sch ⟨f, pre ++ post⟩ := by
  simp only [serialize_call_eq, hf]
  apply call_loop_congr
  intro df hdf
  have hne : a.1 ≠ df.name := fun h => ha (h ▸ List.mem_map_of_mem Field.name hdf)
  obtain ⟨k, v⟩ := a
  simp only [map_find_append, map_find, if_neg hne]

theorem serialize_call_ignores_undeclared_witness :
    serialize_call (fun _ => 258) point_schema
        ⟨"sum".toList, [("q".toList, .uint 5),
          ("p".toList, .struct [] [("x".toList, .uint 1), ("y".toList, .uint 2)])]⟩
      = serialize_call (fun _ => 258) point_schema
        ⟨"sum".toList,
          [("p".toList, .struct [] [("x".toList, .uint 1), ("y".toList, .uint 2)])]⟩ :=
  serialize_call_ignores_undeclared (fun _ => 258) point_schema "sum".toList
    ⟨"sum".toList, .builtin_of .Int32, [⟨"p".toList, .user_of "Point".toList⟩]⟩
    [] [("p".toList, .struct [] [("x".toList, .uint 1), ("y".toList, .uint 2)])]
    ("q".toList, .uint 5) (by decide) (by decide)

/-- C10: at a position of declared type struct `S` (a struct of the schema, stored
under its own name), a struct value with a non-empty name hint different from `S`
is a `SerializeError`; with an empty hint or the hint `S` the outcome is that of
the value without a hint, so the hint does not affect the bytes. -/
theorem serialize_value_name_hint (sch : Schema) (S hint : Str) (st : Struct)
    (fields : List (Str × Value)) (out : List Byte)
    (hS : sch.find_struct S = some st) (hname : st.name = S) :
    (hint ≠ [] → hint ≠ S →
      serialize_value sch (.struct hint fields) (.user_of S) out = .error .SerializeError)
    ∧ (hint = [] ∨ hint = S →
      serialize_value sch (.struct hint fields) (.user_of S) out
        = serialize_value sch (.struct [] fields) (.user_of S) out) := by
  subst hname
  constructor
  · intro h1 h2
    simp only [serialize_value, hS]
    rw [if_pos ⟨h1, h2⟩]
  · intro h
    simp only [serialize_value, hS]
    rw [if_neg (by rcases h with h | h <;> simp [h]), if_neg (by simp)]

theorem serialize_value_name_hint_witness :
    serialize_value point_schema
        (.struct "Pt".toList [("x".toList, .uint 1), ("y".toList, .uint 2)])
        (.user_of "Point".toList) [] = .error .SerializeError
    ∧ serialize_value point_schema
        (.struct "Point".toList [("x".toList, .uint 1), ("y".toList, .uint 2)])
        (.user_of "Point".toList) [] = .ok [0, 0, 0, 1, 0, 0, 0, 2] := by
  have h1 := serialize_value_name_hint point_schema "Point".toList "Pt".toList
    ⟨"Point".toList, [⟨"x".toList, .builtin_of .Int32⟩, ⟨"y".toList, .builtin_of .Int32⟩]⟩
    [("x".toList, .uint 1), ("y".toList, .uint 2)] [] (by decide) rfl
  exact ⟨h1.1 (by decide) (by decide), by decide⟩

/-! ### Reading back what was written -/

theorem Cursor.before_split {c : Cursor} {pre e₁ e₂ post : List Byte}
    (h : c.before pre (e₁ ++ e₂) post) :
    c.before pre e₁ (e₂ ++ post) ∧ (c.skip e₁.length).before (pre ++ e₁) e₂ post := by
  obtain ⟨hp, hn, hi⟩ := h
  refine ⟨⟨by simp [hp], hn, hi⟩, ⟨by simp [Cursor.skip, hp], by simp [Cursor.skip, hn], ?_⟩⟩
  simp [Cursor.skip, hi]

theorem Cursor.skip_skip (c : Cursor) (a b : Nat) : (c.skip a).skip b = c.skip (a + b) := by
  simp [Cursor.skip, Nat.add_assoc]

theorem Cursor.skip_zero (c : Cursor) : c.skip 0 = c := rfl

theorem getD_append_cons (pre : List Byte) (b : Byte) (rest : List Byte) :
    (pre ++ b :: rest).getD pre.length 0 = b := by
  induction pre with
  | nil => rfl
  | cons a pre ih => simpa using ih

theorem Cursor.get8_before {c : Cursor} {pre post : List Byte} {b : Byte} {rest : List Byte}
    (h : c.before pre (b :: rest) post) : c.get8 = .ok (b, c.skip 1) := by
  obtain ⟨hp, hn, hi⟩ := h
  have hlt : ¬ c.i ≥ c.n := by
    rw [hn, hp, hi]
    simp
  have hget : c.p.getD c.i 0 = b := by
    rw [hp, hi, List.append_assoc]
    exact getD_append_cons pre b _
  simp only [Cursor.get8, if_neg hlt, Cursor.skip, hget]

theorem Cursor.get_be_loop_before (size : Nat) :
    ∀ (bs : List Byte) (v : Nat) (c : Cursor) (pre post : List Byte),
      c.before pre bs post →
      Cursor.get_be_loop size bs.length v c =
        .ok (bs.foldl (fun v b => ((v <<< 8) ||| b) % 2 ^ (8 * size)) v, c.skip bs.length)
  | [], v, c, _, _, _ => by simp [Cursor.get_be_loop, Cursor.skip]
  | b :: bs, v, c, pre, post, h => by
    have h' : c.before pre ([b] ++ bs) post := h
    have h2 : (c.skip 1).before (pre ++ [b]) bs post := (Cursor.before_split h').2
    simp only [List.length_cons, Cursor.get_be_loop, Cursor.get8_before h, List.foldl_cons]
    rw [Cursor.get_be_loop_before size bs _ _ _ _ h2, Cursor.skip_skip, Nat.add_comm]

theorem Cursor.get_string_loop_before :
    ∀ (s acc : Str) (c : Cursor) (pre post : List Byte),
      c.before pre (as_bytes s) post →
      Cursor.get_string_loop s.length acc c = .ok (acc ++ s, c.skip s.length)
  | [], acc, c, _, _, _ => by simp [Cursor.get_string_loop, Cursor.skip]
  | ch :: s, acc, c, pre, post, h => by
    have h' : c.before pre ([ch.toNat] ++ as_bytes s) post := h
    have h2 : (c.skip 1).before (pre ++ [ch.toNat]) (as_bytes s) post :=
      (Cursor.before_split h').2
    have h1 : c.get8 = .ok (ch.toNat, c.skip 1) := Cursor.get8_before h
    simp only [List.length_cons, Cursor.get_string_loop, h1]
    rw [Cursor.get_string_loop_before s _ _ _ _ h2, Cursor.skip_skip, Nat.add_comm]
    simp [Char.ofNat_toNat]

theorem acc_step (v b : Nat) (hb : b < 256) : (v <<< 8) ||| b = v * 256 + b := by
  rw [Nat.shiftLeft_eq, Nat.mul_comm, ← Nat.mul_add_lt_is_or (by simpa using hb)]

theorem fold_put_be (size uv : Nat) :
    ∀ (k v : Nat), v < 2 ^ (8 * size) →
      ((List.range k).reverse.map (fun j => (uv >>> (8 * j)) &&& 0xff)).foldl
          (fun v b => ((v <<< 8) ||| b) % 2 ^ (8 * size)) v
        = (v * 2 ^ (8 * k) + uv % 2 ^ (8 * k)) % 2 ^ (8 * size)
  | 0, v, hv => by
    simp [Nat.mod_one, Nat.mod_eq_of_lt hv]
  | k + 1, v, hv => by
    have hlt : ((v <<< 8) ||| (uv >>> (8 * k) &&& 0xff)) % 2 ^ (8 * size) < 2 ^ (8 * size) :=
      Nat.mod_lt _ (by positivity)
    rw [List.range_succ, List.reverse_append, List.reverse_singleton, List.singleton_append,
      List.map_cons, List.foldl_cons, fold_put_be size uv k _ hlt, byte_of_shift,
      acc_step _ _ (Nat.mod_lt _ (by norm_num))]
    have hsplit : uv % 2 ^ (8 * (k + 1)) = uv % 2 ^ (8 * k) + 2 ^ (8 * k) * (uv / 2 ^ (8 * k) % 256) := by
      rw [show 8 * (k + 1) = 8 * k + 8 by ring, pow_add, Nat.mod_mul]
      norm_num
    have hmod : ((v * 256 + uv / 2 ^ (8 * k) % 256) % 2 ^ (8 * size) * 2 ^ (8 * k) + uv % 2 ^ (8 * k))
        ≡ ((v * 256 + uv / 2 ^ (8 * k) % 256) * 2 ^ (8 * k) + uv % 2 ^ (8 * k)) [MOD 2 ^ (8 * size)] :=
      Nat.ModEq.add_right _ (Nat.ModEq.mul_right _ (Nat.mod_modEq _ _))
    rw [hmod, hsplit]
    congr 1
    rw [show 8 * (k + 1) = 8 * k + 8 by ring, pow_add]
    ring

theorem put_be_length (size : Nat) (x : Int) : (put_be size [] x).length = size := by
  simp [put_be]

theorem Cursor.get_be_put_be (signed : Bool) (size : Nat) (x : Int) (c : Cursor)
    (pre post : List Byte) (h : c.before pre (put_be size [] x) post) :
    c.get_be signed size =
      .ok (if signed ∧ (x % 2 ^ (8 * size)).toNat ≥ 2 ^ (8 * size - 1)
          then ((x % 2 ^ (8 * size)).toNat : Int) - 2 ^ (8 * size)
          else ((x % 2 ^ (8 * size)).toNat : Int), c.skip size) := by
  have hloop := Cursor.get_be_loop_before size _ 0 c pre post h
  rw [put_be_length] at hloop
  have hpos : (0 : Int) < 2 ^ (8 * size) := by positivity
  have hlt : (x % 2 ^ (8 * size)).toNat < 2 ^ (8 * size) := by
    have h1 := Int.emod_lt_of_pos x hpos
    have h2 := Int.emod_nonneg x (ne_of_gt hpos)
    zify
    rw [Int.toNat_of_nonneg h2]
    exact_mod_cast h1
  have hfold := fold_put_be size (x % 2 ^ (8 * size)).toNat size 0 (by positivity)
  simp only [Nat.zero_mul, Nat.zero_add, Nat.mod_mod, Nat.mod_eq_of_lt hlt] at hfold
  simp only [put_be, List.nil_append] at hloop
  rw [hfold] at hloop
  simp only [Cursor.get_be, hloop]

theorem decode_signed_four (n : Int) (h1 : -2147483648 ≤ n) (h2 : n ≤ 2147483647) :
    (if true = true ∧ (n % 2 ^ (8 * 4)).toNat ≥ 2 ^ (8 * 4 - 1)
      then ((n % 2 ^ (8 * 4)).toNat : Int) - 2 ^ (8 * 4)
      else ((n % 2 ^ (8 * 4)).toNat : Int)) = n := by
  have e1 : (2 : Int) ^ (8 * 4) = 4294967296 := by norm_num
  have e2 : (2 : Nat) ^ (8 * 4 - 1) = 2147483648 := by norm_num
  rw [e1, e2]
  simp only [true_and]
  split_ifs <;> omega

theorem decode_signed_eight (n : Int) (h1 : -9223372036854775808 ≤ n)
    (h2 : n ≤ 9223372036854775807) :
    (if true = true ∧ (n % 2 ^ (8 * 8)).toNat ≥ 2 ^ (8 * 8 - 1)
      then ((n % 2 ^ (8 * 8)).toNat : Int) - 2 ^ (8 * 8)
      else ((n % 2 ^ (8 * 8)).toNat : Int)) = n := by
  have e1 : (2 : Int) ^ (8 * 8) = 18446744073709551616 := by norm_num
  have e2 : (2 : Nat) ^ (8 * 8 - 1) = 9223372036854775808 := by norm_num
  rw [e1, e2]
  simp only [true_and]
  split_ifs <;> omega

theorem decode_unsigned_four (n : Int) (h1 : 0 ≤ n) (h2 : n ≤ 4294967295) :
    (if false = true ∧ (n % 2 ^ (8 * 4)).toNat ≥ 2 ^ (8 * 4 - 1)
      then ((n % 2 ^ (8 * 4)).toNat : Int) - 2 ^ (8 * 4)
      else ((n % 2 ^ (8 * 4)).toNat : Int)) = n := by
  have e1 : (2 : Int) ^ (8 * 4) = 4294967296 := by norm_num
  rw [e1, if_neg (by simp)]
  omega

theorem decode_unsigned_eight (n : Int) (h1 : 0 ≤ n) (h2 : n ≤ 18446744073709551615) :
    (if false = true ∧ (n % 2 ^ (8 * 8)).toNat ≥ 2 ^ (8 * 8 - 1)
      then ((n % 2 ^ (8 * 8)).toNat : Int) - 2 ^ (8 * 8)
      else ((n % 2 ^ (8 * 8)).toNat : Int)) = n := by
  have e1 : (2 : Int) ^ (8 * 8) = 18446744073709551616 := by norm_num
  rw [e1, if_neg (by simp)]
  omega

/-- Reading back one successfully serialized builtin value. -/
theorem read_builtin_roundtrip (sch : Schema) (b : Builtin) (v : Value) (e : List Byte)
    (h : serialize_builtin b v [] = .ok e) (hr : v.in_range = true)
    (hs : v.short_strings = true) :
    ∃ txt, canonical_text sch v (.builtin_of b) = some txt
      ∧ ∀ (c : Cursor) (pre post : List Byte) (out : Str), c.before pre e post →
          read_builtin c b out = .ok (c.skip e.length, out ++ txt) := by
  cases v with
  | struct nm fs => cases b <;> simp [serialize_builtin, Value.is_int] at h
  | str s =>
    cases b <;> simp only [serialize_builtin, Value.is_int, Bool.false_eq_true, if_false,
      reduceCtorEq, Except.ok.injEq] at h
    subst h
    simp only [Value.short_strings, decide_eq_true_eq] at hs
    refine ⟨_, rfl, fun c pre post out hc => ?_⟩
    have hlen : (s.length : Int) % 2 ^ 32 = s.length := by
      have e1 : (2 : Nat) ^ 32 = 4294967296 := by norm_num
      have e2 : (2 : Int) ^ 32 = 4294967296 := by norm_num
      rw [e1] at hs
      rw [e2]
      omega
    rw [put_bytes, hlen] at hc
    obtain ⟨hc1, hc2⟩ := Cursor.before_split hc
    have hget := Cursor.get_be_put_be false 4 _ c pre _ hc1
    rw [decode_unsigned_four _ (by omega) (by
      have e1 : (2 : Nat) ^ 32 = 4294967296 := by norm_num
      rw [e1] at hs
      omega)] at hget
    have hstr := Cursor.get_string_loop_before s [] _ _ _ hc2
    rw [put_be_length] at hstr
    simp only [read_builtin, Cursor.get_string, hget, Int.toNat_ofNat, hstr,
      Cursor.skip_skip, put_bytes, List.length_append, put_be_length, as_bytes,
      List.length_map, List.nil_append, hlen]
  | int n =>
    simp only [Value.in_range, INT64_MIN, INT64_MAX, decide_eq_true_eq] at hr
    cases b <;> simp only [serialize_builtin, Value.is_int, Value.as_int, if_true,
      INT32_MAX, INT32_MIN, reduceCtorEq] at h
    · split_ifs at h
      simp only [Except.ok.injEq] at h
      subst h
      refine ⟨_, rfl, fun c pre post out hc => ?_⟩
      have hget := Cursor.get_be_put_be true 4 n c pre post hc
      rw [decode_signed_four n (by omega) (by omega)] at hget
      simp only [read_builtin, hget, put_be_length]
    · simp only [Except.ok.injEq] at h
      subst h
      refine ⟨_, rfl, fun c pre post out hc => ?_⟩
      have hget := Cursor.get_be_put_be true 8 n c pre post hc
      rw [decode_signed_eight n (by omega) (by omega)] at hget
      simp only [read_builtin, hget, put_be_length]
    · split_ifs at h
      simp only [Except.ok.injEq] at h
      subst h
      have hn : n % 2 ^ 64 = n := by omega
      rw [hn] at *
      refine ⟨_, rfl, fun c pre post out hc => ?_⟩
      have hget := Cursor.get_be_put_be false 4 n c pre post hc
      rw [decode_unsigned_four n (by omega) (by omega)] at hget
      simp only [read_builtin, hget, put_be_length]
    · split_ifs at h
      simp only [Except.ok.injEq] at h
      subst h
      have hn : n % 2 ^ 64 = n := by omega
      rw [hn] at *
      refine ⟨_, rfl, fun c pre post out hc => ?_⟩
      have hget := Cursor.get_be_put_be false 8 n c pre post hc
      rw [decode_unsigned_eight n (by omega) (by omega)] at hget
      simp only [read_builtin, hget, put_be_length]
  | uint n =>
    simp only [Value.in_range, UINT64_MAX, decide_eq_true_eq] at hr
    cases b <;> simp only [serialize_builtin, Value.is_int, Value.as_int,
      INT64_MAX, INT32_MAX, INT32_MIN, reduceCtorEq, decide_eq_true_eq] at h
    · split_ifs at h
      simp only [Except.ok.injEq] at h
      subst h
      refine ⟨_, rfl, fun c pre post out hc => ?_⟩
      have hget := Cursor.get_be_put_be true 4 n c pre post hc
      rw [decode_signed_four n (by omega) (by omega)] at hget
      simp only [read_builtin, hget, put_be_length, canonical_text]
    · split_ifs at h
      simp only [Except.ok.injEq] at h
      subst h
      refine ⟨_, rfl, fun c pre post out hc => ?_⟩
      have hget := Cursor.get_be_put_be true 8 n c pre post hc
      rw [decode_signed_eight n (by omega) (by omega)] at hget
      simp only [read_builtin, hget, put_be_length]
    · have key : e = put_be 4 [] (n : Int) ∧ (n : Int) ≤ 4294967295 := by
        split_ifs at h <;> simp only [Except.ok.injEq] at h <;> subst h <;>
          first
          | exact ⟨rfl, by omega⟩
          | exact ⟨by rw [show (n : Int) % 2 ^ 64 = n by omega], by omega⟩
      obtain ⟨rfl, hle⟩ := key
      refine ⟨_, rfl, fun c pre post out hc => ?_⟩
      have hget := Cursor.get_be_put_be false 4 n c pre post hc
      rw [decode_unsigned_four n (by omega) (by omega)] at hget
      simp only [read_builtin, hget, put_be_length]
    · have key : e = put_be 8 [] (n : Int) := by
        split_ifs at h <;> simp only [Except.ok.injEq] at h <;> subst h <;>
          first
          | rfl
          | rw [show (n : Int) % 2 ^ 64 = n by omega]
      subst key
      refine ⟨_, rfl, fun c pre post out hc => ?_⟩
      have hget := Cursor.get_be_put_be false 8 n c pre post hc
      rw [decode_unsigned_eight n (by omega) (by omega)] at hget
      simp only [read_builtin, hget, put_be_length]

theorem intercalate_cons {α : Type} (sep p : List α) (ps : List (List α)) :
    sep.intercalate (p :: ps) = p ++ (ps.map (sep ++ ·)).flatten := by
  induction ps generalizing p with
  | nil => simp [List.intercalate, List.intersperse]
  | cons q qs ih =>
    have := ih q
    simp only [List.intercalate, List.intersperse, List.flatten_cons, List.map_cons] at this ⊢
    rw [this]
    simp

/-- The loop of `serialize_struct` read back by the loop of `read_struct`, given
that each field is read back by `rv`. -/
theorem read_fields_roundtrip (body : Field → List Byte → Except Error (List Byte))
    (canon : Field → Option Str)
    (rv : Cursor → Ty → Str → Option (Except Error (Cursor × Str))) :
    ∀ (fields : List Field),
      (∀ f ∈ fields, ∀ out, body f out = onto out (body f [])) →
      (∀ f ∈ fields, ∀ e, body f [] = .ok e → ∃ txt, canon f = some txt ∧
        ∀ (c : Cursor) (pre post : List Byte) (out : Str), c.before pre e post →
          rv c f.type out = some (.ok (c.skip e.length, out ++ txt))) →
      ∀ e, struct_loop body fields [] = .ok e →
      ∃ parts, all_some (fields.map (fun f =>
            (canon f).map (fun txt => f.name ++ "=".toList ++ txt))) = some parts
        ∧ ∀ (c : Cursor) (pre post : List Byte) (out : Str), c.before pre e post →
          read_fields rv fields false c out
              = some (.ok (c.skip e.length, out ++ (parts.map (", ".toList ++ ·)).flatten))
            ∧ read_fields rv fields true c out
              = some (.ok (c.skip e.length, out ++ ", ".toList.intercalate parts))
  | [], _, _, e, h => by
    simp only [struct_loop, Except.ok.injEq] at h
    subst h
    exact ⟨[], rfl, fun c pre post out _ => by
      simp [read_fields, Cursor.skip, List.intercalate, List.intersperse]⟩
  | f :: rest, hframe, H, e, h => by
    simp only [struct_loop] at h
    cases h1 : body f [] with
    | error err => simp [h1] at h
    | ok e₁ =>
      simp only [h1] at h
      rw [struct_loop_frame body rest (fun g hg => hframe g (List.mem_cons_of_mem _ hg))] at h
      cases h2 : struct_loop body rest [] with
      | error err => simp [h2, onto] at h
      | ok e₂ =>
        simp only [h2, onto, Except.ok.injEq] at h
        subst h
        obtain ⟨txt, hcanon, hread⟩ := H f (List.mem_cons_self _ _) e₁ h1
        obtain ⟨parts, hparts, hrest⟩ := read_fields_roundtrip body canon rv rest
          (fun g hg => hframe g (List.mem_cons_of_mem _ hg))
          (fun g hg => H g (List.mem_cons_of_mem _ hg)) e₂ h2
        refine ⟨(f.name ++ "=".toList ++ txt) :: parts, ?_, ?_⟩
        · simp only [List.map_cons, hcanon, Option.map_some', all_some, hparts]
        · intro c pre post out hc
          obtain ⟨hc1, hc2⟩ := Cursor.before_split hc
          have hr := (hrest _ _ _ · hc2)
          constructor
          · simp only [read_fields, Bool.false_eq_true, if_false, hread c pre _ _ hc1,
              (hr _).1, Cursor.skip_skip, List.length_append]
            simp
          · simp only [read_fields, if_true, hread c pre _ _ hc1,
              (hr _).1, Cursor.skip_skip, List.length_append, intercalate_cons]
            simp

mutual
theorem read_value_roundtrip (sch : Schema) :
    ∀ (v : Value) (t : Ty) (e : List Byte),
      serialize_value sch v t [] = .ok e → v.in_range = true → v.short_strings = true →
      ∃ txt, canonical_text sch v t = some txt
        ∧ ∀ fuel, v.depth + 1 ≤ fuel →
          ∀ (c : Cursor) (pre post : List Byte) (out : Str), c.before pre e post →
            read_value fuel c sch t out = some (.ok (c.skip e.length, out ++ txt))
  | v, .builtin_of b, e, h, hr, hs => by
    simp only [serialize_value] at h
    obtain ⟨txt, hcanon, hread⟩ := read_builtin_roundtrip sch b v e h hr hs
    refine ⟨txt, hcanon, fun fuel hfuel c pre post out hc => ?_⟩
    obtain ⟨fuel', rfl⟩ : ∃ k, fuel = k + 1 := ⟨fuel - 1, by omega⟩
    simp only [read_value, hread c pre post out hc]
  | .str s, .user_of user, e, h, _, _ => by
    simp only [serialize_value] at h
    cases hst : sch.find_struct user <;> simp [hst] at h
  | .int n, .user_of user, e, h, _, _ => by
    simp only [serialize_value] at h
    cases hst : sch.find_struct user <;> simp [hst] at h
  | .uint n, .user_of user, e, h, _, _ => by
    simp only [serialize_value] at h
    cases hst : sch.find_struct user <;> simp [hst] at h
  | .struct nm fields, .user_of user, e, h, hr, hs => by
    simp only [serialize_value] at h
    cases hst : sch.find_struct user with
    | none => simp [hst] at h
    | some st =>
      simp only [hst] at h
      split_ifs at h
      simp only [Value.in_range] at hr
      simp only [Value.short_strings] at hs
      have hloop := fun fuel (hfuel : fields_depth fields + 1 ≤ fuel) =>
        read_fields_roundtrip
          (fun fld o => serialize_field sch fields fld.name fld.type o)
          (fun f => canonical_field sch fields f.name f.type)
          (fun c' t' out' => read_value fuel c' sch t' out') st.fields
          (fun fld _ o => serialize_field_frame sch fields fld.name fld.type o)
          (fun f _ e' he' => by
            obtain ⟨txt, h1, h2⟩ := read_field_roundtrip sch fields f.name f.type e' he' hr hs
            exact ⟨txt, h1, fun c pre post out hc => h2 fuel hfuel c pre post out hc⟩)
          e h
      obtain ⟨parts, hparts, -⟩ := hloop (fields_depth fields + 1) le_rfl
      refine ⟨st.name ++ "\x7b".toList ++ ", ".toList.intercalate parts ++ "\x7d".toList,
        by simp only [canonical_text, hst, hparts], fun fuel hfuel c pre post out hc => ?_⟩
      obtain ⟨fuel', rfl⟩ : ∃ k, fuel = k + 1 := ⟨fuel - 1, by omega⟩
      simp only [Value.depth] at hfuel
      obtain ⟨parts', hparts', hread⟩ := hloop fuel' (by omega)
      rw [hparts] at hparts'
      cases hparts'
      simp only [read_value, hst, read_struct, (hread c pre post _ hc).2]
      simp
theorem read_field_roundtrip (sch : Schema) :
    ∀ (fields : List (Str × Value)) (name : Str) (t : Ty) (e : List Byte),
      serialize_field sch fields name t [] = .ok e →
      fields_in_range fields = true → fields_short_strings fields = true →
      ∃ txt, canonical_field sch fields name t = some txt
        ∧ ∀ fuel, fields_depth fields + 1 ≤ fuel →
          ∀ (c : Cursor) (pre post : List Byte) (out : Str), c.before pre e post →
            read_value fuel c sch t out = some (.ok (c.skip e.length, out ++ txt))
  | [], _, _, _, h, _, _ => by simp [serialize_field] at h
  | (k, v) :: rest, name, t, e, h, hr, hs => by
    simp only [fields_in_range, Bool.and_eq_true] at hr
    simp only [fields_short_strings, Bool.and_eq_true] at hs
    simp only [serialize_field] at h
    simp only [canonical_field, fields_depth]
    split_ifs at h ⊢
    · obtain ⟨txt, h1, h2⟩ := read_value_roundtrip sch v t e h hr.1 hs.1
      exact ⟨txt, h1, fun fuel hfuel => h2 fuel (by omega)⟩
    · obtain ⟨txt, h1, h2⟩ := read_field_roundtrip sch rest name t e h hr.2 hs.2
      exact ⟨txt, h1, fun fuel hfuel => h2 fuel (by omega)⟩
end

/-- C1: when `serialize_value` succeeds on a value `v` (payloads within their machine
types, strings shorter than `2^32`) at a type `t`, giving the bytes `b`, then
`read_value` at the same type on a cursor over `b` returns, for every recursion
bound from some bound on, with the cursor at the end of `b` and with the canonical
text of `v` as output. -/
theorem serialize_read_roundtrip (sch : Schema) (t : Ty) (v : Value) (b : List Byte)
    (hr : v.in_range = true) (hs : v.short_strings = true)
    (h : serialize_value sch v t [] = .ok b) :
    ∃ text, canonical_text sch v t = some text
      ∧ ∃ N, ∀ fuel, N ≤ fuel →
        read_value fuel ⟨b, b.length, 0⟩ sch t [] = some (.ok (⟨b, b.length, b.length⟩, text)) := by
  obtain ⟨txt, hcanon, hread⟩ := read_value_roundtrip sch v t b h hr hs
  refine ⟨txt, hcanon, v.depth + 1, fun fuel hfuel => ?_⟩
  have := hread fuel hfuel ⟨b, b.length, 0⟩ [] [] [] ⟨by simp, rfl, rfl⟩
  simpa [Cursor.skip] using this

theorem serialize_read_roundtrip_witness :
    ∃ text, canonical_text point_schema
        (.struct [] [("y".toList, .int (-2)), ("x".toList, .uint 1)])
        (.user_of "Point".toList) = some text
      ∧ ∃ N, ∀ fuel, N ≤ fuel →
        read_value fuel ⟨[0, 0, 0, 1, 255, 255, 255, 254],
            [0, 0, 0, 1, 255, 255, 255, 254].length, 0⟩ point_schema (.user_of "Point".toList) []
          = some (.ok (⟨[0, 0, 0, 1, 255, 255, 255, 254],
              [0, 0, 0, 1, 255, 255, 255, 254].length,
              [0, 0, 0, 1, 255, 255, 255, 254].length⟩, text)) :=
  serialize_read_roundtrip point_schema (.user_of "Point".toList)
    (.struct [] [("y".toList, .int (-2)), ("x".toList, .uint 1)])
    [0, 0, 0, 1, 255, 255, 255, 254] rfl rfl (by decide)

/-- C4: the schema text `struct Point{int32 x; int32 y;} fn sum->int32{Point p;}`
is accepted by `parse_schema_text`, the call text `sum(p={x=1,y=2})` is accepted by
`RequestParser::parse`, and `serialize_call` on the two results yields exactly 12
bytes: the four big-endian bytes of the 32-bit hash of `sum`, then `00 00 00 01`,
then `00 00 00 02`. -/
theorem end_to_end_example :
    parse_schema_text "struct Point\x7bint32 x; int32 y;\x7d fn sum->int32\x7bPoint p;\x7d".toList
        = some (.ok point_schema)
    ∧ RequestParser.parse "sum(p=\x7bx=1,y=2\x7d)".toList
        = some (.ok ⟨"sum".toList,
            [("p".toList, .struct [] [("x".toList, .uint 1), ("y".toList, .uint 2)])]⟩)
    ∧ ∀ XXH32 : Str → Nat, ∃ b : List Byte,
        serialize_call XXH32 point_schema ⟨"sum".toList,
            [("p".toList, .struct [] [("x".toList, .uint 1), ("y".toList, .uint 2)])]⟩ = .ok b
        ∧ b.length = 12
        ∧ b = [XXH32 "sum".toList % 2 ^ 32 / 2 ^ 24 % 256,
               XXH32 "sum".toList % 2 ^ 32 / 2 ^ 16 % 256,
               XXH32 "sum".toList % 2 ^ 32 / 2 ^ 8 % 256,
               XXH32 "sum".toList % 2 ^ 32 % 256,
               0, 0, 0, 1, 0, 0, 0, 2] := by
  refine ⟨by decide, rfl, fun XXH32 => ⟨[XXH32 "sum".toList % 2 ^ 32 / 2 ^ 24 % 256,
               XXH32 "sum".toList % 2 ^ 32 / 2 ^ 16 % 256,
               XXH32 "sum".toList % 2 ^ 32 / 2 ^ 8 % 256,
               XXH32 "sum".toList % 2 ^ 32 % 256,
               0, 0, 0, 1, 0, 0, 0, 2], ?_, rfl, rfl⟩⟩
  have hv : serialize_value point_schema
      (.struct [] [("x".toList, .uint 1), ("y".toList, .uint 2)])
      (.user_of "Point".toList) [] = .ok [0, 0, 0, 1, 0, 0, 0, 2] := by decide
  rw [serialize_call_eq]
  simp only [point_schema, Schema.find_function, map_find, if_true, call_loop]
  rw [serialize_value_frame]
  simp only [point_schema] at hv
  simp only [hv, onto, put_be_four, Except.ok.injEq, List.cons_append, List.nil_append,
    List.cons.injEq, and_true]
  norm_num
  refine ⟨?_, ?_, ?_, ?_⟩ <;> omega

/-- C11 (evaluation of the code at the failing input): with the schema of
`struct Point{int32 x; int32 y;} fn sum->int32{Point p;}` the call texts `sum(p=1)`
and `sum(p="a")` supply an integer and a string where the struct `Point` is
declared, and `serialize_call` fails with `std::bad_variant_access`, not with
`SerializeError`; a struct supplied for a builtin type is a `SerializeError`. -/
theorem serialize_call_struct_mismatch_bad_variant :
    RequestParser.parse "sum(p=1)".toList
        = some (.ok ⟨"sum".toList, [("p".toList, .uint 1)]⟩)
    ∧ RequestParser.parse "sum(p=\"a\")".toList
        = some (.ok ⟨"sum".toList, [("p".toList, .str "a".toList)]⟩)
    ∧ (∀ XXH32 : Str → Nat,
        serialize_call XXH32 point_schema ⟨"sum".toList, [("p".toList, .uint 1)]⟩
          = .error .bad_variant_access
        ∧ serialize_call XXH32 point_schema ⟨"sum".toList, [("p".toList, .str "a".toList)]⟩
          = .error .bad_variant_access)
    ∧ ∀ (b : Builtin) (nm : Str) (fs : List (Str × Value)) (out : List Byte),
        serialize_builtin b (.struct nm fs) out = .error .SerializeError := by
  refine ⟨rfl, rfl, fun XXH32 => ⟨?_, ?_⟩, fun b nm fs out => ?_⟩
  · rw [serialize_call_eq]; rfl
  · rw [serialize_call_eq]; rfl
  · cases b <;> rfl

theorem isspace_toNat {c : Char} (h : isspace c = true) :
    c.toNat = 32 ∨ c.toNat = 9 ∨ c.toNat = 10 ∨ c.toNat = 11 ∨ c.toNat = 12 ∨ c.toNat = 13 := by
  simp only [isspace, Bool.decide_or, Bool.or_eq_true, decide_eq_true_eq] at h
  rcases h with h | h | h | h | h | h <;> subst h <;> decide

theorem isdigit_iff {c : Char} : isdigit c = true ↔ 48 ≤ c.toNat ∧ c.toNat ≤ 57 := by
  simp [isdigit]

theorem isalpha_iff {c : Char} :
    isalpha c = true ↔ (65 ≤ c.toNat ∧ c.toNat ≤ 90) ∨ (97 ≤ c.toNat ∧ c.toNat ≤ 122) := by
  simp [isalpha]

theorem skip_ws_of_not_space {c : Char} (rest : Str) (h : isspace c = false) :
    Lexer.skip_ws (c :: rest) = c :: rest := by
  simp [Lexer.skip_ws, h]

theorem not_space_of_digit {c : Char} (h : isdigit c = true) : isspace c = false := by
  rw [isdigit_iff] at h
  by_contra hs
  have := isspace_toNat (by simpa using hs)
  omega

theorem foldl_digits_ge (ds : Str) (a : Nat) :
    a ≤ ds.foldl (fun a c => 10 * a + (c.toNat - 48)) a := by
  induction ds generalizing a with
  | nil => exact le_rfl
  | cons c ds ih =>
    simp only [List.foldl_cons]
    exact le_trans (by omega) (ih _)

/-- The digit loop of `Lexer::integer` on a run of digits: the exact number, or
`ParseError` as soon as it exceeds `2^64 - 1`. -/
theorem integer_loop_digits (ds rest : Str) (hd : ∀ c ∈ ds, isdigit c = true)
    (hrest : no_digit_ahead rest) (acc : Nat) (hacc : acc ≤ 18446744073709551615) :
    Lexer.integer_loop (ds ++ rest) acc =
      (if ds.foldl (fun a c => 10 * a + (c.toNat - 48)) acc ≤ 18446744073709551615
        then .ok (ds.foldl (fun a c => 10 * a + (c.toNat - 48)) acc, rest)
        else .error .ParseError) := by
  induction ds generalizing acc with
  | nil =>
    simp only [List.nil_append, List.foldl_nil, if_pos hacc]
    cases rest with
    | nil => rfl
    | cons c t => simp [Lexer.integer_loop, hrest c t rfl]
  | cons c ds ih =>
    have hc := hd c (List.mem_cons_self _ _)
    have hc' := isdigit_iff.mp hc
    simp only [List.cons_append, Lexer.integer_loop, hc, if_true, List.foldl_cons, UINT64_MAX]
    have h0 : '0'.toNat = 48 := by decide
    rw [h0]
    by_cases hov : acc > (18446744073709551615 - (c.toNat - 48)) / 10
    · rw [if_pos hov, if_neg]
      have := foldl_digits_ge ds (10 * acc + (c.toNat - 48))
      omega
    · rw [if_neg hov]
      have hstep : (acc * 10 % 2 ^ 64 + (c.toNat - 48)) % 2 ^ 64 = 10 * acc + (c.toNat - 48) := by
        omega
      rw [hstep]
      exact ih (fun c' hc' => hd c' (List.mem_cons_of_mem _ hc')) _ (by omega)

theorem integer_of_digits (neg : Bool) (ds rest : Str) (hne : ds ≠ [])
    (hd : ∀ c ∈ ds, isdigit c = true) (hrest : no_digit_ahead rest) :
    (if ¬ isdigit (Lexer.peek (ds ++ rest)) = true then
        (.error .ParseError : Except Error ((Int ⊕ Nat) × Lexer))
      else
        match Lexer.integer_loop (ds ++ rest) 0 with
        | .error e => .error e
        | .ok (acc, lx') =>
          if neg = true then
            if acc > 9223372036854775807 + 1 then .error .ParseError
            else if acc = 9223372036854775807 + 1 then .ok (.inl INT64_MIN, lx')
            else .ok (.inl (-1 * (acc : Int)), lx')
          else .ok (.inr acc, lx'))
      = (if neg = true then
          (if digits_value ds ≤ 2 ^ 63 then .ok (.inl (-(digits_value ds : Int)), rest)
            else .error .ParseError)
        else
          (if digits_value ds ≤ 2 ^ 64 - 1 then .ok (.inr (digits_value ds), rest)
            else .error .ParseError)) := by
  obtain ⟨c, ds', rfl⟩ := List.exists_cons_of_ne_nil hne
  have hc := hd c (List.mem_cons_self _ _)
  have hpeek : Lexer.peek (c :: ds' ++ rest) = c := rfl
  rw [hpeek, if_neg (by simp [hc]), integer_loop_digits _ _ hd hrest 0 (by omega)]
  have hv : List.foldl (fun a c => 10 * a + (c.toNat - 48)) 0 (c :: ds') = digits_value (c :: ds') :=
    rfl
  rw [hv]
  have e63 : (2 : Nat) ^ 63 = 9223372036854775808 := by norm_num
  have e64 : (2 : Nat) ^ 64 - 1 = 18446744073709551615 := by norm_num
  rw [e63, e64]
  by_cases h1 : digits_value (c :: ds') ≤ 18446744073709551615
  · simp only [if_pos h1, INT64_MIN]
    cases neg
    · simp
    · simp only [if_true]
      rcases Nat.lt_trichotomy (digits_value (c :: ds')) 9223372036854775808 with h | h | h
      · rw [if_neg (by omega), if_neg (by omega), if_pos (by omega)]
        congr 3
        omega
      · rw [if_neg (by omega), if_pos (by omega), if_pos (by omega), h]
        rfl
      · rw [if_pos (by omega), if_neg (by omega)]
  · simp only [if_neg h1]
    cases neg
    · simp
    · simp only [if_true]
      rw [if_neg (by omega)]

/-- C14: on a string of digits without a sign (leading zeros allowed) that no digit
follows, `Lexer::integer` succeeds exactly when the denoted number is at most
`2^64 - 1` and then returns that number, as the unsigned alternative, in front of
the rest of the text; on every digit string that denotes a larger number it fails
with `ParseError`. -/
theorem integer_unsigned_literal (ds rest : Str) (hne : ds ≠ [])
    (hd : ∀ c ∈ ds, isdigit c = true) (hrest : no_digit_ahead rest) :
    Lexer.integer (ds ++ rest) =
      (if digits_value ds ≤ 2 ^ 64 - 1 then .ok (.inr (digits_value ds), rest)
        else .error .ParseError) := by
  obtain ⟨c, ds', rfl⟩ := List.exists_cons_of_ne_nil hne
  have hc := hd c (List.mem_cons_self _ _)
  have hc' := isdigit_iff.mp hc
  have hplus : c ≠ '+' := by rintro rfl; revert hc'; decide
  have hminus : c ≠ '-' := by rintro rfl; revert hc'; decide
  have h := integer_of_digits false (c :: ds') rest hne hd hrest
  simp only [Bool.false_eq_true, if_false] at h
  rw [← h]
  simp only [Lexer.integer, List.cons_append, skip_ws_of_not_space _ (not_space_of_digit hc),
    Lexer.peek, hplus, hminus, or_self, if_false, Bool.false_eq_true]

theorem integer_unsigned_literal_witness :
    Lexer.integer ("18446744073709551615".toList ++ ")".toList)
        = .ok (.inr 18446744073709551615, ")".toList)
    ∧ Lexer.integer ("18446744073709551616".toList ++ ")".toList) = .error .ParseError := by
  have h1 := integer_unsigned_literal "18446744073709551615".toList ")".toList (by decide)
    (by decide) (by intro c t h; cases h; decide)
  have h2 := integer_unsigned_literal "18446744073709551616".toList ")".toList (by decide)
    (by decide) (by intro c t h; cases h; decide)
  refine ⟨h1.trans ?_, h2.trans ?_⟩ <;> decide

/-- C15: on a literal with a leading `-` and a magnitude `m` written in digits that
no digit follows, `Lexer::integer` returns the signed value `-m` when `m ≤ 2^63`
(for `m = 2^63` the minimum signed 64-bit integer) and fails with `ParseError` when
`m > 2^63`; `-9223372036854775808` is accepted and `-9223372036854775809` is
rejected. -/
theorem integer_negative_literal (ds rest : Str) (hne : ds ≠ [])
    (hd : ∀ c ∈ ds, isdigit c = true) (hrest : no_digit_ahead rest) :
    Lexer.integer ('-' :: ds ++ rest) =
        (if digits_value ds ≤ 2 ^ 63 then .ok (.inl (-(digits_value ds : Int)), rest)
          else .error .ParseError)
    ∧ Lexer.integer "-9223372036854775808)".toList = .ok (.inl INT64_MIN, ")".toList)
    ∧ Lexer.integer "-9223372036854775809)".toList = .error .ParseError := by
  refine ⟨?_, by decide, by decide⟩
  have h := integer_of_digits true ds rest hne hd hrest
  simp only [if_true] at h
  rw [← h]
  have hsp : isspace '-' = false := by decide
  simp only [Lexer.integer, List.cons_append, skip_ws_of_not_space _ hsp, Lexer.peek, Lexer.get,
    or_true, if_true, decide_True]

theorem integer_negative_literal_witness :
    Lexer.integer ('-' :: "42".toList ++ ",".toList) = .ok (.inl (-42), ",".toList) := by
  have h := (integer_negative_literal "42".toList ",".toList (by decide) (by decide)
    (by intro c t h; cases h; decide)).1
  exact h.trans (by decide)

theorem integer_plus_literal (ds rest : Str) (hne : ds ≠ [])
    (hd : ∀ c ∈ ds, isdigit c = true) (hrest : no_digit_ahead rest) :
    Lexer.integer ('+' :: ds ++ rest) =
      (if digits_value ds ≤ 2 ^ 64 - 1 then .ok (.inr (digits_value ds), rest)
        else .error .ParseError) := by
  have h := integer_of_digits false ds rest hne hd hrest
  simp only [Bool.false_eq_true, if_false] at h
  rw [← h]
  have hsp : isspace '+' = false := by decide
  have hne' : ¬ ('+' = '-') := by decide
  simp only [Lexer.integer, List.cons_append, skip_ws_of_not_space _ hsp, Lexer.peek, Lexer.get,
    true_or, if_true, hne', decide_False, Bool.false_eq_true, if_false]

/-- The integer arm of `RequestParser::parse_value`, reached on a sign or a digit. -/
theorem parse_value_integer_arm (fuel : Nat) (c : Char) (lx : Str)
    (hc : c = '+' ∨ c = '-' ∨ isdigit c = true) :
    RequestParser.parse_value (fuel + 1) (c :: lx) =
      (match Lexer.integer (c :: lx) with
        | .error e => some (.error e)
        | .ok (.inl v, lx') => some (.ok (.int v, lx'))
        | .ok (.inr v, lx') => some (.ok (.uint v, lx'))) := by
  have hsp : isspace c = false := by
    rcases hc with rfl | rfl | h
    · decide
    · decide
    · exact not_space_of_digit h
  have hq : c ≠ '"' := by
    rcases hc with rfl | rfl | h
    · decide
    · decide
    · rintro rfl; revert h; decide
  have hb : ¬ (c = '\x7b' ∨ isalpha c = true ∨ c = '_') := by
    rcases hc with rfl | rfl | h
    · decide
    · decide
    · rw [isdigit_iff] at h
      rintro (rfl | h' | rfl)
      · revert h; decide
      · rw [isalpha_iff] at h'; omega
      · revert h; decide
  simp only [RequestParser.parse_value, skip_ws_of_not_space _ hsp, Lexer.peek, hq, if_false, hb]

/-- C16 (evaluation of the code at the failing input): the literals `1` (no sign, at
most `2^63 - 1`) and `+1` (leading sign) are held by the parsed `Value` as unsigned
64-bit integers, like the literal `9223372036854775808`, which does not fit the signed
type; only a literal with a leading `-` is held as a signed 64-bit integer. -/
theorem parse_small_literal_is_unsigned :
    RequestParser.parse "f(a=1,b=+1)".toList
      = some (.ok ⟨"f".toList, [("a".toList, .uint 1), ("b".toList, .uint 1)]⟩)
    ∧ RequestParser.parse "f(a=9223372036854775808,b=-1)".toList
      = some (.ok ⟨"f".toList,
          [("a".toList, .uint 9223372036854775808), ("b".toList, .int (-1))]⟩) :=
  ⟨rfl, rfl⟩

theorem skip_ws_append (ws rest : Str) (hws : all_space ws) :
    Lexer.skip_ws (ws ++ rest) = Lexer.skip_ws rest := by
  induction ws with
  | nil => rfl
  | cons c ws ih =>
    have hc := hws c (List.mem_cons_self _ _)
    simp only [List.cons_append, Lexer.skip_ws, hc, if_true]
    exact ih (fun c' h => hws c' (List.mem_cons_of_mem _ h))

theorem skip_ws_space_then (ws : Str) (c : Char) (rest : Str) (hws : all_space ws)
    (hc : isspace c = false) : Lexer.skip_ws (ws ++ c :: rest) = c :: rest := by
  rw [skip_ws_append _ _ hws, skip_ws_of_not_space _ hc]

theorem string_lit_loop_plain (c : Char) (rest out : Str) (h1 : c ≠ '"') (h2 : c ≠ '\\') :
    Lexer.string_lit_loop (c :: rest) out = Lexer.string_lit_loop rest (out ++ [c]) := by
  conv_lhs => unfold Lexer.string_lit_loop
  simp only [if_neg h1, if_neg h2]

theorem string_lit_loop_esc (e : Char) (rest out : Str) :
    Lexer.string_lit_loop ('\\' :: e :: rest) out =
      (if e = 'n' then Lexer.string_lit_loop rest (out ++ ['\n'])
        else if e = 't' then Lexer.string_lit_loop rest (out ++ ['\t'])
        else if e = '\\' then Lexer.string_lit_loop rest (out ++ ['\\'])
        else if e = '"' then Lexer.string_lit_loop rest (out ++ ['"'])
        else .error .ParseError) := by
  conv_lhs => unfold Lexer.string_lit_loop
  have hq : ¬ ('\\' = '"') := by decide
  simp only [if_neg hq, if_true]

theorem string_lit_loop_quote (rest out : Str) :
    Lexer.string_lit_loop ('"' :: rest) out = .ok (out, '"' :: rest) := by
  conv_lhs => unfold Lexer.string_lit_loop
  simp only [if_true]

theorem string_lit_loop_lone_backslash (out : Str) :
    Lexer.string_lit_loop ['\\'] out = .error .ParseError := by
  conv_lhs => unfold Lexer.string_lit_loop
  have hq : ¬ ('\\' = '"') := by decide
  simp only [if_neg hq, if_true]

theorem string_lit_loop_nil (out : Str) : Lexer.string_lit_loop [] out = .ok (out, []) := by
  conv_lhs => unfold Lexer.string_lit_loop

/-- The loop of `Lexer::string_lit` over the elements of a body. -/
theorem string_lit_loop_items (items : List StrItem) (hv : ∀ i ∈ items, i.valid) (tail out : Str) :
    Lexer.string_lit_loop (raw_body items ++ tail) out
      = Lexer.string_lit_loop tail (out ++ decoded_body items) := by
  induction items generalizing out with
  | nil => simp [raw_body, decoded_body]
  | cons i items ih =>
    have hrest := ih (fun j hj => hv j (List.mem_cons_of_mem _ hj))
    have hi := hv i (List.mem_cons_self _ _)
    cases i with
    | plain c =>
      obtain ⟨h1, h2⟩ := hi
      have : raw_body (.plain c :: items) ++ tail = c :: (raw_body items ++ tail) := by
        simp [raw_body, StrItem.raw]
      rw [this, string_lit_loop_plain c _ _ h1 h2, hrest]
      simp [decoded_body, StrItem.decoded]
    | esc e =>
      have : raw_body (.esc e :: items) ++ tail = '\\' :: e :: (raw_body items ++ tail) := by
        simp [raw_body, StrItem.raw]
      rw [this, string_lit_loop_esc]
      rcases hi with rfl | rfl | rfl | rfl
      · rw [if_pos rfl, hrest]; simp [decoded_body, StrItem.decoded]
      · rw [if_neg (by decide), if_pos rfl, hrest]; simp [decoded_body, StrItem.decoded]
      · rw [if_neg (by decide), if_neg (by decide), if_pos rfl, hrest]
        simp [decoded_body, StrItem.decoded]
      · rw [if_neg (by decide), if_neg (by decide), if_neg (by decide), if_pos rfl, hrest]
        simp [decoded_body, StrItem.decoded]

/-- C19: on a double-quoted literal followed by more input (white space may precede
it), `Lexer::string_lit` returns the body with backslash-n, backslash-t,
backslash-backslash and backslash-quote replaced by newline, tab, backslash and
double quote and every other character unchanged, in front of the rest of the
input; a backslash followed by any other character, or by nothing, is a
`ParseError`, and so is a literal whose closing quote is missing. -/
theorem string_lit_decoding (items : List StrItem) (hv : ∀ i ∈ items, i.valid) :
    (∀ ws rest : Str, all_space ws → rest ≠ [] →
      Lexer.string_lit (ws ++ '"' :: (raw_body items ++ '"' :: rest))
        = .ok (decoded_body items, rest))
    ∧ (∀ (e : Char) (tail : Str), e ≠ 'n' → e ≠ 't' → e ≠ '\\' → e ≠ '"' →
      Lexer.string_lit ('"' :: (raw_body items ++ '\\' :: e :: tail)) = .error .ParseError)
    ∧ Lexer.string_lit ('"' :: (raw_body items ++ ['\\'])) = .error .ParseError
    ∧ Lexer.string_lit ('"' :: raw_body items) = .error .ParseError := by
  have hq : isspace '"' = false := by decide
  have hbq : ¬ ('\\' = '"') := by decide
  refine ⟨fun ws rest hws hrest => ?_, fun e tail h1 h2 h3 h4 => ?_, ?_, ?_⟩
  · obtain ⟨r, rest', rfl⟩ := List.exists_cons_of_ne_nil hrest
    simp only [Lexer.string_lit, skip_ws_space_then ws '"' _ hws hq, Lexer.peek, Lexer.get,
      ne_eq, not_true_eq_false, if_false, string_lit_loop_items items hv,
      string_lit_loop_quote, List.nil_append, Lexer.eof, List.isEmpty_cons,
      Bool.false_eq_true]
  · simp only [Lexer.string_lit, skip_ws_of_not_space _ hq, Lexer.peek, Lexer.get,
      ne_eq, not_true_eq_false, if_false, string_lit_loop_items items hv,
      string_lit_loop_esc, h1, h2, h3, h4]
  · simp only [Lexer.string_lit, skip_ws_of_not_space _ hq, Lexer.peek, Lexer.get,
      ne_eq, not_true_eq_false, if_false, string_lit_loop_items items hv,
      string_lit_loop_lone_backslash]
  · have h := string_lit_loop_items items hv [] []
    rw [List.append_nil] at h
    simp only [Lexer.string_lit, skip_ws_of_not_space _ hq, Lexer.peek, Lexer.get,
      ne_eq, not_true_eq_false, if_false, h, string_lit_loop_nil, Lexer.eof,
      List.isEmpty_nil, if_true]

theorem string_lit_decoding_witness :
    Lexer.string_lit " \"a\\nb\\\"c\")".toList = .ok ("a\nb\"c".toList, ")".toList) := by
  have h := (string_lit_decoding
    [.plain 'a', .esc 'n', .plain 'b', .esc '"', .plain 'c']
    (by
      intro i hi
      simp only [List.mem_cons, List.mem_singleton, List.not_mem_nil, or_false] at hi
      rcases hi with rfl | rfl | rfl | rfl | rfl <;> simp [StrItem.valid])).1
    " ".toList ")".toList (by intro c hc; simp at hc; subst hc; decide) (by decide)
  exact h

/-! ### Parsing a text that goes on -/

theorem skip_ws_idem (lx : Str) : Lexer.skip_ws (Lexer.skip_ws lx) = Lexer.skip_ws lx := by
  induction lx with
  | nil => rfl
  | cons c lx ih =>
    by_cases h : isspace c = true
    · simp only [Lexer.skip_ws, h, if_true, ih]
    · simp only [Lexer.skip_ws, h, if_false, Bool.false_eq_true]

theorem skip_ws_head (lx : Str) (c : Char) (l : Str) (h : Lexer.skip_ws lx = c :: l) :
    isspace c = false := by
  induction lx with
  | nil => simp [Lexer.skip_ws] at h
  | cons d lx ih =>
    by_cases hd : isspace d = true
    · simp only [Lexer.skip_ws, hd, if_true] at h
      exact ih h
    · simp only [Lexer.skip_ws, hd, if_false, Bool.false_eq_true, List.cons.injEq] at h
      rw [← h.1]
      simpa using hd

theorem skip_ws_ext (lx w : Str) (h : Lexer.skip_ws lx ≠ []) :
    Lexer.skip_ws (lx ++ w) = Lexer.skip_ws lx ++ w := by
  induction lx with
  | nil => exact absurd rfl h
  | cons c lx ih =>
    by_cases hc : isspace c = true
    · simp only [Lexer.skip_ws, hc, if_true, List.cons_append] at h ⊢
      exact ih h
    · simp only [Lexer.skip_ws, hc, if_false, Bool.false_eq_true, List.cons_append]
      rfl

theorem ne_nil_of_skip_ws {lx : Str} (h : Lexer.skip_ws lx ≠ []) : lx ≠ [] := by
  rintro rfl
  exact h rfl

theorem peek_append (lx w : Str) (h : lx ≠ []) : Lexer.peek (lx ++ w) = Lexer.peek lx := by
  cases lx with
  | nil => exact absurd rfl h
  | cons c lx => rfl

theorem peek_cons (c : Char) (l : Str) : Lexer.peek (c :: l) = c := rfl

theorem get_cons (c : Char) (l : Str) : Lexer.get (c :: l) = (c, l) := rfl

theorem get_append (lx w : Str) (h : lx ≠ []) :
    Lexer.get (lx ++ w) = ((Lexer.get lx).1, (Lexer.get lx).2 ++ w) := by
  cases lx with
  | nil => exact absurd rfl h
  | cons c lx => rfl

theorem ident_loop_ext (w : Str) :
    ∀ (lx out name lx' : Str), Lexer.ident_loop lx out = (name, lx') → lx' ≠ [] →
      Lexer.ident_loop (lx ++ w) out = (name, lx' ++ w)
  | [], out, name, lx', h, hne => by
    simp only [Lexer.ident_loop, Prod.mk.injEq] at h
    exact absurd h.2.symm hne
  | c :: lx, out, name, lx', h, hne => by
    by_cases hc : isalnum c = true ∨ c = '_'
    · simp only [Lexer.ident_loop, if_pos hc, List.cons_append] at h ⊢
      exact ident_loop_ext w lx _ name lx' h hne
    · simp only [Lexer.ident_loop, if_neg hc, Prod.mk.injEq, List.cons_append] at h ⊢
      obtain ⟨rfl, rfl⟩ := h
      exact ⟨rfl, rfl⟩

theorem ident_input (lx name lx' : Str) (h : Lexer.ident lx = .ok (name, lx')) :
    Lexer.skip_ws lx ≠ [] := by
  intro h0
  simp [Lexer.ident, h0, Lexer.peek, isalpha] at h

theorem ident_ext (w lx name lx' : Str) (h : Lexer.ident lx = .ok (name, lx')) (hne : lx' ≠ []) :
    Lexer.ident (lx ++ w) = .ok (name, lx' ++ w) := by
  have h0 := ident_input lx name lx' h
  simp only [Lexer.ident, skip_ws_ext lx w h0, peek_append _ w h0] at h ⊢
  split_ifs at h ⊢ with hp
  simp only [Except.ok.injEq] at h ⊢
  exact ident_loop_ext w _ _ _ _ h hne

theorem consume_true (c : Char) (lx lx' : Str) (hc : c ≠ '\x00')
    (h : Lexer.consume c lx = (true, lx')) : Lexer.skip_ws lx = c :: lx' := by
  simp only [Lexer.consume] at h
  split_ifs at h with hp
  · simp only [Prod.mk.injEq, true_and] at h
    cases hl : Lexer.skip_ws lx with
    | nil => rw [hl] at hp; exact absurd hp.symm hc
    | cons d l =>
      rw [hl] at hp h
      simp only [Lexer.peek] at hp
      simp only [Lexer.get] at h
      rw [hp, h]
  · simp at h

theorem consume_false (c : Char) (lx lx' : Str) (h : Lexer.consume c lx = (false, lx')) :
    lx' = Lexer.skip_ws lx ∧ Lexer.peek (Lexer.skip_ws lx) ≠ c := by
  simp only [Lexer.consume] at h
  split_ifs at h with hp
  · simp at h
  · simp only [Prod.mk.injEq, true_and] at h
    exact ⟨h.symm, hp⟩

theorem consume_of_skip_ws (c : Char) (lx l : Str) (h : Lexer.skip_ws lx = c :: l) :
    Lexer.consume c lx = (true, l) := by
  simp [Lexer.consume, h, Lexer.peek, Lexer.get]

theorem consume_true_ext (w : Str) (c : Char) (lx lx' : Str) (hc : c ≠ '\x00')
    (h : Lexer.consume c lx = (true, lx')) : Lexer.consume c (lx ++ w) = (true, lx' ++ w) := by
  have h1 := consume_true c lx lx' hc h
  apply consume_of_skip_ws
  rw [skip_ws_ext lx w (by rw [h1]; simp), h1]
  rfl

theorem consume_false_ext (w : Str) (c : Char) (lx lx' : Str)
    (h : Lexer.consume c lx = (false, lx')) (hne : lx' ≠ []) :
    Lexer.consume c (lx ++ w) = (false, lx' ++ w) := by
  obtain ⟨rfl, hp⟩ := consume_false c lx lx' h
  simp only [Lexer.consume, skip_ws_ext lx w hne, peek_append _ w hne, if_neg hp]

theorem except_ok (c : Char) (lx lx' : Str) (hc : c ≠ '\x00')
    (h : Lexer.except c lx = .ok lx') : Lexer.skip_ws lx = c :: lx' := by
  simp only [Lexer.except] at h
  cases hcons : Lexer.consume c lx with
  | mk b l =>
    rw [hcons] at h
    cases b with
    | false => simp at h
    | true =>
      simp only [Except.ok.injEq] at h
      subst h
      exact consume_true c lx l hc hcons

theorem except_of_skip_ws (c : Char) (lx l : Str) (h : Lexer.skip_ws lx = c :: l) :
    Lexer.except c lx = .ok l := by
  simp [Lexer.except, consume_of_skip_ws c lx l h]

theorem except_ext (w : Str) (c : Char) (lx lx' : Str) (hc : c ≠ '\x00')
    (h : Lexer.except c lx = .ok lx') : Lexer.except c (lx ++ w) = .ok (lx' ++ w) := by
  have h1 := except_ok c lx lx' hc h
  apply except_of_skip_ws
  rw [skip_ws_ext lx w (by rw [h1]; simp), h1]
  rfl

theorem string_lit_loop_ext (w : Str) :
    ∀ (n : Nat) (lx : Str), lx.length ≤ n → ∀ (out s lx' : Str),
      Lexer.string_lit_loop lx out = .ok (s, lx') → lx' ≠ [] →
      Lexer.string_lit_loop (lx ++ w) out = .ok (s, lx' ++ w)
  | _, [], _, out, s, lx', h, hne => by
    rw [string_lit_loop_nil] at h
    simp only [Except.ok.injEq, Prod.mk.injEq] at h
    exact absurd h.2.symm hne
  | 0, c :: lx, hn, _, _, _, _, _ => by simp at hn
  | n + 1, c :: lx, hn, out, s, lx', h, hne => by
    by_cases hq : c = '"'
    · subst hq
      rw [string_lit_loop_quote] at h
      simp only [Except.ok.injEq, Prod.mk.injEq] at h
      obtain ⟨rfl, rfl⟩ := h
      exact string_lit_loop_quote _ _
    · by_cases hb : c = '\\'
      · subst hb
        cases lx with
        | nil => rw [string_lit_loop_lone_backslash] at h; cases h
        | cons e lx =>
          rw [string_lit_loop_esc] at h
          rw [List.cons_append, List.cons_append, string_lit_loop_esc]
          have hlen : lx.length ≤ n := by simp at hn; omega
          split_ifs at h ⊢ <;> exact string_lit_loop_ext w n lx hlen _ s lx' h hne
      · rw [string_lit_loop_plain c _ _ hq hb] at h
        rw [List.cons_append, string_lit_loop_plain c _ _ hq hb]
        exact string_lit_loop_ext w n lx (by simp at hn; omega) _ s lx' h hne

theorem string_lit_ext (w lx s lx' : Str) (h : Lexer.string_lit lx = .ok (s, lx')) :
    Lexer.string_lit (lx ++ w) = .ok (s, lx' ++ w) := by
  have h0 : Lexer.skip_ws lx ≠ [] := by
    intro h0
    simp [Lexer.string_lit, h0, Lexer.peek] at h
  simp only [Lexer.string_lit, skip_ws_ext lx w h0, peek_append _ w h0, get_append _ w h0] at h ⊢
  split_ifs at h ⊢ with hp
  cases hl : Lexer.string_lit_loop (Lexer.get (Lexer.skip_ws lx)).2 [] with
  | error e => simp [hl] at h
  | ok r =>
    obtain ⟨out, l1⟩ := r
    simp only [hl] at h
    split_ifs at h with heof
    simp only [Except.ok.injEq, Prod.mk.injEq] at h
    obtain ⟨rfl, rfl⟩ := h
    have hl1 : l1 ≠ [] := by
      rintro rfl
      simp [Lexer.get, Lexer.eof] at heof
    have hget : (Lexer.get l1).2 ≠ [] := by
      intro h'
      simp [h', Lexer.eof] at heof
    rw [string_lit_loop_ext w _ _ le_rfl _ _ _ hl hl1]
    simp only [get_append _ w hl1, Lexer.eof]
    rw [if_neg (by simp [hget])]

theorem integer_loop_ext (w : Str) :
    ∀ (lx : Str) (acc v : Nat) (lx' : Str), Lexer.integer_loop lx acc = .ok (v, lx') → lx' ≠ [] →
      Lexer.integer_loop (lx ++ w) acc = .ok (v, lx' ++ w)
  | [], acc, v, lx', h, hne => by
    simp only [Lexer.integer_loop, Except.ok.injEq, Prod.mk.injEq] at h
    exact absurd h.2.symm hne
  | c :: lx, acc, v, lx', h, hne => by
    by_cases hc : isdigit c = true
    · simp only [Lexer.integer_loop, hc, if_true, List.cons_append] at h ⊢
      split_ifs at h ⊢
      exact integer_loop_ext w lx _ v lx' h hne
    · simp only [Lexer.integer_loop, hc, if_false, Bool.false_eq_true, Except.ok.injEq,
        Prod.mk.injEq, List.cons_append] at h ⊢
      obtain ⟨rfl, rfl⟩ := h
      exact ⟨rfl, rfl⟩

theorem integer_sign_ext (w : Str) (neg : Bool) (acc : Nat) (l1 : Str) (v : Int ⊕ Nat)
    (lx' : Str)
    (h : (if neg = true then
            if acc > 9223372036854775807 + 1 then
              (.error .ParseError : Except Error ((Int ⊕ Nat) × Lexer))
            else if acc = 9223372036854775807 + 1 then .ok (.inl INT64_MIN, l1)
            else .ok (.inl (-1 * (acc : Int)), l1)
          else .ok (.inr acc, l1)) = .ok (v, lx')) :
    lx' = l1 ∧
      (if neg = true then
            if acc > 9223372036854775807 + 1 then
              (.error .ParseError : Except Error ((Int ⊕ Nat) × Lexer))
            else if acc = 9223372036854775807 + 1 then .ok (.inl INT64_MIN, l1 ++ w)
            else .ok (.inl (-1 * (acc : Int)), l1 ++ w)
          else .ok (.inr acc, l1 ++ w)) = .ok (v, l1 ++ w) := by
  split_ifs at h ⊢ <;> simp only [Except.ok.injEq, Prod.mk.injEq, reduceCtorEq] at h ⊢ <;>
    exact ⟨h.2.symm, h.1, trivial⟩

theorem integer_ext (w lx : Str) (v : Int ⊕ Nat) (lx' : Str)
    (h : Lexer.integer lx = .ok (v, lx')) (hne : lx' ≠ []) :
    Lexer.integer (lx ++ w) = .ok (v, lx' ++ w) := by
  have h0 : Lexer.skip_ws lx ≠ [] := by
    intro h0
    simp [Lexer.integer, h0, Lexer.peek, Lexer.get, isdigit] at h
  obtain ⟨c, l, hl⟩ := List.exists_cons_of_ne_nil h0
  simp only [Lexer.integer, skip_ws_ext lx w h0, hl, List.cons_append, peek_cons,
    get_cons] at h ⊢
  by_cases hs : c = '+' ∨ c = '-'
  · simp only [if_pos hs] at h ⊢
    have hl0 : l ≠ [] := by
      rintro rfl
      simp [Lexer.peek, isdigit] at h
    rw [peek_append _ w hl0]
    by_cases hd : isdigit (Lexer.peek l) = true
    · rw [if_neg (not_not.mpr hd)] at h ⊢
      cases hloop : Lexer.integer_loop l 0 with
      | error e => simp [hloop] at h
      | ok r =>
        obtain ⟨acc, l1⟩ := r
        simp only [hloop] at h
        obtain ⟨rfl, h2⟩ := integer_sign_ext w _ acc l1 v lx' h
        rw [integer_loop_ext w l 0 acc _ hloop hne]
        exact h2
    · rw [if_pos hd] at h
      cases h
  · simp only [if_neg hs, peek_cons] at h ⊢
    by_cases hd : isdigit c = true
    · rw [if_neg (not_not.mpr hd)] at h ⊢
      cases hloop : Lexer.integer_loop (c :: l) 0 with
      | error e => simp [hloop] at h
      | ok r =>
        obtain ⟨acc, l1⟩ := r
        simp only [hloop] at h
        obtain ⟨rfl, h2⟩ := integer_sign_ext w _ acc l1 v lx' h
        have := integer_loop_ext w (c :: l) 0 acc _ hloop hne
        rw [List.cons_append] at this
        rw [this]
        exact h2
    · rw [if_pos hd] at h
      cases h

theorem struct_open_ext (w : Str) (c : Char) (l : Str) (name lx₁ : Str)
    (hl : l ≠ []) (h : RequestParser.struct_open c l = .ok (name, lx₁)) :
    RequestParser.struct_open c (l ++ w) = .ok (name, lx₁ ++ w) := by
  simp only [RequestParser.struct_open] at h ⊢
  by_cases hb : c = '\x7b'
  · rw [if_neg (not_not.mpr hb)] at h ⊢
    simp only [Except.ok.injEq, Prod.mk.injEq] at h ⊢
    rw [get_append _ w hl]
    exact ⟨h.1, by rw [← h.2]⟩
  · rw [if_pos hb] at h ⊢
    cases hid : Lexer.ident l with
    | error e => simp [hid] at h
    | ok r =>
      obtain ⟨n, a⟩ := r
      simp only [hid] at h
      cases hcons : Lexer.consume '\x7b' (Lexer.skip_ws a) with
      | mk b lx₂ =>
        rw [hcons] at h
        cases b with
        | false => simp at h
        | true =>
          simp only [Except.ok.injEq, Prod.mk.injEq] at h
          obtain ⟨rfl, rfl⟩ := h
          have h1 := consume_true _ _ _ (by decide) hcons
          rw [skip_ws_idem] at h1
          have ha : Lexer.skip_ws a ≠ [] := by rw [h1]; simp
          rw [ident_ext w l n a hid (ne_nil_of_skip_ws ha)]
          simp only [skip_ws_ext a w ha, consume_true_ext w _ _ _ (by decide) hcons]

theorem parse_value_input (fuel : Nat) (lx : Str) (v : Value) (lx' : Str)
    (h : RequestParser.parse_value fuel lx = some (.ok (v, lx'))) : Lexer.skip_ws lx ≠ [] := by
  intro h0
  cases fuel with
  | zero => simp [RequestParser.parse_value] at h
  | succ fuel =>
    simp [RequestParser.parse_value, h0, Lexer.peek, isalpha, Lexer.integer, Lexer.skip_ws,
      isdigit] at h

theorem parse_fields_input (fuel : Nat) (lx : Str) (fields fs : List (Str × Value)) (lx' : Str)
    (h : RequestParser.parse_fields fuel lx fields = some (.ok (fs, lx'))) :
    Lexer.skip_ws lx ≠ [] := by
  cases fuel with
  | zero => simp [RequestParser.parse_fields] at h
  | succ fuel =>
    simp only [RequestParser.parse_fields] at h
    cases hid : Lexer.ident lx with
    | error e => simp [hid] at h
    | ok r => exact ident_input lx r.1 r.2 hid

theorem parse_value_fields_ext (w : Str) (fuel : Nat) :
    (∀ (lx : Str) (v : Value) (lx' : Str),
      RequestParser.parse_value fuel lx = some (.ok (v, lx')) → lx' ≠ [] →
      RequestParser.parse_value fuel (lx ++ w) = some (.ok (v, lx' ++ w)))
    ∧ (∀ (lx : Str) (fields fs : List (Str × Value)) (lx' : Str),
      RequestParser.parse_fields fuel lx fields = some (.ok (fs, lx')) →
      RequestParser.parse_fields fuel (lx ++ w) fields = some (.ok (fs, lx' ++ w))) := by
  induction fuel with
  | zero =>
    exact ⟨fun lx v lx' h => by simp [RequestParser.parse_value] at h,
      fun lx fields fs lx' h => by simp [RequestParser.parse_fields] at h⟩
  | succ fuel ih =>
    obtain ⟨ihv, ihf⟩ := ih
    constructor
    · intro lx v lx' h hne
      have h0 := parse_value_input _ _ _ _ h
      obtain ⟨c, t, hl⟩ := List.exists_cons_of_ne_nil h0
      have hl' : Lexer.skip_ws (lx ++ w) = c :: (t ++ w) := by rw [skip_ws_ext lx w h0, hl]; rfl
      simp only [RequestParser.parse_value, hl, hl', peek_cons] at h ⊢
      by_cases hq : c = '"'
      · rw [if_pos hq] at h ⊢
        cases hs : Lexer.string_lit (c :: t) with
        | error e => simp [hs] at h
        | ok r =>
          obtain ⟨s, l1⟩ := r
          simp only [hs, Option.some.injEq, Except.ok.injEq, Prod.mk.injEq] at h
          obtain ⟨rfl, rfl⟩ := h
          have := string_lit_ext w _ _ _ hs
          rw [List.cons_append] at this
          simp only [this]
      · rw [if_neg hq] at h ⊢
        by_cases hb : c = '\x7b' ∨ isalpha c = true ∨ c = '_'
        · rw [if_pos hb] at h ⊢
          cases ho : RequestParser.struct_open c (c :: t) with
          | error e => simp [ho] at h
          | ok r =>
            obtain ⟨name, lx₁⟩ := r
            simp only [ho] at h
            have ho' := struct_open_ext w c (c :: t) name lx₁ (by simp) ho
            rw [List.cons_append] at ho'
            simp only [ho']
            cases hcons : Lexer.consume '\x7d' (Lexer.skip_ws lx₁) with
            | mk b lx₂ =>
              rw [hcons] at h
              cases b with
              | true =>
                simp only [Option.some.injEq, Except.ok.injEq, Prod.mk.injEq] at h
                obtain ⟨rfl, rfl⟩ := h
                have h1 := consume_true _ _ _ (by decide) hcons
                rw [skip_ws_idem] at h1
                have ha : Lexer.skip_ws lx₁ ≠ [] := by rw [h1]; simp
                simp only [skip_ws_ext lx₁ w ha, consume_true_ext w _ _ _ (by decide) hcons]
              | false =>
                simp only at h
                cases hf : RequestParser.parse_fields fuel lx₂ [] with
                | none => simp [hf] at h
                | some r =>
                  cases r with
                  | error e => simp [hf] at h
                  | ok r =>
                    obtain ⟨fs, lx₃⟩ := r
                    simp only [hf, Option.some.injEq, Except.ok.injEq, Prod.mk.injEq] at h
                    obtain ⟨rfl, rfl⟩ := h
                    have h2 := parse_fields_input _ _ _ _ _ hf
                    have hlx₂ := ne_nil_of_skip_ws h2
                    obtain ⟨h3, -⟩ := consume_false _ _ _ hcons
                    rw [skip_ws_idem] at h3
                    have ha : Lexer.skip_ws lx₁ ≠ [] := by rw [← h3]; exact hlx₂
                    simp only [skip_ws_ext lx₁ w ha, consume_false_ext w _ _ _ hcons hlx₂,
                      ihf _ _ _ _ hf]
        · rw [if_neg hb] at h ⊢
          cases hi : Lexer.integer (c :: t) with
          | error e => simp [hi] at h
          | ok r =>
            obtain ⟨n, l1⟩ := r
            have hl1 : l1 = lx' := by
              cases n <;> simp only [hi, Option.some.injEq, Except.ok.injEq, Prod.mk.injEq] at h <;>
                exact h.2
            subst hl1
            have := integer_ext w _ _ _ hi hne
            rw [List.cons_append] at this
            rw [this]
            cases n <;> simp only [hi, Option.some.injEq, Except.ok.injEq, Prod.mk.injEq] at h ⊢ <;>
              exact ⟨h.1, trivial⟩
    · intro lx fields fs lx' h
      simp only [RequestParser.parse_fields] at h ⊢
      cases hid : Lexer.ident lx with
      | error e => simp [hid] at h
      | ok r =>
        obtain ⟨fname, lx₁⟩ := r
        simp only [hid] at h
        cases hex : Lexer.except '=' lx₁ with
        | error e => simp [hex] at h
        | ok lx₂ =>
          simp only [hex] at h
          have hlx₁ : lx₁ ≠ [] := by
            have := except_ok _ _ _ (by decide) hex
            exact ne_nil_of_skip_ws (by rw [this]; simp)
          rw [ident_ext w lx fname lx₁ hid hlx₁]
          simp only [except_ext w _ _ _ (by decide) hex]
          cases hv : RequestParser.parse_value fuel lx₂ with
          | none => simp [hv] at h
          | some r =>
            cases r with
            | error e => simp [hv] at h
            | ok r =>
              obtain ⟨fval, lx₃⟩ := r
              simp only [hv] at h
              by_cases hdup : (map_find fname fields).isSome = true
              · simp [hdup] at h
              · rw [if_neg hdup] at h
                cases hcons : Lexer.consume '\x7d' (Lexer.skip_ws lx₃) with
                | mk b lx₄ =>
                  rw [hcons] at h
                  cases b with
                  | true =>
                    simp only [Option.some.injEq, Except.ok.injEq, Prod.mk.injEq] at h
                    obtain ⟨rfl, rfl⟩ := h
                    have h1 := consume_true _ _ _ (by decide) hcons
                    rw [skip_ws_idem] at h1
                    have ha : Lexer.skip_ws lx₃ ≠ [] := by rw [h1]; simp
                    rw [ihv _ _ _ hv (ne_nil_of_skip_ws ha)]
                    simp only [if_neg hdup, skip_ws_ext lx₃ w ha,
                      consume_true_ext w _ _ _ (by decide) hcons]
                  | false =>
                    simp only at h
                    cases hex2 : Lexer.except ',' lx₄ with
                    | error e => simp [hex2] at h
                    | ok lx₅ =>
                      simp only [hex2] at h
                      have h4 := except_ok _ _ _ (by decide) hex2
                      have hlx₄ : lx₄ ≠ [] := ne_nil_of_skip_ws (by rw [h4]; simp)
                      obtain ⟨h3, -⟩ := consume_false _ _ _ hcons
                      rw [skip_ws_idem] at h3
                      have ha : Lexer.skip_ws lx₃ ≠ [] := by rw [← h3]; exact hlx₄
                      have h5 := parse_fields_input _ _ _ _ _ h
                      rw [skip_ws_idem] at h5
                      rw [ihv _ _ _ hv (ne_nil_of_skip_ws ha)]
                      simp only [if_neg hdup, skip_ws_ext lx₃ w ha,
                        consume_false_ext w _ _ _ hcons hlx₄,
                        except_ext w _ _ _ (by decide) hex2, skip_ws_ext lx₅ w h5]
                      exact ihf _ _ _ _ h

/-! ### A larger recursion bound gives the same result -/

theorem parse_value_fields_mono (fuel : Nat) :
    (∀ (lx : Str) (r : Except Error (Value × Lexer)),
      RequestParser.parse_value fuel lx = some r →
      RequestParser.parse_value (fuel + 1) lx = some r)
    ∧ (∀ (lx : Str) (fields : List (Str × Value)) (r : Except Error (List (Str × Value) × Lexer)),
      RequestParser.parse_fields fuel lx fields = some r →
      RequestParser.parse_fields (fuel + 1) lx fields = some r) := by
  induction fuel with
  | zero =>
    exact ⟨fun lx r h => by simp [RequestParser.parse_value] at h,
      fun lx fields r h => by simp [RequestParser.parse_fields] at h⟩
  | succ fuel ih =>
    obtain ⟨ihv, ihf⟩ := ih
    constructor
    · intro lx r h
      rw [RequestParser.parse_value] at h ⊢
      try simp only at h ⊢
      split_ifs at h ⊢ with hq hb
      · exact h
      · cases ho : RequestParser.struct_open (Lexer.peek (Lexer.skip_ws lx)) (Lexer.skip_ws lx) with
        | error e => simpa [ho] using h
        | ok p =>
          obtain ⟨name, lx₁⟩ := p
          simp only [ho] at h ⊢
          cases hcons : Lexer.consume '\x7d' (Lexer.skip_ws lx₁) with
          | mk b lx₂ =>
            rw [hcons] at h
            cases b with
            | true => exact h
            | false =>
              try simp only at h ⊢
              cases hf : RequestParser.parse_fields fuel lx₂ [] with
              | none => simp [hf] at h
              | some x =>
                rw [ihf _ _ _ hf]
                simpa [hf] using h
      · exact h
    · intro lx fields r h
      rw [RequestParser.parse_fields] at h ⊢
      cases hid : Lexer.ident lx with
      | error e => simpa [hid] using h
      | ok p =>
        obtain ⟨fname, lx₁⟩ := p
        simp only [hid] at h ⊢
        cases hex : Lexer.except '=' lx₁ with
        | error e => simpa [hex] using h
        | ok lx₂ =>
          simp only [hex] at h ⊢
          cases hv : RequestParser.parse_value fuel lx₂ with
          | none => simp [hv] at h
          | some x =>
            rw [ihv _ _ hv]
            rw [hv] at h
            cases x with
            | error e => exact h
            | ok q =>
              obtain ⟨fval, lx₃⟩ := q
              try simp only at h ⊢
              split_ifs at h ⊢ with hdup
              · exact h
              · cases hcons : Lexer.consume '\x7d' (Lexer.skip_ws lx₃) with
                | mk b lx₄ =>
                  rw [hcons] at h
                  cases b with
                  | true => exact h
                  | false =>
                    try simp only at h ⊢
                    cases hex2 : Lexer.except ',' lx₄ with
                    | error e => simpa [hex2] using h
                    | ok lx₅ =>
                      simp only [hex2] at h ⊢
                      exact ihf _ _ _ h

theorem parse_value_mono (fuel k : Nat) (lx : Str) (r : Except Error (Value × Lexer))
    (h : RequestParser.parse_value fuel lx = some r) :
    RequestParser.parse_value (fuel + k) lx = some r := by
  induction k with
  | zero => exact h
  | succ k ih => exact (parse_value_fields_mono (fuel + k)).1 lx r ih

theorem parse_args_mono (fuel : Nat) :
    ∀ (lx : Str) (args : List NamedArg) (r : Except Error (List NamedArg × Lexer)),
      RequestParser.parse_args fuel lx args = some r →
      RequestParser.parse_args (fuel + 1) lx args = some r := by
  induction fuel with
  | zero => exact fun lx args r h => by simp [RequestParser.parse_args] at h
  | succ fuel ih =>
    intro lx args r h
    rw [RequestParser.parse_args] at h ⊢
    cases hid : Lexer.ident lx with
    | error e => simpa [hid] using h
    | ok p =>
      obtain ⟨fname, lx₁⟩ := p
      simp only [hid] at h ⊢
      cases hex : Lexer.except '=' lx₁ with
      | error e => simpa [hex] using h
      | ok lx₂ =>
        simp only [hex] at h ⊢
        cases hv : RequestParser.parse_value fuel lx₂ with
        | none => simp [hv] at h
        | some x =>
          rw [(parse_value_fields_mono fuel).1 _ _ hv]
          rw [hv] at h
          cases x with
          | error e => exact h
          | ok q =>
            obtain ⟨fval, lx₃⟩ := q
            try simp only at h ⊢
            cases hcons : Lexer.consume ')' (Lexer.skip_ws lx₃) with
            | mk b lx₄ =>
              rw [hcons] at h
              cases b with
              | true => exact h
              | false =>
                try simp only at h ⊢
                cases hex2 : Lexer.except ',' lx₄ with
                | error e => simpa [hex2] using h
                | ok lx₅ =>
                  simp only [hex2] at h ⊢
                  exact ih _ _ _ h

theorem parse_bounded_mono (fuel k : Nat) (s : Str) (r : Except Error Call)
    (h : RequestParser.parse_bounded fuel s = some r) :
    RequestParser.parse_bounded (fuel + k) s = some r := by
  induction k with
  | zero => exact h
  | succ k ih =>
    simp only [RequestParser.parse_bounded] at ih ⊢
    cases hid : Lexer.ident s with
    | error e => simpa [hid] using ih
    | ok p =>
      obtain ⟨fname, lx₁⟩ := p
      simp only [hid] at ih ⊢
      cases hex : Lexer.except '(' lx₁ with
      | error e => simpa [hex] using ih
      | ok lx₂ =>
        simp only [hex] at ih ⊢
        cases hcons : Lexer.consume ')' (Lexer.skip_ws lx₂) with
        | mk b lx₃ =>
          rw [hcons] at ih
          cases b with
          | true => exact ih
          | false =>
            try simp only at ih ⊢
            cases ha : RequestParser.parse_args (fuel + k) lx₃ [] with
            | none => simp [ha] at ih
            | some x =>
              rw [show fuel + (k + 1) = fuel + k + 1 from rfl, parse_args_mono _ _ _ _ ha]
              simpa [ha] using ih

theorem parse_args_input (fuel : Nat) (lx : Str) (args as : List NamedArg) (lx' : Str)
    (h : RequestParser.parse_args fuel lx args = some (.ok (as, lx'))) :
    Lexer.skip_ws lx ≠ [] := by
  cases fuel with
  | zero => simp [RequestParser.parse_args] at h
  | succ fuel =>
    simp only [RequestParser.parse_args] at h
    cases hid : Lexer.ident lx with
    | error e => simp [hid] at h
    | ok r => exact ident_input lx r.1 r.2 hid

theorem parse_args_ext (w : Str) (fuel : Nat) :
    ∀ (lx : Str) (args as : List NamedArg) (lx' : Str),
      RequestParser.parse_args fuel lx args = some (.ok (as, lx')) →
      RequestParser.parse_args fuel (lx ++ w) args = some (.ok (as, lx' ++ w)) := by
  induction fuel with
  | zero => exact fun lx args as lx' h => by simp [RequestParser.parse_args] at h
  | succ fuel ih =>
    intro lx args as lx' h
    simp only [RequestParser.parse_args] at h ⊢
    cases hid : Lexer.ident lx with
    | error e => simp [hid] at h
    | ok r =>
      obtain ⟨fname, lx₁⟩ := r
      simp only [hid] at h
      cases hex : Lexer.except '=' lx₁ with
      | error e => simp [hex] at h
      | ok lx₂ =>
        simp only [hex] at h
        have hlx₁ : lx₁ ≠ [] := by
          have := except_ok _ _ _ (by decide) hex
          exact ne_nil_of_skip_ws (by rw [this]; simp)
        rw [ident_ext w lx fname lx₁ hid hlx₁]
        simp only [except_ext w _ _ _ (by decide) hex]
        cases hv : RequestParser.parse_value fuel lx₂ with
        | none => simp [hv] at h
        | some r =>
          cases r with
          | error e => simp [hv] at h
          | ok r =>
            obtain ⟨fval, lx₃⟩ := r
            simp only [hv] at h
            cases hcons : Lexer.consume ')' (Lexer.skip_ws lx₃) with
            | mk b lx₄ =>
              rw [hcons] at h
              cases b with
              | true =>
                simp only [Option.some.injEq, Except.ok.injEq, Prod.mk.injEq] at h
                obtain ⟨rfl, rfl⟩ := h
                have h1 := consume_true _ _ _ (by decide) hcons
                rw [skip_ws_idem] at h1
                have ha : Lexer.skip_ws lx₃ ≠ [] := by rw [h1]; simp
                rw [(parse_value_fields_ext w fuel).1 _ _ _ hv (ne_nil_of_skip_ws ha)]
                simp only [skip_ws_ext lx₃ w ha, consume_true_ext w _ _ _ (by decide) hcons]
              | false =>
                try simp only at h
                cases hex2 : Lexer.except ',' lx₄ with
                | error e => simp [hex2] at h
                | ok lx₅ =>
                  simp only [hex2] at h
                  have h4 := except_ok _ _ _ (by decide) hex2
                  have hlx₄ : lx₄ ≠ [] := ne_nil_of_skip_ws (by rw [h4]; simp)
                  obtain ⟨h3, -⟩ := consume_false _ _ _ hcons
                  rw [skip_ws_idem] at h3
                  have ha : Lexer.skip_ws lx₃ ≠ [] := by rw [← h3]; exact hlx₄
                  have h5 := parse_args_input _ _ _ _ _ h
                  rw [skip_ws_idem, skip_ws_idem] at h5
                  rw [(parse_value_fields_ext w fuel).1 _ _ _ hv (ne_nil_of_skip_ws ha)]
                  simp only [skip_ws_ext lx₃ w ha, consume_false_ext w _ _ _ hcons hlx₄,
                    except_ext w _ _ _ (by decide) hex2, skip_ws_ext lx₅ w h5, skip_ws_idem]
                  have := ih _ _ _ _ h
                  rw [skip_ws_idem] at this
                  rw [← skip_ws_ext lx₅ w h5, ← skip_ws_idem (lx₅ ++ w)] at this ⊢
                  simpa [skip_ws_idem, skip_ws_ext lx₅ w h5] using this

theorem skip_ws_eq_nil_iff (w : Str) : Lexer.skip_ws w = [] ↔ all_space w := by
  induction w with
  | nil => simp [Lexer.skip_ws, all_space]
  | cons c w ih =>
    by_cases hc : isspace c = true
    · simp only [Lexer.skip_ws, hc, if_true, ih, all_space, List.mem_cons, forall_eq_or_imp,
        true_and]
    · simp only [Lexer.skip_ws, hc, if_false, Bool.false_eq_true, all_space, List.mem_cons,
        forall_eq_or_imp, false_and, reduceCtorEq]

theorem parse_bounded_ext (fuel : Nat) (t : Str) (call : Call)
    (h : RequestParser.parse_bounded fuel t = some (.ok call)) (w : Str) :
    RequestParser.parse_bounded fuel (t ++ w) =
      some (if Lexer.skip_ws w = [] then .ok call else .error .ParseError) := by
  simp only [RequestParser.parse_bounded] at h ⊢
  cases hid : Lexer.ident t with
  | error e => simp [hid] at h
  | ok r =>
    obtain ⟨fname, lx₁⟩ := r
    simp only [hid] at h
    cases hex : Lexer.except '(' lx₁ with
    | error e => simp [hex] at h
    | ok lx₂ =>
      simp only [hex] at h
      have hlx₁ : lx₁ ≠ [] := by
        have := except_ok _ _ _ (by decide) hex
        exact ne_nil_of_skip_ws (by rw [this]; simp)
      rw [ident_ext w t fname lx₁ hid hlx₁]
      simp only [except_ext w _ _ _ (by decide) hex]
      have key : ∀ (args : List NamedArg) (lx₄ : Str),
          (if ¬ (Lexer.eof (Lexer.skip_ws lx₄)) = true then some (Except.error Error.ParseError)
            else some (Except.ok (⟨fname, args⟩ : Call))) = some (Except.ok call) →
          (if ¬ (Lexer.eof (Lexer.skip_ws (lx₄ ++ w))) = true then
              some (Except.error Error.ParseError)
            else some (Except.ok (⟨fname, args⟩ : Call)))
            = some (if Lexer.skip_ws w = [] then .ok call else .error .ParseError) := by
        intro args lx₄ h
        by_cases heof : ¬ (Lexer.eof (Lexer.skip_ws lx₄)) = true
        · rw [if_pos heof] at h
          cases h
        rw [if_neg heof] at h
        simp only [Option.some.injEq, Except.ok.injEq] at h
        subst h
        have hnil : Lexer.skip_ws lx₄ = [] := by
          simpa [Lexer.eof] using heof
        rw [skip_ws_append lx₄ w ((skip_ws_eq_nil_iff _).mp hnil)]
        by_cases hw : Lexer.skip_ws w = []
        · simp [hw, Lexer.eof]
        · simp [hw, Lexer.eof]
      cases hcons : Lexer.consume ')' (Lexer.skip_ws lx₂) with
      | mk b lx₃ =>
        rw [hcons] at h
        cases b with
        | true =>
          try simp only at h
          have h1 := consume_true _ _ _ (by decide) hcons
          rw [skip_ws_idem] at h1
          have ha : Lexer.skip_ws lx₂ ≠ [] := by rw [h1]; simp
          simp only [skip_ws_ext lx₂ w ha, consume_true_ext w _ _ _ (by decide) hcons]
          exact key _ _ h
        | false =>
          try simp only at h
          cases hargs : RequestParser.parse_args fuel lx₃ [] with
          | none => simp [hargs] at h
          | some r =>
            cases r with
            | error e => simp [hargs] at h
            | ok r =>
              obtain ⟨args, lx₄⟩ := r
              simp only [hargs] at h
              have h5 := parse_args_input _ _ _ _ _ hargs
              have hlx₃ := ne_nil_of_skip_ws h5
              obtain ⟨h3, -⟩ := consume_false _ _ _ hcons
              rw [skip_ws_idem] at h3
              have ha : Lexer.skip_ws lx₂ ≠ [] := by rw [← h3]; exact hlx₃
              simp only [skip_ws_ext lx₂ w ha, consume_false_ext w _ _ _ hcons hlx₃,
                parse_args_ext w fuel _ _ _ _ hargs]
              exact key _ _ h

/-- C18: when `RequestParser::parse` accepts a call text `t`, then for every string
`w` the text `t ++ w` gives the same `Call` if `w` consists only of white space, and
fails with `ParseError` if `w` contains a character that is not white space. -/
theorem parse_trailing_characters (t : Str) (call : Call)
    (h : RequestParser.parse t = some (.ok call)) (w : Str) :
    (all_space w → RequestParser.parse (t ++ w) = some (.ok call))
    ∧ (¬ all_space w → RequestParser.parse (t ++ w) = some (.error .ParseError)) := by
  have h1 : RequestParser.parse_bounded ((t ++ w).length + 1) t = some (.ok call) := by
    have := parse_bounded_mono (t.length + 1) w.length t _ h
    rw [List.length_append]
    rw [show t.length + w.length + 1 = t.length + 1 + w.length by omega]
    exact this
  have h2 := parse_bounded_ext _ t call h1 w
  constructor
  · intro hw
    rw [RequestParser.parse, h2, if_pos ((skip_ws_eq_nil_iff w).mpr hw)]
  · intro hw
    rw [RequestParser.parse, h2, if_neg (fun h' => hw ((skip_ws_eq_nil_iff w).mp h'))]

theorem parse_trailing_characters_witness :
    RequestParser.parse ("f(a=1)".toList ++ " \t".toList)
        = some (.ok ⟨"f".toList, [("a".toList, .uint 1)]⟩)
    ∧ RequestParser.parse ("f(a=1)".toList ++ " x".toList) = some (.error .ParseError) := by
  have h := parse_trailing_characters "f(a=1)".toList ⟨"f".toList, [("a".toList, .uint 1)]⟩ rfl
  refine ⟨(h " \t".toList).1 (by decide), (h " x".toList).2 (by decide)⟩

/-! ### Reading a buffer and a longer buffer -/

theorem Cursor.get8_widen (extra : List Byte) (c : Cursor) (hc : c.n ≤ c.p.length) :
    (∀ b c', c.get8 = .ok (b, c') →
      (c.widen extra).get8 = .ok (b, c'.widen extra) ∧ c'.p = c.p ∧ c'.n = c.n)
    ∧ (∀ e, c.get8 = .error e → e = .DeserError) := by
  constructor
  · intro b c' h
    simp only [Cursor.get8] at h
    split_ifs at h with hi
    simp only [Except.ok.injEq, Prod.mk.injEq] at h
    obtain ⟨rfl, rfl⟩ := h
    have hlt : c.i < c.p.length := by omega
    refine ⟨?_, rfl, rfl⟩
    simp only [Cursor.get8, Cursor.widen]
    rw [if_neg (by omega)]
    simp only [List.getD_eq_getElem?_getD, List.getElem?_append_left hlt]
  · intro e h
    simp only [Cursor.get8] at h
    split_ifs at h
    simp only [Except.error.injEq] at h
    exact h.symm

theorem Cursor.get_be_loop_widen (extra : List Byte) (size : Nat) :
    ∀ (k v : Nat) (c : Cursor), c.n ≤ c.p.length →
      (∀ r c', Cursor.get_be_loop size k v c = .ok (r, c') →
        Cursor.get_be_loop size k v (c.widen extra) = .ok (r, c'.widen extra)
          ∧ c'.p = c.p ∧ c'.n = c.n)
      ∧ (∀ e, Cursor.get_be_loop size k v c = .error e → e = .DeserError)
  | 0, v, c, _ => by
    constructor
    · intro r c' h
      simp only [Cursor.get_be_loop, Except.ok.injEq, Prod.mk.injEq] at h ⊢
      obtain ⟨rfl, rfl⟩ := h
      exact ⟨⟨rfl, rfl⟩, rfl, rfl⟩
    · intro e h
      simp [Cursor.get_be_loop] at h
  | k + 1, v, c, hc => by
    obtain ⟨hok, herr⟩ := Cursor.get8_widen extra c hc
    cases h8 : c.get8 with
    | error e =>
      constructor
      · intro r c' h
        simp [Cursor.get_be_loop, h8] at h
      · intro e' h
        simp only [Cursor.get_be_loop, h8, Except.error.injEq] at h
        rw [← h]
        exact herr e h8
    | ok p =>
      obtain ⟨b, c₁⟩ := p
      obtain ⟨hw, hp, hn⟩ := hok b c₁ h8
      obtain ⟨ihok, iherr⟩ := Cursor.get_be_loop_widen extra size k
        (((v <<< 8) ||| b) % 2 ^ (8 * size)) c₁ (by rw [hp, hn]; exact hc)
      constructor
      · intro r c' h
        simp only [Cursor.get_be_loop, h8] at h
        obtain ⟨h1, h2, h3⟩ := ihok r c' h
        simp only [Cursor.get_be_loop, hw]
        exact ⟨h1, h2.trans hp, h3.trans hn⟩
      · intro e h
        simp only [Cursor.get_be_loop, h8] at h
        exact iherr e h

theorem Cursor.get_be_widen (extra : List Byte) (signed : Bool) (size : Nat) (c : Cursor)
    (hc : c.n ≤ c.p.length) :
    (∀ r c', c.get_be signed size = .ok (r, c') →
      (c.widen extra).get_be signed size = .ok (r, c'.widen extra) ∧ c'.p = c.p ∧ c'.n = c.n)
    ∧ (∀ e, c.get_be signed size = .error e → e = .DeserError) := by
  obtain ⟨hok, herr⟩ := Cursor.get_be_loop_widen extra size size 0 c hc
  cases hl : Cursor.get_be_loop size size 0 c with
  | error e =>
    constructor
    · intro r c' h
      simp [Cursor.get_be, hl] at h
    · intro e' h
      simp only [Cursor.get_be, hl, Except.error.injEq] at h
      rw [← h]
      exact herr e hl
  | ok p =>
    obtain ⟨v, c₁⟩ := p
    obtain ⟨hw, hp, hn⟩ := hok v c₁ hl
    constructor
    · intro r c' h
      simp only [Cursor.get_be, hl, Except.ok.injEq, Prod.mk.injEq] at h
      obtain ⟨rfl, rfl⟩ := h
      simp only [Cursor.get_be, hw]
      exact ⟨trivial, hp, hn⟩
    · intro e h
      simp [Cursor.get_be, hl] at h

theorem Cursor.get_string_loop_widen (extra : List Byte) :
    ∀ (k : Nat) (s : Str) (c : Cursor), c.n ≤ c.p.length →
      (∀ r c', Cursor.get_string_loop k s c = .ok (r, c') →
        Cursor.get_string_loop k s (c.widen extra) = .ok (r, c'.widen extra)
          ∧ c'.p = c.p ∧ c'.n = c.n)
      ∧ (∀ e, Cursor.get_string_loop k s c = .error e → e = .DeserError)
  | 0, s, c, _ => by
    constructor
    · intro r c' h
      simp only [Cursor.get_string_loop, Except.ok.injEq, Prod.mk.injEq] at h ⊢
      obtain ⟨rfl, rfl⟩ := h
      exact ⟨⟨rfl, rfl⟩, rfl, rfl⟩
    · intro e h
      simp [Cursor.get_string_loop] at h
  | k + 1, s, c, hc => by
    obtain ⟨hok, herr⟩ := Cursor.get8_widen extra c hc
    cases h8 : c.get8 with
    | error e =>
      constructor
      · intro r c' h
        simp [Cursor.get_string_loop, h8] at h
      · intro e' h
        simp only [Cursor.get_string_loop, h8, Except.error.injEq] at h
        rw [← h]
        exact herr e h8
    | ok p =>
      obtain ⟨b, c₁⟩ := p
      obtain ⟨hw, hp, hn⟩ := hok b c₁ h8
      obtain ⟨ihok, iherr⟩ := Cursor.get_string_loop_widen extra k
        (s ++ [Char.ofNat b]) c₁ (by rw [hp, hn]; exact hc)
      constructor
      · intro r c' h
        simp only [Cursor.get_string_loop, h8] at h
        obtain ⟨h1, h2, h3⟩ := ihok r c' h
        simp only [Cursor.get_string_loop, hw]
        exact ⟨h1, h2.trans hp, h3.trans hn⟩
      · intro e h
        simp only [Cursor.get_string_loop, h8] at h
        exact iherr e h

theorem Cursor.get_string_widen (extra : List Byte) (c : Cursor) (hc : c.n ≤ c.p.length) :
    (∀ r c', c.get_string = .ok (r, c') →
      (c.widen extra).get_string = .ok (r, c'.widen extra) ∧ c'.p = c.p ∧ c'.n = c.n)
    ∧ (∀ e, c.get_string = .error e → e = .DeserError) := by
  obtain ⟨hok, herr⟩ := Cursor.get_be_widen extra false 4 c hc
  cases hl : c.get_be false 4 with
  | error e =>
    constructor
    · intro r c' h
      simp [Cursor.get_string, hl] at h
    · intro e' h
      simp only [Cursor.get_string, hl, Except.error.injEq] at h
      rw [← h]
      exact herr e hl
  | ok p =>
    obtain ⟨len, c₁⟩ := p
    obtain ⟨hw, hp, hn⟩ := hok len c₁ hl
    obtain ⟨ihok, iherr⟩ := Cursor.get_string_loop_widen extra len.toNat [] c₁
      (by rw [hp, hn]; exact hc)
    constructor
    · intro r c' h
      simp only [Cursor.get_string, hl] at h
      obtain ⟨h1, h2, h3⟩ := ihok r c' h
      simp only [Cursor.get_string, hw]
      exact ⟨h1, h2.trans hp, h3.trans hn⟩
    · intro e h
      simp only [Cursor.get_string, hl] at h
      exact iherr e h

theorem read_builtin_widen (extra : List Byte) (b : Builtin) (out : Str) (c : Cursor)
    (hc : c.n ≤ c.p.length) :
    (∀ c' o, read_builtin c b out = .ok (c', o) →
      read_builtin (c.widen extra) b out = .ok (c'.widen extra, o) ∧ c'.p = c.p ∧ c'.n = c.n)
    ∧ (∀ e, read_builtin c b out = .error e → e = .DeserError) := by
  cases b with
  | String =>
    obtain ⟨hok, herr⟩ := Cursor.get_string_widen extra c hc
    cases hl : c.get_string with
    | error e =>
      exact ⟨fun c' o h => by simp [read_builtin, hl] at h, fun e' h => by
        simp only [read_builtin, hl, Except.error.injEq] at h
        rw [← h]
        exact herr e hl⟩
    | ok p =>
      obtain ⟨s, c₁⟩ := p
      obtain ⟨hw, hp, hn⟩ := hok s c₁ hl
      refine ⟨fun c' o h => ?_, fun e h => by simp [read_builtin, hl] at h⟩
      simp only [read_builtin, hl, Except.ok.injEq, Prod.mk.injEq] at h
      obtain ⟨rfl, rfl⟩ := h
      simp only [read_builtin, hw]
      exact ⟨trivial, hp, hn⟩
  | Int32 =>
    obtain ⟨hok, herr⟩ := Cursor.get_be_widen extra true 4 c hc
    cases hl : c.get_be true 4 with
    | error e =>
      exact ⟨fun c' o h => by simp [read_builtin, hl] at h, fun e' h => by
        simp only [read_builtin, hl, Except.error.injEq] at h
        rw [← h]
        exact herr e hl⟩
    | ok p =>
      obtain ⟨s, c₁⟩ := p
      obtain ⟨hw, hp, hn⟩ := hok s c₁ hl
      refine ⟨fun c' o h => ?_, fun e h => by simp [read_builtin, hl] at h⟩
      simp only [read_builtin, hl, Except.ok.injEq, Prod.mk.injEq] at h
      obtain ⟨rfl, rfl⟩ := h
      simp only [read_builtin, hw]
      exact ⟨trivial, hp, hn⟩
  | Int64 =>
    obtain ⟨hok, herr⟩ := Cursor.get_be_widen extra true 8 c hc
    cases hl : c.get_be true 8 with
    | error e =>
      exact ⟨fun c' o h => by simp [read_builtin, hl] at h, fun e' h => by
        simp only [read_builtin, hl, Except.error.injEq] at h
        rw [← h]
        exact herr e hl⟩
    | ok p =>
      obtain ⟨s, c₁⟩ := p
      obtain ⟨hw, hp, hn⟩ := hok s c₁ hl
      refine ⟨fun c' o h => ?_, fun e h => by simp [read_builtin, hl] at h⟩
      simp only [read_builtin, hl, Except.ok.injEq, Prod.mk.injEq] at h
      obtain ⟨rfl, rfl⟩ := h
      simp only [read_builtin, hw]
      exact ⟨trivial, hp, hn⟩
  | Uint32 =>
    obtain ⟨hok, herr⟩ := Cursor.get_be_widen extra false 4 c hc
    cases hl : c.get_be false 4 with
    | error e =>
      exact ⟨fun c' o h => by simp [read_builtin, hl] at h, fun e' h => by
        simp only [read_builtin, hl, Except.error.injEq] at h
        rw [← h]
        exact herr e hl⟩
    | ok p =>
      obtain ⟨s, c₁⟩ := p
      obtain ⟨hw, hp, hn⟩ := hok s c₁ hl
      refine ⟨fun c' o h => ?_, fun e h => by simp [read_builtin, hl] at h⟩
      simp only [read_builtin, hl, Except.ok.injEq, Prod.mk.injEq] at h
      obtain ⟨rfl, rfl⟩ := h
      simp only [read_builtin, hw]
      exact ⟨trivial, hp, hn⟩
  | Uint64 =>
    obtain ⟨hok, herr⟩ := Cursor.get_be_widen extra false 8 c hc
    cases hl : c.get_be false 8 with
    | error e =>
      exact ⟨fun c' o h => by simp [read_builtin, hl] at h, fun e' h => by
        simp only [read_builtin, hl, Except.error.injEq] at h
        rw [← h]
        exact herr e hl⟩
    | ok p =>
      obtain ⟨s, c₁⟩ := p
      obtain ⟨hw, hp, hn⟩ := hok s c₁ hl
      refine ⟨fun c' o h => ?_, fun e h => by simp [read_builtin, hl] at h⟩
      simp only [read_builtin, hl, Except.ok.injEq, Prod.mk.injEq] at h
      obtain ⟨rfl, rfl⟩ := h
      simp only [read_builtin, hw]
      exact ⟨trivial, hp, hn⟩

/-- The loop of `read_struct` on a buffer and on the same buffer extended by `extra`:
a bound reached stays reached, a success is the same success, and a failure on the
shorter buffer is a `DeserError`. -/
theorem read_fields_widen (extra : List Byte)
    (rv rv' : Cursor → Ty → Str → Option (Except Error (Cursor × Str)))
    (hrv : ∀ (c : Cursor) (t : Ty) (out : Str), c.n ≤ c.p.length →
      (rv c t out = none → rv' (c.widen extra) t out = none)
      ∧ (∀ c' o, rv c t out = some (.ok (c', o)) →
          rv' (c.widen extra) t out = some (.ok (c'.widen extra, o)) ∧ c'.p = c.p ∧ c'.n = c.n)
      ∧ (∀ e, rv c t out = some (.error e) → e = .DeserError)) :
    ∀ (fields : List Field) (first : Bool) (c : Cursor) (out : Str), c.n ≤ c.p.length →
      (read_fields rv fields first c out = none →
        read_fields rv' fields first (c.widen extra) out = none)
      ∧ (∀ c' o, read_fields rv fields first c out = some (.ok (c', o)) →
          read_fields rv' fields first (c.widen extra) out = some (.ok (c'.widen extra, o))
            ∧ c'.p = c.p ∧ c'.n = c.n)
      ∧ (∀ e, read_fields rv fields first c out = some (.error e) → e = .DeserError)
  | [], first, c, out, _ => by
    refine ⟨fun h => by simp [read_fields] at h, fun c' o h => ?_, fun e h => by
      simp [read_fields] at h⟩
    simp only [read_fields, Option.some.injEq, Except.ok.injEq, Prod.mk.injEq] at h ⊢
    obtain ⟨rfl, rfl⟩ := h
    exact ⟨⟨rfl, rfl⟩, rfl, rfl⟩
  | f :: rest, first, c, out, hc => by
    obtain ⟨hnone, hok, herr⟩ :=
      hrv c f.type ((if first = true then out else out ++ ", ".toList) ++ f.name ++ "=".toList) hc
    cases h1 : rv c f.type
        ((if first = true then out else out ++ ", ".toList) ++ f.name ++ "=".toList) with
    | none =>
      refine ⟨fun _ => ?_, fun c' o h => ?_, fun e h => ?_⟩
      · simp only [read_fields, hnone h1]
      · simp only [read_fields, h1, Option.some.injEq, reduceCtorEq] at h
      · simp only [read_fields, h1, Option.some.injEq, reduceCtorEq] at h
    | some r =>
      cases r with
      | error e =>
        refine ⟨fun h => ?_, fun c' o h => ?_, fun e' h => ?_⟩
        · simp only [read_fields, h1, Option.some.injEq, reduceCtorEq] at h
        · simp only [read_fields, h1, Option.some.injEq, reduceCtorEq] at h
        · simp only [read_fields, h1, Option.some.injEq, Except.error.injEq] at h
          rw [← h]
          exact herr e h1
      | ok p =>
        obtain ⟨c₁, o₁⟩ := p
        obtain ⟨hw, hp, hn⟩ := hok c₁ o₁ h1
        obtain ⟨ihnone, ihok, iherr⟩ := read_fields_widen extra rv rv' hrv rest false c₁ o₁
          (by rw [hp, hn]; exact hc)
        refine ⟨fun h => ?_, fun c' o h => ?_, fun e h => ?_⟩
        · simp only [read_fields, h1] at h
          simp only [read_fields, hw]
          exact ihnone h
        · simp only [read_fields, h1] at h
          obtain ⟨h2, h3, h4⟩ := ihok c' o h
          simp only [read_fields, hw]
          exact ⟨h2, h3.trans hp, h4.trans hn⟩
        · simp only [read_fields, h1] at h
          exact iherr e h

theorem read_value_widen (extra : List Byte) (sch : Schema) :
    ∀ (fuel : Nat) (c : Cursor) (t : Ty) (out : Str), c.n ≤ c.p.length →
      (read_value fuel c sch t out = none → read_value fuel (c.widen extra) sch t out = none)
      ∧ (∀ c' o, read_value fuel c sch t out = some (.ok (c', o)) →
          read_value fuel (c.widen extra) sch t out = some (.ok (c'.widen extra, o))
            ∧ c'.p = c.p ∧ c'.n = c.n)
      ∧ (∀ e, read_value fuel c sch t out = some (.error e) → e = .DeserError)
  | 0, c, t, out, _ => by
    refine ⟨fun _ => rfl, fun c' o h => by simp [read_value] at h, fun e h => by
      simp [read_value] at h⟩
  | fuel + 1, c, .builtin_of b, out, hc => by
    obtain ⟨hok, herr⟩ := read_builtin_widen extra b out c hc
    refine ⟨fun h => by simp [read_value] at h, fun c' o h => ?_, fun e h => ?_⟩
    · simp only [read_value, Option.some.injEq] at h ⊢
      exact hok c' o h
    · simp only [read_value, Option.some.injEq] at h
      exact herr e h
  | fuel + 1, c, .user_of user, out, hc => by
    cases hst : sch.find_struct user with
    | none =>
      refine ⟨fun h => by simp [read_value, hst] at h, fun c' o h => by
        simp [read_value, hst] at h, fun e h => ?_⟩
      simp only [read_value, hst, Option.some.injEq, Except.error.injEq] at h
      exact h.symm
    | some st =>
      obtain ⟨hnone, hok, herr⟩ := read_fields_widen extra
        (fun c' t' out' => read_value fuel c' sch t' out')
        (fun c' t' out' => read_value fuel c' sch t' out')
        (fun c' t' out' hc' => read_value_widen extra sch fuel c' t' out' hc')
        st.fields true c (out ++ st.name ++ "\x7b".toList) hc
      cases h1 : read_fields (fun c' t' out' => read_value fuel c' sch t' out') st.fields true c
          (out ++ st.name ++ "\x7b".toList) with
      | none =>
        refine ⟨fun _ => ?_, fun c' o h => ?_, fun e h => ?_⟩
        · simp only [read_value, hst, read_struct, hnone h1]
        · simp only [read_value, hst, read_struct, h1, Option.some.injEq, reduceCtorEq] at h
        · simp only [read_value, hst, read_struct, h1, Option.some.injEq, reduceCtorEq] at h
      | some r =>
        cases r with
        | error e =>
          refine ⟨fun h => ?_, fun c' o h => ?_, fun e' h => ?_⟩
          · simp only [read_value, hst, read_struct, h1, Option.some.injEq, reduceCtorEq] at h
          · simp only [read_value, hst, read_struct, h1, Option.some.injEq, reduceCtorEq] at h
          · simp only [read_value, hst, read_struct, h1, Option.some.injEq,
              Except.error.injEq] at h
            rw [← h]
            exact herr e h1
        | ok p =>
          obtain ⟨c₁, o₁⟩ := p
          obtain ⟨hw, hp, hn⟩ := hok c₁ o₁ h1
          refine ⟨fun h => ?_, fun c' o h => ?_, fun e h => ?_⟩
          · simp only [read_value, hst, read_struct, h1, Option.some.injEq, reduceCtorEq] at h
          · simp only [read_value, hst, read_struct, h1, Option.some.injEq, Except.ok.injEq,
              Prod.mk.injEq] at h
            obtain ⟨rfl, rfl⟩ := h
            simp only [read_value, hst, read_struct, hw]
            exact ⟨trivial, hp, hn⟩
          · simp only [read_value, hst, read_struct, h1, Option.some.injEq, reduceCtorEq] at h

theorem deserialize_ok_inv (fuel : Nat) (sch : Schema) (fn : Function)
    (bytes : List Byte) (out : Str)
    (h : deserialize_response_to_string fuel sch fn bytes = some (.ok out)) :
    ∃ cur, read_value fuel ⟨bytes, bytes.length, 0⟩ sch fn.return_type [] = some (.ok (cur, out))
      ∧ cur.i = cur.n := by
  unfold deserialize_response_to_string at h
  cases h1 : read_value fuel ⟨bytes, bytes.length, 0⟩ sch fn.return_type [] with
  | none => rw [h1] at h; cases h
  | some r =>
    cases r with
    | error e => rw [h1] at h; cases h
    | ok p =>
      obtain ⟨cur, o⟩ := p
      rw [h1] at h
      by_cases hi : cur.i = cur.n
      · simp only [hi, ne_eq, not_true_eq_false, if_false, Option.some.injEq,
          Except.ok.injEq] at h
        exact ⟨cur, by rw [h], hi⟩
      · simp only [ne_eq, hi, not_false_eq_true, if_true, Option.some.injEq,
          reduceCtorEq] at h

theorem deserialize_of_read_ne (fuel : Nat) (sch : Schema) (fn : Function)
    (bytes : List Byte) (cur : Cursor) (o : Str)
    (h : read_value fuel ⟨bytes, bytes.length, 0⟩ sch fn.return_type [] = some (.ok (cur, o)))
    (hi : cur.i ≠ cur.n) :
    deserialize_response_to_string fuel sch fn bytes = some (.error .DeserError) := by
  unfold deserialize_response_to_string
  rw [h]
  exact if_pos hi

/-- When `deserialize_response_to_string` succeeds on a buffer, it fails with `DeserError` on
that buffer followed by any further byte and on every proper prefix of that
buffer. -/
theorem deserialize_extend_cut (fuel : Nat) (sch : Schema) (fn : Function)
    (bytes : List Byte) (out : Str)
    (h : deserialize_response_to_string fuel sch fn bytes = some (.ok out)) :
    (∀ extra : List Byte, extra ≠ [] →
      deserialize_response_to_string fuel sch fn (bytes ++ extra) = some (.error .DeserError))
    ∧ (∀ pre suf : List Byte, suf ≠ [] → bytes = pre ++ suf →
      deserialize_response_to_string fuel sch fn pre = some (.error .DeserError)) := by
  obtain ⟨cur, h1, hi⟩ := deserialize_ok_inv fuel sch fn bytes out h
  constructor
  · intro extra hextra
    obtain ⟨-, hok, -⟩ := read_value_widen extra sch fuel ⟨bytes, bytes.length, 0⟩
      fn.return_type [] le_rfl
    obtain ⟨hw, -, hn⟩ := hok cur out h1
    have hlen : 0 < extra.length := List.length_pos.mpr hextra
    have hw' : read_value fuel ⟨bytes ++ extra, (bytes ++ extra).length, 0⟩ sch
        fn.return_type [] = some (.ok (cur.widen extra, out)) := by
      rw [List.length_append]
      exact hw
    refine deserialize_of_read_ne fuel sch fn _ _ _ hw' ?_
    show cur.i ≠ cur.n + extra.length
    omega
  · intro pre suf hsuf hb
    subst hb
    obtain ⟨hnone, hok, herr⟩ := read_value_widen suf sch fuel ⟨pre, pre.length, 0⟩
      fn.return_type [] le_rfl
    have hlen : 0 < suf.length := List.length_pos.mpr hsuf
    have hwiden : Cursor.widen suf ⟨pre, pre.length, 0⟩
        = ⟨pre ++ suf, (pre ++ suf).length, 0⟩ := by
      simp only [Cursor.widen, List.length_append]
    rw [hwiden] at hnone hok
    cases h2 : read_value fuel ⟨pre, pre.length, 0⟩ sch fn.return_type [] with
    | none => rw [hnone h2] at h1; cases h1
    | some r =>
      cases r with
      | error e =>
        unfold deserialize_response_to_string
        rw [h2, herr e h2]
      | ok p =>
        obtain ⟨c', o⟩ := p
        obtain ⟨hw, -, hn⟩ := hok c' o h2
        rw [hw] at h1
        simp only [Option.some.injEq, Except.ok.injEq, Prod.mk.injEq] at h1
        obtain ⟨hcur, -⟩ := h1
        refine deserialize_of_read_ne fuel sch fn _ _ _ h2 ?_
        rw [← hcur] at hi
        simp only [Cursor.widen] at hi
        omega

/-! ### What a successful read has read -/

theorem Cursor.get8_inv (c c' : Cursor) (b : Nat) (hn : c.n = c.p.length)
    (h : c.get8 = .ok (b, c')) :
    c.p.drop c.i = b :: c'.p.drop c'.i ∧ c'.p = c.p ∧ c'.n = c.n := by
  unfold Cursor.get8 at h
  split_ifs at h with hi
  simp only [Except.ok.injEq, Prod.mk.injEq] at h
  obtain ⟨rfl, rfl⟩ := h
  refine ⟨?_, rfl, rfl⟩
  have hlt : c.i < c.p.length := by omega
  simp only
  rw [List.drop_eq_getElem_cons hlt, List.getD_eq_getElem _ _ hlt]

theorem Cursor.get_be_loop_inv (size : Nat) :
    ∀ (k v : Nat) (c c' : Cursor) (v' : Nat), c.n = c.p.length →
      Cursor.get_be_loop size k v c = .ok (v', c') →
      ∃ bs : List Byte, bs.length = k ∧ c.p.drop c.i = bs ++ c'.p.drop c'.i ∧ c'.p = c.p
        ∧ c'.n = c.n ∧ v' = bs.foldl (fun v b => ((v <<< 8) ||| b) % 2 ^ (8 * size)) v
  | 0, v, c, c', v', _, h => by
    simp only [Cursor.get_be_loop, Except.ok.injEq, Prod.mk.injEq] at h
    obtain ⟨rfl, rfl⟩ := h
    exact ⟨[], rfl, rfl, rfl, rfl, rfl⟩
  | k + 1, v, c, c', v', hn, h => by
    cases h1 : c.get8 with
    | error e => simp only [Cursor.get_be_loop, h1, reduceCtorEq] at h
    | ok p =>
      obtain ⟨b, c₁⟩ := p
      simp only [Cursor.get_be_loop, h1] at h
      obtain ⟨hd, hp, hn1⟩ := Cursor.get8_inv c c₁ b hn h1
      obtain ⟨bs, hl, hd', hp', hn', hv⟩ := Cursor.get_be_loop_inv size k _ c₁ c' v'
        (by rw [hn1, hp, hn]) h
      refine ⟨b :: bs, by simp [hl], ?_, hp'.trans hp, hn'.trans hn1, ?_⟩
      · rw [hd, hd', List.cons_append]
      · rw [hv, List.foldl_cons]

theorem fold_be_unsigned (size : Nat) :
    ∀ (bs : List Byte) (v j : Nat), (∀ b ∈ bs, b < 256) → v < 256 ^ j → j + bs.length ≤ size →
      bs.foldl (fun v b => ((v <<< 8) ||| b) % 2 ^ (8 * size)) v
        = bs.foldl (fun v b => 256 * v + b) v
  | [], _, _, _, _, _ => rfl
  | b :: bs, v, j, hb, hv, hj => by
    have hb0 : b < 256 := hb b (List.mem_cons_self _ _)
    have hlt : v * 256 + b < 256 ^ (j + 1) := by
      rw [pow_succ]
      have hb1 : @LT.lt Nat _ b 256 := hb0
      generalize 256 ^ j = X at hv ⊢
      revert hb1
      generalize (b : Nat) = b'
      intro hb1
      omega
    have hle : 256 ^ (j + 1) ≤ 2 ^ (8 * size) := by
      rw [show (2 : Nat) ^ (8 * size) = 256 ^ size by rw [pow_mul]; norm_num]
      exact Nat.pow_le_pow_right (by norm_num) (by simp only [List.length_cons] at hj; omega)
    simp only [List.foldl_cons]
    rw [acc_step v b hb0, Nat.mod_eq_of_lt (lt_of_lt_of_le hlt hle), Nat.mul_comm 256 v]
    exact fold_be_unsigned size bs _ (j + 1) (fun x hx => hb x (List.mem_cons_of_mem _ hx)) hlt
      (by simp only [List.length_cons] at hj; omega)

theorem mem_of_drop_eq_append {p : List Byte} {i : Nat} {bs rest : List Byte}
    (h : p.drop i = bs ++ rest) (hb : ∀ b ∈ p, b < 256) : ∀ b ∈ bs, b < 256 := by
  intro b hmem
  apply hb
  apply List.mem_of_mem_drop
  rw [h]
  exact List.mem_append_left _ hmem

theorem Cursor.get_be_inv (signed : Bool) (size : Nat) (c c' : Cursor) (x : Int)
    (hn : c.n = c.p.length) (hb : ∀ b ∈ c.p, b < 256)
    (h : c.get_be signed size = .ok (x, c')) :
    ∃ bs : List Byte, bs.length = size ∧ c.p.drop c.i = bs ++ c'.p.drop c'.i ∧ c'.p = c.p
      ∧ c'.n = c.n ∧ x = if signed = true then be_signed bs else (be_unsigned bs : Int) := by
  unfold Cursor.get_be at h
  cases h1 : Cursor.get_be_loop size size 0 c with
  | error e => rw [h1] at h; cases h
  | ok p =>
    obtain ⟨v, c₁⟩ := p
    rw [h1] at h
    simp only [Except.ok.injEq, Prod.mk.injEq] at h
    obtain ⟨hx, rfl⟩ := h
    obtain ⟨bs, hl, hd, hp, hn', hv⟩ := Cursor.get_be_loop_inv size size 0 c c₁ v hn h1
    have hbs := mem_of_drop_eq_append hd hb
    rw [fold_be_unsigned size bs 0 0 hbs (by norm_num) (by omega)] at hv
    refine ⟨bs, hl, hd, hp, hn', ?_⟩
    rw [← hx]
    have hv' : v = be_unsigned bs := hv
    cases signed with
    | false => simp [hv']
    | true =>
      simp only [true_and, if_true, be_signed, hl, ← hv']
      by_cases hge : v ≥ 2 ^ (8 * size - 1)
      · rw [if_pos hge, if_neg (by omega)]
      · rw [if_neg hge, if_pos (by omega)]

theorem Cursor.get_string_loop_inv :
    ∀ (k : Nat) (s : Str) (c c' : Cursor) (s' : Str), c.n = c.p.length →
      Cursor.get_string_loop k s c = .ok (s', c') →
      ∃ bs : List Byte, bs.length = k ∧ c.p.drop c.i = bs ++ c'.p.drop c'.i ∧ c'.p = c.p
        ∧ c'.n = c.n ∧ s' = s ++ bs.map Char.ofNat
  | 0, s, c, c', s', _, h => by
    simp only [Cursor.get_string_loop, Except.ok.injEq, Prod.mk.injEq] at h
    obtain ⟨rfl, rfl⟩ := h
    exact ⟨[], rfl, rfl, rfl, rfl, by simp⟩
  | k + 1, s, c, c', s', hn, h => by
    cases h1 : c.get8 with
    | error e => simp only [Cursor.get_string_loop, h1, reduceCtorEq] at h
    | ok p =>
      obtain ⟨b, c₁⟩ := p
      simp only [Cursor.get_string_loop, h1] at h
      obtain ⟨hd, hp, hn1⟩ := Cursor.get8_inv c c₁ b hn h1
      obtain ⟨bs, hl, hd', hp', hn', hv⟩ := Cursor.get_string_loop_inv k _ c₁ c' s'
        (by rw [hn1, hp, hn]) h
      refine ⟨b :: bs, by simp [hl], ?_, hp'.trans hp, hn'.trans hn1, ?_⟩
      · rw [hd, hd', List.cons_append]
      · rw [hv, List.map_cons, List.append_assoc, List.singleton_append]

theorem Cursor.get_string_inv (c c' : Cursor) (s : Str)
    (hn : c.n = c.p.length) (hb : ∀ b ∈ c.p, b < 256)
    (h : c.get_string = .ok (s, c')) :
    ∃ hd bs : List Byte, hd.length = 4 ∧ bs.length = be_unsigned hd
      ∧ c.p.drop c.i = hd ++ (bs ++ c'.p.drop c'.i) ∧ c'.p = c.p
      ∧ c'.n = c.n ∧ s = bs.map Char.ofNat := by
  unfold Cursor.get_string at h
  cases h1 : c.get_be false 4 with
  | error e => rw [h1] at h; cases h
  | ok p =>
    obtain ⟨len, c₁⟩ := p
    rw [h1] at h
    obtain ⟨hd, hl, hd1, hp1, hn1, hx⟩ := Cursor.get_be_inv false 4 c c₁ len hn hb h1
    obtain ⟨bs, hl2, hd2, hp2, hn2, hs⟩ := Cursor.get_string_loop_inv len.toNat [] c₁ c' s
      (by rw [hn1, hp1, hn]) h
    refine ⟨hd, bs, hl, ?_, ?_, hp2.trans hp1, hn2.trans hn1, by simpa using hs⟩
    · rw [hl2, hx]
      simp
    · rw [hd1, hd2]

theorem rendered_int (bs rest : List Byte) (k : Nat) (hl : bs.length = k) :
    ¬ (bs ++ rest).length < k ∧ (bs ++ rest).take k = bs ∧ (bs ++ rest).drop k = rest := by
  subst hl
  refine ⟨by simp, by simp, by simp⟩

theorem read_builtin_rendered (b : Builtin) (out : Str) (c c' : Cursor) (o : Str)
    (hn : c.n = c.p.length) (hb : ∀ x ∈ c.p, x < 256)
    (h : read_builtin c b out = .ok (c', o)) :
    ∃ txt, rendered_builtin b (c.p.drop c.i) = some (txt, c'.p.drop c'.i) ∧ o = out ++ txt
      ∧ c'.p = c.p ∧ c'.n = c.n := by
  cases b with
  | String =>
    cases h1 : c.get_string with
    | error e => simp only [read_builtin, h1, reduceCtorEq] at h
    | ok p =>
      obtain ⟨s, c₁⟩ := p
      simp only [read_builtin, h1, Except.ok.injEq, Prod.mk.injEq] at h
      obtain ⟨rfl, rfl⟩ := h
      obtain ⟨hd, bs, hl, hl2, hd1, hp, hn', hs⟩ := Cursor.get_string_inv c c₁ s hn hb h1
      obtain ⟨e1, e2, e3⟩ := rendered_int hd (bs ++ c₁.p.drop c₁.i) 4 hl
      obtain ⟨f1, f2, f3⟩ := rendered_int bs (c₁.p.drop c₁.i) (be_unsigned hd) hl2
      refine ⟨_, ?_, rfl, hp, hn'⟩
      rw [hd1]
      simp only [rendered_builtin, if_neg e1, e2, e3, if_neg f1, f2, f3, hs]
  | Int32 =>
    cases h1 : c.get_be true 4 with
    | error e => simp only [read_builtin, h1, reduceCtorEq] at h
    | ok p =>
      obtain ⟨x, c₁⟩ := p
      simp only [read_builtin, h1, Except.ok.injEq, Prod.mk.injEq] at h
      obtain ⟨rfl, rfl⟩ := h
      obtain ⟨bs, hl, hd, hp, hn', hx⟩ := Cursor.get_be_inv true 4 c c₁ x hn hb h1
      obtain ⟨e1, e2, e3⟩ := rendered_int bs (c₁.p.drop c₁.i) 4 hl
      refine ⟨_, ?_, rfl, hp, hn'⟩
      rw [hd]
      simp only [rendered_builtin, if_neg e1, e2, e3, hx, if_true]
  | Int64 =>
    cases h1 : c.get_be true 8 with
    | error e => simp only [read_builtin, h1, reduceCtorEq] at h
    | ok p =>
      obtain ⟨x, c₁⟩ := p
      simp only [read_builtin, h1, Except.ok.injEq, Prod.mk.injEq] at h
      obtain ⟨rfl, rfl⟩ := h
      obtain ⟨bs, hl, hd, hp, hn', hx⟩ := Cursor.get_be_inv true 8 c c₁ x hn hb h1
      obtain ⟨e1, e2, e3⟩ := rendered_int bs (c₁.p.drop c₁.i) 8 hl
      refine ⟨_, ?_, rfl, hp, hn'⟩
      rw [hd]
      simp only [rendered_builtin, if_neg e1, e2, e3, hx, if_true]
  | Uint32 =>
    cases h1 : c.get_be false 4 with
    | error e => simp only [read_builtin, h1, reduceCtorEq] at h
    | ok p =>
      obtain ⟨x, c₁⟩ := p
      simp only [read_builtin, h1, Except.ok.injEq, Prod.mk.injEq] at h
      obtain ⟨rfl, rfl⟩ := h
      obtain ⟨bs, hl, hd, hp, hn', hx⟩ := Cursor.get_be_inv false 4 c c₁ x hn hb h1
      obtain ⟨e1, e2, e3⟩ := rendered_int bs (c₁.p.drop c₁.i) 4 hl
      refine ⟨_, ?_, rfl, hp, hn'⟩
      rw [hd]
      simp only [rendered_builtin, if_neg e1, e2, e3, hx, Bool.false_eq_true, if_false]
  | Uint64 =>
    cases h1 : c.get_be false 8 with
    | error e => simp only [read_builtin, h1, reduceCtorEq] at h
    | ok p =>
      obtain ⟨x, c₁⟩ := p
      simp only [read_builtin, h1, Except.ok.injEq, Prod.mk.injEq] at h
      obtain ⟨rfl, rfl⟩ := h
      obtain ⟨bs, hl, hd, hp, hn', hx⟩ := Cursor.get_be_inv false 8 c c₁ x hn hb h1
      obtain ⟨e1, e2, e3⟩ := rendered_int bs (c₁.p.drop c₁.i) 8 hl
      refine ⟨_, ?_, rfl, hp, hn'⟩
      rw [hd]
      simp only [rendered_builtin, if_neg e1, e2, e3, hx, Bool.false_eq_true, if_false]

/-- A successful loop of `read_struct` appends the field texts that `rendered_fields`
gives for the bytes it has read, separated by a comma and a space. -/
theorem read_fields_rendered
    (rv : Cursor → Ty → Str → Option (Except Error (Cursor × Str)))
    (sv : Ty → List Byte → Option (Str × List Byte))
    (hrv : ∀ (c c' : Cursor) (t : Ty) (out o : Str), c.n = c.p.length → (∀ x ∈ c.p, x < 256) →
      rv c t out = some (.ok (c', o)) →
      ∃ txt, sv t (c.p.drop c.i) = some (txt, c'.p.drop c'.i) ∧ o = out ++ txt
        ∧ c'.p = c.p ∧ c'.n = c.n) :
    ∀ (fields : List Field) (first : Bool) (c c' : Cursor) (out o : Str),
      c.n = c.p.length → (∀ x ∈ c.p, x < 256) →
      read_fields rv fields first c out = some (.ok (c', o)) →
      ∃ parts, rendered_fields sv fields (c.p.drop c.i) = some (parts, c'.p.drop c'.i)
        ∧ o = out ++ (if first = true then ", ".toList.intercalate parts
            else (parts.map (", ".toList ++ ·)).flatten)
        ∧ c'.p = c.p ∧ c'.n = c.n
  | [], first, c, c', out, o, _, _, h => by
    simp only [read_fields, Option.some.injEq, Except.ok.injEq, Prod.mk.injEq] at h
    obtain ⟨rfl, rfl⟩ := h
    refine ⟨[], rfl, ?_, rfl, rfl⟩
    cases first <;> simp [List.intercalate]
  | f :: rest, first, c, c', out, o, hn, hb, h => by
    cases h1 : rv c f.type
        ((if first = true then out else out ++ ", ".toList) ++ f.name ++ "=".toList) with
    | none => simp only [read_fields, h1, reduceCtorEq] at h
    | some r =>
      cases r with
      | error e => simp only [read_fields, h1, Option.some.injEq, reduceCtorEq] at h
      | ok p =>
        obtain ⟨c₁, o₁⟩ := p
        simp only [read_fields, h1] at h
        obtain ⟨txt, hs, ho, hp, hn1⟩ := hrv c c₁ f.type _ o₁ hn hb h1
        obtain ⟨parts, hs2, ho2, hp2, hn2⟩ := read_fields_rendered rv sv hrv rest false c₁ c'
          o₁ o (by rw [hn1, hp, hn]) (by rw [hp]; exact hb) h
        refine ⟨(f.name ++ "=".toList ++ txt) :: parts, ?_, ?_, hp2.trans hp, hn2.trans hn1⟩
        · simp only [rendered_fields, hs, hs2]
        · rw [ho2, ho]
          cases first
          · simp
          · simp [intercalate_cons]

theorem read_value_rendered (sch : Schema) :
    ∀ (fuel : Nat) (c c' : Cursor) (t : Ty) (out o : Str),
      c.n = c.p.length → (∀ x ∈ c.p, x < 256) →
      read_value fuel c sch t out = some (.ok (c', o)) →
      ∃ txt, rendered fuel sch t (c.p.drop c.i) = some (txt, c'.p.drop c'.i) ∧ o = out ++ txt
        ∧ c'.p = c.p ∧ c'.n = c.n
  | 0, c, c', t, out, o, _, _, h => by simp only [read_value, reduceCtorEq] at h
  | fuel + 1, c, c', .builtin_of b, out, o, hn, hb, h => by
    simp only [read_value, Option.some.injEq] at h
    simp only [rendered]
    exact read_builtin_rendered b out c c' o hn hb h
  | fuel + 1, c, c', .user_of user, out, o, hn, hb, h => by
    cases hst : sch.find_struct user with
    | none => simp only [read_value, hst, Option.some.injEq, reduceCtorEq] at h
    | some st =>
      simp only [read_value, hst, read_struct] at h
      cases h1 : read_fields (fun c' t' out' => read_value fuel c' sch t' out') st.fields true c
          (out ++ st.name ++ "\x7b".toList) with
      | none => simp only [h1, reduceCtorEq] at h
      | some r =>
        cases r with
        | error e => simp only [h1, Option.some.injEq, reduceCtorEq] at h
        | ok p =>
          obtain ⟨c₁, o₁⟩ := p
          simp only [h1, Option.some.injEq, Except.ok.injEq, Prod.mk.injEq] at h
          obtain ⟨rfl, rfl⟩ := h
          obtain ⟨parts, hs, ho, hp, hn1⟩ := read_fields_rendered
            (fun c' t' out' => read_value fuel c' sch t' out')
            (fun t' bs' => rendered fuel sch t' bs')
            (fun c c' t out o hn hb h => read_value_rendered sch fuel c c' t out o hn hb h)
            st.fields true c c₁ _ o₁ hn hb h1
          refine ⟨st.name ++ "\x7b".toList ++ ", ".toList.intercalate parts ++ "\x7d".toList,
            ?_, ?_, hp, hn1⟩
          · simp only [rendered, hst, hs]
          · rw [ho]
            simp

/-- C13: a successful `deserialize_response_to_string` on a buffer of bytes returns
the rendering of the specification, `rendered`, of the whole buffer at the return
type: the decimal of the big-endian two's complement number for `int32` and `int64`,
the decimal of the big-endian unsigned number for `uint32` and `uint64`, the bytes
between double quotes for a string, `Name{f1=v1, f2=v2}` over the declared fields in
declared order for a struct. The bytes `00 00 00 03` at the return type `int32`
give the text `3`. -/
theorem deserialize_rendering :
    (∀ (fuel : Nat) (sch : Schema) (fn : Function) (bytes : List Byte) (out : Str),
      (∀ x ∈ bytes, x < 256) →
      deserialize_response_to_string fuel sch fn bytes = some (.ok out) →
      rendered fuel sch fn.return_type bytes = some (out, []))
    ∧ (∀ (sch : Schema) (name : Str) (args : List Arg),
      deserialize_response_to_string 1 sch ⟨name, .builtin_of .Int32, args⟩ [0, 0, 0, 3]
        = some (.ok "3".toList)) := by
  constructor
  · intro fuel sch fn bytes out hb h
    obtain ⟨cur, h1, hi⟩ := deserialize_ok_inv fuel sch fn bytes out h
    obtain ⟨txt, hs, ho, hp, hn⟩ := read_value_rendered sch fuel ⟨bytes, bytes.length, 0⟩ cur
      fn.return_type [] out rfl hb h1
    simp only [List.drop_zero] at hs
    simp only at hp hn
    rw [hs, ho, List.nil_append, hi, hn, ← hp, List.drop_length]
  · intro sch name args
    rfl

theorem deserialize_rendering_witness :
    deserialize_response_to_string 2 point_schema
        ⟨"origin".toList, .user_of "Point".toList, []⟩ [0, 0, 0, 3, 255, 255, 255, 254]
      = some (.ok "Point\x7bx=3, y=-2\x7d".toList)
    ∧ rendered 2 point_schema (.user_of "Point".toList) [0, 0, 0, 3, 255, 255, 255, 254]
      = some ("Point\x7bx=3, y=-2\x7d".toList, []) :=
  ⟨by decide, deserialize_rendering.1 2 point_schema
    ⟨"origin".toList, .user_of "Point".toList, []⟩ [0, 0, 0, 3, 255, 255, 255, 254]
    "Point\x7bx=3, y=-2\x7d".toList (by decide) (by decide)⟩

/-! ### The lexer on the text of one token -/

theorem space_not_ident {c : Char} (h : isspace c = true) :
    isalnum c = false ∧ c ≠ '_' ∧ isalpha c = false ∧ isdigit c = false := by
  have h1 := isspace_toNat h
  have ha : isalpha c = false := by
    by_contra ha
    have := isalpha_iff.mp (by simpa using ha)
    omega
  have hd : isdigit c = false := by
    by_contra hd
    have := isdigit_iff.mp (by simpa using hd)
    omega
  refine ⟨by simp [isalnum, ha, hd], ?_, ha, hd⟩
  rintro rfl
  revert h
  decide

theorem stops_cons {c : Char} {t : Str} (h : stops (c :: t) = true) :
    isalnum c = false ∧ c ≠ '_' ∧ isalpha c = false ∧ isdigit c = false := by
  simp only [stops, Bool.and_eq_true, Bool.not_eq_true', decide_eq_false_iff_not] at h
  have h1 := h.1
  simp only [isalnum, Bool.or_eq_false_iff] at h1
  exact ⟨h.1, h.2, h1.1, h1.2⟩

theorem stops_ne_nil {rest : Str} (h : stops rest = true) : rest ≠ [] := by
  rintro rfl
  simp [stops] at h

theorem stops_no_digit {rest : Str} (h : stops rest = true) : no_digit_ahead rest := by
  intro c t hr
  subst hr
  exact (stops_cons h).2.2.2

theorem stops_ws (ws : Str) (p : Char) (t : Str) (hws : all_space ws)
    (hp : stops (p :: t) = true) : stops (ws ++ p :: t) = true := by
  cases ws with
  | nil => exact hp
  | cons w ws =>
    have hw := space_not_ident (hws w (List.mem_cons_self _ _))
    simp [stops, hw.1, hw.2.1]

theorem all_space_append {a b : Str} (ha : all_space a) (hb : all_space b) :
    all_space (a ++ b) := by
  intro c hc
  rcases List.mem_append.mp hc with h | h
  · exact ha c h
  · exact hb c h

theorem all_space_nil : all_space [] := by
  intro c hc
  cases hc

/-! The lexer methods skip white space first: their result depends on the text after
it only. -/

theorem ident_congr {lx lx' : Str} (h : Lexer.skip_ws lx = Lexer.skip_ws lx') :
    Lexer.ident lx = Lexer.ident lx' := by
  simp only [Lexer.ident, h]

theorem consume_congr (c : Char) {lx lx' : Str} (h : Lexer.skip_ws lx = Lexer.skip_ws lx') :
    Lexer.consume c lx = Lexer.consume c lx' := by
  simp only [Lexer.consume, h]

theorem except_congr (c : Char) {lx lx' : Str} (h : Lexer.skip_ws lx = Lexer.skip_ws lx') :
    Lexer.except c lx = Lexer.except c lx' := by
  simp only [Lexer.except, consume_congr c h]

theorem string_lit_congr {lx lx' : Str} (h : Lexer.skip_ws lx = Lexer.skip_ws lx') :
    Lexer.string_lit lx = Lexer.string_lit lx' := by
  simp only [Lexer.string_lit, h]

theorem integer_congr {lx lx' : Str} (h : Lexer.skip_ws lx = Lexer.skip_ws lx') :
    Lexer.integer lx = Lexer.integer lx' := by
  simp only [Lexer.integer, h]

theorem parse_value_congr (fuel : Nat) {lx lx' : Str}
    (h : Lexer.skip_ws lx = Lexer.skip_ws lx') :
    RequestParser.parse_value fuel lx = RequestParser.parse_value fuel lx' := by
  cases fuel with
  | zero => simp only [RequestParser.parse_value]
  | succ fuel =>
    have h1 : Lexer.string_lit (Lexer.skip_ws lx) = Lexer.string_lit (Lexer.skip_ws lx') := by
      rw [h]
    have h2 : Lexer.integer (Lexer.skip_ws lx) = Lexer.integer (Lexer.skip_ws lx') := by
      rw [h]
    simp only [RequestParser.parse_value, h]

theorem parse_fields_congr (fuel : Nat) (acc : List (Str × Value)) {lx lx' : Str}
    (h : Lexer.skip_ws lx = Lexer.skip_ws lx') :
    RequestParser.parse_fields fuel lx acc = RequestParser.parse_fields fuel lx' acc := by
  cases fuel with
  | zero => simp only [RequestParser.parse_fields]
  | succ fuel => simp only [RequestParser.parse_fields, ident_congr h]

theorem parse_args_congr (fuel : Nat) (acc : List NamedArg) {lx lx' : Str}
    (h : Lexer.skip_ws lx = Lexer.skip_ws lx') :
    RequestParser.parse_args fuel lx acc = RequestParser.parse_args fuel lx' acc := by
  cases fuel with
  | zero => simp only [RequestParser.parse_args]
  | succ fuel => simp only [RequestParser.parse_args, ident_congr h]

theorem skip_ws_skip_append (ws rest : Str) (hws : all_space ws) :
    Lexer.skip_ws (ws ++ rest) = Lexer.skip_ws (Lexer.skip_ws rest) := by
  rw [skip_ws_idem, skip_ws_append ws rest hws]

theorem consume_miss (c d : Char) (lx l : Str) (h : Lexer.skip_ws lx = d :: l) (hd : d ≠ c) :
    Lexer.consume c lx = (false, d :: l) := by
  simp [Lexer.consume, h, Lexer.peek, hd]

/-! Names. -/

theorem ident_loop_text (rest : Str) (hrest : stops rest = true) :
    ∀ (cs out : Str), cs.all (fun d => isalnum d || decide (d = '_')) = true →
      Lexer.ident_loop (cs ++ rest) out = (out ++ cs, rest)
  | [], out, _ => by
    obtain ⟨r, t, rfl⟩ := List.exists_cons_of_ne_nil (stops_ne_nil hrest)
    have hr := stops_cons hrest
    simp [Lexer.ident_loop, hr.1, hr.2.1]
  | c :: cs, out, h => by
    simp only [List.all_cons, Bool.and_eq_true, Bool.or_eq_true, decide_eq_true_eq] at h
    have ih := ident_loop_text rest hrest cs (out ++ [c]) (by simpa using h.2)
    rw [List.cons_append]
    simp only [Lexer.ident_loop, if_pos h.1]
    rw [ih]
    simp

theorem valid_ident_head {name : Str} (h : valid_ident name = true) :
    ∃ c cs, name = c :: cs ∧ (isalpha c = true ∨ c = '_') ∧ isspace c = false
      ∧ c ≠ '"' ∧ c ≠ '\x7b' ∧ c ≠ '\x7d' ∧ c ≠ ')' ∧ c ≠ ',' ∧ c ≠ '=' ∧ c ≠ '('
      ∧ cs.all (fun d => isalnum d || decide (d = '_')) = true := by
  cases name with
  | nil => simp [valid_ident] at h
  | cons c cs =>
    simp only [valid_ident, Bool.and_eq_true, Bool.or_eq_true, decide_eq_true_eq] at h
    refine ⟨c, cs, rfl, h.1, ?_, ?_, ?_, ?_, ?_, ?_, ?_, ?_, h.2⟩
    · by_contra hs
      have := space_not_ident (by simpa using hs)
      rcases h.1 with h1 | h1
      · rw [this.2.2.1] at h1; cases h1
      · exact this.2.1 h1
    all_goals
      rintro rfl
      rcases h.1 with h1 | h1
      · revert h1; decide
      · revert h1; decide

theorem ident_text (ws name rest : Str) (hws : all_space ws) (hn : valid_ident name = true)
    (hrest : stops rest = true) :
    Lexer.ident (ws ++ (name ++ rest)) = .ok (name, rest) := by
  obtain ⟨c, cs, rfl, hc, hsp, -, -, -, -, -, -, -, hcs⟩ := valid_ident_head hn
  have h1 : Lexer.skip_ws (ws ++ (c :: cs ++ rest)) = c :: (cs ++ rest) :=
    skip_ws_space_then ws c _ hws hsp
  have hc' : isalnum c = true ∨ c = '_' := by
    rcases hc with h | h
    · left; simp [isalnum, h]
    · right; exact h
  have h2 := ident_loop_text rest hrest cs [c] hcs
  simp only [Lexer.ident, h1, peek_cons, hc, not_true_eq_false, if_false, Lexer.ident_loop,
    if_pos hc', List.nil_append, h2, List.singleton_append]

/-! Strings. -/

theorem string_lit_text (ws : Str) (items : List StrItem) (rest : Str) (hws : all_space ws)
    (hv : ∀ i ∈ items, i.valid) (hrest : rest ≠ []) :
    Lexer.string_lit (ws ++ '"' :: (raw_body items ++ '"' :: rest))
      = .ok (decoded_body items, rest) := by
  have hq : isspace '"' = false := by decide
  obtain ⟨r, rest', rfl⟩ := List.exists_cons_of_ne_nil hrest
  simp only [Lexer.string_lit, skip_ws_space_then ws '"' _ hws hq, Lexer.peek, Lexer.get,
    ne_eq, not_true_eq_false, if_false, string_lit_loop_items items hv,
    string_lit_loop_quote, List.nil_append, Lexer.eof, List.isEmpty_cons,
    Bool.false_eq_true]

theorem parse_value_string_text (fuel : Nat) (ws : Str) (items : List StrItem) (rest : Str)
    (hws : all_space ws) (hv : ∀ i ∈ items, i.valid) (hrest : rest ≠ []) :
    RequestParser.parse_value (fuel + 1) (ws ++ '"' :: (raw_body items ++ '"' :: rest))
      = some (.ok (.str (decoded_body items), rest)) := by
  have hq : isspace '"' = false := by decide
  have h1 : Lexer.skip_ws (ws ++ '"' :: (raw_body items ++ '"' :: rest))
      = '"' :: (raw_body items ++ '"' :: rest) := skip_ws_space_then ws '"' _ hws hq
  have h2 := string_lit_text [] items rest all_space_nil hv hrest
  rw [List.nil_append] at h2
  simp only [RequestParser.parse_value, h1, peek_cons, if_true, h2]

/-! Integers. -/

theorem integer_digits_text (ds rest : Str) (hne : ds ≠ [])
    (hd : ∀ c ∈ ds, isdigit c = true) (hrest : no_digit_ahead rest) :
    Lexer.integer (ds ++ rest) =
      (if digits_value ds ≤ 2 ^ 64 - 1 then .ok (.inr (digits_value ds), rest)
        else .error .ParseError) := by
  obtain ⟨c, ds', rfl⟩ := List.exists_cons_of_ne_nil hne
  have hc := hd c (List.mem_cons_self _ _)
  have hc' := isdigit_iff.mp hc
  have hplus : c ≠ '+' := by rintro rfl; revert hc'; decide
  have hminus : c ≠ '-' := by rintro rfl; revert hc'; decide
  have h := integer_of_digits false (c :: ds') rest hne hd hrest
  simp only [Bool.false_eq_true, if_false] at h
  rw [← h]
  simp only [Lexer.integer, List.cons_append, skip_ws_of_not_space _ (not_space_of_digit hc),
    Lexer.peek, hplus, hminus, or_self, if_false, Bool.false_eq_true]

theorem integer_minus_text (ds rest : Str) (hne : ds ≠ [])
    (hd : ∀ c ∈ ds, isdigit c = true) (hrest : no_digit_ahead rest) :
    Lexer.integer ('-' :: ds ++ rest) =
        (if digits_value ds ≤ 2 ^ 63 then .ok (.inl (-(digits_value ds : Int)), rest)
          else .error .ParseError) := by
  have h := integer_of_digits true ds rest hne hd hrest
  simp only [if_true] at h
  rw [← h]
  have hsp : isspace '-' = false := by decide
  simp only [Lexer.integer, List.cons_append, skip_ws_of_not_space _ hsp, Lexer.peek, Lexer.get,
    or_true, if_true, decide_True]

theorem integer_gap (s g : Char) (lx : Str) (hs : s = '+' ∨ s = '-')
    (hg : isdigit g = false) :
    Lexer.integer (s :: g :: lx) = .error .ParseError := by
  have hsp : isspace s = false := by
    rcases hs with rfl | rfl <;> decide
  simp only [Lexer.integer, skip_ws_of_not_space _ hsp, peek_cons, hs, if_true, get_cons, hg,
    Bool.false_eq_true, not_false_eq_true]

/-! ### The parser on the text of a literal -/

theorem parse_value_int_text (fuel : Nat) (ws sign gap digits rest : Str)
    (hws : all_space ws) (hsign : sign = [] ∨ sign = ['+'] ∨ sign = ['-'])
    (hgap : all_space gap) (hsg : sign = [] → gap = [])
    (hne : digits ≠ []) (hd : ∀ c ∈ digits, isdigit c = true) (hrest : stops rest = true) :
    RequestParser.parse_value (fuel + 1) (ws ++ (sign ++ (gap ++ (digits ++ rest))))
      = some (match int_value sign gap digits with
          | some v => .ok (v, rest)
          | none => .error .ParseError) := by
  rw [parse_value_congr (fuel + 1) (skip_ws_skip_append ws _ hws),
    ← parse_value_congr (fuel + 1) (skip_ws_idem _).symm]
  have hnd := stops_no_digit hrest
  rcases hsign with rfl | rfl | rfl
  · rw [hsg rfl]
    obtain ⟨d, ds, rfl⟩ := List.exists_cons_of_ne_nil hne
    have hd0 := hd d (List.mem_cons_self _ _)
    have h := integer_digits_text (d :: ds) rest hne hd hnd
    simp only [List.nil_append, List.cons_append] at h ⊢
    rw [parse_value_integer_arm fuel d _ (Or.inr (Or.inr hd0)), h]
    have hpm : ¬ (([] : Str) = ['-']) := by decide
    simp only [int_value, ne_eq, not_true_eq_false, if_false, hpm]
    by_cases hle : digits_value (d :: ds) ≤ 2 ^ 64 - 1
    · simp only [if_pos hle]
    · simp only [if_neg hle]
  · cases gap with
    | nil =>
      have h := integer_plus_literal digits rest hne hd hnd
      simp only [List.nil_append, List.cons_append] at h ⊢
      rw [parse_value_integer_arm fuel '+' _ (Or.inl rfl), h]
      have hpm : ¬ (['+'] = ['-']) := by decide
      simp only [int_value, ne_eq, not_true_eq_false, if_false, hpm]
      by_cases hle : digits_value digits ≤ 2 ^ 64 - 1
      · simp only [if_pos hle]
      · simp only [if_neg hle]
    | cons g gs =>
      have hg := (space_not_ident (hgap g (List.mem_cons_self _ _))).2.2.2
      have h := integer_gap '+' g (gs ++ (digits ++ rest)) (Or.inl rfl) hg
      simp only [List.nil_append, List.cons_append] at h ⊢
      rw [parse_value_integer_arm fuel '+' _ (Or.inl rfl), h]
      simp only [int_value, ne_eq, List.cons_ne_nil, not_false_eq_true, if_true]
  · cases gap with
    | nil =>
      have h := integer_minus_text digits rest hne hd hnd
      simp only [List.nil_append, List.cons_append] at h ⊢
      rw [parse_value_integer_arm fuel '-' _ (Or.inr (Or.inl rfl)), h]
      simp only [int_value, ne_eq, not_true_eq_false, if_false, if_true]
      by_cases hle : digits_value digits ≤ 2 ^ 63
      · simp only [if_pos hle]
      · simp only [if_neg hle]
    | cons g gs =>
      have hg := (space_not_ident (hgap g (List.mem_cons_self _ _))).2.2.2
      have h := integer_gap '-' g (gs ++ (digits ++ rest)) (Or.inr rfl) hg
      simp only [List.nil_append, List.cons_append] at h ⊢
      rw [parse_value_integer_arm fuel '-' _ (Or.inr (Or.inl rfl)), h]
      simp only [int_value, ne_eq, List.cons_ne_nil, not_false_eq_true, if_true]

/-- The struct arm of `RequestParser::parse_value`, entered on `{`, a letter or an
underscore: an empty literal. -/
theorem parse_value_struct_empty (fuel : Nat) (c : Char) (lx name lx₁ lx₂ : Str)
    (hc : c = '\x7b' ∨ isalpha c = true ∨ c = '_') (hsp : isspace c = false) (hq : c ≠ '"')
    (h1 : RequestParser.struct_open c (c :: lx) = .ok (name, lx₁))
    (h2 : Lexer.consume '\x7d' (Lexer.skip_ws lx₁) = (true, lx₂)) :
    RequestParser.parse_value (fuel + 1) (c :: lx) = some (.ok (.struct name [], lx₂)) := by
  simp only [RequestParser.parse_value, skip_ws_of_not_space _ hsp, peek_cons, hq, if_false,
    hc, if_true, h1, h2]

/-- The struct arm of `RequestParser::parse_value`: a literal with fields. -/
theorem parse_value_struct_fields (fuel : Nat) (c : Char) (lx name lx₁ lx₂ : Str)
    (hc : c = '\x7b' ∨ isalpha c = true ∨ c = '_') (hsp : isspace c = false) (hq : c ≠ '"')
    (h1 : RequestParser.struct_open c (c :: lx) = .ok (name, lx₁))
    (h2 : Lexer.consume '\x7d' (Lexer.skip_ws lx₁) = (false, lx₂)) :
    (∀ fs lx₃, RequestParser.parse_fields fuel lx₂ [] = some (.ok (fs, lx₃)) →
      RequestParser.parse_value (fuel + 1) (c :: lx) = some (.ok (.struct name fs, lx₃)))
    ∧ (∀ e, RequestParser.parse_fields fuel lx₂ [] = some (.error e) →
      RequestParser.parse_value (fuel + 1) (c :: lx) = some (.error e)) := by
  constructor
  · intro fs lx₃ h3
    simp only [RequestParser.parse_value, skip_ws_of_not_space _ hsp, peek_cons, hq, if_false,
      hc, if_true, h1, h2, h3]
  · intro e h3
    simp only [RequestParser.parse_value, skip_ws_of_not_space _ hsp, peek_cons, hq, if_false,
      hc, if_true, h1, h2, h3]

theorem stops_punct (c : Char) (t : Str) (h : stops [c] = true) : stops (c :: t) = true := h

theorem struct_open_text (hint ws_hint lx : Str)
    (hh : if hint = [] then ws_hint = [] else valid_ident hint = true ∧ all_space ws_hint) :
    ∃ c l, hint ++ (ws_hint ++ '\x7b' :: lx) = c :: l
      ∧ (c = '\x7b' ∨ isalpha c = true ∨ c = '_') ∧ isspace c = false ∧ c ≠ '"'
      ∧ RequestParser.struct_open c (c :: l) = .ok (hint, lx) := by
  by_cases hn : hint = []
  · rw [if_pos hn] at hh
    subst hn hh
    refine ⟨'\x7b', lx, rfl, Or.inl rfl, by decide, by decide, ?_⟩
    simp only [RequestParser.struct_open, ne_eq, not_true_eq_false, if_false, get_cons]
  · rw [if_neg hn] at hh
    obtain ⟨hv, hws⟩ := hh
    obtain ⟨c, cs, rfl, hc, hsp, hq, hb, -, -, -, -, -, hcs⟩ := valid_ident_head hv
    refine ⟨c, cs ++ (ws_hint ++ '\x7b' :: lx), rfl, Or.inr hc, hsp, hq, ?_⟩
    have hst : stops (ws_hint ++ '\x7b' :: lx) = true := stops_ws ws_hint _ _ hws (stops_punct _ _ (by decide))
    have h1 := ident_text [] (c :: cs) (ws_hint ++ '\x7b' :: lx) all_space_nil hv hst
    simp only [List.nil_append, List.cons_append] at h1
    have h2 : Lexer.skip_ws (Lexer.skip_ws (ws_hint ++ '\x7b' :: lx)) = '\x7b' :: lx := by
      rw [skip_ws_idem]
      exact skip_ws_space_then ws_hint _ _ hws (by decide)
    simp only [RequestParser.struct_open, ne_eq, hb, not_false_eq_true, if_true, h1,
      consume_of_skip_ws _ _ _ h2]

theorem valid_ident_length {name : Str} (h : valid_ident name = true) : 1 ≤ name.length := by
  obtain ⟨c, cs, rfl, -⟩ := valid_ident_head h
  simp

theorem slot_wf {s : Slot} (h : s.wf = true) :
    all_space s.ws_name ∧ valid_ident s.name = true ∧ all_space s.ws_eq ∧ all_space s.ws_end := by
  simp only [Slot.wf, Bool.and_eq_true, decide_eq_true_eq] at h
  exact ⟨h.1.1.1, h.1.1.2, h.1.2, h.2⟩

theorem entries_tail (close : Char) (r : Entries) (rest : Str) :
    ∃ t, ((if r.isEmpty = true then r.text close else ',' :: r.text close) ++ rest = close :: t
        ∨ (if r.isEmpty = true then r.text close else ',' :: r.text close) ++ rest = ',' :: t) := by
  cases r with
  | nil => exact ⟨rest, Or.inl (by simp [Entries.isEmpty, Entries.text])⟩
  | cons s v r =>
    exact ⟨(Entries.cons s v r).text close ++ rest, Or.inr (by simp [Entries.isEmpty])⟩

theorem entries_text_cons (close : Char) (s : Slot) (v : Lit) (r : Entries) (rest : Str) :
    (Entries.cons s v r).text close ++ rest
      = s.ws_name ++ (s.name ++ (s.ws_eq ++ '=' :: (v.text ++ (s.ws_end ++
          ((if r.isEmpty = true then r.text close else ',' :: r.text close) ++ rest))))) := by
  simp only [Entries.text, List.append_assoc, List.cons_append]

theorem entries_text_length (close : Char) (s : Slot) (v : Lit) (r : Entries)
    (hs : s.wf = true) :
    v.text.length + 2 ≤ ((Entries.cons s v r).text close).length
    ∧ (r.text close).length + 2 ≤ ((Entries.cons s v r).text close).length := by
  have hn := valid_ident_length (slot_wf hs).2.1
  constructor
  · simp only [Entries.text, List.length_append, List.length_cons]
    omega
  · simp only [Entries.text, List.length_append, List.length_cons]
    split_ifs
    · omega
    · simp only [List.length_cons]
      omega

/-- One round of the loop over the fields of a struct literal, on the text of an
entry: the value `x` of the entry is stored unless its name is stored already; the
loop ends at the closing brace and goes on after a comma. -/
theorem parse_fields_step (fuel : Nat) (s : Slot) (vtext tail : Str)
    (acc : List (Str × Value)) (hs : s.wf = true) :
    (RequestParser.parse_value fuel (vtext ++ (s.ws_end ++ tail)) = some (.error .ParseError) →
      RequestParser.parse_fields (fuel + 1)
        (s.ws_name ++ (s.name ++ (s.ws_eq ++ '=' :: (vtext ++ (s.ws_end ++ tail))))) acc
        = some (.error .ParseError))
    ∧ (∀ x, RequestParser.parse_value fuel (vtext ++ (s.ws_end ++ tail))
          = some (.ok (x, s.ws_end ++ tail)) →
        (map_find s.name acc).isSome = true →
      RequestParser.parse_fields (fuel + 1)
        (s.ws_name ++ (s.name ++ (s.ws_eq ++ '=' :: (vtext ++ (s.ws_end ++ tail))))) acc
        = some (.error .ParseError))
    ∧ (∀ x t, RequestParser.parse_value fuel (vtext ++ (s.ws_end ++ tail))
          = some (.ok (x, s.ws_end ++ tail)) →
        (map_find s.name acc).isSome = false → tail = '\x7d' :: t →
      RequestParser.parse_fields (fuel + 1)
        (s.ws_name ++ (s.name ++ (s.ws_eq ++ '=' :: (vtext ++ (s.ws_end ++ tail))))) acc
        = some (.ok (map_emplace s.name x acc, t)))
    ∧ (∀ x t, RequestParser.parse_value fuel (vtext ++ (s.ws_end ++ tail))
          = some (.ok (x, s.ws_end ++ tail)) →
        (map_find s.name acc).isSome = false → tail = ',' :: t →
      RequestParser.parse_fields (fuel + 1)
        (s.ws_name ++ (s.name ++ (s.ws_eq ++ '=' :: (vtext ++ (s.ws_end ++ tail))))) acc
        = RequestParser.parse_fields fuel t (map_emplace s.name x acc)) := by
  obtain ⟨h1, h2, h3, h4⟩ := slot_wf hs
  have hst : stops (s.ws_eq ++ '=' :: (vtext ++ (s.ws_end ++ tail))) = true :=
    stops_ws _ _ _ h3 (stops_punct _ _ (by decide))
  have hid := ident_text s.ws_name s.name _ h1 h2 hst
  have hex : Lexer.except '=' (s.ws_eq ++ '=' :: (vtext ++ (s.ws_end ++ tail)))
      = .ok (vtext ++ (s.ws_end ++ tail)) :=
    except_of_skip_ws _ _ _ (skip_ws_space_then _ _ _ h3 (by decide))
  refine ⟨fun hv => ?_, fun x hv hdup => ?_, fun x t hv hdup ht => ?_, fun x t hv hdup ht => ?_⟩
  · simp only [RequestParser.parse_fields, hid, hex, hv]
  · simp only [RequestParser.parse_fields, hid, hex, hv, hdup, if_true]
  · subst ht
    have hc : Lexer.consume '\x7d' (Lexer.skip_ws (s.ws_end ++ '\x7d' :: t)) = (true, t) :=
      consume_of_skip_ws _ _ _ (by
        rw [skip_ws_idem]
        exact skip_ws_space_then _ _ _ h4 (by decide))
    simp only [RequestParser.parse_fields, hid, hex, hv, hdup, Bool.false_eq_true, if_false, hc]
  · subst ht
    have hsk : Lexer.skip_ws (Lexer.skip_ws (s.ws_end ++ ',' :: t)) = ',' :: t := by
      rw [skip_ws_idem]
      exact skip_ws_space_then _ _ _ h4 (by decide)
    have hc : Lexer.consume '\x7d' (Lexer.skip_ws (s.ws_end ++ ',' :: t)) = (false, ',' :: t) :=
      consume_miss _ _ _ _ hsk (by decide)
    have hex2 : Lexer.except ',' (',' :: t) = .ok t :=
      except_of_skip_ws _ _ _ (skip_ws_of_not_space _ (by decide))
    simp only [RequestParser.parse_fields, hid, hex, hv, hdup, Bool.false_eq_true, if_false, hc,
      hex2]
    exact parse_fields_congr fuel _ (skip_ws_idem t)

mutual
/-- The parser on the text of a literal, followed by a text that stops it: the value of
the literal and the text that follows, or `ParseError` when the literal has no
value. -/
theorem parse_value_text : ∀ (v : Lit) (fuel : Nat) (rest : Str), v.wf = true →
    stops rest = true → v.text.length ≤ fuel →
    RequestParser.parse_value fuel (v.text ++ rest)
      = some (match v.value with
          | some x => .ok (x, rest)
          | none => .error .ParseError)
  | .str ws items, fuel, rest, hwf, hrest, hfuel => by
    simp only [Lit.wf, Bool.and_eq_true, decide_eq_true_eq, List.all_eq_true] at hwf
    obtain ⟨hws, hv⟩ := hwf
    cases fuel with
    | zero => simp [Lit.text] at hfuel
    | succ f =>
      have h := parse_value_string_text f ws items rest hws hv (stops_ne_nil hrest)
      simp only [Lit.text, Lit.value, List.append_assoc, List.cons_append, List.nil_append]
      exact h
  | .int ws sign gap digits, fuel, rest, hwf, hrest, hfuel => by
    simp only [Lit.wf, Bool.and_eq_true, decide_eq_true_eq, List.all_eq_true,
      Bool.not_eq_true', List.isEmpty_eq_false] at hwf
    obtain ⟨⟨⟨⟨⟨hws, hsign⟩, hgap⟩, hsg⟩, hne⟩, hd⟩ := hwf
    cases fuel with
    | zero =>
      obtain ⟨d, ds, rfl⟩ := List.exists_cons_of_ne_nil hne
      simp [Lit.text] at hfuel
    | succ f =>
      have h := parse_value_int_text f ws sign gap digits rest hws hsign hgap hsg hne hd hrest
      simp only [Lit.text, Lit.value, List.append_assoc]
      exact h
  | .struct ws hint ws_hint ws_open entries, fuel, rest, hwf, hrest, hfuel => by
    simp only [Lit.wf, Bool.and_eq_true, decide_eq_true_eq] at hwf
    obtain ⟨⟨⟨hws, hh⟩, hwo⟩, hes⟩ := hwf
    have hh' : if hint = [] then ws_hint = [] else valid_ident hint = true ∧ all_space ws_hint := by
      by_cases hn : hint = []
      · simpa [hn] using hh
      · simpa [hn] using hh
    cases fuel with
    | zero => simp [Lit.text] at hfuel
    | succ f =>
      have hlen : (entries.text '\x7d').length ≤ f := by
        simp only [Lit.text, List.length_append, List.length_cons] at hfuel
        omega
      have htext : (Lit.struct ws hint ws_hint ws_open entries).text ++ rest
          = ws ++ (hint ++ (ws_hint ++ '\x7b' :: (ws_open ++ (entries.text '\x7d' ++ rest)))) := by
        simp only [Lit.text, List.append_assoc, List.cons_append]
      obtain ⟨c, l, hX, hc, hsp, hq, hopen⟩ :=
        struct_open_text hint ws_hint (ws_open ++ (entries.text '\x7d' ++ rest)) hh'
      rw [htext, parse_value_congr (f + 1) (skip_ws_append ws _ hws), hX]
      cases entries with
      | nil =>
        have hsk : Lexer.skip_ws (Lexer.skip_ws (ws_open ++ (Entries.nil.text '\x7d' ++ rest)))
            = '\x7d' :: rest := by
          rw [skip_ws_idem]
          exact skip_ws_space_then _ _ _ hwo (by decide)
        rw [parse_value_struct_empty f c l hint _ rest hc hsp hq hopen
          (consume_of_skip_ws _ _ _ hsk)]
        simp only [Lit.value, Entries.fields]
      | cons s v r =>
        simp only [Entries.wf, Bool.and_eq_true] at hes
        obtain ⟨n, ns, hname, -, hnsp, -, -, hnb, -, -, -, -, -⟩ :=
          valid_ident_head (slot_wf hes.1.1).2.1
        have hcons := entries_text_cons '\x7d' s v r rest
        have hsk0 : Lexer.skip_ws ((Entries.cons s v r).text '\x7d' ++ rest)
            = (n :: ns) ++ (s.ws_eq ++ '=' :: (v.text ++ (s.ws_end ++
              ((if r.isEmpty = true then r.text '\x7d' else ',' :: r.text '\x7d') ++ rest)))) := by
          rw [hcons, hname]
          exact skip_ws_space_then _ _ _ (slot_wf hes.1.1).1 hnsp
        have hsk : Lexer.skip_ws (Lexer.skip_ws
            (ws_open ++ ((Entries.cons s v r).text '\x7d' ++ rest))) = n :: (ns ++
              (s.ws_eq ++ '=' :: (v.text ++ (s.ws_end ++
              ((if r.isEmpty = true then r.text '\x7d' else ',' :: r.text '\x7d') ++ rest))))) := by
          rw [skip_ws_idem, skip_ws_append _ _ hwo, hsk0]
          rfl
        have hmiss := consume_miss '\x7d' n _ _ hsk hnb
        have hcongr : RequestParser.parse_fields f (n :: (ns ++
              (s.ws_eq ++ '=' :: (v.text ++ (s.ws_end ++
              ((if r.isEmpty = true then r.text '\x7d' else ',' :: r.text '\x7d') ++ rest)))))) []
            = RequestParser.parse_fields f ((Entries.cons s v r).text '\x7d' ++ rest) [] := by
          apply parse_fields_congr
          rw [hsk0]
          exact skip_ws_of_not_space _ hnsp
        have ih := parse_fields_text (.cons s v r) f [] rest
          (by simp only [Entries.wf, Bool.and_eq_true]; exact hes) hlen rfl
        rw [← hcongr] at ih
        obtain ⟨hok, herr⟩ := parse_value_struct_fields f c l hint _ _ hc hsp hq hopen hmiss
        cases hf : (Entries.cons s v r).fields [] with
        | none =>
          rw [hf] at ih
          rw [herr _ ih]
          simp only [Lit.value, hf]
        | some fs =>
          rw [hf] at ih
          rw [hok _ _ ih]
          simp only [Lit.value, hf]
/-- The loop over the fields of a struct literal on the text of its entries and of the
closing brace: the field map and the text that follows, or `ParseError`. -/
theorem parse_fields_text : ∀ (es : Entries) (fuel : Nat) (acc : List (Str × Value))
    (rest : Str), es.wf = true → (es.text '\x7d').length ≤ fuel →
    es.isEmpty = false →
    RequestParser.parse_fields fuel (es.text '\x7d' ++ rest) acc
      = some (match es.fields acc with
          | some fs => .ok (fs, rest)
          | none => .error .ParseError)
  | .nil, _, _, _, _, _, he => by simp [Entries.isEmpty] at he
  | .cons s v r, fuel, acc, rest, hwf, hfuel, _ => by
    simp only [Entries.wf, Bool.and_eq_true] at hwf
    obtain ⟨⟨hs, hv⟩, hr⟩ := hwf
    obtain ⟨hl1, hl2⟩ := entries_text_length '\x7d' s v r hs
    cases fuel with
    | zero => omega
    | succ f =>
      obtain ⟨h1, h2, h3, h4⟩ := slot_wf hs
      rw [entries_text_cons]
      obtain ⟨t, ht⟩ := entries_tail '\x7d' r rest
      generalize htail :
        (if r.isEmpty = true then r.text '\x7d' else ',' :: r.text '\x7d') ++ rest = tail at ht
      have hst : stops (s.ws_end ++ tail) = true := by
        rcases ht with ht | ht
        · rw [ht]; exact stops_ws _ _ _ h4 (stops_punct _ _ (by decide))
        · rw [ht]; exact stops_ws _ _ _ h4 (stops_punct _ _ (by decide))
      have ihv := parse_value_text v f (s.ws_end ++ tail) hv hst (by omega)
      obtain ⟨step1, step2, step3, step4⟩ := parse_fields_step f s v.text tail acc hs
      cases hval : v.value with
      | none =>
        rw [hval] at ihv
        rw [step1 ihv]
        simp only [Entries.fields, hval]
      | some x =>
        rw [hval] at ihv
        cases hdup : (map_find s.name acc).isSome with
        | true =>
          rw [step2 x ihv hdup]
          simp only [Entries.fields, hval, hdup, if_true]
        | false =>
          cases r with
          | nil =>
            simp only [Entries.isEmpty, if_true, Entries.text, List.cons_append,
              List.nil_append] at htail
            rw [step3 x rest ihv hdup htail.symm]
            simp only [Entries.fields, hval, hdup, Bool.false_eq_true, if_false]
          | cons s' v' r' =>
            simp only [Entries.isEmpty, Bool.false_eq_true, if_false, List.cons_append]
              at htail
            rw [step4 x _ ihv hdup htail.symm]
            rw [parse_fields_text (.cons s' v' r') f (map_emplace s.name x acc) rest hr
              (by omega) rfl]
            simp only [Entries.fields, hval, hdup, Bool.false_eq_true, if_false]
end

/-- One round of the loop over the arguments of a call, on the text of an entry. -/
theorem parse_args_step (fuel : Nat) (s : Slot) (vtext tail : Str)
    (acc : List NamedArg) (hs : s.wf = true) :
    (RequestParser.parse_value fuel (vtext ++ (s.ws_end ++ tail)) = some (.error .ParseError) →
      RequestParser.parse_args (fuel + 1)
        (s.ws_name ++ (s.name ++ (s.ws_eq ++ '=' :: (vtext ++ (s.ws_end ++ tail))))) acc
        = some (.error .ParseError))
    ∧ (∀ x t, RequestParser.parse_value fuel (vtext ++ (s.ws_end ++ tail))
          = some (.ok (x, s.ws_end ++ tail)) → tail = ')' :: t →
      RequestParser.parse_args (fuel + 1)
        (s.ws_name ++ (s.name ++ (s.ws_eq ++ '=' :: (vtext ++ (s.ws_end ++ tail))))) acc
        = some (.ok (acc ++ [(s.name, x)], t)))
    ∧ (∀ x t, RequestParser.parse_value fuel (vtext ++ (s.ws_end ++ tail))
          = some (.ok (x, s.ws_end ++ tail)) → tail = ',' :: t →
      RequestParser.parse_args (fuel + 1)
        (s.ws_name ++ (s.name ++ (s.ws_eq ++ '=' :: (vtext ++ (s.ws_end ++ tail))))) acc
        = RequestParser.parse_args fuel t (acc ++ [(s.name, x)])) := by
  obtain ⟨h1, h2, h3, h4⟩ := slot_wf hs
  have hst : stops (s.ws_eq ++ '=' :: (vtext ++ (s.ws_end ++ tail))) = true :=
    stops_ws _ _ _ h3 (stops_punct _ _ (by decide))
  have hid := ident_text s.ws_name s.name _ h1 h2 hst
  have hex : Lexer.except '=' (s.ws_eq ++ '=' :: (vtext ++ (s.ws_end ++ tail)))
      = .ok (vtext ++ (s.ws_end ++ tail)) :=
    except_of_skip_ws _ _ _ (skip_ws_space_then _ _ _ h3 (by decide))
  refine ⟨fun hv => ?_, fun x t hv ht => ?_, fun x t hv ht => ?_⟩
  · simp only [RequestParser.parse_args, hid, hex, hv]
  · subst ht
    have hc : Lexer.consume ')' (Lexer.skip_ws (s.ws_end ++ ')' :: t)) = (true, t) :=
      consume_of_skip_ws _ _ _ (by
        rw [skip_ws_idem]
        exact skip_ws_space_then _ _ _ h4 (by decide))
    simp only [RequestParser.parse_args, hid, hex, hv, hc]
  · subst ht
    have hsk : Lexer.skip_ws (Lexer.skip_ws (s.ws_end ++ ',' :: t)) = ',' :: t := by
      rw [skip_ws_idem]
      exact skip_ws_space_then _ _ _ h4 (by decide)
    have hc : Lexer.consume ')' (Lexer.skip_ws (s.ws_end ++ ',' :: t)) = (false, ',' :: t) :=
      consume_miss _ _ _ _ hsk (by decide)
    have hex2 : Lexer.except ',' (',' :: t) = .ok t :=
      except_of_skip_ws _ _ _ (skip_ws_of_not_space _ (by decide))
    simp only [RequestParser.parse_args, hid, hex, hv, hc, hex2]
    exact parse_args_congr fuel _ (by rw [skip_ws_idem, skip_ws_idem])

/-- The loop over the arguments of a call on the text of its entries and of the
closing bracket: the arguments and the text that follows, or `ParseError`. -/
theorem parse_args_text : ∀ (es : Entries) (fuel : Nat) (acc : List NamedArg)
    (rest : Str), es.wf = true → (es.text ')').length ≤ fuel →
    es.isEmpty = false →
    RequestParser.parse_args fuel (es.text ')' ++ rest) acc
      = some (match es.args acc with
          | some as => .ok (as, rest)
          | none => .error .ParseError)
  | .nil, _, _, _, _, _, he => by simp [Entries.isEmpty] at he
  | .cons s v r, fuel, acc, rest, hwf, hfuel, _ => by
    simp only [Entries.wf, Bool.and_eq_true] at hwf
    obtain ⟨⟨hs, hv⟩, hr⟩ := hwf
    obtain ⟨hl1, hl2⟩ := entries_text_length ')' s v r hs
    cases fuel with
    | zero => omega
    | succ f =>
      obtain ⟨h1, h2, h3, h4⟩ := slot_wf hs
      rw [entries_text_cons]
      obtain ⟨t, ht⟩ := entries_tail ')' r rest
      generalize htail :
        (if r.isEmpty = true then r.text ')' else ',' :: r.text ')') ++ rest = tail at ht
      have hst : stops (s.ws_end ++ tail) = true := by
        rcases ht with ht | ht
        · rw [ht]; exact stops_ws _ _ _ h4 (stops_punct _ _ (by decide))
        · rw [ht]; exact stops_ws _ _ _ h4 (stops_punct _ _ (by decide))
      have ihv := parse_value_text v f (s.ws_end ++ tail) hv hst (by omega)
      obtain ⟨step1, step3, step4⟩ := parse_args_step f s v.text tail acc hs
      cases hval : v.value with
      | none =>
        rw [hval] at ihv
        rw [step1 ihv]
        simp only [Entries.args, hval]
      | some x =>
        rw [hval] at ihv
        cases r with
        | nil =>
          simp only [Entries.isEmpty, if_true, Entries.text, List.cons_append,
            List.nil_append] at htail
          rw [step3 x rest ihv htail.symm]
          simp only [Entries.args, hval]
        | cons s' v' r' =>
          simp only [Entries.isEmpty, Bool.false_eq_true, if_false, List.cons_append]
            at htail
          rw [step4 x _ ihv htail.symm]
          rw [parse_args_text (.cons s' v' r') f (acc ++ [(s.name, x)]) rest hr
            (by omega) rfl]
          simp only [Entries.args, hval]

theorem call_wf {c : CallText} (h : c.wf = true) :
    all_space c.ws_name ∧ valid_ident c.name = true ∧ all_space c.ws_paren
      ∧ all_space c.ws_open ∧ c.entries.wf = true ∧ all_space c.ws_end := by
  simp only [CallText.wf, Bool.and_eq_true, decide_eq_true_eq] at h
  exact ⟨h.1.1.1.1.1, h.1.1.1.1.2, h.1.1.1.2, h.1.1.2, h.1.2, h.2⟩

/-- The parser on the text of a call: the call that the text denotes, or `ParseError`
when it denotes none. -/
theorem parse_bounded_text (c : CallText) (fuel : Nat) (hwf : c.wf = true)
    (hfuel : (c.entries.text ')').length ≤ fuel) :
    RequestParser.parse_bounded fuel c.text
      = some (match c.call with
          | some call => .ok call
          | none => .error .ParseError) := by
  obtain ⟨h1, h2, h3, h4, h5, h6⟩ := call_wf hwf
  have hst : stops (c.ws_paren ++ '(' :: (c.ws_open ++ (c.entries.text ')' ++ c.ws_end))) = true :=
    stops_ws _ _ _ h3 (stops_punct _ _ (by decide))
  have hid := ident_text c.ws_name c.name _ h1 h2 hst
  have hex : Lexer.except '(' (c.ws_paren ++ '(' :: (c.ws_open ++ (c.entries.text ')' ++ c.ws_end)))
      = .ok (c.ws_open ++ (c.entries.text ')' ++ c.ws_end)) :=
    except_of_skip_ws _ _ _ (skip_ws_space_then _ _ _ h3 (by decide))
  have hend : Lexer.skip_ws c.ws_end = [] := (skip_ws_eq_nil_iff _).mpr h6
  cases hes : c.entries with
  | nil =>
    rw [hes] at hid hex
    have hc : Lexer.consume ')' (Lexer.skip_ws (c.ws_open ++ (Entries.nil.text ')' ++ c.ws_end)))
        = (true, c.ws_end) :=
      consume_of_skip_ws _ _ _ (by
        rw [skip_ws_idem]
        exact skip_ws_space_then _ _ _ h4 (by decide))
    simp only [RequestParser.parse_bounded, CallText.text, hes, hid, hex, hc, hend, Lexer.eof,
      List.isEmpty_nil, not_true_eq_false, if_false, CallText.call, Entries.args]
  | cons s v r =>
    rw [hes] at hid hex hfuel h5
    have h5' := h5
    simp only [Entries.wf, Bool.and_eq_true] at h5'
    obtain ⟨n, ns, hname, -, hnsp, -, -, -, hnb, -, -, -, -⟩ :=
      valid_ident_head (slot_wf h5'.1.1).2.1
    have hsk0 : Lexer.skip_ws ((Entries.cons s v r).text ')' ++ c.ws_end)
        = (n :: ns) ++ (s.ws_eq ++ '=' :: (v.text ++ (s.ws_end ++
          ((if r.isEmpty = true then r.text ')' else ',' :: r.text ')') ++ c.ws_end)))) := by
      rw [entries_text_cons, hname]
      exact skip_ws_space_then _ _ _ (slot_wf h5'.1.1).1 hnsp
    have hsk : Lexer.skip_ws (Lexer.skip_ws
        (c.ws_open ++ ((Entries.cons s v r).text ')' ++ c.ws_end))) = n :: (ns ++
          (s.ws_eq ++ '=' :: (v.text ++ (s.ws_end ++
          ((if r.isEmpty = true then r.text ')' else ',' :: r.text ')') ++ c.ws_end))))) := by
      rw [skip_ws_idem, skip_ws_append _ _ h4, hsk0]
      rfl
    have hmiss := consume_miss ')' n _ _ hsk hnb
    have hcongr : RequestParser.parse_args fuel (n :: (ns ++
          (s.ws_eq ++ '=' :: (v.text ++ (s.ws_end ++
          ((if r.isEmpty = true then r.text ')' else ',' :: r.text ')') ++ c.ws_end)))))) []
        = RequestParser.parse_args fuel ((Entries.cons s v r).text ')' ++ c.ws_end) [] := by
      apply parse_args_congr
      rw [hsk0]
      exact skip_ws_of_not_space _ hnsp
    have ih := parse_args_text (.cons s v r) fuel [] c.ws_end h5 hfuel rfl
    rw [← hcongr] at ih
    cases ha : (Entries.cons s v r).args [] with
    | none =>
      rw [ha] at ih
      simp only [RequestParser.parse_bounded, CallText.text, hes, hid, hex, hmiss, ih,
        CallText.call, ha]
    | some as =>
      rw [ha] at ih
      simp only [RequestParser.parse_bounded, CallText.text, hes, hid, hex, hmiss, ih, hend,
        Lexer.eof, List.isEmpty_nil, not_true_eq_false, if_false, CallText.call, ha]

/-- The parser on the text of a call. -/
theorem parse_text (c : CallText) (hwf : c.wf = true) :
    RequestParser.parse c.text
      = some (match c.call with
          | some call => .ok call
          | none => .error .ParseError) := by
  apply parse_bounded_text c _ hwf
  simp only [CallText.text, List.length_append, List.length_cons]
  omega

/-! ### Literals without a value -/

theorem fields_some_names : ∀ (es : Entries) (acc fs : List (Str × Value)),
    es.fields acc = some fs →
    es.names.Nodup ∧ ∀ n ∈ es.names, map_find n acc = none
  | .nil, _, _, _ => by simp [Entries.names]
  | .cons s v r, acc, fs, h => by
    simp only [Entries.fields] at h
    cases hv : v.value with
    | none => simp only [hv, reduceCtorEq] at h
    | some x =>
      simp only [hv] at h
      cases hd : (map_find s.name acc).isSome with
      | true => simp only [hd, if_true, reduceCtorEq] at h
      | false =>
        simp only [hd, Bool.false_eq_true, if_false] at h
        obtain ⟨ih1, ih2⟩ := fields_some_names r _ fs h
        have hnone : map_find s.name acc = none := by
          cases hm : map_find s.name acc with
          | none => rfl
          | some y => simp [hm] at hd
        have key : ∀ n ∈ r.names, map_find n acc = none ∧ s.name ≠ n := by
          intro n hn
          have h2 := ih2 n hn
          rw [map_find_emplace] at h2
          cases hm : map_find n acc with
          | some y => simp [hm] at h2
          | none =>
            refine ⟨rfl, ?_⟩
            intro heq
            simp [hm, heq] at h2
        simp only [Entries.names, List.nodup_cons, List.mem_cons, forall_eq_or_imp]
        refine ⟨⟨fun hmem => (key _ hmem).2 rfl, ih1⟩, hnone, fun n hn => (key n hn).1⟩

mutual
theorem has_dup_value : ∀ (v : Lit), v.has_dup = true → v.value = none
  | .str _ _, h => by simp [Lit.has_dup] at h
  | .int _ _ _ _, h => by simp [Lit.has_dup] at h
  | .struct _ hint _ _ es, h => by
    simp only [Lit.has_dup, Bool.or_eq_true, Bool.not_eq_true', decide_eq_false_iff_not] at h
    cases hf : es.fields [] with
    | none => simp only [Lit.value, hf]
    | some fs =>
      rcases h with h | h
      · exact absurd (fields_some_names es [] fs hf).1 h
      · rw [(has_dup_entries es h).1 []] at hf
        cases hf
theorem has_dup_entries : ∀ (es : Entries), es.has_dup = true →
    (∀ acc, es.fields acc = none) ∧ (∀ acc, es.args acc = none)
  | .nil, h => by simp [Entries.has_dup] at h
  | .cons s v r, h => by
    simp only [Entries.has_dup, Bool.or_eq_true] at h
    rcases h with h | h
    · have hv := has_dup_value v h
      exact ⟨fun acc => by simp only [Entries.fields, hv],
        fun acc => by simp only [Entries.args, hv]⟩
    · obtain ⟨ih1, ih2⟩ := has_dup_entries r h
      constructor
      · intro acc
        simp only [Entries.fields]
        cases v.value with
        | none => rfl
        | some x =>
          simp only [ih1]
          split_ifs <;> rfl
      · intro acc
        simp only [Entries.args]
        cases v.value with
        | none => rfl
        | some x => simp only [ih2]
end

mutual
theorem has_gap_value : ∀ (v : Lit), v.has_gap = true → v.value = none
  | .str _ _, h => by simp [Lit.has_gap] at h
  | .int _ sign gap digits, h => by
    simp only [Lit.has_gap, Bool.not_eq_true', List.isEmpty_eq_false] at h
    simp only [Lit.value, int_value, ne_eq, h, not_false_eq_true, if_true]
  | .struct _ hint _ _ es, h => by
    simp only [Lit.has_gap] at h
    simp only [Lit.value, (has_gap_entries es h).1]
theorem has_gap_entries : ∀ (es : Entries), es.has_gap = true →
    (∀ acc, es.fields acc = none) ∧ (∀ acc, es.args acc = none)
  | .nil, h => by simp [Entries.has_gap] at h
  | .cons s v r, h => by
    simp only [Entries.has_gap, Bool.or_eq_true] at h
    rcases h with h | h
    · have hv := has_gap_value v h
      exact ⟨fun acc => by simp only [Entries.fields, hv],
        fun acc => by simp only [Entries.args, hv]⟩
    · obtain ⟨ih1, ih2⟩ := has_gap_entries r h
      constructor
      · intro acc
        simp only [Entries.fields]
        cases v.value with
        | none => rfl
        | some x =>
          simp only [ih1]
          split_ifs <;> rfl
      · intro acc
        simp only [Entries.args]
        cases v.value with
        | none => rfl
        | some x => simp only [ih2]
end

/-! ### White space around the tokens -/

mutual
theorem strip_value : ∀ (v : Lit), v.strip.value = v.value
  | .str _ _ => rfl
  | .int _ _ _ _ => rfl
  | .struct _ hint _ _ es => by
    simp only [Lit.strip, Lit.value, strip_fields es]
theorem strip_fields : ∀ (es : Entries) (acc : List (Str × Value)),
    es.strip.fields acc = es.fields acc
  | .nil, _ => rfl
  | .cons s v r, acc => by
    simp only [Entries.strip, Entries.fields, strip_value v, Slot.strip, strip_fields r]
end

theorem strip_args : ∀ (es : Entries) (acc : List NamedArg), es.strip.args acc = es.args acc
  | .nil, _ => rfl
  | .cons s v r, acc => by
    simp only [Entries.strip, Entries.args, strip_value v, Slot.strip, strip_args r]

theorem strip_call (c : CallText) : c.strip.call = c.call := by
  simp only [CallText.strip, CallText.call, strip_args]

theorem strip_slot_wf {s : Slot} (h : s.wf = true) : s.strip.wf = true := by
  have h2 := (slot_wf h).2.1
  simp only [Slot.wf, Slot.strip, h2, Bool.and_eq_true, decide_eq_true_eq]
  exact ⟨⟨⟨all_space_nil, trivial⟩, all_space_nil⟩, all_space_nil⟩

mutual
theorem strip_wf : ∀ (v : Lit), v.wf = true → v.strip.wf = true
  | .str _ items, h => by
    simp only [Lit.wf, Bool.and_eq_true, decide_eq_true_eq] at h
    simp only [Lit.strip, Lit.wf, Bool.and_eq_true, decide_eq_true_eq]
    exact ⟨all_space_nil, h.2⟩
  | .int _ sign gap digits, h => by
    simp only [Lit.wf, Bool.and_eq_true, decide_eq_true_eq] at h
    simp only [Lit.strip, Lit.wf, Bool.and_eq_true, decide_eq_true_eq]
    exact ⟨⟨⟨⟨⟨all_space_nil, h.1.1.1.1.2⟩, h.1.1.1.2⟩, h.1.1.2⟩, h.1.2⟩, h.2⟩
  | .struct _ hint ws_hint _ es, h => by
    simp only [Lit.wf, Bool.and_eq_true, decide_eq_true_eq] at h
    obtain ⟨⟨⟨-, hh⟩, -⟩, hes⟩ := h
    simp only [Lit.strip, Lit.wf, Bool.and_eq_true, decide_eq_true_eq]
    refine ⟨⟨⟨all_space_nil, ?_⟩, all_space_nil⟩, strip_entries_wf es hes⟩
    by_cases hn : hint = []
    · simp [hn]
    · simp only [hn, if_false, Bool.and_eq_true, decide_eq_true_eq] at hh ⊢
      exact ⟨hh.1, all_space_nil⟩
theorem strip_entries_wf : ∀ (es : Entries), es.wf = true → es.strip.wf = true
  | .nil, _ => rfl
  | .cons s v r, h => by
    simp only [Entries.wf, Bool.and_eq_true] at h
    simp only [Entries.strip, Entries.wf, Bool.and_eq_true]
    exact ⟨⟨strip_slot_wf h.1.1, strip_wf v h.1.2⟩, strip_entries_wf r h.2⟩
end

theorem strip_call_wf {c : CallText} (h : c.wf = true) : c.strip.wf = true := by
  obtain ⟨-, h2, -, -, h5, -⟩ := call_wf h
  simp only [CallText.wf, CallText.strip, h2, strip_entries_wf _ h5, Bool.and_eq_true,
    decide_eq_true_eq]
  exact ⟨⟨⟨⟨⟨all_space_nil, trivial⟩, all_space_nil⟩, all_space_nil⟩, trivial⟩, all_space_nil⟩

/-! ### The text that the parser has read -/

theorem skip_ws_split : ∀ (lx : Str), ∃ ws, all_space ws ∧ lx = ws ++ Lexer.skip_ws lx
  | [] => ⟨[], all_space_nil, rfl⟩
  | c :: lx => by
    by_cases h : isspace c = true
    · obtain ⟨ws, hws, heq⟩ := skip_ws_split lx
      refine ⟨c :: ws, ?_, ?_⟩
      · intro d hd
        rcases List.mem_cons.mp hd with rfl | hd
        · exact h
        · exact hws d hd
      · simp only [Lexer.skip_ws, h, if_true, List.cons_append]
        rw [← heq]
    · refine ⟨[], all_space_nil, ?_⟩
      simp only [Lexer.skip_ws, h, Bool.false_eq_true, if_false, List.nil_append]

theorem of_skip_ws {lx l : Str} (h : Lexer.skip_ws lx = l) : ∃ ws, all_space ws ∧ lx = ws ++ l := by
  obtain ⟨ws, hws, heq⟩ := skip_ws_split lx
  exact ⟨ws, hws, by rw [← h]; exact heq⟩

theorem ident_loop_inv : ∀ (lx out name lx' : Str), Lexer.ident_loop lx out = (name, lx') →
    ∃ cs : Str, cs.all (fun d => isalnum d || decide (d = '_')) = true ∧ lx = cs ++ lx'
      ∧ name = out ++ cs
  | [], out, name, lx', h => by
    simp only [Lexer.ident_loop, Prod.mk.injEq] at h
    obtain ⟨rfl, rfl⟩ := h
    exact ⟨[], rfl, rfl, by simp⟩
  | c :: lx, out, name, lx', h => by
    by_cases hc : isalnum c = true ∨ c = '_'
    · simp only [Lexer.ident_loop, if_pos hc] at h
      obtain ⟨cs, h1, h2, h3⟩ := ident_loop_inv lx _ name lx' h
      refine ⟨c :: cs, ?_, by rw [h2]; rfl, by rw [h3]; simp⟩
      simp only [List.all_cons, Bool.and_eq_true, Bool.or_eq_true, decide_eq_true_eq]
      exact ⟨hc, h1⟩
    · simp only [Lexer.ident_loop, if_neg hc, Prod.mk.injEq] at h
      obtain ⟨rfl, rfl⟩ := h
      exact ⟨[], rfl, rfl, by simp⟩

theorem ident_inv (lx name lx' : Str) (h : Lexer.ident lx = .ok (name, lx')) :
    ∃ ws, all_space ws ∧ valid_ident name = true ∧ lx = ws ++ (name ++ lx') := by
  have h0 := ident_input lx name lx' h
  obtain ⟨c, t, hl⟩ := List.exists_cons_of_ne_nil h0
  obtain ⟨ws, hws, heq⟩ := of_skip_ws hl
  simp only [Lexer.ident, hl, peek_cons] at h
  by_cases hp : isalpha c = true ∨ c = '_'
  · rw [if_neg (not_not.mpr hp)] at h
    simp only [Except.ok.injEq] at h
    have hc : isalnum c = true ∨ c = '_' := by
      rcases hp with h' | h'
      · left; simp [isalnum, h']
      · right; exact h'
    simp only [Lexer.ident_loop, if_pos hc, List.nil_append] at h
    obtain ⟨cs, h1, h2, h3⟩ := ident_loop_inv t _ name lx' h
    refine ⟨ws, hws, ?_, ?_⟩
    · rw [h3]
      simp only [List.singleton_append, valid_ident, Bool.and_eq_true, Bool.or_eq_true,
        decide_eq_true_eq]
      exact ⟨hp, h1⟩
    · rw [heq, h3, h2]
      simp
  · rw [if_pos hp] at h
    cases h

theorem except_inv (c : Char) (lx lx' : Str) (hc : c ≠ '\x00')
    (h : Lexer.except c lx = .ok lx') : ∃ ws, all_space ws ∧ lx = ws ++ c :: lx' :=
  of_skip_ws (except_ok c lx lx' hc h)

theorem consume_true_inv (c : Char) (lx lx' : Str) (hc : c ≠ '\x00')
    (h : Lexer.consume c lx = (true, lx')) : ∃ ws, all_space ws ∧ lx = ws ++ c :: lx' :=
  of_skip_ws (consume_true c lx lx' hc h)

theorem string_lit_loop_inv :
    ∀ (n : Nat) (lx : Str), lx.length ≤ n → ∀ (out s lx' : Str),
      Lexer.string_lit_loop lx out = .ok (s, lx') →
      ∃ items : List StrItem, (∀ i ∈ items, i.valid) ∧ lx = raw_body items ++ lx'
        ∧ s = out ++ decoded_body items ∧ (lx' = [] ∨ ∃ t, lx' = '"' :: t)
  | _, [], _, out, s, lx', h => by
    rw [string_lit_loop_nil] at h
    simp only [Except.ok.injEq, Prod.mk.injEq] at h
    obtain ⟨rfl, rfl⟩ := h
    exact ⟨[], by simp, by simp [raw_body], by simp [decoded_body], Or.inl rfl⟩
  | 0, c :: lx, hn, _, _, _, _ => by simp at hn
  | n + 1, c :: lx, hn, out, s, lx', h => by
    by_cases hq : c = '"'
    · subst hq
      rw [string_lit_loop_quote] at h
      simp only [Except.ok.injEq, Prod.mk.injEq] at h
      obtain ⟨rfl, rfl⟩ := h
      exact ⟨[], by simp, by simp [raw_body], by simp [decoded_body], Or.inr ⟨_, rfl⟩⟩
    · by_cases hb : c = '\\'
      · subst hb
        cases lx with
        | nil => rw [string_lit_loop_lone_backslash] at h; cases h
        | cons e lx =>
          rw [string_lit_loop_esc] at h
          have hlen : lx.length ≤ n := by simp at hn; omega
          have key : ∀ d : Char, StrItem.decoded (.esc e) = d → StrItem.valid (.esc e) →
              Lexer.string_lit_loop lx (out ++ [d]) = .ok (s, lx') →
              ∃ items : List StrItem, (∀ i ∈ items, i.valid) ∧ '\\' :: e :: lx = raw_body items ++ lx'
                ∧ s = out ++ decoded_body items ∧ (lx' = [] ∨ ∃ t, lx' = '"' :: t) := by
            intro d hd hv h'
            obtain ⟨items, h1, h2, h3, h4⟩ := string_lit_loop_inv n lx hlen _ s lx' h'
            refine ⟨.esc e :: items, ?_, ?_, ?_, h4⟩
            · intro i hi
              rcases List.mem_cons.mp hi with rfl | hi
              · exact hv
              · exact h1 i hi
            · rw [h2]
              simp [raw_body, StrItem.raw]
            · rw [h3]
              simp [decoded_body, hd]
          by_cases e1 : e = 'n'
          · rw [if_pos e1] at h
            exact key _ (by simp [StrItem.decoded, e1]) (Or.inl e1) h
          · rw [if_neg e1] at h
            by_cases e2 : e = 't'
            · rw [if_pos e2] at h
              exact key _ (by simp [StrItem.decoded, e1, e2]) (Or.inr (Or.inl e2)) h
            · rw [if_neg e2] at h
              by_cases e3 : e = '\\'
              · rw [if_pos e3] at h
                exact key _ (by simp [StrItem.decoded, e1, e2, e3]) (Or.inr (Or.inr (Or.inl e3))) h
              · rw [if_neg e3] at h
                by_cases e4 : e = '"'
                · rw [if_pos e4] at h
                  exact key _ (by simp [StrItem.decoded, e1, e2, e4])
                    (Or.inr (Or.inr (Or.inr e4))) h
                · rw [if_neg e4] at h
                  cases h
      · rw [string_lit_loop_plain c _ _ hq hb] at h
        obtain ⟨items, h1, h2, h3, h4⟩ :=
          string_lit_loop_inv n lx (by simp at hn; omega) _ s lx' h
        refine ⟨.plain c :: items, ?_, ?_, ?_, h4⟩
        · intro i hi
          rcases List.mem_cons.mp hi with rfl | hi
          · exact ⟨hq, hb⟩
          · exact h1 i hi
        · rw [h2]
          simp [raw_body, StrItem.raw]
        · rw [h3]
          simp [decoded_body, StrItem.decoded]

theorem string_lit_inv (lx s lx' : Str) (h : Lexer.string_lit lx = .ok (s, lx')) :
    ∃ (ws : Str) (items : List StrItem), all_space ws ∧ (∀ i ∈ items, i.valid)
      ∧ lx = ws ++ '"' :: (raw_body items ++ '"' :: lx') ∧ s = decoded_body items := by
  have h0 : Lexer.skip_ws lx ≠ [] := by
    intro h0
    simp [Lexer.string_lit, h0, Lexer.peek] at h
  obtain ⟨c, t, hl⟩ := List.exists_cons_of_ne_nil h0
  obtain ⟨ws, hws, heq⟩ := of_skip_ws hl
  simp only [Lexer.string_lit, hl, peek_cons, get_cons] at h
  by_cases hq : c = '"'
  · subst hq
    simp only [ne_eq, not_true_eq_false, if_false] at h
    cases hloop : Lexer.string_lit_loop t [] with
    | error e => simp [hloop] at h
    | ok r =>
      obtain ⟨out, l1⟩ := r
      simp only [hloop] at h
      obtain ⟨items, h1, h2, h3, h4⟩ := string_lit_loop_inv _ t le_rfl [] out l1 hloop
      rcases h4 with rfl | ⟨t', rfl⟩
      · simp [Lexer.get, Lexer.eof] at h
      · simp only [get_cons] at h
        split_ifs at h with heof
        simp only [Except.ok.injEq, Prod.mk.injEq] at h
        obtain ⟨rfl, rfl⟩ := h
        refine ⟨ws, items, hws, h1, ?_, by simpa using h3⟩
        rw [heq, h2]
  · simp only [ne_eq, hq, not_false_eq_true, if_true, reduceCtorEq] at h

theorem integer_loop_inv : ∀ (lx : Str) (acc v : Nat) (lx' : Str),
    Lexer.integer_loop lx acc = .ok (v, lx') →
    ∃ ds : Str, (∀ c ∈ ds, isdigit c = true) ∧ lx = ds ++ lx'
  | [], acc, v, lx', h => by
    simp only [Lexer.integer_loop, Except.ok.injEq, Prod.mk.injEq] at h
    exact ⟨[], by simp, by simp [h.2]⟩
  | c :: lx, acc, v, lx', h => by
    by_cases hc : isdigit c = true
    · simp only [Lexer.integer_loop, hc, if_true] at h
      split_ifs at h
      obtain ⟨ds, h1, h2⟩ := integer_loop_inv lx _ v lx' h
      refine ⟨c :: ds, ?_, by rw [h2]; rfl⟩
      intro d hd
      rcases List.mem_cons.mp hd with rfl | hd
      · exact hc
      · exact h1 d hd
    · simp only [Lexer.integer_loop, hc, if_false, Bool.false_eq_true, Except.ok.injEq,
        Prod.mk.injEq] at h
      exact ⟨[], by simp, by simp [h.2]⟩

theorem integer_loop_inv_ne (lx : Str) (acc v : Nat) (lx' : Str)
    (hp : isdigit (Lexer.peek lx) = true)
    (h : Lexer.integer_loop lx acc = .ok (v, lx')) :
    ∃ ds : Str, ds ≠ [] ∧ (∀ c ∈ ds, isdigit c = true) ∧ lx = ds ++ lx' := by
  obtain ⟨ds, h1, h2⟩ := integer_loop_inv lx acc v lx' h
  refine ⟨ds, ?_, h1, h2⟩
  rintro rfl
  simp only [List.nil_append] at h2
  subst h2
  cases lx with
  | nil => simp [Lexer.peek, isdigit] at hp
  | cons c l =>
    simp only [peek_cons] at hp
    simp only [Lexer.integer_loop, hp, if_true] at h
    split_ifs at h
    obtain ⟨ds, -, h2⟩ := integer_loop_inv l _ v _ h
    have := congrArg List.length h2
    simp at this
    omega

theorem integer_inv (lx : Str) (v : Int ⊕ Nat) (lx' : Str)
    (h : Lexer.integer lx = .ok (v, lx')) :
    ∃ ws sign digits : Str, all_space ws ∧ (sign = [] ∨ sign = ['+'] ∨ sign = ['-'])
      ∧ digits ≠ [] ∧ (∀ c ∈ digits, isdigit c = true)
      ∧ lx = ws ++ (sign ++ ([] ++ (digits ++ lx'))) := by
  have h0 : Lexer.skip_ws lx ≠ [] := by
    intro h0
    simp [Lexer.integer, h0, Lexer.peek, Lexer.get, isdigit] at h
  obtain ⟨c, l, hl⟩ := List.exists_cons_of_ne_nil h0
  obtain ⟨ws, hws, heq⟩ := of_skip_ws hl
  simp only [Lexer.integer, hl, peek_cons, get_cons] at h
  by_cases hs : c = '+' ∨ c = '-'
  · simp only [if_pos hs] at h
    by_cases hd : isdigit (Lexer.peek l) = true
    · rw [if_neg (not_not.mpr hd)] at h
      cases hloop : Lexer.integer_loop l 0 with
      | error e => simp [hloop] at h
      | ok r =>
        obtain ⟨acc, l1⟩ := r
        simp only [hloop] at h
        have hl1 : l1 = lx' := by
          split_ifs at h <;> simp only [Except.ok.injEq, Prod.mk.injEq] at h <;> exact h.2
        subst hl1
        obtain ⟨ds, hne, h1, h2⟩ := integer_loop_inv_ne l 0 acc l1 hd hloop
        refine ⟨ws, [c], ds, hws, ?_, hne, h1, ?_⟩
        · rcases hs with rfl | rfl
          · exact Or.inr (Or.inl rfl)
          · exact Or.inr (Or.inr rfl)
        · rw [heq, h2]
          rfl
    · rw [if_pos hd] at h
      cases h
  · simp only [if_neg hs, peek_cons] at h
    by_cases hd : isdigit c = true
    · rw [if_neg (not_not.mpr hd)] at h
      cases hloop : Lexer.integer_loop (c :: l) 0 with
      | error e => simp [hloop] at h
      | ok r =>
        obtain ⟨acc, l1⟩ := r
        simp only [hloop] at h
        have hl1 : l1 = lx' := by
          split_ifs at h <;> simp only [Except.ok.injEq, Prod.mk.injEq] at h <;> exact h.2
        subst hl1
        obtain ⟨ds, hne, h1, h2⟩ := integer_loop_inv_ne (c :: l) 0 acc l1 hd hloop
        refine ⟨ws, [], ds, hws, Or.inl rfl, hne, h1, ?_⟩
        rw [heq, h2]
        rfl
    · rw [if_pos hd] at h
      cases h

theorem struct_open_inv (c : Char) (t name lx₁ : Str)
    (h : RequestParser.struct_open c (c :: t) = .ok (name, lx₁)) :
    ∃ ws₀ ws_hint : Str, all_space ws₀
      ∧ (if name = [] then decide (ws_hint = []) else valid_ident name && decide (all_space ws_hint))
          = true
      ∧ c :: t = ws₀ ++ (name ++ (ws_hint ++ '\x7b' :: lx₁)) := by
  simp only [RequestParser.struct_open] at h
  by_cases hb : c = '\x7b'
  · rw [if_neg (not_not.mpr hb)] at h
    simp only [Except.ok.injEq, Prod.mk.injEq, get_cons] at h
    obtain ⟨rfl, rfl⟩ := h
    exact ⟨[], [], all_space_nil, by simp, by rw [hb]; rfl⟩
  · rw [if_pos hb] at h
    cases hid : Lexer.ident (c :: t) with
    | error e => simp [hid] at h
    | ok r =>
      obtain ⟨n, a⟩ := r
      simp only [hid] at h
      cases hcons : Lexer.consume '\x7b' (Lexer.skip_ws a) with
      | mk b lx₂ =>
        rw [hcons] at h
        cases b with
        | false => simp at h
        | true =>
          simp only [Except.ok.injEq, Prod.mk.injEq] at h
          obtain ⟨rfl, rfl⟩ := h
          obtain ⟨ws₀, h1, h2, h3⟩ := ident_inv _ _ _ hid
          have h4 := consume_true _ _ _ (by decide) hcons
          rw [skip_ws_idem] at h4
          obtain ⟨wsh, h5, h6⟩ := of_skip_ws h4
          have hne : n ≠ [] := by
            rintro rfl
            simp [valid_ident] at h2
          refine ⟨ws₀, wsh, h1, ?_, ?_⟩
          · simp only [hne, if_false, h2, Bool.true_and, decide_eq_true_eq]
            exact h5
          · rw [h3, h6]

/-- The entries with the white space `ws` written in front of them. -/
theorem entries_pad (close : Char) (ws : Str) (hws : all_space ws) :
    ∀ (es : Entries), es.wf = true → es.isEmpty = false →
      ∃ es' : Entries, es'.wf = true ∧ es'.isEmpty = false ∧ es'.text close = ws ++ es.text close
  | .nil, _, he => by simp [Entries.isEmpty] at he
  | .cons s v r, hwf, _ => by
    simp only [Entries.wf, Bool.and_eq_true] at hwf
    obtain ⟨h1, h2, h3, h4⟩ := slot_wf hwf.1.1
    refine ⟨.cons ⟨ws ++ s.ws_name, s.name, s.ws_eq, s.ws_end⟩ v r, ?_, rfl, ?_⟩
    · simp only [Entries.wf, Slot.wf, Bool.and_eq_true, decide_eq_true_eq]
      exact ⟨⟨⟨⟨⟨all_space_append hws h1, h2⟩, h3⟩, h4⟩, hwf.1.2⟩, hwf.2⟩
    · simp only [Entries.text, List.append_assoc]

theorem parse_value_fields_inv (fuel : Nat) :
    (∀ (lx : Str) (v : Value) (lx' : Str),
      RequestParser.parse_value fuel lx = some (.ok (v, lx')) →
      ∃ lit : Lit, lit.wf = true ∧ lx = lit.text ++ lx')
    ∧ (∀ (lx : Str) (fields fs : List (Str × Value)) (lx' : Str),
      RequestParser.parse_fields fuel lx fields = some (.ok (fs, lx')) →
      ∃ es : Entries, es.wf = true ∧ es.isEmpty = false ∧ lx = es.text '\x7d' ++ lx') := by
  induction fuel with
  | zero =>
    exact ⟨fun lx v lx' h => by simp [RequestParser.parse_value] at h,
      fun lx fields fs lx' h => by simp [RequestParser.parse_fields] at h⟩
  | succ fuel ih =>
    obtain ⟨ihv, ihf⟩ := ih
    constructor
    · intro lx v lx' h
      have h0 := parse_value_input _ _ _ _ h
      obtain ⟨c, t, hl⟩ := List.exists_cons_of_ne_nil h0
      obtain ⟨ws, hws, heq⟩ := of_skip_ws hl
      simp only [RequestParser.parse_value, hl, peek_cons] at h
      by_cases hq : c = '"'
      · rw [if_pos hq] at h
        cases hs : Lexer.string_lit (c :: t) with
        | error e => simp [hs] at h
        | ok r =>
          obtain ⟨s, l1⟩ := r
          simp only [hs, Option.some.injEq, Except.ok.injEq, Prod.mk.injEq] at h
          obtain ⟨rfl, rfl⟩ := h
          obtain ⟨ws', items, h1, h2, h3, -⟩ := string_lit_inv _ _ _ hs
          refine ⟨.str (ws ++ ws') items, ?_, ?_⟩
          · simp only [Lit.wf, Bool.and_eq_true, decide_eq_true_eq, List.all_eq_true]
            exact ⟨all_space_append hws h1, h2⟩
          · rw [heq, h3]
            simp only [Lit.text, List.append_assoc, List.cons_append, List.nil_append]
      · rw [if_neg hq] at h
        by_cases hb : c = '\x7b' ∨ isalpha c = true ∨ c = '_'
        · rw [if_pos hb] at h
          cases ho : RequestParser.struct_open c (c :: t) with
          | error e => simp [ho] at h
          | ok r =>
            obtain ⟨name, lx₁⟩ := r
            simp only [ho] at h
            obtain ⟨ws₀, wsh, g1, g2, g3⟩ := struct_open_inv c t name lx₁ ho
            cases hcons : Lexer.consume '\x7d' (Lexer.skip_ws lx₁) with
            | mk b lx₂ =>
              rw [hcons] at h
              cases b with
              | true =>
                simp only [Option.some.injEq, Except.ok.injEq, Prod.mk.injEq] at h
                obtain ⟨rfl, rfl⟩ := h
                have h1 := consume_true _ _ _ (by decide) hcons
                rw [skip_ws_idem] at h1
                obtain ⟨wso, k1, k2⟩ := of_skip_ws h1
                refine ⟨.struct (ws ++ ws₀) name wsh wso .nil, ?_, ?_⟩
                · simp only [Lit.wf, Entries.wf, Bool.and_eq_true, decide_eq_true_eq, and_true]
                  exact ⟨⟨all_space_append hws g1, g2⟩, k1⟩
                · rw [heq, g3, k2]
                  simp only [Lit.text, Entries.text, List.append_assoc, List.cons_append,
                    List.nil_append]
              | false =>
                simp only at h
                cases hf : RequestParser.parse_fields fuel lx₂ [] with
                | none => simp [hf] at h
                | some r =>
                  cases r with
                  | error e => simp [hf] at h
                  | ok r =>
                    obtain ⟨fs, lx₃⟩ := r
                    simp only [hf, Option.some.injEq, Except.ok.injEq, Prod.mk.injEq] at h
                    obtain ⟨rfl, rfl⟩ := h
                    obtain ⟨h3, -⟩ := consume_false _ _ _ hcons
                    rw [skip_ws_idem] at h3
                    obtain ⟨wso, k1, k2⟩ := of_skip_ws h3.symm
                    obtain ⟨es, e1, e2, e3⟩ := ihf _ _ _ _ hf
                    refine ⟨.struct (ws ++ ws₀) name wsh wso es, ?_, ?_⟩
                    · simp only [Lit.wf, Bool.and_eq_true, decide_eq_true_eq]
                      exact ⟨⟨⟨all_space_append hws g1, g2⟩, k1⟩, e1⟩
                    · rw [heq, g3, k2, e3]
                      simp only [Lit.text, List.append_assoc, List.cons_append]
        · rw [if_neg hb] at h
          cases hi : Lexer.integer (c :: t) with
          | error e => simp [hi] at h
          | ok r =>
            obtain ⟨n, l1⟩ := r
            have hl1 : l1 = lx' := by
              cases n <;> simp only [hi, Option.some.injEq, Except.ok.injEq, Prod.mk.injEq] at h <;>
                exact h.2
            subst hl1
            obtain ⟨ws', sign, digits, i1, i2, i3, i4, i5⟩ := integer_inv _ _ _ hi
            refine ⟨.int (ws ++ ws') sign [] digits, ?_, ?_⟩
            · simp only [Lit.wf, Bool.and_eq_true, decide_eq_true_eq, List.all_eq_true,
                Bool.not_eq_true', List.isEmpty_eq_false]
              exact ⟨⟨⟨⟨⟨all_space_append hws i1, i2⟩, all_space_nil⟩, fun _ => trivial⟩, i3⟩, i4⟩
            · rw [heq, i5]
              simp only [Lit.text, List.append_assoc, List.nil_append]
    · intro lx fields fs lx' h
      simp only [RequestParser.parse_fields] at h
      cases hid : Lexer.ident lx with
      | error e => simp [hid] at h
      | ok r =>
        obtain ⟨fname, lx₁⟩ := r
        simp only [hid] at h
        cases hex : Lexer.except '=' lx₁ with
        | error e => simp [hex] at h
        | ok lx₂ =>
          simp only [hex] at h
          obtain ⟨ws₁, a1, a2, a3⟩ := ident_inv _ _ _ hid
          obtain ⟨ws₂, b1, b2⟩ := except_inv _ _ _ (by decide) hex
          cases hv : RequestParser.parse_value fuel lx₂ with
          | none => simp [hv] at h
          | some r =>
            cases r with
            | error e => simp [hv] at h
            | ok r =>
              obtain ⟨fval, lx₃⟩ := r
              simp only [hv] at h
              obtain ⟨lit, c1, c2⟩ := ihv _ _ _ hv
              by_cases hdup : (map_find fname fields).isSome = true
              · simp [hdup] at h
              · rw [if_neg hdup] at h
                cases hcons : Lexer.consume '\x7d' (Lexer.skip_ws lx₃) with
                | mk b lx₄ =>
                  rw [hcons] at h
                  cases b with
                  | true =>
                    simp only [Option.some.injEq, Except.ok.injEq, Prod.mk.injEq] at h
                    obtain ⟨rfl, rfl⟩ := h
                    have h1 := consume_true _ _ _ (by decide) hcons
                    rw [skip_ws_idem] at h1
                    obtain ⟨ws₃, d1, d2⟩ := of_skip_ws h1
                    refine ⟨.cons ⟨ws₁, fname, ws₂, ws₃⟩ lit .nil, ?_, rfl, ?_⟩
                    · simp only [Entries.wf, Slot.wf, Bool.and_eq_true, decide_eq_true_eq,
                        and_true]
                      exact ⟨⟨⟨⟨a1, a2⟩, b1⟩, d1⟩, c1⟩
                    · rw [a3, b2, c2, d2]
                      simp only [Entries.text, Entries.isEmpty, if_true, List.append_assoc,
                        List.cons_append, List.nil_append]
                  | false =>
                    simp only at h
                    cases hex2 : Lexer.except ',' lx₄ with
                    | error e => simp [hex2] at h
                    | ok lx₅ =>
                      simp only [hex2] at h
                      have h4 := except_ok _ _ _ (by decide) hex2
                      obtain ⟨h3, -⟩ := consume_false _ _ _ hcons
                      rw [skip_ws_idem] at h3
                      rw [h3, skip_ws_idem] at h4
                      obtain ⟨ws₃, d1, d2⟩ := of_skip_ws h4
                      obtain ⟨es, e1, e2, e3⟩ := ihf _ _ _ _ h
                      obtain ⟨ws₅, f1, f2⟩ := skip_ws_split lx₅
                      obtain ⟨es', p1, p2, p3⟩ := entries_pad '\x7d' ws₅ f1 es e1 e2
                      refine ⟨.cons ⟨ws₁, fname, ws₂, ws₃⟩ lit es', ?_, rfl, ?_⟩
                      · simp only [Entries.wf, Slot.wf, Bool.and_eq_true, decide_eq_true_eq]
                        exact ⟨⟨⟨⟨⟨a1, a2⟩, b1⟩, d1⟩, c1⟩, p1⟩
                      · rw [a3, b2, c2, d2, f2, e3]
                        simp only [Entries.text, p2, Bool.false_eq_true, if_false, p3,
                          List.append_assoc, List.cons_append]

theorem parse_args_inv (fuel : Nat) :
    ∀ (lx : Str) (args as : List NamedArg) (lx' : Str),
      RequestParser.parse_args fuel lx args = some (.ok (as, lx')) →
      ∃ es : Entries, es.wf = true ∧ es.isEmpty = false ∧ lx = es.text ')' ++ lx' := by
  induction fuel with
  | zero => exact fun lx args as lx' h => by simp [RequestParser.parse_args] at h
  | succ fuel ih =>
    intro lx args as lx' h
    simp only [RequestParser.parse_args] at h
    cases hid : Lexer.ident lx with
    | error e => simp [hid] at h
    | ok r =>
      obtain ⟨fname, lx₁⟩ := r
      simp only [hid] at h
      cases hex : Lexer.except '=' lx₁ with
      | error e => simp [hex] at h
      | ok lx₂ =>
        simp only [hex] at h
        obtain ⟨ws₁, a1, a2, a3⟩ := ident_inv _ _ _ hid
        obtain ⟨ws₂, b1, b2⟩ := except_inv _ _ _ (by decide) hex
        cases hv : RequestParser.parse_value fuel lx₂ with
        | none => simp [hv] at h
        | some r =>
          cases r with
          | error e => simp [hv] at h
          | ok r =>
            obtain ⟨fval, lx₃⟩ := r
            simp only [hv] at h
            obtain ⟨lit, c1, c2⟩ := (parse_value_fields_inv fuel).1 _ _ _ hv
            cases hcons : Lexer.consume ')' (Lexer.skip_ws lx₃) with
            | mk b lx₄ =>
              rw [hcons] at h
              cases b with
              | true =>
                simp only [Option.some.injEq, Except.ok.injEq, Prod.mk.injEq] at h
                obtain ⟨rfl, rfl⟩ := h
                have h1 := consume_true _ _ _ (by decide) hcons
                rw [skip_ws_idem] at h1
                obtain ⟨ws₃, d1, d2⟩ := of_skip_ws h1
                refine ⟨.cons ⟨ws₁, fname, ws₂, ws₃⟩ lit .nil, ?_, rfl, ?_⟩
                · simp only [Entries.wf, Slot.wf, Bool.and_eq_true, decide_eq_true_eq,
                    and_true]
                  exact ⟨⟨⟨⟨a1, a2⟩, b1⟩, d1⟩, c1⟩
                · rw [a3, b2, c2, d2]
                  simp only [Entries.text, Entries.isEmpty, if_true, List.append_assoc,
                    List.cons_append, List.nil_append]
              | false =>
                try simp only at h
                cases hex2 : Lexer.except ',' lx₄ with
                | error e => simp [hex2] at h
                | ok lx₅ =>
                  simp only [hex2] at h
                  have h4 := except_ok _ _ _ (by decide) hex2
                  obtain ⟨h3, -⟩ := consume_false _ _ _ hcons
                  rw [skip_ws_idem] at h3
                  rw [h3, skip_ws_idem] at h4
                  obtain ⟨ws₃, d1, d2⟩ := of_skip_ws h4
                  obtain ⟨es, e1, e2, e3⟩ := ih _ _ _ _ h
                  rw [skip_ws_idem] at e3
                  obtain ⟨ws₅, f1, f2⟩ := skip_ws_split lx₅
                  obtain ⟨es', p1, p2, p3⟩ := entries_pad ')' ws₅ f1 es e1 e2
                  refine ⟨.cons ⟨ws₁, fname, ws₂, ws₃⟩ lit es', ?_, rfl, ?_⟩
                  · simp only [Entries.wf, Slot.wf, Bool.and_eq_true, decide_eq_true_eq]
                    exact ⟨⟨⟨⟨⟨a1, a2⟩, b1⟩, d1⟩, c1⟩, p1⟩
                  · rw [a3, b2, c2, d2, f2, e3]
                    simp only [Entries.text, p2, Bool.false_eq_true, if_false, p3,
                      List.append_assoc, List.cons_append]

/-- Every text that the parser accepts is the text of a call, written token by token
with white space around the tokens. -/
theorem parse_bounded_inv (fuel : Nat) (s : Str) (call : Call)
    (h : RequestParser.parse_bounded fuel s = some (.ok call)) :
    ∃ c : CallText, c.wf = true ∧ c.text = s := by
  simp only [RequestParser.parse_bounded] at h
  cases hid : Lexer.ident s with
  | error e => simp [hid] at h
  | ok r =>
    obtain ⟨fname, lx₁⟩ := r
    simp only [hid] at h
    cases hex : Lexer.except '(' lx₁ with
    | error e => simp [hex] at h
    | ok lx₂ =>
      simp only [hex] at h
      obtain ⟨ws₁, a1, a2, a3⟩ := ident_inv _ _ _ hid
      obtain ⟨ws₂, b1, b2⟩ := except_inv _ _ _ (by decide) hex
      have key : ∀ (args : List NamedArg) (lx₄ : Str),
          (if ¬ (Lexer.eof (Lexer.skip_ws lx₄)) = true then some (Except.error Error.ParseError)
            else some (Except.ok (⟨fname, args⟩ : Call))) = some (Except.ok call) →
          all_space lx₄ := by
        intro args lx₄ h
        by_cases heof : ¬ (Lexer.eof (Lexer.skip_ws lx₄)) = true
        · rw [if_pos heof] at h
          cases h
        · have hnil : Lexer.skip_ws lx₄ = [] := by
            simpa [Lexer.eof] using heof
          exact (skip_ws_eq_nil_iff _).mp hnil
      cases hcons : Lexer.consume ')' (Lexer.skip_ws lx₂) with
      | mk b lx₃ =>
        rw [hcons] at h
        cases b with
        | true =>
          try simp only at h
          have h1 := consume_true _ _ _ (by decide) hcons
          rw [skip_ws_idem] at h1
          obtain ⟨wso, k1, k2⟩ := of_skip_ws h1
          have hend := key _ _ h
          refine ⟨⟨ws₁, fname, ws₂, wso, .nil, lx₃⟩, ?_, ?_⟩
          · simp only [CallText.wf, Entries.wf, Bool.and_eq_true, decide_eq_true_eq, and_true]
            exact ⟨⟨⟨⟨a1, a2⟩, b1⟩, k1⟩, hend⟩
          · rw [a3, b2, k2]
            simp only [CallText.text, Entries.text, List.cons_append, List.nil_append]
        | false =>
          try simp only at h
          cases hargs : RequestParser.parse_args fuel lx₃ [] with
          | none => simp [hargs] at h
          | some r =>
            cases r with
            | error e => simp [hargs] at h
            | ok r =>
              obtain ⟨args, lx₄⟩ := r
              simp only [hargs] at h
              have hend := key _ _ h
              obtain ⟨h3, -⟩ := consume_false _ _ _ hcons
              rw [skip_ws_idem] at h3
              obtain ⟨wso, k1, k2⟩ := of_skip_ws h3.symm
              obtain ⟨es, e1, e2, e3⟩ := parse_args_inv fuel _ _ _ _ hargs
              refine ⟨⟨ws₁, fname, ws₂, wso, es, lx₄⟩, ?_, ?_⟩
              · simp only [CallText.wf, Bool.and_eq_true, decide_eq_true_eq]
                exact ⟨⟨⟨⟨⟨a1, a2⟩, b1⟩, k1⟩, e1⟩, hend⟩
              · rw [a3, b2, k2, e3]
                simp only [CallText.text]

/-- C17: the parser fails with `ParseError` on the text of every call in which a
struct literal, at any depth below an argument, has the same field name written
twice; the text is any one made of the tokens of the call with white space around
them. -/
theorem parse_duplicate_field (c : CallText) (hwf : c.wf = true)
    (hdup : c.entries.has_dup = true) :
    RequestParser.parse c.text = some (.error .ParseError) := by
  rw [parse_text c hwf]
  simp only [CallText.call, (has_dup_entries _ hdup).2]

theorem parse_duplicate_field_witness :
    dup_call_text.text = "f(s=\x7ba=1,a=2\x7d)".toList
    ∧ RequestParser.parse "f(s=\x7ba=1,a=2\x7d)".toList = some (.error .ParseError) :=
  ⟨by decide, parse_duplicate_field dup_call_text (by decide) (by decide)⟩

/-- C20: every text that `RequestParser::parse` accepts is the text of a call written
token by token (`CallText`), and every text with the same tokens and any white space
before and after them (the same `strip`) gives the same `Call`; more generally two
texts with the same tokens have the same outcome. A text in which white space
stands between the sign and the digits of an integer literal fails with
`ParseError`. -/
theorem parse_whitespace :
    (∀ (s : Str) (call : Call), RequestParser.parse s = some (.ok call) →
      ∃ c : CallText, c.wf = true ∧ c.text = s ∧
        ∀ c' : CallText, c'.wf = true → c'.strip = c.strip →
          RequestParser.parse c'.text = some (.ok call))
    ∧ (∀ c c' : CallText, c.wf = true → c'.wf = true → c'.strip = c.strip →
        RequestParser.parse c'.text = RequestParser.parse c.text)
    ∧ (∀ c : CallText, c.wf = true → c.entries.has_gap = true →
        RequestParser.parse c.text = some (.error .ParseError)) := by
  have same : ∀ c c' : CallText, c.wf = true → c'.wf = true → c'.strip = c.strip →
      RequestParser.parse c'.text = RequestParser.parse c.text := by
    intro c c' hwf hwf' hs
    rw [parse_text c hwf, parse_text c' hwf', ← strip_call c, ← strip_call c', hs]
  refine ⟨fun s call h => ?_, same, fun c hwf hgap => ?_⟩
  · obtain ⟨c, hwf, htext⟩ := parse_bounded_inv _ s call h
    refine ⟨c, hwf, htext, fun c' hwf' hs => ?_⟩
    rw [same c c' hwf hwf' hs, htext]
    exact h
  · rw [parse_text c hwf]
    simp only [CallText.call, (has_gap_entries _ hgap).2]

theorem parse_whitespace_witness :
    spaced_call_text.text = " sum ( p = \x7b x = 1 , y = 2 \x7d ) ".toList
    ∧ spaced_call_text.strip.text = "sum(p=\x7bx=1,y=2\x7d)".toList
    ∧ RequestParser.parse " sum ( p = \x7b x = 1 , y = 2 \x7d ) ".toList
        = RequestParser.parse "sum(p=\x7bx=1,y=2\x7d)".toList
    ∧ RequestParser.parse "sum(p=\x7bx=1,y=2\x7d)".toList
        = some (.ok ⟨"sum".toList, [("p".toList,
            .struct [] [("x".toList, .uint 1), ("y".toList, .uint 2)])]⟩)
    ∧ gap_call_text.text = "f(a=- 1)".toList
    ∧ RequestParser.parse "f(a=- 1)".toList = some (.error .ParseError) :=
  ⟨by decide, by decide,
    parse_whitespace.2.1 spaced_call_text.strip spaced_call_text (by decide) (by decide) rfl,
    rfl, by decide, parse_whitespace.2.2 gap_call_text (by decide) (by decide)⟩

/-! ### The schema parser on the terminals of a sequence of declarations -/

theorem ensure_unique_loop_eq : ∀ (v : List Field) (s : List Str),
    ensure_unique_loop v s
      = if (v.map Field.name).Nodup ∧ (∀ f ∈ v, f.name ∉ s) then .ok () else .error .SchemaError
  | [], s => by simp [ensure_unique_loop]
  | f :: rest, s => by
    by_cases hf : f.name ∈ s
    · have hcond : ¬ (((f :: rest).map Field.name).Nodup ∧ (∀ g ∈ f :: rest, g.name ∉ s)) := by
        rintro ⟨-, h⟩
        exact h f (List.mem_cons_self _ _) hf
      rw [if_neg hcond]
      simp only [ensure_unique_loop, if_pos hf]
    · simp only [ensure_unique_loop, if_neg hf]
      rw [ensure_unique_loop_eq rest (f.name :: s)]
      by_cases hc : (rest.map Field.name).Nodup ∧ (∀ g ∈ rest, g.name ∉ f.name :: s)
      · rw [if_pos hc, if_pos]
        obtain ⟨h1, h2⟩ := hc
        refine ⟨?_, ?_⟩
        · simp only [List.map_cons, List.nodup_cons, List.mem_map, not_exists, not_and]
          refine ⟨fun g hg heq => ?_, h1⟩
          have := h2 g hg
          simp only [List.mem_cons, not_or] at this
          exact this.1 heq
        · intro g hg
          rcases List.mem_cons.mp hg with rfl | hg
          · exact hf
          · have := h2 g hg
            simp only [List.mem_cons, not_or] at this
            exact this.2
      · rw [if_neg hc, if_neg]
        rintro ⟨h1, h2⟩
        apply hc
        simp only [List.map_cons, List.nodup_cons, List.mem_map, not_exists, not_and] at h1
        refine ⟨h1.2, fun g hg => ?_⟩
        simp only [List.mem_cons, not_or]
        exact ⟨fun heq => h1.1 g hg heq, h2 g (List.mem_cons_of_mem _ hg)⟩

theorem ensure_unique_eq (v : List Field) :
    ensure_unique v = if (v.map Field.name).Nodup then .ok () else .error .SchemaError := by
  rw [ensure_unique, ensure_unique_loop_eq]
  simp

theorem make_struct_eq (id : Str) (fs : List Field) :
    make_struct id fs
      = if (fs.map Field.name).Nodup then .ok ⟨id, fs⟩ else .error .SchemaError := by
  rw [make_struct, ensure_unique_eq]
  split_ifs <;> rfl

theorem make_function_eq (id : Str) (ret : Ty) (args : List Arg) :
    make_function id ret args
      = if (args.map Field.name).Nodup then .ok ⟨id, ret, args⟩ else .error .SchemaError := by
  rw [make_function, ensure_unique_eq]
  split_ifs <;> rfl

theorem append_field_eq (rest : List Field) (f : Field) :
    append_field rest f
      = if ((rest ++ [f]).map Field.name).Nodup then .ok (rest ++ [f]) else .error .SchemaError := by
  rw [append_field, ensure_unique_eq]
  split_ifs <;> rfl

theorem type_of_token_token (t : Ty) : type_of_token t.token = some t := by
  cases t with
  | builtin_of b => cases b <;> rfl
  | user_of u => rfl

theorem parse_members_cons (f : Field) (rest : List Token) (acc : List Field) :
    parse_members (f.type.token :: .t_ident f.name :: .t_sc :: rest) acc
      = match append_field acc f with
        | .error e => .error e
        | .ok acc' => parse_members rest acc' := by
  obtain ⟨name, t⟩ := f
  cases t with
  | builtin_of b => cases b <;> rfl
  | user_of u => rfl

theorem parse_members_tokens : ∀ (ms acc : List Field) (rest : List Token),
    (acc.map Field.name).Nodup →
    parse_members (member_tokens ms ++ .t_rbrace :: rest) acc
      = if ((acc ++ ms).map Field.name).Nodup then .ok (acc ++ ms, rest)
        else .error .SchemaError
  | [], acc, rest, hacc => by
    simp only [member_tokens, List.nil_append, parse_members, List.append_nil, if_pos hacc]
  | f :: ms, acc, rest, hacc => by
    simp only [member_tokens, List.cons_append]
    rw [parse_members_cons, append_field_eq]
    by_cases h1 : ((acc ++ [f]).map Field.name).Nodup
    · simp only [if_pos h1]
      rw [parse_members_tokens ms (acc ++ [f]) rest h1]
      simp only [List.append_assoc, List.singleton_append]
    · simp only [if_neg h1]
      rw [if_neg]
      intro h2
      apply h1
      have : (acc ++ f :: ms).map Field.name
          = (acc ++ [f]).map Field.name ++ ms.map Field.name := by simp
      rw [this] at h2
      exact (List.nodup_append.mp h2).1

theorem map_find_isSome_iff {α : Type} (k : Str) (m : List (Str × α)) :
    (map_find k m).isSome = true ↔ k ∈ m.map Prod.fst := by
  induction m with
  | nil => simp [map_find]
  | cons p m ih =>
    obtain ⟨k', a⟩ := p
    by_cases h : k' = k
    · simp only [map_find, if_pos h, Option.isSome_some, List.map_cons, List.mem_cons, true_iff]
      exact Or.inl h.symm
    · simp only [map_find, if_neg h, ih, List.map_cons, List.mem_cons]
      constructor
      · exact fun h' => Or.inr h'
      · rintro (h' | h')
        · exact absurd h'.symm h
        · exact h'

theorem map_emplace_new {α : Type} (k : Str) (a : α) (m : List (Str × α))
    (h : (map_find k m).isSome = false) : map_emplace k a m = m ++ [(k, a)] := by
  unfold map_emplace
  cases hm : map_find k m with
  | none => rfl
  | some b => simp [hm] at h

theorem merge_struct_eq (st : Struct) (b : Schema) :
    merge_items (item_from_struct st) b
      = if (map_find st.name b.structs).isSome = true then .error .SchemaError
        else .ok ⟨b.structs ++ [(st.name, st)], b.functions⟩ := by
  by_cases h : (map_find st.name b.structs).isSome = true
  · simp [merge_items, item_from_struct, map_emplace, map_find, h]
  · have h' : (map_find st.name b.structs).isSome = false := by simpa using h
    have h'' : map_find st.name b.structs = none := by
      cases hm : map_find st.name b.structs with
      | none => rfl
      | some x => simp [hm] at h'
    simp [merge_items, item_from_struct, map_emplace, map_find, h'']

theorem merge_fn_eq (fn : Function) (b : Schema) :
    merge_items (item_from_fn fn) b
      = if (map_find fn.name b.functions).isSome = true then .error .SchemaError
        else .ok ⟨b.structs, b.functions ++ [(fn.name, fn)]⟩ := by
  by_cases h : (map_find fn.name b.functions).isSome = true
  · simp [merge_items, item_from_fn, map_emplace, map_find, h]
  · have h' : (map_find fn.name b.functions).isSome = false := by simpa using h
    have h'' : map_find fn.name b.functions = none := by
      cases hm : map_find fn.name b.functions with
      | none => rfl
      | some x => simp [hm] at h'
    simp [merge_items, item_from_fn, map_emplace, map_find, h'']

theorem doc_schema_structs_keys : ∀ (ds : List Decl) (n : Str),
    n ∈ (doc_schema ds).structs.map Prod.fst ↔ n ∈ struct_names ds
  | [], n => by simp [doc_schema, struct_names]
  | .struct name ms :: ds, n => by
    simp only [doc_schema, struct_names, List.map_append, List.map_cons, List.map_nil,
      List.mem_append, List.mem_singleton, List.mem_cons, doc_schema_structs_keys ds n,
      List.not_mem_nil, or_false]
    exact or_comm
  | .fn name ret ms :: ds, n => by
    simp only [doc_schema, struct_names, doc_schema_structs_keys ds n]

theorem doc_schema_functions_keys : ∀ (ds : List Decl) (n : Str),
    n ∈ (doc_schema ds).functions.map Prod.fst ↔ n ∈ fn_names ds
  | [], n => by simp [doc_schema, fn_names]
  | .struct name ms :: ds, n => by
    simp only [doc_schema, fn_names, doc_schema_functions_keys ds n]
  | .fn name ret ms :: ds, n => by
    simp only [doc_schema, fn_names, List.map_append, List.map_cons, List.map_nil,
      List.mem_append, List.mem_singleton, List.mem_cons, doc_schema_functions_keys ds n,
      List.not_mem_nil, or_false]
    exact or_comm

theorem doc_unique_struct (name : Str) (ms : List Field) (ds : List Decl) :
    doc_unique (.struct name ms :: ds)
      ↔ (ms.map Field.name).Nodup ∧ doc_unique ds ∧ name ∉ struct_names ds := by
  simp only [doc_unique, struct_names, fn_names, List.nodup_cons, List.mem_cons,
    forall_eq_or_imp, Decl.members]
  tauto

theorem doc_unique_fn (name : Str) (ret : Ty) (ms : List Arg) (ds : List Decl) :
    doc_unique (.fn name ret ms :: ds)
      ↔ (ms.map Field.name).Nodup ∧ doc_unique ds ∧ name ∉ fn_names ds := by
  simp only [doc_unique, struct_names, fn_names, List.nodup_cons, List.mem_cons,
    forall_eq_or_imp, Decl.members]
  tauto

theorem doc_unique_nil : doc_unique [] := by
  simp [doc_unique, struct_names, fn_names]

theorem doc_tokens_struct (name : Str) (ms : List Field) (ds : List Decl) :
    doc_tokens (.struct name ms :: ds)
      = .t_struct :: .t_ident name :: .t_lbrace
          :: (member_tokens ms ++ .t_rbrace :: doc_tokens ds) := by
  simp [doc_tokens, Decl.tokens]

theorem doc_tokens_fn (name : Str) (ret : Ty) (ms : List Arg) (ds : List Decl) :
    doc_tokens (.fn name ret ms :: ds)
      = .t_fn :: .t_ident name :: .t_arrow :: ret.token :: .t_lbrace
          :: (member_tokens ms ++ .t_rbrace :: doc_tokens ds) := by
  simp [doc_tokens, Decl.tokens]

theorem parse_items_tokens : ∀ (ds : List Decl) (fuel : Nat), ds.length ≤ fuel →
    parse_items fuel (doc_tokens ds)
      = some (if doc_unique ds then .ok (doc_schema ds) else .error .SchemaError)
  | [], fuel, _ => by
    cases fuel <;> simp [doc_tokens, parse_items, doc_unique_nil, doc_schema, empty_items]
  | .struct name ms :: ds, 0, h => by simp at h
  | .fn name ret ms :: ds, 0, h => by simp at h
  | .struct name ms :: ds, fuel + 1, h => by
    have ih := parse_items_tokens ds fuel (by simpa using h)
    have hm := parse_members_tokens ms [] (doc_tokens ds) (by simp)
    simp only [List.nil_append] at hm
    rw [doc_tokens_struct]
    simp only [parse_items, hm]
    by_cases h1 : (ms.map Field.name).Nodup
    · simp only [if_pos h1, make_struct_eq, ih]
      by_cases h2 : doc_unique ds
      · simp only [if_pos h2, merge_struct_eq, map_find_isSome_iff, doc_schema_structs_keys]
        by_cases h3 : name ∈ struct_names ds
        · rw [if_pos h3, if_neg]
          rw [doc_unique_struct]
          tauto
        · rw [if_neg h3, if_pos ((doc_unique_struct _ _ _).mpr ⟨h1, h2, h3⟩)]
          simp only [doc_schema]
      · simp only [if_neg h2]
        rw [if_neg]
        rw [doc_unique_struct]
        tauto
    · simp only [if_neg h1]
      rw [if_neg]
      rw [doc_unique_struct]
      tauto
  | .fn name ret ms :: ds, fuel + 1, h => by
    have ih := parse_items_tokens ds fuel (by simpa using h)
    have hm := parse_members_tokens ms [] (doc_tokens ds) (by simp)
    simp only [List.nil_append] at hm
    rw [doc_tokens_fn]
    simp only [parse_items, type_of_token_token, hm]
    by_cases h1 : (ms.map Field.name).Nodup
    · simp only [if_pos h1, make_function_eq, ih]
      by_cases h2 : doc_unique ds
      · simp only [if_pos h2, merge_fn_eq, map_find_isSome_iff, doc_schema_functions_keys]
        by_cases h3 : name ∈ fn_names ds
        · rw [if_pos h3, if_neg]
          rw [doc_unique_fn]
          tauto
        · rw [if_neg h3, if_pos ((doc_unique_fn _ _ _ _).mpr ⟨h1, h2, h3⟩)]
          simp only [doc_schema]
      · simp only [if_neg h2]
        rw [if_neg]
        rw [doc_unique_fn]
        tauto
    · simp only [if_neg h1]
      rw [if_neg]
      rw [doc_unique_fn]
      tauto

theorem doc_tokens_length : ∀ (ds : List Decl), ds.length ≤ (doc_tokens ds).length
  | [] => by simp [doc_tokens]
  | d :: ds => by
    have := doc_tokens_length ds
    cases d <;> simp [doc_tokens, Decl.tokens] <;> omega

/-! ### The checks of `parse_schema_text` -/

theorem check_user_type_eq (out : Schema) (t : Ty) :
    check_user_type out t
      = if t.declared (out.structs.map Prod.fst) = true then .ok () else .error .SchemaError := by
  cases t with
  | builtin_of b => simp [check_user_type, Ty.declared]
  | user_of u =>
    have h := map_find_isSome_iff u out.structs
    by_cases hm : u ∈ out.structs.map Prod.fst
    · have h1 := h.mpr hm
      have h2 : (out.find_struct u).isNone = false := by
        simpa [Schema.find_struct, Option.isNone_iff_eq_none, Option.isSome_iff_exists] using h1
      simp only [check_user_type, h2, Bool.false_eq_true, if_false, Ty.declared,
        decide_eq_true_eq, if_pos hm]
    · have h1 : (map_find u out.structs).isSome = false := by
        cases hs : (map_find u out.structs).isSome with
        | false => rfl
        | true => exact absurd (h.mp hs) hm
      have h2 : (out.find_struct u).isNone = true := by
        simpa [Schema.find_struct, Option.isNone_iff_eq_none, Option.isSome_iff_exists] using h1
      simp only [check_user_type, h2, if_true, Ty.declared, decide_eq_true_eq, if_neg hm]

theorem check_fields_eq (out : Schema) (s : Struct) : ∀ (fs : List Field),
    check_fields out s fs
      = if ∀ f ∈ fs, f.type.declared (out.structs.map Prod.fst) = true
            ∧ f.type ≠ .user_of s.name
        then .ok () else .error .SchemaError
  | [] => by simp [check_fields]
  | f :: fs => by
    have ih := check_fields_eq out s fs
    by_cases h1 : f.type.declared (out.structs.map Prod.fst) = true
    · by_cases h2 : f.type = .user_of s.name
      · rw [if_neg (fun h => (h f (List.mem_cons_self _ _)).2 h2)]
        simp only [check_fields, check_user_type_eq, if_pos h1, if_pos h2]
      · by_cases h3 : ∀ g ∈ fs, g.type.declared (out.structs.map Prod.fst) = true
            ∧ g.type ≠ .user_of s.name
        · rw [if_pos (List.forall_mem_cons.mpr ⟨⟨h1, h2⟩, h3⟩)]
          rw [if_pos h3] at ih
          simp only [check_fields, check_user_type_eq, if_pos h1, if_neg h2, ih]
        · rw [if_neg (fun h => h3 (List.forall_mem_cons.mp h).2)]
          rw [if_neg h3] at ih
          simp only [check_fields, check_user_type_eq, if_pos h1, if_neg h2, ih]
    · rw [if_neg (fun h => h1 (h f (List.mem_cons_self _ _)).1)]
      simp only [check_fields, check_user_type_eq, if_neg h1]

theorem check_structs_eq (out : Schema) : ∀ (l : List (Str × Struct)),
    check_structs out l
      = if ∀ p ∈ l, ∀ f ∈ p.2.fields, f.type.declared (out.structs.map Prod.fst) = true
            ∧ f.type ≠ .user_of p.2.name
        then .ok () else .error .SchemaError
  | [] => by simp [check_structs]
  | (k, s) :: l => by
    have ih := check_structs_eq out l
    by_cases h1 : ∀ f ∈ s.fields, f.type.declared (out.structs.map Prod.fst) = true
        ∧ f.type ≠ .user_of s.name
    · by_cases h3 : ∀ p ∈ l, ∀ f ∈ p.2.fields,
          f.type.declared (out.structs.map Prod.fst) = true ∧ f.type ≠ .user_of p.2.name
      · rw [if_pos (List.forall_mem_cons.mpr ⟨h1, h3⟩)]
        rw [if_pos h3] at ih
        simp only [check_structs, check_fields_eq, if_pos h1, ih]
      · rw [if_neg (fun h => h3 (List.forall_mem_cons.mp h).2)]
        rw [if_neg h3] at ih
        simp only [check_structs, check_fields_eq, if_pos h1, ih]
    · rw [if_neg (fun h => h1 (List.forall_mem_cons.mp h).1)]
      simp only [check_structs, check_fields_eq, if_neg h1]

theorem check_args_eq (out : Schema) : ∀ (as : List Arg),
    check_args out as
      = if ∀ a ∈ as, a.type.declared (out.structs.map Prod.fst) = true
        then .ok () else .error .SchemaError
  | [] => by simp [check_args]
  | a :: as => by
    have ih := check_args_eq out as
    have hc : (∀ g ∈ a :: as, g.type.declared (out.structs.map Prod.fst) = true)
        ↔ (a.type.declared (out.structs.map Prod.fst) = true
          ∧ ∀ g ∈ as, g.type.declared (out.structs.map Prod.fst) = true) :=
      List.forall_mem_cons
    by_cases h1 : a.type.declared (out.structs.map Prod.fst) = true
    · by_cases h3 : ∀ g ∈ as, g.type.declared (out.structs.map Prod.fst) = true
      · rw [if_pos (hc.mpr ⟨h1, h3⟩)]
        rw [if_pos h3] at ih
        simp only [check_args, check_user_type_eq, if_pos h1, ih]
      · rw [if_neg (fun h => h3 (hc.mp h).2)]
        rw [if_neg h3] at ih
        simp only [check_args, check_user_type_eq, if_pos h1, ih]
    · rw [if_neg (fun h => h1 (hc.mp h).1)]
      simp only [check_args, check_user_type_eq, if_neg h1]

theorem check_functions_eq (out : Schema) : ∀ (l : List (Str × Function)),
    check_functions out l
      = if ∀ p ∈ l, p.2.return_type.declared (out.structs.map Prod.fst) = true
            ∧ ∀ a ∈ p.2.args, a.type.declared (out.structs.map Prod.fst) = true
        then .ok () else .error .SchemaError
  | [] => by simp [check_functions]
  | (k, fn) :: l => by
    have ih := check_functions_eq out l
    by_cases h1 : fn.return_type.declared (out.structs.map Prod.fst) = true
    · by_cases h2 : ∀ a ∈ fn.args, a.type.declared (out.structs.map Prod.fst) = true
      · by_cases h3 : ∀ p ∈ l, p.2.return_type.declared (out.structs.map Prod.fst) = true
            ∧ ∀ a ∈ p.2.args, a.type.declared (out.structs.map Prod.fst) = true
        · rw [if_pos (List.forall_mem_cons.mpr ⟨⟨h1, h2⟩, h3⟩)]
          rw [if_pos h3] at ih
          simp only [check_functions, check_user_type_eq, check_args_eq, if_pos h1, if_pos h2, ih]
        · rw [if_neg (fun h => h3 (List.forall_mem_cons.mp h).2)]
          rw [if_neg h3] at ih
          simp only [check_functions, check_user_type_eq, check_args_eq, if_pos h1, if_pos h2, ih]
      · rw [if_neg (fun h => h2 (List.forall_mem_cons.mp h).1.2)]
        simp only [check_functions, check_user_type_eq, check_args_eq, if_pos h1, if_neg h2]
    · rw [if_neg (fun h => h1 (List.forall_mem_cons.mp h).1.1)]
      simp only [check_functions, check_user_type_eq, if_neg h1]

theorem doc_schema_structs_mem : ∀ (ds : List Decl) (p : Str × Struct),
    p ∈ (doc_schema ds).structs ↔ ∃ name ms, Decl.struct name ms ∈ ds ∧ p = (name, ⟨name, ms⟩)
  | [], p => by simp [doc_schema]
  | .struct name ms :: ds, p => by
    simp only [doc_schema, List.mem_append, List.mem_singleton, doc_schema_structs_mem ds p,
      List.mem_cons, List.not_mem_nil, or_false]
    constructor
    · rintro (⟨n, m, h1, h2⟩ | h)
      · exact ⟨n, m, Or.inr h1, h2⟩
      · exact ⟨name, ms, Or.inl rfl, h⟩
    · rintro ⟨n, m, h1 | h1, h2⟩
      · right
        simp only [Decl.struct.injEq] at h1
        rw [h2, h1.1, h1.2]
      · exact Or.inl ⟨n, m, h1, h2⟩
  | .fn name ret ms :: ds, p => by
    simp only [doc_schema, doc_schema_structs_mem ds p, List.mem_cons, reduceCtorEq, false_or]

theorem doc_schema_functions_mem : ∀ (ds : List Decl) (p : Str × Function),
    p ∈ (doc_schema ds).functions
      ↔ ∃ name ret ms, Decl.fn name ret ms ∈ ds ∧ p = (name, ⟨name, ret, ms⟩)
  | [], p => by simp [doc_schema]
  | .fn name ret ms :: ds, p => by
    simp only [doc_schema, List.mem_append, List.mem_singleton, doc_schema_functions_mem ds p,
      List.mem_cons, List.not_mem_nil, or_false]
    constructor
    · rintro (⟨n, r, m, h1, h2⟩ | h)
      · exact ⟨n, r, m, Or.inr h1, h2⟩
      · exact ⟨name, ret, ms, Or.inl rfl, h⟩
    · rintro ⟨n, r, m, h1 | h1, h2⟩
      · right
        simp only [Decl.fn.injEq] at h1
        rw [h2, h1.1, h1.2.1, h1.2.2]
      · exact Or.inl ⟨n, r, m, h1, h2⟩
  | .struct name ms :: ds, p => by
    simp only [doc_schema, doc_schema_functions_mem ds p, List.mem_cons, reduceCtorEq, false_or]

theorem declared_congr {l l' : List Str} (h : ∀ n, n ∈ l ↔ n ∈ l') (t : Ty) :
    t.declared l = t.declared l' := by
  cases t with
  | builtin_of b => rfl
  | user_of u => simp only [Ty.declared, h u]

theorem declared_doc (ds : List Decl) (t : Ty) :
    t.declared ((doc_schema ds).structs.map Prod.fst) = t.declared (struct_names ds) :=
  declared_congr (doc_schema_structs_keys ds) t

theorem self_ref_false (name : Str) (ms : List Field) :
    (Decl.struct name ms).self_ref = false ↔ ∀ f ∈ ms, f.type ≠ .user_of name := by
  simp [Decl.self_ref]

/-- The two loops of `parse_schema_text` pass on the schema of a sequence of
declarations exactly when every type is declared and no struct refers to itself. -/
theorem doc_checks (ds : List Decl) :
    ((∀ p ∈ (doc_schema ds).structs, ∀ f ∈ p.2.fields,
        f.type.declared ((doc_schema ds).structs.map Prod.fst) = true
          ∧ f.type ≠ .user_of p.2.name)
      ∧ (∀ p ∈ (doc_schema ds).functions,
        p.2.return_type.declared ((doc_schema ds).structs.map Prod.fst) = true
          ∧ ∀ a ∈ p.2.args, a.type.declared ((doc_schema ds).structs.map Prod.fst) = true))
    ↔ (doc_resolved ds ∧ doc_no_self ds) := by
  simp only [declared_doc]
  constructor
  · rintro ⟨hs, hf⟩
    constructor
    · intro d hd t ht
      cases d with
      | struct name ms =>
        have := hs (name, ⟨name, ms⟩) ((doc_schema_structs_mem ds _).mpr ⟨name, ms, hd, rfl⟩)
        simp only [Decl.types, List.mem_map] at ht
        obtain ⟨f, hf1, rfl⟩ := ht
        exact (this f hf1).1
      | fn name ret ms =>
        have := hf (name, ⟨name, ret, ms⟩)
          ((doc_schema_functions_mem ds _).mpr ⟨name, ret, ms, hd, rfl⟩)
        simp only [Decl.types, List.mem_cons, List.mem_map] at ht
        rcases ht with rfl | ⟨a, ha, rfl⟩
        · exact this.1
        · exact this.2 a ha
    · intro d hd
      cases d with
      | struct name ms =>
        have := hs (name, ⟨name, ms⟩) ((doc_schema_structs_mem ds _).mpr ⟨name, ms, hd, rfl⟩)
        rw [self_ref_false]
        exact fun f hf1 => (this f hf1).2
      | fn name ret ms => rfl
  · rintro ⟨hr, hn⟩
    constructor
    · intro p hp f hf1
      obtain ⟨name, ms, hd, rfl⟩ := (doc_schema_structs_mem ds p).mp hp
      refine ⟨hr _ hd f.type ?_, ?_⟩
      · simp only [Decl.types, List.mem_map]
        exact ⟨f, hf1, rfl⟩
      · exact (self_ref_false name ms).mp (hn _ hd) f hf1
    · intro p hp
      obtain ⟨name, ret, ms, hd, rfl⟩ := (doc_schema_functions_mem ds p).mp hp
      refine ⟨hr _ hd ret ?_, fun a ha => hr _ hd a.type ?_⟩
      · simp [Decl.types]
      · simp only [Decl.types, List.mem_cons, List.mem_map]
        exact Or.inr ⟨a, ha, rfl⟩

/-- The schema parser on a text whose terminals are those of a sequence of declarations:
the schema of the declarations when names are unique, every type is declared and
no struct refers to itself, and `SchemaError` otherwise. -/
theorem parse_schema_doc (text : Str) (ds : List Decl)
    (htok : tokenize text [] = some (doc_tokens ds)) :
    parse_schema_text text
      = some (if doc_unique ds ∧ doc_resolved ds ∧ doc_no_self ds then .ok (doc_schema ds)
          else .error .SchemaError) := by
  have hitems := parse_items_tokens ds ((doc_tokens ds).length + 1)
    (Nat.le_succ_of_le (doc_tokens_length ds))
  by_cases hu : doc_unique ds
  · rw [if_pos hu] at hitems
    have hchk := doc_checks ds
    by_cases hs : ∀ p ∈ (doc_schema ds).structs, ∀ f ∈ p.2.fields,
        f.type.declared ((doc_schema ds).structs.map Prod.fst) = true
          ∧ f.type ≠ .user_of p.2.name
    · by_cases hf : ∀ p ∈ (doc_schema ds).functions,
          p.2.return_type.declared ((doc_schema ds).structs.map Prod.fst) = true
            ∧ ∀ a ∈ p.2.args, a.type.declared ((doc_schema ds).structs.map Prod.fst) = true
      · rw [if_pos ⟨hu, hchk.mp ⟨hs, hf⟩⟩]
        simp only [parse_schema_text, htok, hitems, check_structs_eq, if_pos hs,
          check_functions_eq, if_pos hf]
      · rw [if_neg (fun h => hf (hchk.mpr h.2).2)]
        simp only [parse_schema_text, htok, hitems, check_structs_eq, if_pos hs,
          check_functions_eq, if_neg hf]
    · rw [if_neg (fun h => hs (hchk.mpr h.2).1)]
      simp only [parse_schema_text, htok, hitems, check_structs_eq, if_neg hs]
  · rw [if_neg hu] at hitems
    rw [if_neg (fun h => hu h.1)]
    simp only [parse_schema_text, htok, hitems]

/-! ### The terminals of an accepted schema text -/

theorem type_of_token_inv (ty : Token) (t : Ty) (h : type_of_token ty = some t) :
    ty = t.token := by
  cases ty <;> simp only [type_of_token, Option.some.injEq, reduceCtorEq] at h <;>
    subst h <;> rfl

theorem parse_members_inv : ∀ (n : Nat) (toks : List Token), toks.length ≤ n →
    ∀ (acc fs : List Field) (rest : List Token),
    parse_members toks acc = .ok (fs, rest) →
    ∃ ms, toks = member_tokens ms ++ .t_rbrace :: rest ∧ fs = acc ++ ms := by
  intro n
  induction n with
  | zero =>
    intro toks hn acc fs rest h
    cases toks with
    | nil => simp [parse_members] at h
    | cons t toks => simp at hn
  | succ n ih =>
    intro toks hn acc fs rest h
    unfold parse_members at h
    split at h
    · simp only [Except.ok.injEq, Prod.mk.injEq] at h
      obtain ⟨rfl, rfl⟩ := h
      exact ⟨[], rfl, by simp⟩
    · rename_i ty id rest' hnot
      cases ht : type_of_token ty with
      | none => simp [ht] at h
      | some t =>
        simp only [ht] at h
        cases ha : append_field acc (make_field t id) with
        | error e => simp [ha] at h
        | ok acc'' =>
          simp only [ha] at h
          rw [append_field_eq] at ha
          split_ifs at ha
          simp only [Except.ok.injEq] at ha
          subst ha
          obtain ⟨ms, h1, h2⟩ := ih rest' (by simp at hn; omega) _ fs rest h
          refine ⟨make_field t id :: ms, ?_, by rw [h2]; simp⟩
          rw [h1, type_of_token_inv ty t ht]
          rfl
    · cases h

theorem parse_items_inv : ∀ (fuel : Nat) (toks : List Token) (out : Schema),
    parse_items fuel toks = some (.ok out) → ∃ ds, toks = doc_tokens ds := by
  intro fuel
  induction fuel with
  | zero =>
    intro toks out h
    cases toks with
    | nil => exact ⟨[], rfl⟩
    | cons t toks => simp [parse_items] at h
  | succ fuel ih =>
    intro toks out h
    unfold parse_items at h
    split at h
    · exact ⟨[], rfl⟩
    · rename_i heq
      cases heq
    · rename_i f id rest heq
      simp only [Nat.succ.injEq] at heq
      cases hm : parse_members rest [] with
      | error e => simp [hm] at h
      | ok r =>
        obtain ⟨fs, rest'⟩ := r
        simp only [hm] at h
        cases hs : make_struct id fs with
        | error e => simp [hs] at h
        | ok st =>
          simp only [hs] at h
          cases hi : parse_items f rest' with
          | none => simp [hi] at h
          | some r =>
            cases r with
            | error e => simp [hi] at h
            | ok items =>
              subst heq
              obtain ⟨ds, hds⟩ := ih rest' items hi
              obtain ⟨ms, h1, h2⟩ := parse_members_inv _ rest le_rfl [] fs rest' hm
              refine ⟨.struct id ms :: ds, ?_⟩
              rw [doc_tokens_struct, h1, hds]
    · rename_i f id ty rest heq
      cases ht : type_of_token ty with
      | none => simp [ht] at h
      | some ret =>
        simp only [ht] at h
        cases hm : parse_members rest [] with
        | error e => simp [hm] at h
        | ok r =>
          obtain ⟨fs, rest'⟩ := r
          simp only [hm] at h
          cases hs : make_function id ret fs with
          | error e => simp [hs] at h
          | ok fn =>
            simp only [hs] at h
            cases hi : parse_items f rest' with
            | none => simp [hi] at h
            | some r =>
              cases r with
              | error e => simp [hi] at h
              | ok items =>
                simp only [Nat.succ.injEq] at heq
                subst heq
                obtain ⟨ds, hds⟩ := ih rest' items hi
                obtain ⟨ms, h1, h2⟩ := parse_members_inv _ rest le_rfl [] fs rest' hm
                refine ⟨.fn id ret ms :: ds, ?_⟩
                rw [doc_tokens_fn, h1, hds, type_of_token_inv ty ret ht]
    · simp at h

/-- Every text that `parse_schema_text` accepts is a sequence of declarations, and
the schema returned is the schema of these declarations. -/
theorem parse_schema_inv (text : Str) (out : Schema)
    (h : parse_schema_text text = some (.ok out)) :
    ∃ ds, tokenize text [] = some (doc_tokens ds) ∧ doc_unique ds ∧ doc_resolved ds
      ∧ doc_no_self ds ∧ out = doc_schema ds := by
  cases htok : tokenize text [] with
  | none => simp [parse_schema_text, htok] at h
  | some toks =>
    cases hi : parse_items (toks.length + 1) toks with
    | none => simp [parse_schema_text, htok, hi] at h
    | some r =>
      cases r with
      | error e => simp [parse_schema_text, htok, hi] at h
      | ok items =>
        obtain ⟨ds, rfl⟩ := parse_items_inv _ toks items hi
        have hdoc := parse_schema_doc text ds htok
        rw [h] at hdoc
        by_cases hc : doc_unique ds ∧ doc_resolved ds ∧ doc_no_self ds
        · rw [if_pos hc] at hdoc
          simp only [Option.some.injEq, Except.ok.injEq] at hdoc
          exact ⟨ds, rfl, hc.1, hc.2.1, hc.2.2, hdoc⟩
        · rw [if_neg hc] at hdoc
          simp at hdoc

theorem map_find_of_mem {α : Type} : ∀ (m : List (Str × α)) (k : Str) (a : α),
    (m.map Prod.fst).Nodup → (k, a) ∈ m → map_find k m = some a
  | [], _, _, _, h => by cases h
  | (k', b) :: m, k, a, hn, h => by
    simp only [List.map_cons, List.nodup_cons] at hn
    rcases List.mem_cons.mp h with heq | hmem
    · simp only [Prod.mk.injEq] at heq
      simp only [map_find, heq.1, heq.2, if_true]
    · have hne : k' ≠ k := by
        rintro rfl
        exact hn.1 (List.mem_map.mpr ⟨(k', a), hmem, rfl⟩)
      simp only [map_find, if_neg hne]
      exact map_find_of_mem m k a hn.2 hmem

theorem doc_schema_structs_nodup : ∀ (ds : List Decl), (struct_names ds).Nodup →
    ((doc_schema ds).structs.map Prod.fst).Nodup
  | [], _ => by simp [doc_schema]
  | .struct name ms :: ds, h => by
    simp only [struct_names, List.nodup_cons] at h
    simp only [doc_schema, List.map_append, List.map_cons, List.map_nil]
    rw [List.nodup_append]
    refine ⟨doc_schema_structs_nodup ds h.2, by simp, ?_⟩
    intro a ha hb
    simp only [List.mem_singleton] at hb
    subst hb
    exact h.1 ((doc_schema_structs_keys ds a).mp ha)
  | .fn name ret ms :: ds, h => by
    simp only [struct_names] at h
    simp only [doc_schema]
    exact doc_schema_structs_nodup ds h

theorem doc_schema_functions_nodup : ∀ (ds : List Decl), (fn_names ds).Nodup →
    ((doc_schema ds).functions.map Prod.fst).Nodup
  | [], _ => by simp [doc_schema]
  | .fn name ret ms :: ds, h => by
    simp only [fn_names, List.nodup_cons] at h
    simp only [doc_schema, List.map_append, List.map_cons, List.map_nil]
    rw [List.nodup_append]
    refine ⟨doc_schema_functions_nodup ds h.2, by simp, ?_⟩
    intro a ha hb
    simp only [List.mem_singleton] at hb
    subst hb
    exact h.1 ((doc_schema_functions_keys ds a).mp ha)
  | .struct name ms :: ds, h => by
    simp only [fn_names] at h
    simp only [doc_schema]
    exact doc_schema_functions_nodup ds h

theorem doc_find_struct (ds : List Decl) (hu : doc_unique ds) (name : Str) (ms : List Field)
    (hd : Decl.struct name ms ∈ ds) :
    (doc_schema ds).find_struct name = some ⟨name, ms⟩ :=
  map_find_of_mem _ _ _ (doc_schema_structs_nodup ds hu.1)
    ((doc_schema_structs_mem ds _).mpr ⟨name, ms, hd, rfl⟩)

theorem doc_find_function (ds : List Decl) (hu : doc_unique ds) (name : Str) (ret : Ty)
    (ms : List Arg) (hd : Decl.fn name ret ms ∈ ds) :
    (doc_schema ds).find_function name = some ⟨name, ret, ms⟩ :=
  map_find_of_mem _ _ _ (doc_schema_functions_nodup ds hu.2.1)
    ((doc_schema_functions_mem ds _).mpr ⟨name, ret, ms, hd, rfl⟩)

/-- An accepted text with the terminals of `ds`: the schema returned is the schema of
`ds`, and `ds` passes every check. -/
theorem parse_schema_accepted (text : Str) (ds : List Decl) (out : Schema)
    (htok : tokenize text [] = some (doc_tokens ds))
    (h : parse_schema_text text = some (.ok out)) :
    doc_unique ds ∧ doc_resolved ds ∧ doc_no_self ds ∧ out = doc_schema ds := by
  have hdoc := parse_schema_doc text ds htok
  rw [h] at hdoc
  by_cases hc : doc_unique ds ∧ doc_resolved ds ∧ doc_no_self ds
  · rw [if_pos hc] at hdoc
    simp only [Option.some.injEq, Except.ok.injEq] at hdoc
    exact ⟨hc.1, hc.2.1, hc.2.2, hdoc⟩
  · rw [if_neg hc] at hdoc
    simp at hdoc

theorem parse_schema_rejected (text : Str) (ds : List Decl)
    (htok : tokenize text [] = some (doc_tokens ds))
    (h : ¬ (doc_unique ds ∧ doc_resolved ds ∧ doc_no_self ds)) :
    parse_schema_text text = some (.error .SchemaError) := by
  rw [parse_schema_doc text ds htok, if_neg h]

/-- C21: a schema text among whose declarations a struct has a member whose type
is the struct itself is rejected by `parse_schema_text` with `SchemaError`, whatever
else the text declares. -/
theorem schema_self_reference (text : Str) (ds : List Decl)
    (htok : tokenize text [] = some (doc_tokens ds))
    (hself : ∃ d ∈ ds, d.self_ref = true) :
    parse_schema_text text = some (.error .SchemaError) := by
  apply parse_schema_rejected text ds htok
  rintro ⟨-, -, hn⟩
  obtain ⟨d, hd, hs⟩ := hself
  rw [hn d hd] at hs
  cases hs

theorem schema_self_reference_witness :
    tokenize "struct S\x7bS x;\x7d".toList [] = some (doc_tokens self_ref_doc)
    ∧ parse_schema_text "struct S\x7bS x;\x7d".toList = some (.error .SchemaError) :=
  ⟨by decide, schema_self_reference _ self_ref_doc (by decide) (by decide)⟩

/-- C22: in every schema that `parse_schema_text` returns, every user-defined type of a
struct member, of a function argument and of a function return is a struct of the
schema; a text among whose declarations one refers to a struct that no declaration
of the text declares is rejected with `SchemaError`; and a text whose declarations
have unique names, refer to declared structs only (declared before or after the
use) and have no struct referring to itself is accepted. -/
theorem schema_types_resolve :
    (∀ (text : Str) (out : Schema), parse_schema_text text = some (.ok out) →
      (∀ p ∈ out.structs, ∀ f ∈ p.2.fields, ∀ user, f.type = .user_of user →
        (out.find_struct user).isSome = true)
      ∧ (∀ p ∈ out.functions,
          (∀ user, p.2.return_type = .user_of user → (out.find_struct user).isSome = true)
          ∧ ∀ a ∈ p.2.args, ∀ user, a.type = .user_of user →
            (out.find_struct user).isSome = true))
    ∧ (∀ (text : Str) (ds : List Decl), tokenize text [] = some (doc_tokens ds) →
        ¬ doc_resolved ds → parse_schema_text text = some (.error .SchemaError))
    ∧ (∀ (text : Str) (ds : List Decl), tokenize text [] = some (doc_tokens ds) →
        doc_unique ds → doc_resolved ds → doc_no_self ds →
        parse_schema_text text = some (.ok (doc_schema ds))) := by
  refine ⟨fun text out h => ?_, fun text ds htok hr => ?_, fun text ds htok hu hr hn => ?_⟩
  · obtain ⟨ds, htok, hu, hr, hn, rfl⟩ := parse_schema_inv text out h
    obtain ⟨hs, hf⟩ := (doc_checks ds).mpr ⟨hr, hn⟩
    have key : ∀ (t : Ty) (user : Str),
        t.declared ((doc_schema ds).structs.map Prod.fst) = true → t = .user_of user →
        ((doc_schema ds).find_struct user).isSome = true := by
      intro t user hd ht
      subst ht
      simp only [Ty.declared, decide_eq_true_eq] at hd
      exact (map_find_isSome_iff user _).mpr hd
    refine ⟨fun p hp f hf1 user hu' => key _ _ (hs p hp f hf1).1 hu', fun p hp => ?_⟩
    exact ⟨fun user hu' => key _ _ (hf p hp).1 hu',
      fun a ha user hu' => key _ _ ((hf p hp).2 a ha) hu'⟩
  · exact parse_schema_rejected text ds htok (fun h => hr h.2.1)
  · rw [parse_schema_doc text ds htok, if_pos ⟨hu, hr, hn⟩]

theorem schema_types_resolve_witness :
    tokenize "fn f->int32\x7bP p;\x7d struct Q\x7bP a;\x7d struct P\x7b\x7d".toList []
        = some (doc_tokens forward_ref_doc)
    ∧ parse_schema_text "fn f->int32\x7bP p;\x7d struct Q\x7bP a;\x7d struct P\x7b\x7d".toList
        = some (.ok (doc_schema forward_ref_doc))
    ∧ tokenize "fn f->T\x7b\x7d".toList [] = some (doc_tokens undeclared_doc)
    ∧ parse_schema_text "fn f->T\x7b\x7d".toList = some (.error .SchemaError)
    ∧ (∀ p ∈ (doc_schema forward_ref_doc).structs, ∀ f ∈ p.2.fields, ∀ user,
        f.type = .user_of user → ((doc_schema forward_ref_doc).find_struct user).isSome = true) :=
  ⟨by decide,
    schema_types_resolve.2.2 _ forward_ref_doc (by decide) (by decide) (by decide) (by decide),
    by decide,
    schema_types_resolve.2.1 _ undeclared_doc (by decide) (by decide),
    (schema_types_resolve.1 "fn f->int32\x7bP p;\x7d struct Q\x7bP a;\x7d struct P\x7b\x7d".toList
      (doc_schema forward_ref_doc) (by decide)).1⟩

/-- C23: a schema text among whose declarations two structs have the same name, or
two functions have the same name, is rejected by `parse_schema_text` with
`SchemaError`, wherever the two declarations stand in the text. -/
theorem schema_duplicate_declaration (text : Str) (ds : List Decl)
    (htok : tokenize text [] = some (doc_tokens ds))
    (hdup : ¬ (struct_names ds).Nodup ∨ ¬ (fn_names ds).Nodup) :
    parse_schema_text text = some (.error .SchemaError) := by
  apply parse_schema_rejected text ds htok
  rintro ⟨⟨h1, h2, -⟩, -, -⟩
  rcases hdup with h | h
  · exact h h1
  · exact h h2

theorem schema_duplicate_declaration_witness :
    tokenize "struct A\x7b\x7d fn f->int32\x7b\x7d struct B\x7b\x7d struct A\x7bint32 x;\x7d".toList []
        = some (doc_tokens dup_struct_doc)
    ∧ parse_schema_text
        "struct A\x7b\x7d fn f->int32\x7b\x7d struct B\x7b\x7d struct A\x7bint32 x;\x7d".toList
        = some (.error .SchemaError) :=
  ⟨by decide, schema_duplicate_declaration _ dup_struct_doc (by decide) (Or.inl (by decide))⟩

/-- C24: a schema text among whose declarations a struct has two members of the same
name, or a function two arguments of the same name, is rejected by
`parse_schema_text` with `SchemaError`; and in every schema that is returned the
field names of each struct and the argument names of each function are pairwise
distinct. -/
theorem schema_duplicate_member :
    (∀ (text : Str) (ds : List Decl), tokenize text [] = some (doc_tokens ds) →
      (∃ d ∈ ds, ¬ (d.members.map Field.name).Nodup) →
      parse_schema_text text = some (.error .SchemaError))
    ∧ (∀ (text : Str) (out : Schema), parse_schema_text text = some (.ok out) →
      (∀ p ∈ out.structs, (p.2.fields.map Field.name).Nodup)
      ∧ (∀ p ∈ out.functions, (p.2.args.map Field.name).Nodup)) := by
  refine ⟨fun text ds htok hdup => ?_, fun text out h => ?_⟩
  · apply parse_schema_rejected text ds htok
    rintro ⟨⟨-, -, h3⟩, -, -⟩
    obtain ⟨d, hd, hn⟩ := hdup
    exact hn (h3 d hd)
  · obtain ⟨ds, htok, hu, -, -, rfl⟩ := parse_schema_inv text out h
    constructor
    · intro p hp
      obtain ⟨name, ms, hd, rfl⟩ := (doc_schema_structs_mem ds p).mp hp
      exact hu.2.2 _ hd
    · intro p hp
      obtain ⟨name, ret, ms, hd, rfl⟩ := (doc_schema_functions_mem ds p).mp hp
      exact hu.2.2 _ hd

theorem schema_duplicate_member_witness :
    tokenize "struct A\x7bint32 x; string y; int64 x;\x7d".toList []
        = some (doc_tokens dup_member_doc)
    ∧ parse_schema_text "struct A\x7bint32 x; string y; int64 x;\x7d".toList
        = some (.error .SchemaError)
    ∧ (∀ p ∈ point_schema.structs, (p.2.fields.map Field.name).Nodup) :=
  ⟨by decide,
    schema_duplicate_member.1 _ dup_member_doc (by decide)
      ⟨_, List.mem_cons_self _ _, by decide⟩,
    (schema_duplicate_member.2
      "struct Point\x7bint32 x; int32 y;\x7d fn sum->int32\x7bPoint p;\x7d".toList
      point_schema (by decide)).1⟩

/-- C25: every text that `parse_schema_text` accepts is a sequence of declarations, and
for each of them the schema returned holds, under the declared name, the struct
with the declared members as its field sequence, or the function with the
declared return type and the declared members as its argument sequence: the
members in the order in which they are written, each with its declared name and
type. Nothing else is in the schema. -/
theorem schema_declaration_order (text : Str) (out : Schema)
    (h : parse_schema_text text = some (.ok out)) :
    (∃ ds, tokenize text [] = some (doc_tokens ds))
    ∧ ∀ ds, tokenize text [] = some (doc_tokens ds) →
      (∀ name ms, Decl.struct name ms ∈ ds → out.find_struct name = some ⟨name, ms⟩)
      ∧ (∀ name ret ms, Decl.fn name ret ms ∈ ds →
          out.find_function name = some ⟨name, ret, ms⟩)
      ∧ (∀ p ∈ out.structs, Decl.struct p.1 p.2.fields ∈ ds ∧ p.2.name = p.1)
      ∧ (∀ p ∈ out.functions,
          Decl.fn p.1 p.2.return_type p.2.args ∈ ds ∧ p.2.name = p.1) := by
  constructor
  · obtain ⟨ds, htok, -⟩ := parse_schema_inv text out h
    exact ⟨ds, htok⟩
  · intro ds htok
    obtain ⟨hu, -, -, rfl⟩ := parse_schema_accepted text ds out htok h
    refine ⟨fun name ms hd => doc_find_struct ds hu name ms hd,
      fun name ret ms hd => doc_find_function ds hu name ret ms hd, fun p hp => ?_,
      fun p hp => ?_⟩
    · obtain ⟨name, ms, hd, rfl⟩ := (doc_schema_structs_mem ds p).mp hp
      exact ⟨hd, rfl⟩
    · obtain ⟨name, ret, ms, hd, rfl⟩ := (doc_schema_functions_mem ds p).mp hp
      exact ⟨hd, rfl⟩

theorem schema_declaration_order_witness :
    tokenize "struct P\x7bstring b; int32 a;\x7d fn g->P\x7buint64 z; P y;\x7d".toList []
        = some (doc_tokens order_doc)
    ∧ (doc_schema order_doc).find_struct "P".toList
        = some ⟨"P".toList, [⟨"b".toList, .builtin_of .String⟩, ⟨"a".toList, .builtin_of .Int32⟩]⟩
    ∧ (doc_schema order_doc).find_function "g".toList
        = some ⟨"g".toList, .user_of "P".toList,
            [⟨"z".toList, .builtin_of .Uint64⟩, ⟨"y".toList, .user_of "P".toList⟩]⟩ := by
  have h := (schema_declaration_order
    "struct P\x7bstring b; int32 a;\x7d fn g->P\x7buint64 z; P y;\x7d".toList
    (doc_schema order_doc) (by decide)).2 order_doc (by decide)
  exact ⟨by decide, h.1 _ _ (by decide), h.2.1 _ _ _ (by decide)⟩

/-! ### The autocomplete engine only appends -/

theorem append_if_missing_out (txt : TextView) (ch : Char) (out : Str) :
    out <+: (append_if_missing txt ch out).2.2 := by
  cases txt with
  | nil => exact ⟨[ch], rfl⟩
  | cons c rest =>
    by_cases h : c = ch
    · simp only [append_if_missing, if_pos h]
      exact List.prefix_refl _
    · simp only [append_if_missing, if_neg h]
      exact ⟨[ch], rfl⟩

theorem fill_string_out (txt : TextView) (out : Str) : out <+: (fill_string txt out).2.2 := by
  have h := append_if_missing_out txt '"' out
  unfold fill_string
  rcases hr : append_if_missing txt '"' out with ⟨b, txt₁, out₁⟩
  rw [hr] at h
  cases b with
  | false => exact h
  | true =>
    simp only
    split <;> exact h

theorem fill_integer_out (txt : TextView) (out : Str) : out <+: (fill_integer txt out).2.2 :=
  List.prefix_refl _

theorem fill_open_out (type : Str) (txt : TextView) (out : Str) :
    out <+: (fill_open type txt out).2 := by
  cases txt with
  | nil => exact append_if_missing_out _ _ _
  | cons c rest =>
    by_cases h : c ≠ '\x7b'
    · simp only [fill_open, if_pos h]
      refine List.IsPrefix.trans ?_ (append_if_missing_out _ _ _)
      split_ifs
      · exact List.prefix_append _ _
      · exact List.prefix_refl _
    · simp only [fill_open, if_neg h]
      exact List.prefix_refl _

theorem get_arg_out (txt : TextView) (args : List Str) (out : Str) :
    out <+: (get_arg txt args out).2.2.2 := by
  unfold get_arg
  simp only
  split
  · exact List.prefix_append _ _
  · exact List.prefix_refl _

theorem get_func_out (txt : TextView) (funcs : List Str) (out : Str) :
    out <+: (get_func txt funcs out).2.2 := by
  unfold get_func
  simp only
  split
  · exact List.prefix_append _ _
  · exact List.prefix_refl _

theorem fill_out (fuel : Nat) :
    (∀ (sch : Schema) (type : Str) (txt : TextView) (out : Str) (r : ParseStruct × TextView × Str),
      fill_primitive fuel sch type txt out = some (.ok r) → out <+: r.2.2)
    ∧ (∀ (sch : Schema) (out type : Str) (txt : TextView) (r : ParseStruct × TextView × Str),
      fill_structure fuel sch out type txt = some (.ok r) → out <+: r.2.2)
    ∧ (∀ (sch : Schema) (remaining : List Str) (mapping : List (Str × Str)) (txt : TextView)
        (out : Str) (r : ParseStruct × TextView × Str),
      fill_fields fuel sch remaining mapping txt out = some (.ok r) → out <+: r.2.2) := by
  induction fuel with
  | zero =>
    refine ⟨fun sch type txt out r h => ?_, fun sch out type txt r h => ?_,
      fun sch remaining mapping txt out r h => ?_⟩
    · simp [fill_primitive] at h
    · simp [fill_structure] at h
    · simp [fill_fields] at h
  | succ fuel ih =>
    obtain ⟨ihp, ihs, ihf⟩ := ih
    refine ⟨fun sch type txt out r h => ?_, fun sch out type txt r h => ?_,
      fun sch remaining mapping txt out r h => ?_⟩
    · simp only [fill_primitive] at h
      split_ifs at h
      · simp only [Option.some.injEq, Except.ok.injEq] at h
        rw [← h]
        exact fill_string_out _ _
      · simp only [Option.some.injEq, Except.ok.injEq] at h
        rw [← h]
        exact fill_integer_out _ _
      · exact ihs _ _ _ _ _ h
    · simp only [fill_structure] at h
      cases hst : sch.find_struct type with
      | none => simp [hst] at h
      | some st =>
        simp only [hst] at h
        split_ifs at h
        · simp only [Option.some.injEq, Except.ok.injEq] at h
          rw [← h]
          exact (fill_open_out _ _ _).trans (append_if_missing_out _ _ _)
        · exact (fill_open_out _ _ _).trans (ihf _ _ _ _ _ _ h)
    · simp only [fill_fields] at h
      split_ifs at h with hrem
      · simp only [Option.some.injEq, Except.ok.injEq] at h
        rw [← h]
      · have hga := get_arg_out txt remaining out
        rcases hg : get_arg txt remaining out with ⟨_ | chosen, remaining₁, txt₁, out₁⟩
        · simp [hg] at h
        · rw [hg] at hga
          simp only [hg] at h
          have h1 := append_if_missing_out txt₁ '=' out₁
          cases hp : fill_primitive fuel sch (map_at chosen mapping)
              (append_if_missing txt₁ '=' out₁).2.1 (append_if_missing txt₁ '=' out₁).2.2 with
          | none => simp [hp] at h
          | some rp =>
            cases rp with
            | error e => simp [hp] at h
            | ok rp =>
              obtain ⟨stt, txt₂, out₂⟩ := rp
              have h2 := ihp _ _ _ _ _ hp
              have h12 : out <+: out₂ := hga.trans (h1.trans h2)
              simp only [hp] at h
              split_ifs at h
              · simp only [Option.some.injEq, Except.ok.injEq] at h
                rw [← h]
                exact h12.trans (append_if_missing_out _ _ _)
              · exact (h12.trans ((append_if_missing_out _ _ _).trans
                  (append_if_missing_out _ _ _))).trans (ihf _ _ _ _ _ _ h)
              · simp only [Option.some.injEq, Except.ok.injEq] at h
                rw [← h]
                exact h12
              · exact h12.trans (ihf _ _ _ _ _ _ h)

theorem parse_function_loop_out : ∀ (fuel : Nat) (sch : Schema) (remaining : List Str)
    (mapping : List (Str × Str)) (txt : TextView) (out : Str) (r : TextView × Str),
    parse_function_loop fuel sch remaining mapping txt out = some (.ok r) → out <+: r.2 := by
  intro fuel
  induction fuel with
  | zero =>
    intro sch remaining mapping txt out r h
    simp [parse_function_loop] at h
  | succ fuel ih =>
    intro sch remaining mapping txt out r h
    simp only [parse_function_loop] at h
    split_ifs at h with hrem
    · simp only [Option.some.injEq, Except.ok.injEq] at h
      rw [← h]
    · have hga := get_arg_out txt remaining out
      rcases hg : get_arg txt remaining out with ⟨_ | chosen, remaining₁, txt₁, out₁⟩
      · simp [hg] at h
      · rw [hg] at hga
        simp only [hg] at h
        have h1 := append_if_missing_out txt₁ '=' out₁
        cases hp : fill_primitive fuel sch (map_at chosen mapping)
            (append_if_missing txt₁ '=' out₁).2.1 (append_if_missing txt₁ '=' out₁).2.2 with
        | none => simp [hp] at h
        | some rp =>
          cases rp with
          | error e => simp [hp] at h
          | ok rp =>
            obtain ⟨stt, txt₂, out₂⟩ := rp
            have h2 := (fill_out fuel).1 _ _ _ _ _ hp
            have h12 : out <+: out₂ := hga.trans (h1.trans h2)
            simp only [hp] at h
            split_ifs at h
            · simp only [Option.some.injEq, Except.ok.injEq] at h
              rw [← h]
              exact h12.trans (append_if_missing_out _ _ _)
            · exact (h12.trans ((append_if_missing_out _ _ _).trans
                (append_if_missing_out _ _ _))).trans (ih _ _ _ _ _ _ h)
            · simp only [Option.some.injEq, Except.ok.injEq] at h
              rw [← h]
              exact h12
            · exact h12.trans (ih _ _ _ _ _ _ h)

theorem parse_function_out (fuel : Nat) (sch : Schema) (out fnName : Str) (txt : TextView)
    (r : TextView × Str) (h : parse_function fuel sch out fnName txt = some (.ok r)) :
    (append_if_missing txt '(' out).2.2 <+: r.2 := by
  simp only [parse_function] at h
  cases hfn : sch.find_function fnName with
  | none => simp [hfn] at h
  | some fn =>
    simp only [hfn] at h
    split_ifs at h
    · simp only [Option.some.injEq, Except.ok.injEq] at h
      rw [← h]
      exact append_if_missing_out _ _ _
    · exact parse_function_loop_out _ _ _ _ _ _ _ h

/-! ### A larger bound gives the same completion -/

theorem fill_mono (fuel : Nat) :
    (∀ (sch : Schema) (type : Str) (txt : TextView) (out : Str)
        (r : Except Undefined (ParseStruct × TextView × Str)),
      fill_primitive fuel sch type txt out = some r →
      fill_primitive (fuel + 1) sch type txt out = some r)
    ∧ (∀ (sch : Schema) (out type : Str) (txt : TextView)
        (r : Except Undefined (ParseStruct × TextView × Str)),
      fill_structure fuel sch out type txt = some r →
      fill_structure (fuel + 1) sch out type txt = some r)
    ∧ (∀ (sch : Schema) (remaining : List Str) (mapping : List (Str × Str)) (txt : TextView)
        (out : Str) (r : Except Undefined (ParseStruct × TextView × Str)),
      fill_fields fuel sch remaining mapping txt out = some r →
      fill_fields (fuel + 1) sch remaining mapping txt out = some r) := by
  induction fuel with
  | zero =>
    refine ⟨fun sch type txt out r h => ?_, fun sch out type txt r h => ?_,
      fun sch remaining mapping txt out r h => ?_⟩
    · simp [fill_primitive] at h
    · simp [fill_structure] at h
    · simp [fill_fields] at h
  | succ fuel ih =>
    obtain ⟨ihp, ihs, ihf⟩ := ih
    refine ⟨fun sch type txt out r h => ?_, fun sch out type txt r h => ?_,
      fun sch remaining mapping txt out r h => ?_⟩
    · rw [fill_primitive] at h ⊢
      split_ifs at h ⊢
      · exact h
      · exact h
      · exact ihs _ _ _ _ _ h
    · rw [fill_structure] at h ⊢
      cases hst : sch.find_struct type with
      | none => simpa [hst] using h
      | some st =>
        simp only [hst] at h ⊢
        split_ifs at h ⊢
        · exact h
        · exact ihf _ _ _ _ _ _ h
    · rw [fill_fields] at h ⊢
      split_ifs at h ⊢ with hrem
      · exact h
      · rcases hg : get_arg txt remaining out with ⟨_ | chosen, remaining₁, txt₁, out₁⟩
        · simpa [hg] using h
        · simp only [hg] at h ⊢
          cases hp : fill_primitive fuel sch (map_at chosen mapping)
              (append_if_missing txt₁ '=' out₁).2.1 (append_if_missing txt₁ '=' out₁).2.2 with
          | none => simp [hp] at h
          | some rp =>
            rw [ihp _ _ _ _ _ hp]
            rw [hp] at h
            cases rp with
            | error e => exact h
            | ok rp =>
              obtain ⟨stt, txt₂, out₂⟩ := rp
              simp only at h ⊢
              split_ifs at h ⊢
              · exact h
              · exact ihf _ _ _ _ _ _ h
              · exact h
              · exact ihf _ _ _ _ _ _ h

theorem fill_primitive_mono (fuel k : Nat) (sch : Schema) (type : Str) (txt : TextView)
    (out : Str) (r : Except Undefined (ParseStruct × TextView × Str))
    (h : fill_primitive fuel sch type txt out = some r) :
    fill_primitive (fuel + k) sch type txt out = some r := by
  induction k with
  | zero => exact h
  | succ k ih => exact (fill_mono (fuel + k)).1 _ _ _ _ _ ih

theorem parse_function_loop_mono : ∀ (fuel : Nat) (sch : Schema) (remaining : List Str)
    (mapping : List (Str × Str)) (txt : TextView) (out : Str)
    (r : Except Undefined (TextView × Str)),
    parse_function_loop fuel sch remaining mapping txt out = some r →
    parse_function_loop (fuel + 1) sch remaining mapping txt out = some r := by
  intro fuel
  induction fuel with
  | zero =>
    intro sch remaining mapping txt out r h
    simp [parse_function_loop] at h
  | succ fuel ih =>
    intro sch remaining mapping txt out r h
    rw [parse_function_loop] at h ⊢
    split_ifs at h ⊢ with hrem
    · exact h
    · rcases hg : get_arg txt remaining out with ⟨_ | chosen, remaining₁, txt₁, out₁⟩
      · simpa [hg] using h
      · simp only [hg] at h ⊢
        cases hp : fill_primitive fuel sch (map_at chosen mapping)
            (append_if_missing txt₁ '=' out₁).2.1 (append_if_missing txt₁ '=' out₁).2.2 with
        | none => simp [hp] at h
        | some rp =>
          rw [(fill_mono fuel).1 _ _ _ _ _ hp]
          rw [hp] at h
          cases rp with
          | error e => exact h
          | ok rp =>
            obtain ⟨stt, txt₂, out₂⟩ := rp
            simp only at h ⊢
            split_ifs at h ⊢
            · exact h
            · exact ih _ _ _ _ _ _ h
            · exact h
            · exact ih _ _ _ _ _ _ h

theorem parse_function_mono (fuel : Nat) (sch : Schema) (out fnName : Str) (txt : TextView)
    (r : Except Undefined (TextView × Str))
    (h : parse_function fuel sch out fnName txt = some r) :
    parse_function (fuel + 1) sch out fnName txt = some r := by
  rw [parse_function] at h ⊢
  cases hfn : sch.find_function fnName with
  | none => simpa [hfn] using h
  | some fn =>
    simp only [hfn] at h ⊢
    split_ifs at h ⊢
    · exact h
    · exact parse_function_loop_mono _ _ _ _ _ _ _ h

theorem autocomplete_mono_step (fuel : Nat) (input : Str) (sch : Schema)
    (r : Except Undefined Str) (h : autocomplete fuel input sch = some r) :
    autocomplete (fuel + 1) input sch = some r := by
  rw [autocomplete] at h ⊢
  rcases hg : get_func input (sch.functions.map Prod.fst) [] with ⟨_ | fnName, txt, suffix⟩
  · simpa [hg] using h
  · simp only [hg] at h ⊢
    cases hp : parse_function fuel sch suffix fnName txt with
    | none => simp [hp] at h
    | some rp =>
      rw [parse_function_mono _ _ _ _ _ _ hp]
      rw [hp] at h
      exact h

/-- A result of `autocomplete` under a bound is its result under every larger bound. -/
theorem autocomplete_mono (fuel fuel' : Nat) (input : Str) (sch : Schema)
    (r : Except Undefined Str) (h : autocomplete fuel input sch = some r) (hle : fuel ≤ fuel') :
    autocomplete fuel' input sch = some r := by
  obtain ⟨k, rfl⟩ := Nat.exists_eq_add_of_le hle
  induction k with
  | zero => exact h
  | succ k ih => exact autocomplete_mono_step _ _ _ _ (ih (Nat.le_add_right _ _))

/-! ### The function-name phase of `autocomplete` -/

theorem get_func_eq (input : Str) (funcs : List Str) (out : Str) :
    get_func input funcs out
      = match funcs.find? (fun f => starts_with f (leading_token input)) with
        | some f => (some f, (skip_spaces input).dropWhile (fun c => c != '('),
            out ++ f.drop (leading_token input).length)
        | none => (none, (skip_spaces input).dropWhile (fun c => c != '('), out) := rfl

theorem get_func_none (input : Str) (funcs : List Str) (out : Str)
    (h : ∀ f ∈ funcs, starts_with f (leading_token input) = false) :
    (get_func input funcs out).1 = none := by
  have hf : funcs.find? (fun f => starts_with f (leading_token input)) = none := by
    rw [List.find?_eq_none]
    intro f hf
    simp [h f hf]
  rw [get_func_eq, hf]

theorem get_func_some (input : Str) (funcs : List Str) (out f : Str)
    (h : funcs.find? (fun g => starts_with g (leading_token input)) = some f) :
    get_func input funcs out
      = (some f, (skip_spaces input).dropWhile (fun c => c != '('),
          out ++ f.drop (leading_token input).length) := by
  rw [get_func_eq, h]

/-- C26: whenever `autocomplete` returns a text, the input is a prefix of it; and when
no declared function name starts with the leading token of the input,
`autocomplete` returns the input itself. -/
theorem autocomplete_extends :
    (∀ (fuel : Nat) (input : Str) (sch : Schema) (out : Str),
      autocomplete fuel input sch = some (.ok out) → input <+: out)
    ∧ (∀ (fuel : Nat) (input : Str) (sch : Schema),
      (∀ f ∈ sch.functions.map Prod.fst, starts_with f (leading_token input) = false) →
      autocomplete fuel input sch = some (.ok input)) := by
  constructor
  · intro fuel input sch out h
    rw [autocomplete] at h
    rcases hg : get_func input (sch.functions.map Prod.fst) [] with ⟨_ | fnName, txt, suffix⟩
    · simp only [hg, Option.some.injEq, Except.ok.injEq] at h
      rw [h]
    · simp only [hg] at h
      cases hp : parse_function fuel sch suffix fnName txt with
      | none => simp [hp] at h
      | some rp =>
        cases rp with
        | error e => simp [hp] at h
        | ok rp =>
          simp only [hp, Option.some.injEq, Except.ok.injEq] at h
          rw [← h]
          exact List.prefix_append _ _
  · intro fuel input sch hno
    have h := get_func_none input (sch.functions.map Prod.fst) [] hno
    rw [autocomplete]
    rcases hg : get_func input (sch.functions.map Prod.fst) [] with ⟨_ | fnName, txt, suffix⟩
    · rfl
    · rw [hg] at h
      cases h

theorem autocomplete_extends_witness :
    autocomplete 5 "su".toList point_schema = some (.ok "sum(p=\x7bx=".toList)
    ∧ "su".toList <+: "sum(p=\x7bx=".toList
    ∧ leading_token " zz(p=1".toList = "zz".toList
    ∧ autocomplete 0 " zz(p=1".toList point_schema = some (.ok " zz(p=1".toList) :=
  ⟨by decide, autocomplete_extends.1 5 _ point_schema _ (by decide), by decide,
    autocomplete_extends.2 0 _ point_schema (by decide)⟩

/-! ### The argument phase of `autocomplete` -/

theorem set_insert_ne_nil (x : Str) (s : List Str) : set_insert x s ≠ [] := by
  cases s with
  | nil => simp [set_insert]
  | cons y ys =>
    simp only [set_insert]
    split_ifs <;> simp

theorem remaining_of_ne_nil (ms : List Field) (h : ms ≠ []) : remaining_of ms ≠ [] := by
  have key : ∀ (l : List Field) (s : List Str), s ≠ [] →
      l.foldl (fun s f => set_insert f.name s) s ≠ [] := by
    intro l
    induction l with
    | nil => exact fun s hs => hs
    | cons f l ih => exact fun s _ => ih _ (set_insert_ne_nil _ _)
  obtain ⟨f, l, rfl⟩ := List.exists_cons_of_ne_nil h
  exact key l _ (set_insert_ne_nil _ _)

/-- At the end of the input `get_arg` takes the least of the remaining names and appends
it whole. -/
theorem get_arg_eof (a : Str) (rest : List Str) (out : Str) :
    get_arg [] (a :: rest) out = (some a, rest, [], out ++ a) := by
  simp [get_arg, skip_spaces, starts_with]

/-- A returning run of the loop of `parse_function` with names remaining: the first
round resolves a name, and what it appends stays in front of the result. -/
theorem parse_function_loop_first (fuel : Nat) (sch : Schema) (remaining : List Str)
    (mapping : List (Str × Str)) (txt : TextView) (out : Str) (r : TextView × Str)
    (hrem : remaining ≠ [])
    (h : parse_function_loop fuel sch remaining mapping txt out = some (.ok r)) :
    ∃ chosen remaining₁ txt₁ out₁,
      get_arg txt remaining out = (some chosen, remaining₁, txt₁, out₁)
      ∧ (append_if_missing txt₁ '=' out₁).2.2 <+: r.2 := by
  cases fuel with
  | zero => simp [parse_function_loop] at h
  | succ fuel =>
    simp only [parse_function_loop, if_neg hrem] at h
    rcases hg : get_arg txt remaining out with ⟨_ | chosen, remaining₁, txt₁, out₁⟩
    · simp [hg] at h
    · refine ⟨chosen, remaining₁, txt₁, out₁, rfl, ?_⟩
      simp only [hg] at h
      cases hp : fill_primitive fuel sch (map_at chosen mapping)
          (append_if_missing txt₁ '=' out₁).2.1 (append_if_missing txt₁ '=' out₁).2.2 with
      | none => simp [hp] at h
      | some rp =>
        cases rp with
        | error e => simp [hp] at h
        | ok rp =>
          obtain ⟨stt, txt₂, out₂⟩ := rp
          have h2 := (fill_out fuel).1 _ _ _ _ _ hp
          simp only [hp] at h
          split_ifs at h
          · simp only [Option.some.injEq, Except.ok.injEq] at h
            rw [← h]
            exact h2.trans (append_if_missing_out _ _ _)
          · exact (h2.trans ((append_if_missing_out _ _ _).trans
              (append_if_missing_out _ _ _))).trans (parse_function_loop_out _ _ _ _ _ _ _ h)
          · simp only [Option.some.injEq, Except.ok.injEq] at h
            rw [← h]
            exact h2
          · exact h2.trans (parse_function_loop_out _ _ _ _ _ _ _ h)

/-- C27 (counterexample): the only function of the schema of
`struct Point{int32 x; int32 y;} fn sum->int32{Point p;}` is `sum`, and `autocomplete` on
`su` returns `sum(p={x=`, which is not `sum(`. -/
theorem autocomplete_su_goes_on :
    point_schema.functions.map Prod.fst = ["sum".toList]
    ∧ autocomplete 5 "su".toList point_schema = some (.ok "sum(p=\x7bx=".toList)
    ∧ autocomplete 5 "su".toList point_schema ≠ some (.ok "sum(".toList) := by
  decide

/-- C27 (amended): for a schema whose only function is named `sum`, every text that
`autocomplete` returns on `su` starts with `sum(` and goes on with the completion
of the arguments; it is `sum()` when `sum` declares no argument, and never `sum(`
alone. -/
theorem autocomplete_su (sch : Schema) (fn : Function)
    (h : sch.functions = [("sum".toList, fn)]) :
    (fn.args = [] → ∀ fuel, autocomplete fuel "su".toList sch = some (.ok "sum()".toList))
    ∧ (∀ fuel out, autocomplete fuel "su".toList sch = some (.ok out) →
        "sum(".toList <+: out ∧ out ≠ "sum(".toList) := by
  have hg : get_func "su".toList (sch.functions.map Prod.fst) []
      = (some "sum".toList, [], "m".toList) := by
    rw [h]
    rfl
  have hfind : sch.find_function ['s', 'u', 'm'] = some fn := by
    simp [Schema.find_function, h, map_find]
  have hfind₁ : sch.find_function "sum".toList = some fn := hfind
  constructor
  · intro hargs fuel
    simp only [autocomplete, hg, parse_function, hfind, hfind₁, hargs, if_true]
    rfl
  · intro fuel out hout
    simp only [autocomplete, hg] at hout
    cases hp : parse_function fuel sch "m".toList "sum".toList [] with
    | none => simp only [hp, reduceCtorEq] at hout
    | some rp =>
      cases rp with
      | error e => simp only [hp, Option.some.injEq, reduceCtorEq] at hout
      | ok rp =>
        simp only [hp, Option.some.injEq, Except.ok.injEq] at hout
        subst hout
        simp only [parse_function, hfind, hfind₁] at hp
        by_cases hargs : fn.args = []
        · simp only [hargs, if_true, Option.some.injEq, Except.ok.injEq] at hp
          rw [← hp]
          decide
        · simp only [hargs, if_false] at hp
          obtain ⟨chosen, remaining₁, txt₁, out₁, hga, hpre⟩ :=
            parse_function_loop_first _ _ _ _ _ _ _ (remaining_of_ne_nil _ hargs) hp
          obtain ⟨a, rest, hrem⟩ := List.exists_cons_of_ne_nil (remaining_of_ne_nil _ hargs)
          have hap : (append_if_missing [] '(' "m".toList) = (false, [], "m(".toList) := rfl
          rw [hap, hrem, get_arg_eof] at hga
          simp only [Prod.mk.injEq, Option.some.injEq] at hga
          obtain ⟨-, -, rfl, rfl⟩ := hga
          obtain ⟨ext, hext⟩ := hpre
          have hout : rp.2 = "m(".toList ++ (a ++ '=' :: ext) := by
            rw [← hext]
            simp [append_if_missing]
          rw [hout]
          constructor
          · exact ⟨a ++ '=' :: ext, by simp⟩
          · intro hc
            have := congrArg List.length hc
            simp at this

theorem autocomplete_su_witness :
    autocomplete 5 "su".toList point_schema = some (.ok "sum(p=\x7bx=".toList)
    ∧ "sum(".toList <+: "sum(p=\x7bx=".toList
    ∧ autocomplete 0 "su".toList sum_only_schema = some (.ok "sum()".toList) :=
  ⟨by decide,
    ((autocomplete_su point_schema _ rfl).2 5 _ (by decide)).1,
    (autocomplete_su sum_only_schema _ rfl).1 rfl 0⟩

/-- C28 (counterexample): `su` is a prefix of both `sum` and `summarize`, and
`autocomplete` does not return `su`: it returns `sum()` when the function map is
iterated with `sum` first and `summarize()` when it is iterated with `summarize`
first. -/
theorem autocomplete_ambiguous_completes :
    starts_with "sum".toList (leading_token "su".toList) = true
    ∧ starts_with "summarize".toList (leading_token "su".toList) = true
    ∧ autocomplete 0 "su".toList sum_first_schema = some (.ok "sum()".toList)
    ∧ autocomplete 0 "su".toList summarize_first_schema = some (.ok "summarize()".toList)
    ∧ autocomplete 0 "su".toList sum_first_schema ≠ some (.ok "su".toList)
    ∧ autocomplete 0 "su".toList summarize_first_schema ≠ some (.ok "su".toList) := by
  decide

/-- C28 (amended): when the leading token of the input is a prefix of declared function
names, two or more included, `autocomplete` completes the first such name in the
iteration order of the function map: every text it returns starts with the input
followed by the missing rest of that name. With the functions `sum` and `summarize`,
both without arguments, the input `su` becomes `sum()` or `summarize()` according to
that order. -/
theorem autocomplete_first_match :
    (∀ (fuel : Nat) (input : Str) (sch : Schema) (f out : Str),
      (sch.functions.map Prod.fst).find? (fun g => starts_with g (leading_token input))
        = some f →
      autocomplete fuel input sch = some (.ok out) →
      (input ++ f.drop (leading_token input).length) <+: out)
    ∧ (∀ fuel, autocomplete fuel "su".toList sum_first_schema = some (.ok "sum()".toList))
    ∧ (∀ fuel, autocomplete fuel "su".toList summarize_first_schema
        = some (.ok "summarize()".toList)) := by
  refine ⟨?_, ?_, ?_⟩
  · intro fuel input sch f out hf h
    rw [autocomplete, get_func_some _ _ _ _ hf] at h
    simp only [List.nil_append] at h
    cases hp : parse_function fuel sch (f.drop (leading_token input).length) f
        ((skip_spaces input).dropWhile (fun c => c != '(')) with
    | none => simp [hp] at h
    | some rp =>
      cases rp with
      | error e => simp [hp] at h
      | ok rp =>
        rw [hp] at h
        simp only [Option.some.injEq, Except.ok.injEq] at h
        rw [← h]
        have h1 := (append_if_missing_out _ _ _).trans (parse_function_out _ _ _ _ _ _ hp)
        exact (List.prefix_append_right_inj input).mpr h1
  · intro fuel
    exact autocomplete_mono 0 fuel _ _ _ (by decide) (Nat.zero_le _)
  · intro fuel
    exact autocomplete_mono 0 fuel _ _ _ (by decide) (Nat.zero_le _)

theorem autocomplete_first_match_witness :
    (point_schema.functions.map Prod.fst).find?
        (fun g => starts_with g (leading_token "su".toList)) = some "sum".toList
    ∧ autocomplete 5 "su".toList point_schema = some (.ok "sum(p=\x7bx=".toList)
    ∧ ("su".toList ++ "sum".toList.drop (leading_token "su".toList).length)
        <+: "sum(p=\x7bx=".toList :=
  ⟨by decide, by decide,
    autocomplete_first_match.1 5 _ point_schema _ _ (by decide) (by decide)⟩

/-- C29 (counterexample): with the schema of
`struct Point{int32 x; int32 y;} fn sum->int32{Point p;}`, `autocomplete` on
`sum(p={x=1,` returns `sum(p={x=1, y=`, with a space after the comma, and not
`sum(p={x=1,y=`. -/
theorem autocomplete_partial_struct_space :
    autocomplete 6 "sum(p=\x7bx=1,".toList point_schema
      = some (.ok "sum(p=\x7bx=1, y=".toList)
    ∧ autocomplete 6 "sum(p=\x7bx=1,".toList point_schema
      ≠ some (.ok "sum(p=\x7bx=1,y=".toList) := by
  decide

/-- C29 (amended): with the schema of
`struct Point{int32 x; int32 y;} fn sum->int32{Point p;}`, `autocomplete` on the input
`sum(p={x=1,` appends exactly a space and `y=` and stops: it returns `sum(p={x=1, y=`,
under every bound that lets the run end. -/
theorem autocomplete_partial_struct (fuel : Nat) :
    autocomplete (fuel + 6) "sum(p=\x7bx=1,".toList point_schema
      = some (.ok ("sum(p=\x7bx=1,".toList ++ " y=".toList)) :=
  autocomplete_mono 6 (fuel + 6) _ _ _ (by decide) (Nat.le_add_left _ _)

/-! ### The string arm of `fill_primitive` -/

theorem collect_until_quote_open (body : Str) (h : '"' ∉ body) :
    (collect_until_any body "\"".toList).2 = [] := by
  simp only [collect_until_any, List.dropWhile_eq_nil_iff]
  intro c hc
  have : c ≠ '"' := fun e => h (e ▸ hc)
  simp [this]

theorem collect_until_quote_closed (body rest : Str) (h : '"' ∉ body) :
    (collect_until_any (body ++ '"' :: rest) "\"".toList).2 = '"' :: rest := by
  induction body with
  | nil => simp [collect_until_any]
  | cons c cs ih =>
    have hc : c ≠ '"' := fun e => h (e ▸ List.mem_cons_self _ _)
    have hcs : '"' ∉ cs := fun hm => h (List.mem_cons_of_mem _ hm)
    have := ih hcs
    simp only [collect_until_any] at this ⊢
    rw [List.cons_append, List.dropWhile_cons, if_pos (by simp [hc])]
    exact this

/-- The string arm without an opening quote: the quote is appended and nothing is read. -/
theorem fill_string_unopened (txt : TextView) (out : Str) (h : txt.head? ≠ some '"') :
    fill_string txt out = (.Incomplete, txt, out ++ ['"']) := by
  cases txt with
  | nil => rfl
  | cons c rest =>
    have hc : c ≠ '"' := fun e => h (by simp [e])
    simp [fill_string, append_if_missing, hc]

/-- The string arm on an opened string that the input does not close: the rest of the
input is read and nothing is appended. -/
theorem fill_string_open (body : Str) (out : Str) (h : '"' ∉ body) :
    fill_string ('"' :: body) out = (.Incomplete, [], out) := by
  simp only [fill_string, append_if_missing, if_true, collect_until_quote_open body h]

/-- The string arm on a closed string: the string is read and nothing is appended. -/
theorem fill_string_closed (body rest : Str) (out : Str) (h : '"' ∉ body) :
    fill_string ('"' :: (body ++ '"' :: rest)) out = (.Finished, rest, out) := by
  simp only [fill_string, append_if_missing, if_true, collect_until_quote_closed body rest h]

/-- The run of `autocomplete` on `f(a=` followed by any text, with the schema of
`fn f->int32{string a;}`: the string arm decides what is appended. -/
theorem autocomplete_string_arg (fuel : Nat) (v : Str) :
    autocomplete (fuel + 2) ("f(a=".toList ++ v) string_arg_schema
      = some (.ok ("f(a=".toList ++ v ++
          (if (fill_string v []).1 = .Finished then
            (append_if_missing (fill_string v []).2.1 ')' (fill_string v []).2.2).2.2
          else (fill_string v []).2.2))) := by
  have hg : get_func ("f(a=".toList ++ v) (string_arg_schema.functions.map Prod.fst) []
      = (some "f".toList, '(' :: 'a' :: '=' :: v, []) := rfl
  have hga : get_arg ('a' :: '=' :: v) ["a".toList] [] = (some "a".toList, [], '=' :: v, []) :=
    rfl
  have hloop : parse_function_loop (fuel + 2) string_arg_schema ["a".toList]
      [("a".toList, "string".toList)] ('a' :: '=' :: v) []
      = some (.ok (if (fill_string v []).1 = .Finished then
            ((append_if_missing (fill_string v []).2.1 ')' (fill_string v []).2.2).2.1,
              (append_if_missing (fill_string v []).2.1 ')' (fill_string v []).2.2).2.2)
          else ((fill_string v []).2.1, (fill_string v []).2.2))) := by
    have hfp : fill_primitive (fuel + 1) string_arg_schema
        (map_at "a".toList [("a".toList, "string".toList)])
        (append_if_missing ('=' :: v) '=' []).2.1 (append_if_missing ('=' :: v) '=' []).2.2
        = some (.ok (fill_string v [])) := rfl
    rw [parse_function_loop, if_neg (by decide), hga]
    simp only [hfp]
    rcases fill_string v [] with ⟨stt, txt₂, out₂⟩
    cases stt
    · simp
    · by_cases ht : txt₂ = []
      · simp [ht]
      · simp [ht, parse_function_loop]
  have hp : parse_function (fuel + 2) string_arg_schema [] "f".toList ('(' :: 'a' :: '=' :: v)
      = parse_function_loop (fuel + 2) string_arg_schema ["a".toList]
          [("a".toList, "string".toList)] ('a' :: '=' :: v) [] := rfl
  rw [autocomplete, hg]
  simp only [hp, hloop]
  split_ifs <;> rfl

/-- C30 (counterexample): with the schema of `fn f->int32{string a;}`, `autocomplete` on
`f(a="abc` returns the input as it is: no closing quote is appended. -/
theorem autocomplete_open_string_unchanged :
    autocomplete 2 "f(a=\"abc".toList string_arg_schema = some (.ok "f(a=\"abc".toList)
    ∧ autocomplete 2 "f(a=\"abc".toList string_arg_schema
      ≠ some (.ok "f(a=\"abc\"".toList) := by
  decide

/-- C30 (amended): for an argument or field of type string, the engine appends a double
quote when the value position does not start with one, and appends nothing when an
opening quote is present but the input ends before a closing quote: it reads the
rest of the input and reports the value as incomplete. With the schema of
`fn f->int32{string a;}`, `autocomplete` on `f(a=` followed by a text without a leading quote
returns the input followed by a double quote, and on `f(a="` followed by a text
without a quote it returns the input unchanged. -/
theorem autocomplete_string_value :
    (∀ (fuel : Nat) (sch : Schema) (txt : TextView) (out : Str), txt.head? ≠ some '"' →
      fill_primitive (fuel + 1) sch "string".toList txt out
        = some (.ok (.Incomplete, txt, out ++ ['"'])))
    ∧ (∀ (fuel : Nat) (sch : Schema) (body out : Str), '"' ∉ body →
      fill_primitive (fuel + 1) sch "string".toList ('"' :: body) out
        = some (.ok (.Incomplete, [], out)))
    ∧ (∀ (fuel : Nat) (v : Str), v.head? ≠ some '"' →
      autocomplete (fuel + 2) ("f(a=".toList ++ v) string_arg_schema
        = some (.ok ("f(a=".toList ++ v ++ ['"'])))
    ∧ (∀ (fuel : Nat) (body : Str), '"' ∉ body →
      autocomplete (fuel + 2) ("f(a=\"".toList ++ body) string_arg_schema
        = some (.ok ("f(a=\"".toList ++ body))) := by
  refine ⟨?_, ?_, ?_, ?_⟩
  · intro fuel sch txt out h
    rw [fill_primitive, if_pos rfl, fill_string_unopened txt out h]
  · intro fuel sch body out h
    rw [fill_primitive, if_pos rfl, fill_string_open body out h]
  · intro fuel v h
    rw [autocomplete_string_arg, fill_string_unopened v [] h]
    rfl
  · intro fuel body h
    have e : "f(a=\"".toList ++ body = "f(a=".toList ++ '"' :: body := rfl
    rw [e, autocomplete_string_arg, fill_string_open body [] h]
    simp

theorem autocomplete_string_value_witness :
    fill_primitive 1 point_schema "string".toList "abc,".toList "f(a=".toList
        = some (.ok (.Incomplete, "abc,".toList, "f(a=\"".toList))
    ∧ fill_primitive 1 point_schema "string".toList "\"abc".toList []
        = some (.ok (.Incomplete, [], []))
    ∧ autocomplete 2 "f(a=abc".toList string_arg_schema = some (.ok "f(a=abc\"".toList)
    ∧ autocomplete 2 "f(a=\"abc".toList string_arg_schema = some (.ok "f(a=\"abc".toList) :=
  ⟨autocomplete_string_value.1 0 point_schema "abc,".toList "f(a=".toList (by decide),
    autocomplete_string_value.2.1 0 point_schema "abc".toList [] (by decide),
    autocomplete_string_value.2.2.1 0 "abc".toList (by decide),
    autocomplete_string_value.2.2.2 0 "abc".toList (by decide)⟩

/-! ### The two integer alternatives of a value -/

theorem as_int_of_is_int (v : Value) (h : v.is_int = true) :
    ∃ x, v.int_value = some x ∧ v.as_int = .ok x := by
  cases v with
  | str s => simp [Value.is_int] at h
  | int n => exact ⟨n, rfl, rfl⟩
  | uint n =>
    simp only [Value.is_int, decide_eq_true_eq] at h
    exact ⟨n, rfl, by simp only [Value.as_int, if_pos h]⟩
  | struct nm fs => simp [Value.is_int] at h

theorem serialize_builtin_with_congr (conv conv' : Value → Except Error Int) (v : Value)
    (h : v.is_int = true → conv v = conv' v) (b : Builtin) (out : List Byte) :
    serialize_builtin_with conv b v out = serialize_builtin_with conv' b v out := by
  by_cases hi : v.is_int = true
  · cases b <;> simp only [serialize_builtin_with, h hi]
  · cases b <;> simp only [serialize_builtin_with, if_neg hi]

/-- C37: for every integer builtin type and every `n` with `0 ≤ n ≤ 2^63 - 1`,
`serialize_builtin` has the same outcome on the signed value `n` and on the unsigned
value `n`. The method applies `as_int` under the test `is_int` only: its outcome does
not depend on what `as_int` returns for the other values; and on a value for which
`is_int` holds `as_int` returns the integer that the value carries, unchanged. -/
theorem serialize_builtin_representation :
    (∀ (b : Builtin) (n : Nat) (out : List Byte), b ≠ .String → n ≤ 2 ^ 63 - 1 →
      serialize_builtin b (.int (n : Int)) out = serialize_builtin b (.uint n) out)
    ∧ (∀ (b : Builtin) (v : Value) (out : List Byte),
        serialize_builtin b v out = serialize_builtin_with Value.as_int b v out)
    ∧ (∀ (conv : Value → Except Error Int) (b : Builtin) (v : Value) (out : List Byte),
        (v.is_int = true → conv v = v.as_int) →
        serialize_builtin_with conv b v out = serialize_builtin b v out)
    ∧ (∀ v : Value, v.is_int = true → ∃ x, v.int_value = some x ∧ v.as_int = .ok x) := by
  refine ⟨?_, fun _ _ _ => rfl, ?_, as_int_of_is_int⟩
  · intro b n out hb hn
    have h1 : ((n : Int) ≤ INT64_MAX) := by
      simp only [INT64_MAX]
      omega
    have hu : (Value.uint n).is_int = true := by
      simp only [Value.is_int, decide_eq_true_eq]
      exact h1
    have ha : (Value.uint n).as_int = .ok (n : Int) := by
      simp only [Value.as_int, if_pos h1]
    have hi : (Value.int (n : Int)).is_int = true := rfl
    have hb' : (Value.int (n : Int)).as_int = .ok (n : Int) := rfl
    cases b with
    | String => exact absurd rfl hb
    | Int32 => simp only [serialize_builtin, hu, ha, hi, hb']
    | Int64 => simp only [serialize_builtin, hu, ha, hi, hb']
    | Uint32 => simp only [serialize_builtin, hu, ha, hi, hb', if_true]
    | Uint64 => simp only [serialize_builtin, hu, ha, hi, hb', if_true]
  · intro conv b v out h
    exact serialize_builtin_with_congr conv Value.as_int v h b out

theorem serialize_builtin_representation_witness :
    serialize_builtin .Uint32 (.int 7) [] = serialize_builtin .Uint32 (.uint 7) []
    ∧ serialize_builtin .Uint32 (.uint 7) [] = .ok [0, 0, 0, 7]
    ∧ serialize_builtin_with (fun _ => .ok 7) .Int64 (.uint 7) []
        = serialize_builtin .Int64 (.uint 7) []
    ∧ ∃ x, (Value.uint 7).int_value = some x ∧ (Value.uint 7).as_int = .ok x :=
  ⟨serialize_builtin_representation.1 .Uint32 7 [] (by decide) (by decide), by decide,
    serialize_builtin_representation.2.2.1 (fun _ => .ok 7) .Int64 (.uint 7) [] (fun _ => rfl),
    serialize_builtin_representation.2.2.2 (.uint 7) rfl⟩

/-! ### Names written more than once -/

theorem entries_args_names : ∀ (e : Entries) (acc args : List NamedArg),
    e.args acc = some args → args.map Prod.fst = acc.map Prod.fst ++ e.names
  | .nil, acc, args, h => by
    simp only [Entries.args, Option.some.injEq] at h
    simp [← h, Entries.names]
  | .cons s v rest, acc, args, h => by
    simp only [Entries.args] at h
    cases hv : v.value with
    | none => simp [hv] at h
    | some x =>
      simp only [hv] at h
      have := entries_args_names rest _ _ h
      simp [this, Entries.names]

theorem map_find_later {α : Type} (k a : Str) (v w : α) (pre mid post : List (Str × α)) :
    map_find k (pre ++ (a, v) :: (mid ++ (a, w) :: post))
      = map_find k (pre ++ (a, v) :: (mid ++ post)) := by
  rw [map_find_append, map_find_append k pre]
  cases map_find k pre with
  | some b => rfl
  | none =>
    simp only [map_find]
    by_cases h : a = k
    · simp only [if_pos h]
    · simp only [if_neg h]
      rw [map_find_append, map_find_append k mid]
      cases map_find k mid with
      | some b => rfl
      | none => simp only [map_find, if_neg h]

/-- C38: the parser accepts the text of a call whatever names its arguments have, a
name written more than once included, and returns the arguments in the order in
which they are written, one for each occurrence; and `serialize_call` has the same
outcome as on the call without a later occurrence of a name: the first occurrence
is the one that is encoded. -/
theorem parse_repeated_argument :
    (∀ (c : CallText) (args : List NamedArg), c.wf = true → c.entries.args [] = some args →
      RequestParser.parse c.text = some (.ok ⟨c.name, args⟩)
      ∧ args.map Prod.fst = c.entries.names)
    ∧ (∀ (XXH32 : Str → Nat) (sch : Schema) (f a : Str) (v w : Value)
        (pre mid post : List NamedArg),
        serialize_call XXH32 sch ⟨f, pre ++ (a, v) :: (mid ++ (a, w) :: post)⟩
          = serialize_call XXH32 sch ⟨f, pre ++ (a, v) :: (mid ++ post)⟩) := by
  constructor
  · intro c args hwf hargs
    refine ⟨?_, ?_⟩
    · rw [parse_text c hwf]
      simp only [CallText.call, hargs]
    · simpa using entries_args_names c.entries [] args hargs
  · intro XXH32 sch f a v w pre mid post
    rw [serialize_call_eq, serialize_call_eq]
    cases sch.find_function f with
    | none => rfl
    | some fn =>
      exact call_loop_congr sch _ _ fn.args (fun df _ => map_find_later _ _ _ _ _ _ _) _

theorem parse_repeated_argument_witness :
    repeated_arg_text.text = "f(a=1,a=2)".toList
    ∧ RequestParser.parse "f(a=1,a=2)".toList
        = some (.ok ⟨"f".toList, [("a".toList, .uint 1), ("a".toList, .uint 2)]⟩)
    ∧ ["a".toList, "a".toList] = repeated_arg_text.entries.names
    ∧ ∀ XXH32 : Str → Nat,
      serialize_call XXH32 int_arg_schema
          ⟨"f".toList, [("a".toList, .uint 1), ("a".toList, .uint 2)]⟩
        = .ok (put_be 4 [] ((XXH32 "f".toList % 2 ^ 32 : Nat) : Int) ++ [0, 0, 0, 1]) := by
  have h := parse_repeated_argument.1 repeated_arg_text
    [("a".toList, .uint 1), ("a".toList, .uint 2)] (by decide) rfl
  refine ⟨by decide, h.1, h.2, fun XXH32 => ?_⟩
  rw [serialize_call_eq]
  rfl

/-! ### The fields that `serialize_struct` reads -/

/-- The body of the loop of `serialize_struct` is a lookup followed by `serialize_value`. -/
theorem serialize_field_find (sch : Schema) : ∀ (fields : List (Str × Value)) (name : Str)
    (t : Ty) (out : List Byte),
    serialize_field sch fields name t out
      = match map_find name fields with
        | none => .error .SerializeError
        | some v => serialize_value sch v t out
  | [], _, _, _ => by simp only [serialize_field, map_find]
  | (k, v) :: rest, name, t, out => by
    simp only [serialize_field, map_find]
    by_cases h : k = name
    · simp only [if_pos h]
    · simp only [if_neg h]
      exact serialize_field_find sch rest name t out

theorem struct_loop_congr (body body' : Field → List Byte → Except Error (List Byte)) :
    ∀ (fs : List Field) (out : List Byte), (∀ f ∈ fs, ∀ o, body f o = body' f o) →
      struct_loop body fs out = struct_loop body' fs out
  | [], _, _ => rfl
  | f :: rest, out, h => by
    simp only [struct_loop, h f (List.mem_cons_self _ _)]
    cases body' f out with
    | error e => rfl
    | ok o =>
      exact struct_loop_congr body body' rest o (fun g hg => h g (List.mem_cons_of_mem _ hg))

theorem serialize_struct_congr (sch : Schema) (st : Struct) (sv sv' : List (Str × Value))
    (h : ∀ f ∈ st.fields, map_find f.name sv = map_find f.name sv') (out : List Byte) :
    serialize_struct sch st sv out = serialize_struct sch st sv' out := by
  unfold serialize_struct
  apply struct_loop_congr
  intro f hf o
  rw [serialize_field_find, serialize_field_find, h f hf]

theorem map_find_skip {α : Type} (k a : Str) (v : α) (pre post : List (Str × α))
    (h : a ≠ k) : map_find k (pre ++ (a, v) :: post) = map_find k (pre ++ post) := by
  rw [map_find_append, map_find_append k pre]
  cases map_find k pre with
  | some b => rfl
  | none => simp only [map_find, if_neg h]

/-- C39: a field of the struct value whose name is not declared in the struct does not
influence `serialize_struct`: with and without it the outcome is the same, bytes or
failure; and two field maps that hold the same values under the declared field
names have the same outcome. -/
theorem serialize_struct_undeclared_field :
    (∀ (sch : Schema) (st : Struct) (pre post : List (Str × Value)) (k : Str) (v : Value)
        (out : List Byte), k ∉ st.fields.map Field.name →
      serialize_struct sch st (pre ++ (k, v) :: post) out
        = serialize_struct sch st (pre ++ post) out)
    ∧ (∀ (sch : Schema) (st : Struct) (sv sv' : List (Str × Value)) (out : List Byte),
        (∀ f ∈ st.fields, map_find f.name sv = map_find f.name sv') →
        serialize_struct sch st sv out = serialize_struct sch st sv' out) := by
  constructor
  · intro sch st pre post k v out hk
    apply serialize_struct_congr
    intro f hf
    apply map_find_skip
    intro e
    exact hk (e ▸ List.mem_map_of_mem Field.name hf)
  · intro sch st sv sv' out h
    exact serialize_struct_congr sch st sv sv' h out

theorem serialize_struct_undeclared_field_witness :
    serialize_struct point_schema
        ⟨"Point".toList, [⟨"x".toList, .builtin_of .Int32⟩, ⟨"y".toList, .builtin_of .Int32⟩]⟩
        [("x".toList, .uint 1), ("z".toList, .uint 9), ("y".toList, .uint 2)] []
      = serialize_struct point_schema
        ⟨"Point".toList, [⟨"x".toList, .builtin_of .Int32⟩, ⟨"y".toList, .builtin_of .Int32⟩]⟩
        [("x".toList, .uint 1), ("y".toList, .uint 2)] []
    ∧ serialize_struct point_schema
        ⟨"Point".toList, [⟨"x".toList, .builtin_of .Int32⟩, ⟨"y".toList, .builtin_of .Int32⟩]⟩
        [("x".toList, .uint 1), ("y".toList, .uint 2)] []
      = .ok [0, 0, 0, 1, 0, 0, 0, 2]
    ∧ serialize_struct point_schema
        ⟨"Point".toList, [⟨"x".toList, .builtin_of .Int32⟩, ⟨"y".toList, .builtin_of .Int32⟩]⟩
        [("y".toList, .uint 2), ("x".toList, .uint 1)] []
      = serialize_struct point_schema
        ⟨"Point".toList, [⟨"x".toList, .builtin_of .Int32⟩, ⟨"y".toList, .builtin_of .Int32⟩]⟩
        [("x".toList, .uint 1), ("y".toList, .uint 2)] [] :=
  ⟨serialize_struct_undeclared_field.1 point_schema _ [("x".toList, .uint 1)]
      [("y".toList, .uint 2)] "z".toList (.uint 9) [] (by decide),
    by decide,
    serialize_struct_undeclared_field.2 point_schema _ _ _ [] (by
      intro f hf
      simp only [List.mem_cons, List.mem_singleton, List.not_mem_nil, or_false] at hf
      rcases hf with rfl | rfl <;> rfl)⟩

/-! ### A cycle through two structs -/

/-- C34: a schema text with the terminals of `struct S{T t;} struct T{S s;}`, whatever
the two different struct names and the two member names are, is accepted by
`parse_schema_text`, and the schema returned contains both structs, each with its
member of the type of the other. -/
theorem schema_long_cycle (text : Str) (S T t s : Str) (hne : S ≠ T)
    (htok : tokenize text []
      = some (doc_tokens [.struct S [⟨t, .user_of T⟩], .struct T [⟨s, .user_of S⟩]])) :
    parse_schema_text text
        = some (.ok ⟨[(T, ⟨T, [⟨s, .user_of S⟩]⟩), (S, ⟨S, [⟨t, .user_of T⟩]⟩)], []⟩)
    ∧ Schema.find_struct ⟨[(T, ⟨T, [⟨s, .user_of S⟩]⟩), (S, ⟨S, [⟨t, .user_of T⟩]⟩)], []⟩ S
        = some ⟨S, [⟨t, .user_of T⟩]⟩
    ∧ Schema.find_struct ⟨[(T, ⟨T, [⟨s, .user_of S⟩]⟩), (S, ⟨S, [⟨t, .user_of T⟩]⟩)], []⟩ T
        = some ⟨T, [⟨s, .user_of S⟩]⟩ := by
  have hne' : T ≠ S := fun e => hne e.symm
  refine ⟨?_, ?_, ?_⟩
  · rw [parse_schema_doc text _ htok, if_pos]
    · rfl
    · refine ⟨⟨?_, ?_, ?_⟩, ?_, ?_⟩
      · simp [struct_names, hne]
      · simp [fn_names]
      · intro d hd
        simp only [List.mem_cons, List.mem_singleton, List.not_mem_nil, or_false] at hd
        rcases hd with rfl | rfl <;> simp [Decl.members]
      · intro d hd ty hty
        simp only [List.mem_cons, List.mem_singleton, List.not_mem_nil, or_false] at hd
        rcases hd with rfl | rfl <;>
          · simp only [Decl.types, List.map_cons, List.map_nil, List.mem_singleton] at hty
            subst hty
            simp [Ty.declared, struct_names]
      · intro d hd
        simp only [List.mem_cons, List.mem_singleton, List.not_mem_nil, or_false] at hd
        rcases hd with rfl | rfl
        · simp [Decl.self_ref, hne']
        · simp [Decl.self_ref, hne]
  · simp [Schema.find_struct, map_find, hne']
  · simp [Schema.find_struct, map_find]

theorem schema_long_cycle_witness :
    tokenize "struct S\x7bT t;\x7d struct T\x7bS s;\x7d".toList [] = some (doc_tokens cycle_doc)
    ∧ parse_schema_text "struct S\x7bT t;\x7d struct T\x7bS s;\x7d".toList
        = some (.ok (doc_schema cycle_doc))
    ∧ (doc_schema cycle_doc).find_struct "S".toList
        = some ⟨"S".toList, [⟨"t".toList, .user_of "T".toList⟩]⟩
    ∧ (doc_schema cycle_doc).find_struct "T".toList
        = some ⟨"T".toList, [⟨"s".toList, .user_of "S".toList⟩]⟩ :=
  ⟨by decide,
    schema_long_cycle _ "S".toList "T".toList "t".toList "s".toList (by decide) (by decide)⟩

/-! ### The delimiters that `parse_function` writes -/

/-- The function `append_if_missing` passes the character when the text goes on with it and
appends it otherwise. -/
theorem append_if_missing_eq (txt : TextView) (ch : Char) (out : Str) :
    append_if_missing txt ch out
      = if txt.head? = some ch then (true, txt.tail, out) else (false, txt, out ++ [ch]) := by
  cases txt with
  | nil => simp [append_if_missing]
  | cons c rest =>
    by_cases h : c = ch
    · simp [append_if_missing, h]
    · simp [append_if_missing, h]

/-- One round of the loop of `parse_function` in which the value is reported finished. -/
theorem parse_function_loop_finished (fuel : Nat) (sch : Schema) (remaining : List Str)
    (mapping : List (Str × Str)) (txt : TextView) (out : Str) (chosen : Str)
    (remaining₁ : List Str) (txt₁ : TextView) (out₁ : Str) (txt₂ : TextView) (out₂ : Str)
    (hrem : remaining ≠ [])
    (hg : get_arg txt remaining out = (some chosen, remaining₁, txt₁, out₁))
    (hp : fill_primitive fuel sch (map_at chosen mapping)
        (append_if_missing txt₁ '=' out₁).2.1 (append_if_missing txt₁ '=' out₁).2.2
      = some (.ok (.Finished, txt₂, out₂))) :
    parse_function_loop (fuel + 1) sch remaining mapping txt out
      = if remaining₁ = [] then
          some (.ok ((append_if_missing txt₂ ')' out₂).2.1, (append_if_missing txt₂ ')' out₂).2.2))
        else
          parse_function_loop fuel sch remaining₁ mapping
            (append_if_missing (append_if_missing txt₂ ',' out₂).2.1 ' '
              (append_if_missing txt₂ ',' out₂).2.2).2.1
            (append_if_missing (append_if_missing txt₂ ',' out₂).2.1 ' '
              (append_if_missing txt₂ ',' out₂).2.2).2.2 := by
  rw [parse_function_loop, if_neg hrem, hg]
  simp only [hp, if_true]

/-- C31: in a round of the loop of `parse_function` in which the value of the argument is
reported `Finished`, the engine passes or appends `)` and returns when no declared
argument remains, and otherwise passes or appends a comma, then passes or appends
a space, and goes on with the remaining arguments. With the schema of
`fn f->int32{string a;}` the input `f(a="x"` becomes `f(a="x")`, and with the schema of
`fn f->int32{string a; int32 b;}` it becomes `f(a="x", b=`. -/
theorem parse_function_delimiters :
    (∀ (fuel : Nat) (sch : Schema) (remaining : List Str) (mapping : List (Str × Str))
        (txt : TextView) (out : Str) (chosen : Str) (remaining₁ : List Str) (txt₁ : TextView)
        (out₁ : Str) (txt₂ : TextView) (out₂ : Str),
      remaining ≠ [] →
      get_arg txt remaining out = (some chosen, remaining₁, txt₁, out₁) →
      fill_primitive fuel sch (map_at chosen mapping)
          (append_if_missing txt₁ '=' out₁).2.1 (append_if_missing txt₁ '=' out₁).2.2
        = some (.ok (.Finished, txt₂, out₂)) →
      parse_function_loop (fuel + 1) sch remaining mapping txt out
        = if remaining₁ = [] then
            some (.ok ((append_if_missing txt₂ ')' out₂).2.1,
              (append_if_missing txt₂ ')' out₂).2.2))
          else
            parse_function_loop fuel sch remaining₁ mapping
              (append_if_missing (append_if_missing txt₂ ',' out₂).2.1 ' '
                (append_if_missing txt₂ ',' out₂).2.2).2.1
              (append_if_missing (append_if_missing txt₂ ',' out₂).2.1 ' '
                (append_if_missing txt₂ ',' out₂).2.2).2.2)
    ∧ (∀ (txt : TextView) (ch : Char) (out : Str),
        append_if_missing txt ch out
          = if txt.head? = some ch then (true, txt.tail, out) else (false, txt, out ++ [ch]))
    ∧ (∀ fuel : Nat, autocomplete (fuel + 2) "f(a=\"x\"".toList string_arg_schema
        = some (.ok "f(a=\"x\")".toList))
    ∧ (∀ fuel : Nat, autocomplete (fuel + 3) "f(a=\"x\"".toList string_int_schema
        = some (.ok "f(a=\"x\", b=".toList)) :=
  ⟨parse_function_loop_finished, append_if_missing_eq,
    fun fuel => autocomplete_mono 2 (fuel + 2) _ _ _ (by decide) (Nat.le_add_left _ _),
    fun fuel => autocomplete_mono 3 (fuel + 3) _ _ _ (by decide) (Nat.le_add_left _ _)⟩

theorem parse_function_delimiters_witness :
    parse_function_loop 2 string_int_schema ["a".toList, "b".toList]
        [("a".toList, "string".toList), ("b".toList, "int32".toList)] "a=\"x\",b=1)".toList []
      = parse_function_loop 1 string_int_schema ["b".toList]
        [("a".toList, "string".toList), ("b".toList, "int32".toList)] "b=1)".toList " ".toList
    ∧ parse_function_loop 2 string_int_schema ["b".toList]
        [("a".toList, "string".toList), ("b".toList, "int32".toList)] "b=1)".toList " ".toList
      = some (.ok ([], " ".toList)) :=
  ⟨parse_function_delimiters.1 1 string_int_schema ["a".toList, "b".toList]
      [("a".toList, "string".toList), ("b".toList, "int32".toList)] "a=\"x\",b=1)".toList []
      "a".toList ["b".toList] "=\"x\",b=1)".toList [] ",b=1)".toList []
      (by decide) (by decide) (by decide),
    parse_function_delimiters.1 1 string_int_schema ["b".toList]
      [("a".toList, "string".toList), ("b".toList, "int32".toList)] "b=1)".toList " ".toList
      "b".toList [] "=1)".toList " ".toList ")".toList " ".toList
      (by decide) (by decide) (by decide)⟩

/-! ### A name that is not declared -/

/-- C35 (evaluation of the code at the failing input): the schema text
`struct Point{int32 x; int32 y;} fn sum->int32{Point p;}` is accepted, the function `sum` is
resolved on the input `sum(q=`, and `get_arg` returns no name for the token `q`:
`parse_function` takes the value of an empty optional. -/
theorem autocomplete_unknown_argument :
    parse_schema_text
        "struct Point\x7bint32 x; int32 y;\x7d fn sum->int32\x7bPoint p;\x7d".toList
      = some (.ok point_schema)
    ∧ (get_func "sum(q=".toList (point_schema.functions.map Prod.fst) []).1 = some "sum".toList
    ∧ (get_arg "q=".toList ["p".toList] []).1 = none
    ∧ ∀ fuel : Nat, autocomplete (fuel + 1) "sum(q=".toList point_schema
        = some (.error .empty_optional) :=
  ⟨by decide, by decide, by decide,
    fun fuel => autocomplete_mono 1 (fuel + 1) _ _ _ (by decide) (Nat.le_add_left _ _)⟩

/-! ### What the engine appends -/

theorem completion_nil (sch : Schema) : sch.completion [] :=
  ⟨[], rfl, fun _ h => absurd h (List.not_mem_nil _)⟩

theorem completion_append (sch : Schema) (s t : Str) (hs : sch.completion s)
    (ht : sch.completion t) : sch.completion (s ++ t) := by
  obtain ⟨ps, rfl, hps⟩ := hs
  obtain ⟨pt, rfl, hpt⟩ := ht
  refine ⟨ps ++ pt, by simp, fun p hp => ?_⟩
  rcases List.mem_append.mp hp with h | h
  · exact hps p h
  · exact hpt p h

theorem completion_char (sch : Schema) (c : Char) (hc : c ∈ structural) :
    sch.completion [c] :=
  ⟨[[c]], by simp, fun p hp => by
    rw [List.mem_singleton] at hp
    exact Or.inl ⟨c, hc, hp⟩⟩

theorem completion_tail (sch : Schema) (name token : Str) (hn : sch.declares name)
    (ht : token <+: name) : sch.completion (name.drop token.length) :=
  ⟨[name.drop token.length], by simp, fun p hp => by
    rw [List.mem_singleton] at hp
    exact Or.inr ⟨name, token, hn, ht, hp⟩⟩

/-- After a step of the engine `out` is what it was, followed by structural characters and
missing tails of declared names; this relation is reflexive and transitive. -/
theorem grows_refl (sch : Schema) (out : Str) : ∃ s, out = out ++ s ∧ sch.completion s :=
  ⟨[], by simp, completion_nil sch⟩

theorem grows_trans (sch : Schema) (a b c : Str)
    (h₁ : ∃ s, b = a ++ s ∧ sch.completion s) (h₂ : ∃ s, c = b ++ s ∧ sch.completion s) :
    ∃ s, c = a ++ s ∧ sch.completion s := by
  obtain ⟨s, rfl, hs⟩ := h₁
  obtain ⟨t, rfl, ht⟩ := h₂
  exact ⟨s ++ t, by simp, completion_append sch s t hs ht⟩

theorem append_if_missing_grows (sch : Schema) (txt : TextView) (ch : Char) (out : Str)
    (hc : ch ∈ structural) :
    ∃ s, (append_if_missing txt ch out).2.2 = out ++ s ∧ sch.completion s := by
  cases txt with
  | nil => exact ⟨[ch], rfl, completion_char sch ch hc⟩
  | cons c rest =>
    by_cases h : c = ch
    · simp only [append_if_missing, if_pos h]
      exact grows_refl sch out
    · simp only [append_if_missing, if_neg h]
      exact ⟨[ch], rfl, completion_char sch ch hc⟩

theorem starts_with_spec (f token : Str) (h : starts_with f token = true) : token <+: f := by
  simpa [starts_with] using h

theorem fill_string_grows (sch : Schema) (txt : TextView) (out : Str) :
    ∃ s, (fill_string txt out).2.2 = out ++ s ∧ sch.completion s := by
  have h := append_if_missing_grows sch txt '"' out (by decide)
  unfold fill_string
  rcases hr : append_if_missing txt '"' out with ⟨b, txt₁, out₁⟩
  rw [hr] at h
  cases b with
  | false => exact h
  | true =>
    simp only
    split <;> exact h

theorem fill_open_grows (sch : Schema) (type : Str) (txt : TextView) (out : Str)
    (ht : sch.declares type) :
    ∃ s, (fill_open type txt out).2 = out ++ s ∧ sch.completion s := by
  cases txt with
  | nil => exact append_if_missing_grows sch _ _ _ (by decide)
  | cons c rest =>
    by_cases h : c ≠ '\x7b'
    · simp only [fill_open, if_pos h]
      refine grows_trans sch _ _ _ ?_ (append_if_missing_grows sch _ _ _ (by decide))
      split_ifs with hs
      · exact ⟨_, rfl, completion_tail sch type _ ht (starts_with_spec _ _ hs)⟩
      · exact grows_refl sch out
    · simp only [fill_open, if_neg h]
      exact grows_refl sch out

theorem get_arg_grows (sch : Schema) (txt : TextView) (args : List Str) (out : Str)
    (ha : ∀ a ∈ args, sch.declares a) :
    (∃ s, (get_arg txt args out).2.2.2 = out ++ s ∧ sch.completion s)
    ∧ ∀ a ∈ (get_arg txt args out).2.1, sch.declares a := by
  unfold get_arg
  simp only
  split
  · rename_i a hfind
    refine ⟨⟨_, rfl, completion_tail sch a _ (ha a (List.mem_of_find?_eq_some hfind)) ?_⟩, ?_⟩
    · exact starts_with_spec _ _ (by simpa using List.find?_some hfind)
    · intro b hb
      exact ha b (List.mem_of_mem_erase hb)
  · exact ⟨grows_refl sch out, ha⟩

theorem get_func_grows (sch : Schema) (txt : TextView) (funcs : List Str) (out : Str)
    (hf : ∀ f ∈ funcs, sch.declares f) :
    ∃ s, (get_func txt funcs out).2.2 = out ++ s ∧ sch.completion s := by
  unfold get_func
  simp only
  split
  · rename_i f hfind
    exact ⟨_, rfl, completion_tail sch f _ (hf f (List.mem_of_find?_eq_some hfind))
      (starts_with_spec _ _ (by simpa using List.find?_some hfind))⟩
  · exact grows_refl sch out

theorem map_find_mem {α : Type} : ∀ (m : List (Str × α)) (k : Str) (a : α),
    map_find k m = some a → (k, a) ∈ m
  | [], _, _, h => by simp [map_find] at h
  | (k', b) :: m, k, a, h => by
    simp only [map_find] at h
    split_ifs at h with hk
    · simp only [Option.some.injEq] at h
      rw [hk, h]
      exact List.mem_cons_self _ _
    · exact List.mem_cons_of_mem _ (map_find_mem m k a h)

theorem set_insert_mem (x : Str) : ∀ (s : List Str) (a : Str), a ∈ set_insert x s → a = x ∨ a ∈ s
  | [], a, h => by
    simp only [set_insert, List.mem_singleton] at h
    exact Or.inl h
  | y :: ys, a, h => by
    simp only [set_insert] at h
    split_ifs at h
    · exact Or.inr h
    · rcases List.mem_cons.mp h with h | h
      · exact Or.inl h
      · exact Or.inr h
    · rcases List.mem_cons.mp h with h | h
      · exact Or.inr (h ▸ List.mem_cons_self _ _)
      · rcases set_insert_mem x ys a h with h | h
        · exact Or.inl h
        · exact Or.inr (List.mem_cons_of_mem _ h)

theorem remaining_of_mem (ms : List Field) (a : Str) (h : a ∈ remaining_of ms) :
    a ∈ ms.map Field.name := by
  have key : ∀ (l : List Field) (s : List Str),
      a ∈ l.foldl (fun s f => set_insert f.name s) s → a ∈ s ∨ a ∈ l.map Field.name := by
    intro l
    induction l with
    | nil => exact fun s h => Or.inl h
    | cons f l ih =>
      intro s h
      rcases ih _ h with h | h
      · rcases set_insert_mem _ _ _ h with h | h
        · exact Or.inr (h ▸ List.mem_cons_self _ _)
        · exact Or.inl h
      · exact Or.inr (List.mem_cons_of_mem _ h)
  rcases key ms [] h with h | h
  · exact absurd h (List.not_mem_nil _)
  · exact h

theorem declares_field (sch : Schema) (type : Str) (st : Struct)
    (h : sch.find_struct type = some st) :
    sch.declares type ∧ ∀ a ∈ remaining_of st.fields, sch.declares a := by
  have hm := map_find_mem _ _ _ h
  refine ⟨Or.inr (Or.inl (List.mem_map_of_mem Prod.fst hm)), fun a ha => ?_⟩
  exact Or.inr (Or.inr (Or.inr ⟨_, hm, remaining_of_mem _ _ ha⟩))

theorem declares_arg (sch : Schema) (fnName : Str) (fn : Function)
    (h : sch.find_function fnName = some fn) :
    ∀ a ∈ remaining_of fn.args, sch.declares a := by
  have hm := map_find_mem _ _ _ h
  exact fun a ha => Or.inr (Or.inr (Or.inl ⟨_, hm, remaining_of_mem _ _ ha⟩))

theorem fill_grows (fuel : Nat) :
    (∀ (sch : Schema) (type : Str) (txt : TextView) (out : Str) (r : ParseStruct × TextView × Str),
      fill_primitive fuel sch type txt out = some (.ok r) →
      ∃ s, r.2.2 = out ++ s ∧ sch.completion s)
    ∧ (∀ (sch : Schema) (out type : Str) (txt : TextView) (r : ParseStruct × TextView × Str),
      fill_structure fuel sch out type txt = some (.ok r) →
      ∃ s, r.2.2 = out ++ s ∧ sch.completion s)
    ∧ (∀ (sch : Schema) (remaining : List Str) (mapping : List (Str × Str)) (txt : TextView)
        (out : Str) (r : ParseStruct × TextView × Str),
      (∀ a ∈ remaining, sch.declares a) →
      fill_fields fuel sch remaining mapping txt out = some (.ok r) →
      ∃ s, r.2.2 = out ++ s ∧ sch.completion s) := by
  induction fuel with
  | zero =>
    refine ⟨fun sch type txt out r h => ?_, fun sch out type txt r h => ?_,
      fun sch remaining mapping txt out r _ h => ?_⟩
    · simp [fill_primitive] at h
    · simp [fill_structure] at h
    · simp [fill_fields] at h
  | succ fuel ih =>
    obtain ⟨ihp, ihs, ihf⟩ := ih
    refine ⟨fun sch type txt out r h => ?_, fun sch out type txt r h => ?_,
      fun sch remaining mapping txt out r hdecl h => ?_⟩
    · simp only [fill_primitive] at h
      split_ifs at h
      · simp only [Option.some.injEq, Except.ok.injEq] at h
        rw [← h]
        exact fill_string_grows sch _ _
      · simp only [Option.some.injEq, Except.ok.injEq] at h
        rw [← h]
        exact grows_refl sch out
      · exact ihs _ _ _ _ _ h
    · simp only [fill_structure] at h
      cases hst : sch.find_struct type with
      | none => simp [hst] at h
      | some st =>
        obtain ⟨hty, hfl⟩ := declares_field sch type st hst
        simp only [hst] at h
        split_ifs at h
        · simp only [Option.some.injEq, Except.ok.injEq] at h
          rw [← h]
          exact grows_trans sch _ _ _ (fill_open_grows sch _ _ _ hty)
            (append_if_missing_grows sch _ _ _ (by decide))
        · exact grows_trans sch _ _ _ (fill_open_grows sch _ _ _ hty) (ihf _ _ _ _ _ _ hfl h)
    · simp only [fill_fields] at h
      split_ifs at h with hrem
      · simp only [Option.some.injEq, Except.ok.injEq] at h
        rw [← h]
        exact grows_refl sch out
      · have hga := get_arg_grows sch txt remaining out hdecl
        rcases hg : get_arg txt remaining out with ⟨_ | chosen, remaining₁, txt₁, out₁⟩
        · simp [hg] at h
        · rw [hg] at hga
          obtain ⟨hga, hdecl₁⟩ := hga
          simp only [hg] at h
          have h1 := append_if_missing_grows sch txt₁ '=' out₁ (by decide)
          cases hp : fill_primitive fuel sch (map_at chosen mapping)
              (append_if_missing txt₁ '=' out₁).2.1 (append_if_missing txt₁ '=' out₁).2.2 with
          | none => simp [hp] at h
          | some rp =>
            cases rp with
            | error e => simp [hp] at h
            | ok rp =>
              obtain ⟨stt, txt₂, out₂⟩ := rp
              have h2 := ihp _ _ _ _ _ hp
              have h12 : ∃ s, out₂ = out ++ s ∧ sch.completion s :=
                grows_trans sch _ _ _ hga (grows_trans sch _ _ _ h1 h2)
              simp only [hp] at h
              split_ifs at h
              · simp only [Option.some.injEq, Except.ok.injEq] at h
                rw [← h]
                exact grows_trans sch _ _ _ h12 (append_if_missing_grows sch _ _ _ (by decide))
              · exact grows_trans sch _ _ _ (grows_trans sch _ _ _ h12
                  (grows_trans sch _ _ _ (append_if_missing_grows sch _ _ _ (by decide))
                    (append_if_missing_grows sch _ _ _ (by decide))))
                  (ihf _ _ _ _ _ _ hdecl₁ h)
              · simp only [Option.some.injEq, Except.ok.injEq] at h
                rw [← h]
                exact h12
              · exact grows_trans sch _ _ _ h12 (ihf _ _ _ _ _ _ hdecl₁ h)

theorem parse_function_loop_grows : ∀ (fuel : Nat) (sch : Schema) (remaining : List Str)
    (mapping : List (Str × Str)) (txt : TextView) (out : Str) (r : TextView × Str),
    (∀ a ∈ remaining, sch.declares a) →
    parse_function_loop fuel sch remaining mapping txt out = some (.ok r) →
    ∃ s, r.2 = out ++ s ∧ sch.completion s := by
  intro fuel
  induction fuel with
  | zero =>
    intro sch remaining mapping txt out r _ h
    simp [parse_function_loop] at h
  | succ fuel ih =>
    intro sch remaining mapping txt out r hdecl h
    simp only [parse_function_loop] at h
    split_ifs at h with hrem
    · simp only [Option.some.injEq, Except.ok.injEq] at h
      rw [← h]
      exact grows_refl sch out
    · have hga := get_arg_grows sch txt remaining out hdecl
      rcases hg : get_arg txt remaining out with ⟨_ | chosen, remaining₁, txt₁, out₁⟩
      · simp [hg] at h
      · rw [hg] at hga
        obtain ⟨hga, hdecl₁⟩ := hga
        simp only [hg] at h
        have h1 := append_if_missing_grows sch txt₁ '=' out₁ (by decide)
        cases hp : fill_primitive fuel sch (map_at chosen mapping)
            (append_if_missing txt₁ '=' out₁).2.1 (append_if_missing txt₁ '=' out₁).2.2 with
        | none => simp [hp] at h
        | some rp =>
          cases rp with
          | error e => simp [hp] at h
          | ok rp =>
            obtain ⟨stt, txt₂, out₂⟩ := rp
            have h2 := (fill_grows fuel).1 _ _ _ _ _ hp
            have h12 : ∃ s, out₂ = out ++ s ∧ sch.completion s :=
              grows_trans sch _ _ _ hga (grows_trans sch _ _ _ h1 h2)
            simp only [hp] at h
            split_ifs at h
            · simp only [Option.some.injEq, Except.ok.injEq] at h
              rw [← h]
              exact grows_trans sch _ _ _ h12 (append_if_missing_grows sch _ _ _ (by decide))
            · exact grows_trans sch _ _ _ (grows_trans sch _ _ _ h12
                (grows_trans sch _ _ _ (append_if_missing_grows sch _ _ _ (by decide))
                  (append_if_missing_grows sch _ _ _ (by decide))))
                (ih _ _ _ _ _ _ hdecl₁ h)
            · simp only [Option.some.injEq, Except.ok.injEq] at h
              rw [← h]
              exact h12
            · exact grows_trans sch _ _ _ h12 (ih _ _ _ _ _ _ hdecl₁ h)

theorem parse_function_grows (fuel : Nat) (sch : Schema) (out fnName : Str) (txt : TextView)
    (r : TextView × Str) (h : parse_function fuel sch out fnName txt = some (.ok r)) :
    ∃ s, r.2 = out ++ s ∧ sch.completion s := by
  simp only [parse_function] at h
  have h0 := append_if_missing_grows sch txt '(' out (by decide)
  cases hfn : sch.find_function fnName with
  | none => simp [hfn] at h
  | some fn =>
    simp only [hfn] at h
    split_ifs at h
    · simp only [Option.some.injEq, Except.ok.injEq] at h
      rw [← h]
      exact grows_trans sch _ _ _ h0 (append_if_missing_grows sch _ _ _ (by decide))
    · exact grows_trans sch _ _ _ h0
        (parse_function_loop_grows _ _ _ _ _ _ _ (declares_arg sch fnName fn hfn) h)

theorem completion_chars (sch : Schema) (s : Str) (h : sch.completion s) :
    ∀ c ∈ s, c ∈ structural ∨ ∃ name, sch.declares name ∧ c ∈ name := by
  obtain ⟨pieces, rfl, hp⟩ := h
  intro c hc
  obtain ⟨p, hpm, hcp⟩ := List.mem_flatten.mp hc
  rcases hp p hpm with ⟨d, hd, rfl⟩ | ⟨name, token, hn, -, rfl⟩
  · rw [List.mem_singleton] at hcp
    exact Or.inl (hcp ▸ hd)
  · exact Or.inr ⟨name, hn, List.mem_of_mem_drop hcp⟩

/-- C32: every text that `autocomplete` returns is the input followed by a suffix made of
pieces, each of them one of the structural characters `(`, `)`, `{`, `}`, `=`, `,`,
space, double quote, or the missing tail of a declared function, argument, field
or struct name; so every character of the suffix is a structural character or a
character of a declared name, and none of the structural characters is a digit or
a sign. -/
theorem autocomplete_never_invents :
    (∀ (fuel : Nat) (input : Str) (sch : Schema) (out : Str),
      autocomplete fuel input sch = some (.ok out) →
      ∃ suffix, out = input ++ suffix ∧ sch.completion suffix
        ∧ ∀ c ∈ suffix, c ∈ structural ∨ ∃ name, sch.declares name ∧ c ∈ name)
    ∧ (∀ c ∈ structural, isdigit c = false ∧ c ≠ '+' ∧ c ≠ '-') := by
  refine ⟨?_, by decide⟩
  intro fuel input sch out h
  rw [autocomplete] at h
  have hgf := get_func_grows sch input (sch.functions.map Prod.fst) [] (fun f hf => Or.inl hf)
  rcases hg : get_func input (sch.functions.map Prod.fst) [] with ⟨_ | fnName, txt, suffix⟩
  · simp only [hg, Option.some.injEq, Except.ok.injEq] at h
    exact ⟨[], by simp [h], completion_nil sch, fun c hc => absurd hc (List.not_mem_nil _)⟩
  · rw [hg] at hgf
    simp only [hg] at h
    cases hp : parse_function fuel sch suffix fnName txt with
    | none => simp [hp] at h
    | some rp =>
      cases rp with
      | error e => simp [hp] at h
      | ok rp =>
        simp only [hp, Option.some.injEq, Except.ok.injEq] at h
        obtain ⟨s, hs, hc⟩ := grows_trans sch _ _ _ hgf (parse_function_grows _ _ _ _ _ _ hp)
        rw [List.nil_append] at hs
        exact ⟨rp.2, h.symm, hs ▸ hc, completion_chars sch _ (hs ▸ hc)⟩

theorem autocomplete_never_invents_witness :
    autocomplete 6 "sum(p=\x7bx=1,".toList point_schema
      = some (.ok ("sum(p=\x7bx=1,".toList ++ " y=".toList))
    ∧ ∃ suffix, "sum(p=\x7bx=1,".toList ++ " y=".toList = "sum(p=\x7bx=1,".toList ++ suffix
      ∧ point_schema.completion suffix
      ∧ ∀ c ∈ suffix, c ∈ structural ∨ ∃ name, point_schema.declares name ∧ c ∈ name :=
  ⟨by decide, autocomplete_never_invents.1 6 _ point_schema _ (by decide)⟩

/-! ### Schemas without a cycle -/

theorem depth_max_some (d : Ty → Option Nat) : ∀ (fs : List Field) (m : Nat),
    depth_max d fs = some m → ∀ f ∈ fs, ∃ a, d f.type = some a ∧ a ≤ m
  | [], _, _, f, hf => absurd hf (List.not_mem_nil _)
  | g :: rest, m, h, f, hf => by
    simp only [depth_max] at h
    cases hg : d g.type with
    | none => simp [hg] at h
    | some a =>
      cases hr : depth_max d rest with
      | none => simp [hg, hr] at h
      | some b =>
        simp only [hg, hr, Option.some.injEq] at h
        rcases List.mem_cons.mp hf with rfl | hf
        · exact ⟨a, hg, by omega⟩
        · obtain ⟨c, hc, hcb⟩ := depth_max_some d rest b hr f hf
          exact ⟨c, hc, by omega⟩

theorem depth_max_congr (d d' : Ty → Option Nat) : ∀ (fs : List Field),
    (∀ f ∈ fs, ∀ a, d f.type = some a → d' f.type = some a) →
    ∀ m, depth_max d fs = some m → depth_max d' fs = some m
  | [], _, _, h => h
  | g :: rest, hd, m, h => by
    simp only [depth_max] at h ⊢
    cases hg : d g.type with
    | none => simp [hg] at h
    | some a =>
      cases hr : depth_max d rest with
      | none => simp [hg, hr] at h
      | some b =>
        rw [hd g (List.mem_cons_self _ _) a hg,
          depth_max_congr d d' rest (fun f hf => hd f (List.mem_cons_of_mem _ hf)) b hr]
        simpa [hg, hr] using h

theorem nesting_depth_succ (sch : Schema) : ∀ (n : Nat) (t : Ty) (d : Nat),
    nesting_depth sch n t = some d → nesting_depth sch (n + 1) t = some d
  | 0, _, _, h => by simp [nesting_depth] at h
  | n + 1, .builtin_of _, _, h => h
  | n + 1, .user_of user, d, h => by
    rw [nesting_depth] at h ⊢
    cases hst : sch.find_struct user with
    | none => simpa [hst] using h
    | some st =>
      simp only [hst, Option.map_eq_some'] at h ⊢
      obtain ⟨m, hm, rfl⟩ := h
      exact ⟨m, depth_max_congr _ _ st.fields
        (fun f _ a ha => nesting_depth_succ sch n f.type a ha) m hm, rfl⟩

theorem nesting_depth_mono (sch : Schema) (n k : Nat) (t : Ty) (d : Nat)
    (h : nesting_depth sch n t = some d) : nesting_depth sch (n + k) t = some d := by
  induction k with
  | zero => exact h
  | succ k ih => exact nesting_depth_succ sch _ t d ih

/-- If every field type has a depth, the fields have a largest depth under one bound. -/
theorem depth_max_exists (sch : Schema) : ∀ (fs : List Field),
    (∀ f ∈ fs, ∃ n d, nesting_depth sch n f.type = some d) →
    ∃ n m, depth_max (fun t => nesting_depth sch n t) fs = some m
  | [], _ => ⟨0, 0, rfl⟩
  | g :: rest, h => by
    obtain ⟨n₁, d₁, h₁⟩ := h g (List.mem_cons_self _ _)
    obtain ⟨n₂, m₂, h₂⟩ := depth_max_exists sch rest (fun f hf => h f (List.mem_cons_of_mem _ hf))
    refine ⟨n₁ + n₂, max d₁ m₂, ?_⟩
    have e₁ : nesting_depth sch (n₁ + n₂) g.type = some d₁ := nesting_depth_mono sch n₁ n₂ _ _ h₁
    have e₂ : depth_max (fun t => nesting_depth sch (n₁ + n₂) t) rest = some m₂ :=
      depth_max_congr _ _ rest (fun f _ a ha => by
        have := nesting_depth_mono sch n₂ n₁ _ _ ha
        rwa [Nat.add_comm] at this) m₂ h₂
    simp only [depth_max, e₁, e₂]

/-- In a schema without a cycle every type has a nesting depth. -/
theorem acyclic_depth (sch : Schema) (h : sch.acyclic) (t : Ty) :
    ∃ n d, nesting_depth sch n t = some d := by
  have key : ∀ u ∈ {x | x ∈ sch.structs.map Prod.fst},
      ∃ n d, nesting_depth sch n (.user_of u) = some d := by
    intro u hu
    haveI : IsStrictOrder Str (fun b a => Relation.TransGen sch.field_of a b) :=
      { irrefl := fun a ha => h a ha
        trans := fun _ _ _ hab hbc => Relation.TransGen.trans hbc hab }
    have hwf : {x | x ∈ sch.structs.map Prod.fst}.WellFoundedOn
        (fun b a => Relation.TransGen sch.field_of a b) :=
      Set.Finite.wellFoundedOn (List.finite_toSet (sch.structs.map Prod.fst))
    refine @Set.WellFoundedOn.induction Str _ _ u hwf hu
      (fun u => ∃ n d, nesting_depth sch n (.user_of u) = some d) ?_
    intro y hy ih
    have hsome : (sch.find_struct y).isSome = true := (map_find_isSome_iff y sch.structs).mpr hy
    obtain ⟨st, hst⟩ := Option.isSome_iff_exists.mp hsome
    have hf : ∀ f ∈ st.fields, ∃ n d, nesting_depth sch n f.type = some d := by
      intro f hf
      cases hty : f.type with
      | builtin_of b => exact ⟨1, 0, rfl⟩
      | user_of z =>
        cases hz : sch.find_struct z with
        | none => exact ⟨1, 0, by simp [nesting_depth, hz]⟩
        | some sz =>
          have hzk : z ∈ sch.structs.map Prod.fst :=
            (map_find_isSome_iff z sch.structs).mp (by
              show (sch.find_struct z).isSome = true
              rw [hz]
              rfl)
          exact ih z hzk (Relation.TransGen.single ⟨st, f, hst, hf, hty⟩)
    obtain ⟨n, m, hm⟩ := depth_max_exists sch st.fields hf
    exact ⟨n + 1, m + 1, by simp [nesting_depth, hst, hm]⟩
  cases t with
  | builtin_of b => exact ⟨1, 0, rfl⟩
  | user_of u =>
    cases hu : sch.find_struct u with
    | none => exact ⟨1, 0, by simp [nesting_depth, hu]⟩
    | some st =>
      exact key u ((map_find_isSome_iff u sch.structs).mp (by
        show (sch.find_struct u).isSome = true
        rw [hu]
        rfl))

/-- A schema in which every field has a builtin type has no cycle. -/
theorem acyclic_of_builtin_fields (sch : Schema)
    (h : ∀ p ∈ sch.structs, ∀ f ∈ p.2.fields, f.type.is_builtin = true) : sch.acyclic := by
  have hno : ∀ a b, ¬ sch.field_of a b := by
    rintro a b ⟨st, f, hst, hf, hty⟩
    have := h _ (map_find_mem _ _ _ hst) f hf
    rw [hty] at this
    cases this
  intro a ha
  cases ha with
  | single hab => exact hno _ _ hab
  | tail _ hcb => exact hno _ _ hcb

theorem field_of_depth (sch : Schema) (n : Nat) (a b : Str) (da : Nat)
    (ha : nesting_depth sch n (.user_of a) = some da) (hab : sch.field_of a b) :
    ∃ db, nesting_depth sch n (.user_of b) = some db ∧ db < da := by
  obtain ⟨st, f, hst, hf, hty⟩ := hab
  cases n with
  | zero => simp [nesting_depth] at ha
  | succ n =>
    rw [nesting_depth] at ha
    simp only [hst, Option.map_eq_some'] at ha
    obtain ⟨m, hm, rfl⟩ := ha
    obtain ⟨db, hdb, hle⟩ := depth_max_some _ st.fields m hm f hf
    rw [hty] at hdb
    exact ⟨db, nesting_depth_succ sch n _ db hdb, by omega⟩

/-- A schema in which every struct has a nesting depth has no cycle. -/
theorem acyclic_of_depth (sch : Schema) (n : Nat)
    (h : ∀ p ∈ sch.structs, (nesting_depth sch n (.user_of p.1)).isSome = true) :
    sch.acyclic := by
  have hkey : ∀ a b, sch.field_of a b → ∃ da, nesting_depth sch n (.user_of a) = some da := by
    rintro a b ⟨st, f, hst, -, -⟩
    exact Option.isSome_iff_exists.mp (h _ (map_find_mem _ _ _ hst))
  have hlt : ∀ a b, Relation.TransGen sch.field_of a b →
      ∀ da, nesting_depth sch n (.user_of a) = some da →
      ∃ db, nesting_depth sch n (.user_of b) = some db ∧ db < da := by
    intro a b hab
    induction hab with
    | single hab => exact fun da ha => field_of_depth sch n _ _ da ha hab
    | tail _ hcb ih =>
      intro da ha
      obtain ⟨dc, hc, hlt⟩ := ih da ha
      obtain ⟨db, hb, hlt'⟩ := field_of_depth sch n _ _ dc hc hcb
      exact ⟨db, hb, by omega⟩
  intro a ha
  have hda : ∃ da, nesting_depth sch n (.user_of a) = some da := by
    cases ha with
    | single hab => exact hkey _ _ hab
    | tail hac hcb =>
      obtain ⟨c, hc⟩ := Relation.TransGen.head'_iff.mp (Relation.TransGen.tail hac hcb)
      exact hkey _ _ hc.1
  obtain ⟨da, hda⟩ := hda
  obtain ⟨db, hdb, hlt'⟩ := hlt a a ha da hda
  rw [hda] at hdb
  simp only [Option.some.injEq] at hdb
  omega

/-! ### The recursion of `read_value` ends -/

theorem read_fields_some (rv : Cursor → Ty → Str → Option (Except Error (Cursor × Str))) :
    ∀ (fs : List Field), (∀ f ∈ fs, ∀ c o, ∃ r, rv c f.type o = some r) →
      ∀ (first : Bool) (c : Cursor) (out : Str), ∃ r, read_fields rv fs first c out = some r
  | [], _, _, c, out => ⟨_, rfl⟩
  | f :: rest, h, first, c, out => by
    obtain ⟨r, hr⟩ := h f (List.mem_cons_self _ _) c
      ((if first = true then out else out ++ ", ".toList) ++ f.name ++ "=".toList)
    simp only [read_fields, hr]
    cases r with
    | error e => exact ⟨_, rfl⟩
    | ok p =>
      obtain ⟨c', out'⟩ := p
      exact read_fields_some rv rest (fun g hg => h g (List.mem_cons_of_mem _ hg)) false c' out'

theorem read_fields_congr (rv rv' : Cursor → Ty → Str → Option (Except Error (Cursor × Str)))
    (h : ∀ c t o r, rv c t o = some r → rv' c t o = some r) :
    ∀ (fs : List Field) (first : Bool) (c : Cursor) (out : Str)
      (r : Except Error (Cursor × Str)),
      read_fields rv fs first c out = some r → read_fields rv' fs first c out = some r
  | [], _, _, _, _, hr => hr
  | f :: rest, first, c, out, r, hr => by
    simp only [read_fields] at hr ⊢
    cases h1 : rv c f.type
        ((if first = true then out else out ++ ", ".toList) ++ f.name ++ "=".toList) with
    | none =>
      rw [h1] at hr
      exact Option.noConfusion hr
    | some x =>
      rw [h _ _ _ _ h1]
      rw [h1] at hr
      cases x with
      | error e => exact hr
      | ok p =>
        obtain ⟨c', out'⟩ := p
        exact read_fields_congr rv rv' h rest false c' out' r hr

/-- A result of `read_value` under a bound is its result under the next bound. -/
theorem read_value_succ (sch : Schema) : ∀ (fuel : Nat) (c : Cursor) (t : Ty) (out : Str)
    (r : Except Error (Cursor × Str)),
    read_value fuel c sch t out = some r → read_value (fuel + 1) c sch t out = some r
  | 0, _, _, _, _, h => by simp [read_value] at h
  | fuel + 1, c, .builtin_of b, out, r, h => h
  | fuel + 1, c, .user_of user, out, r, h => by
    rw [read_value] at h ⊢
    cases hst : sch.find_struct user with
    | none => simpa [hst] using h
    | some st =>
      simp only [hst, read_struct] at h ⊢
      cases hf : read_fields (fun c' t' out' => read_value fuel c' sch t' out') st.fields true c
          (out ++ st.name ++ "\x7b".toList) with
      | none =>
        rw [hf] at h
        exact Option.noConfusion h
      | some x =>
        rw [read_fields_congr _ (fun c' t' out' => read_value (fuel + 1) c' sch t' out')
          (fun c' t' o' r' hr' => read_value_succ sch fuel c' t' o' r' hr') _ _ _ _ _ hf]
        rw [hf] at h
        exact h

theorem read_value_mono (sch : Schema) (fuel k : Nat) (c : Cursor) (t : Ty) (out : Str)
    (r : Except Error (Cursor × Str)) (h : read_value fuel c sch t out = some r) :
    read_value (fuel + k) c sch t out = some r := by
  induction k with
  | zero => exact h
  | succ k ih => exact read_value_succ sch _ c t out r ih

/-- The recursion of `read_value` is as deep as the structs of the type are nested. -/
theorem read_value_depth (sch : Schema) : ∀ (n : Nat) (t : Ty) (d : Nat),
    nesting_depth sch n t = some d →
    ∀ (c : Cursor) (out : Str), ∃ r, read_value (d + 1) c sch t out = some r
  | 0, _, _, h, _, _ => by simp [nesting_depth] at h
  | n + 1, .builtin_of b, d, _, c, out => ⟨_, rfl⟩
  | n + 1, .user_of user, d, h, c, out => by
    rw [nesting_depth] at h
    rw [read_value]
    cases hst : sch.find_struct user with
    | none => exact ⟨_, rfl⟩
    | some st =>
      simp only [hst, Option.map_eq_some'] at h
      obtain ⟨m, hm, rfl⟩ := h
      have hf : ∀ f ∈ st.fields, ∀ c o, ∃ r, read_value (m + 1) c sch f.type o = some r := by
        intro f hf c o
        obtain ⟨a, ha, ham⟩ := depth_max_some _ st.fields m hm f hf
        obtain ⟨r, hr⟩ := read_value_depth sch n f.type a ha c o
        obtain ⟨k, rfl⟩ := Nat.exists_eq_add_of_le ham
        refine ⟨r, ?_⟩
        have := read_value_mono sch (a + 1) k c f.type o r hr
        rwa [show a + 1 + k = a + k + 1 by omega] at this
      obtain ⟨r, hr⟩ := read_fields_some (fun c' t' out' => read_value (m + 1) c' sch t' out')
        st.fields hf true c (out ++ st.name ++ "\x7b".toList)
      simp only [read_struct, hr]
      cases r with
      | error e => exact ⟨_, rfl⟩
      | ok p => exact ⟨_, rfl⟩

theorem deserialize_depth (sch : Schema) (fn : Function) (bytes : List Byte) (n d fuel : Nat)
    (hd : nesting_depth sch n fn.return_type = some d) (hfuel : d + 1 ≤ fuel) :
    ∃ r, deserialize_response_to_string fuel sch fn bytes = some r
      ∧ ∀ e, r = .error e → e = .DeserError := by
  obtain ⟨k, rfl⟩ := Nat.exists_eq_add_of_le hfuel
  obtain ⟨r, hr⟩ := read_value_depth sch n fn.return_type d hd ⟨bytes, bytes.length, 0⟩ []
  have hr' := read_value_mono sch (d + 1) k _ _ _ r hr
  have herr := (read_value_widen [] sch (d + 1 + k) ⟨bytes, bytes.length, 0⟩ fn.return_type []
    (Nat.le_refl _)).2.2
  simp only [deserialize_response_to_string, hr']
  cases r with
  | error e =>
    refine ⟨_, rfl, fun e' he => ?_⟩
    simp only [Except.error.injEq] at he
    rw [← he]
    exact herr e hr'
  | ok p =>
    obtain ⟨cur, out⟩ := p
    simp only
    split_ifs
    · exact ⟨_, rfl, fun e' he => by
        simp only [Except.error.injEq] at he
        exact he.symm⟩
    · exact ⟨_, rfl, fun e' he => by simp only [reduceCtorEq] at he⟩

/-- C36: for every schema in which no struct is reachable from itself through field
types, every function and every byte buffer, `deserialize_response_to_string` ends, with a
text or with a `DeserError`; the return type then has a struct nesting depth, and a
recursion of `read_value` one call deeper than that depth is enough. -/
theorem deserialize_terminates :
    (∀ (sch : Schema) (fn : Function) (bytes : List Byte), sch.acyclic →
      ∃ fuel r, deserialize_response_to_string fuel sch fn bytes = some r
        ∧ ∀ e, r = .error e → e = .DeserError)
    ∧ (∀ (sch : Schema) (t : Ty), sch.acyclic → ∃ n d, nesting_depth sch n t = some d)
    ∧ (∀ (sch : Schema) (fn : Function) (bytes : List Byte) (n d fuel : Nat),
        nesting_depth sch n fn.return_type = some d → d + 1 ≤ fuel →
        ∃ r, deserialize_response_to_string fuel sch fn bytes = some r
          ∧ ∀ e, r = .error e → e = .DeserError) := by
  refine ⟨?_, fun sch t h => acyclic_depth sch h t, deserialize_depth⟩
  intro sch fn bytes h
  obtain ⟨n, d, hd⟩ := acyclic_depth sch h fn.return_type
  exact ⟨d + 1, deserialize_depth sch fn bytes n d (d + 1) hd (Nat.le_refl _)⟩

theorem deserialize_terminates_witness :
    (doc_schema nested_doc).acyclic
    ∧ nesting_depth (doc_schema nested_doc) 3 (.user_of "Out".toList) = some 2
    ∧ (∃ fuel r, deserialize_response_to_string fuel (doc_schema nested_doc)
          ⟨"g".toList, .user_of "Out".toList, []⟩ [0, 0, 0, 1, 97, 0, 0, 0, 5] = some r
        ∧ ∀ e, r = .error e → e = .DeserError)
    ∧ (∃ r, deserialize_response_to_string 3 (doc_schema nested_doc)
          ⟨"g".toList, .user_of "Out".toList, []⟩ [0, 0, 0, 1, 97, 0, 0, 0, 5] = some r
        ∧ ∀ e, r = .error e → e = .DeserError)
    ∧ deserialize_response_to_string 3 (doc_schema nested_doc)
          ⟨"g".toList, .user_of "Out".toList, []⟩ [0, 0, 0, 1, 97, 0, 0, 0, 5]
        = some (.ok "Out\x7ba=In\x7bs=\"a\"\x7d, n=5\x7d".toList) :=
  ⟨acyclic_of_depth _ 3 (by decide), by decide,
    deserialize_terminates.1 _ _ _ (acyclic_of_depth _ 3 (by decide)),
    deserialize_terminates.2.2 _ ⟨"g".toList, .user_of "Out".toList, []⟩ _ 3 2 3
      (by decide) (by decide),
    by decide⟩

/-! ### The recursion of the completion engine ends on a schema without a cycle -/

theorem get_arg_some (txt : TextView) (args : List Str) (out : Str) (chosen : Str)
    (remaining₁ : List Str) (txt₁ : TextView) (out₁ : Str)
    (h : get_arg txt args out = (some chosen, remaining₁, txt₁, out₁)) :
    chosen ∈ args ∧ remaining₁ = args.erase chosen := by
  unfold get_arg at h
  simp only at h
  split at h
  · rename_i a hfind
    simp only [Prod.mk.injEq, Option.some.injEq] at h
    obtain ⟨rfl, rfl, -, -⟩ := h
    exact ⟨List.mem_of_find?_eq_some hfind, rfl⟩
  · simp only [Prod.mk.injEq, reduceCtorEq, false_and] at h

theorem map_find_assign (k v : Str) : ∀ (m : List (Str × Str)) (k' : Str),
    map_find k' (map_assign k v m) = if k = k' then some v else map_find k' m
  | [], k' => by simp only [map_assign, map_find]
  | (k₀, v₀) :: rest, k' => by
    simp only [map_assign]
    by_cases h0 : k₀ = k
    · simp only [if_pos h0, map_find]
      by_cases h1 : k = k'
      · simp only [if_pos h1]
      · have : ¬ k₀ = k' := fun e => h1 (h0 ▸ e)
        simp only [if_neg h1, if_neg this]
    · simp only [if_neg h0, map_find]
      by_cases h2 : k₀ = k'
      · have : ¬ k = k' := fun e => h0 (h2.trans e.symm)
        simp only [if_pos h2, if_neg this]
      · simp only [if_neg h2]
        exact map_find_assign k v rest k'

/-- The type text that `mapping` holds under the name of a declared member is the text
of the type of a declared member. -/
theorem map_at_mapping_of (ms : List Field) (name : Str) (h : name ∈ ms.map Field.name) :
    ∃ f ∈ ms, map_at name (mapping_of ms) = f.type.str := by
  have key : ∀ (l : List Field) (m : List (Str × Str)),
      (∀ f ∈ l, f ∈ ms) →
      (name ∈ l.map Field.name ∨ ∃ f ∈ ms, map_find name m = some f.type.str) →
      ∃ f ∈ ms, map_find name (l.foldl (fun m f => map_assign f.name f.type.str m) m)
        = some f.type.str := by
    intro l
    induction l with
    | nil =>
      intro m _ h
      rcases h with h | h
      · exact absurd h (List.not_mem_nil _)
      · exact h
    | cons g l ih =>
      intro m hsub h
      refine ih _ (fun f hf => hsub f (List.mem_cons_of_mem _ hf)) ?_
      by_cases hg : g.name = name
      · exact Or.inr ⟨g, hsub g (List.mem_cons_self _ _), by rw [map_find_assign, if_pos hg]⟩
      · rcases h with h | ⟨f, hf, hm⟩
        · simp only [List.map_cons, List.mem_cons] at h
          rcases h with h | h
          · exact absurd h.symm hg
          · exact Or.inl h
        · exact Or.inr ⟨f, hf, by rw [map_find_assign, if_neg hg, hm]⟩
  obtain ⟨f, hf, hm⟩ := key ms [] (fun _ hf => hf) (Or.inl h)
  refine ⟨f, hf, ?_⟩
  unfold map_at mapping_of
  rw [hm]
  rfl

theorem fill_primitive_le (fuel fuel' : Nat) (hle : fuel ≤ fuel') (sch : Schema) (type : Str)
    (txt : TextView) (out : Str) (h : ∃ r, fill_primitive fuel sch type txt out = some r) :
    ∃ r, fill_primitive fuel' sch type txt out = some r := by
  obtain ⟨r, hr⟩ := h
  obtain ⟨k, rfl⟩ := Nat.exists_eq_add_of_le hle
  exact ⟨r, fill_primitive_mono fuel k sch type txt out r hr⟩

/-- The loop of `fill_structure` ends when the values of the fields do. -/
theorem fill_fields_some (sch : Schema) (ms : List Field) (N : Nat)
    (hN : ∀ f ∈ ms, ∀ txt out, ∃ r, fill_primitive N sch f.type.str txt out = some r) :
    ∀ (k : Nat) (remaining : List Str), remaining.length ≤ k →
      (∀ a ∈ remaining, a ∈ ms.map Field.name) →
      ∀ (txt : TextView) (out : Str),
        ∃ r, fill_fields (N + k + 1) sch remaining (mapping_of ms) txt out = some r := by
  intro k
  induction k with
  | zero =>
    intro remaining hlen _ txt out
    have hnil : remaining = [] := List.length_eq_zero.mp (Nat.le_zero.mp hlen)
    simp only [fill_fields, hnil, if_true]
    exact ⟨_, rfl⟩
  | succ k ih =>
    intro remaining hlen hsub txt out
    rw [fill_fields]
    by_cases hrem : remaining = []
    · simp only [if_pos hrem]
      exact ⟨_, rfl⟩
    · simp only [if_neg hrem]
      rcases hg : get_arg txt remaining out with ⟨_ | chosen, remaining₁, txt₁, out₁⟩
      · exact ⟨_, rfl⟩
      · obtain ⟨hmem, herase⟩ := get_arg_some _ _ _ _ _ _ _ hg
        obtain ⟨f, hf, hty⟩ := map_at_mapping_of ms chosen (hsub chosen hmem)
        obtain ⟨rp, hp⟩ := fill_primitive_le N (N + (k + 1)) (by omega) sch f.type.str
          (append_if_missing txt₁ '=' out₁).2.1 (append_if_missing txt₁ '=' out₁).2.2
          (hN f hf _ _)
        have hlen₁ : remaining₁.length ≤ k := by
          rw [herase, List.length_erase_of_mem hmem]
          omega
        have hsub₁ : ∀ a ∈ remaining₁, a ∈ ms.map Field.name :=
          fun a ha => hsub a (List.mem_of_mem_erase (herase ▸ ha))
        simp only [hty, hp]
        cases rp with
        | error e => exact ⟨_, rfl⟩
        | ok rp =>
          obtain ⟨stt, txt₂, out₂⟩ := rp
          simp only
          split_ifs
          · exact ⟨_, rfl⟩
          · exact ih remaining₁ hlen₁ hsub₁ _ _
          · exact ⟨_, rfl⟩
          · exact ih remaining₁ hlen₁ hsub₁ _ _

/-- The loop of `parse_function` ends when the values of the arguments do. -/
theorem parse_function_loop_some (sch : Schema) (ms : List Field) (N : Nat)
    (hN : ∀ f ∈ ms, ∀ txt out, ∃ r, fill_primitive N sch f.type.str txt out = some r) :
    ∀ (k : Nat) (remaining : List Str), remaining.length ≤ k →
      (∀ a ∈ remaining, a ∈ ms.map Field.name) →
      ∀ (txt : TextView) (out : Str),
        ∃ r, parse_function_loop (N + k + 1) sch remaining (mapping_of ms) txt out = some r := by
  intro k
  induction k with
  | zero =>
    intro remaining hlen _ txt out
    have hnil : remaining = [] := List.length_eq_zero.mp (Nat.le_zero.mp hlen)
    simp only [parse_function_loop, hnil, if_true]
    exact ⟨_, rfl⟩
  | succ k ih =>
    intro remaining hlen hsub txt out
    rw [parse_function_loop]
    by_cases hrem : remaining = []
    · simp only [if_pos hrem]
      exact ⟨_, rfl⟩
    · simp only [if_neg hrem]
      rcases hg : get_arg txt remaining out with ⟨_ | chosen, remaining₁, txt₁, out₁⟩
      · exact ⟨_, rfl⟩
      · obtain ⟨hmem, herase⟩ := get_arg_some _ _ _ _ _ _ _ hg
        obtain ⟨f, hf, hty⟩ := map_at_mapping_of ms chosen (hsub chosen hmem)
        obtain ⟨rp, hp⟩ := fill_primitive_le N (N + (k + 1)) (by omega) sch f.type.str
          (append_if_missing txt₁ '=' out₁).2.1 (append_if_missing txt₁ '=' out₁).2.2
          (hN f hf _ _)
        have hlen₁ : remaining₁.length ≤ k := by
          rw [herase, List.length_erase_of_mem hmem]
          omega
        have hsub₁ : ∀ a ∈ remaining₁, a ∈ ms.map Field.name :=
          fun a ha => hsub a (List.mem_of_mem_erase (herase ▸ ha))
        simp only [hty, hp]
        cases rp with
        | error e => exact ⟨_, rfl⟩
        | ok rp =>
          obtain ⟨stt, txt₂, out₂⟩ := rp
          simp only
          split_ifs
          · exact ⟨_, rfl⟩
          · exact ih remaining₁ hlen₁ hsub₁ _ _
          · exact ⟨_, rfl⟩
          · exact ih remaining₁ hlen₁ hsub₁ _ _

/-- One bound is enough for the values of all the members when each has a bound. -/
theorem fill_primitive_bound (sch : Schema) : ∀ (ms : List Field),
    (∀ f ∈ ms, ∃ N, ∀ txt out, ∃ r, fill_primitive N sch f.type.str txt out = some r) →
    ∃ N, ∀ f ∈ ms, ∀ txt out, ∃ r, fill_primitive N sch f.type.str txt out = some r
  | [], _ => ⟨0, fun _ hf => absurd hf (List.not_mem_nil _)⟩
  | g :: rest, h => by
    obtain ⟨N₁, h₁⟩ := h g (List.mem_cons_self _ _)
    obtain ⟨N₂, h₂⟩ := fill_primitive_bound sch rest
      (fun f hf => h f (List.mem_cons_of_mem _ hf))
    refine ⟨N₁ + N₂, fun f hf txt out => ?_⟩
    rcases List.mem_cons.mp hf with rfl | hf
    · exact fill_primitive_le N₁ _ (by omega) sch _ txt out (h₁ txt out)
    · exact fill_primitive_le N₂ _ (by omega) sch _ txt out (h₂ f hf txt out)

/-- The value of a type that has a nesting depth is completed within a bound. -/
theorem fill_primitive_depth (sch : Schema) : ∀ (n : Nat) (t : Ty) (d : Nat),
    nesting_depth sch n t = some d →
    ∃ N, ∀ (txt : TextView) (out : Str), ∃ r, fill_primitive N sch t.str txt out = some r
  | 0, _, _, h => by simp [nesting_depth] at h
  | n + 1, .builtin_of b, _, _ => by
    refine ⟨1, fun txt out => ?_⟩
    cases b <;> exact ⟨_, rfl⟩
  | n + 1, .user_of user, d, h => by
    rw [nesting_depth] at h
    by_cases hs : user = "string".toList
    · refine ⟨1, fun txt out => ?_⟩
      simp only [Ty.str, fill_primitive, if_pos hs]
      exact ⟨_, rfl⟩
    by_cases hi : user ∈ ["int32".toList, "uint32".toList, "int64".toList, "uint64".toList]
    · refine ⟨1, fun txt out => ?_⟩
      simp only [Ty.str, fill_primitive, if_neg hs, if_pos hi]
      exact ⟨_, rfl⟩
    cases hst : sch.find_struct user with
    | none =>
      refine ⟨2, fun txt out => ?_⟩
      simp only [Ty.str, fill_primitive, if_neg hs, if_neg hi, fill_structure, hst]
      exact ⟨_, rfl⟩
    | some st =>
      simp only [hst, Option.map_eq_some'] at h
      obtain ⟨m, hm, rfl⟩ := h
      obtain ⟨N, hN⟩ := fill_primitive_bound sch st.fields (fun f hf => by
        obtain ⟨a, ha, -⟩ := depth_max_some _ st.fields m hm f hf
        exact fill_primitive_depth sch n f.type a ha)
      refine ⟨N + (remaining_of st.fields).length + 1 + 1 + 1, fun txt out => ?_⟩
      simp only [Ty.str, fill_primitive, if_neg hs, if_neg hi, fill_structure, hst]
      split_ifs
      · exact ⟨_, rfl⟩
      · exact fill_fields_some sch st.fields N hN _ _ (Nat.le_refl _)
          (fun a ha => remaining_of_mem _ _ ha) _ _

/-- On a schema without a cycle `autocomplete` ends on every input. -/
theorem autocomplete_some (sch : Schema) (h : sch.acyclic) (input : Str) :
    ∃ fuel r, autocomplete fuel input sch = some r := by
  rcases hg : get_func input (sch.functions.map Prod.fst) [] with ⟨_ | fnName, txt, suffix⟩
  · exact ⟨0, .ok input, by simp only [autocomplete, hg]⟩
  · cases hfn : sch.find_function fnName with
    | none =>
      exact ⟨0, .error .null_pointer, by simp only [autocomplete, hg, parse_function, hfn]⟩
    | some fn =>
      obtain ⟨N, hN⟩ := fill_primitive_bound sch fn.args (fun f _ => by
        obtain ⟨n, d, hd⟩ := acyclic_depth sch h f.type
        exact fill_primitive_depth sch n f.type d hd)
      by_cases hargs : fn.args = []
      · refine ⟨0, ?_⟩
        simp only [autocomplete, hg, parse_function, hfn, if_pos hargs]
        exact ⟨_, rfl⟩
      · obtain ⟨r, hr⟩ := parse_function_loop_some sch fn.args N hN _ _ (Nat.le_refl _)
          (fun a ha => remaining_of_mem _ _ ha) (append_if_missing txt '(' suffix).2.1
          (append_if_missing txt '(' suffix).2.2
        refine ⟨N + (remaining_of fn.args).length + 1, ?_⟩
        simp only [autocomplete, hg, parse_function, hfn, if_neg hargs, hr]
        cases r with
        | error e => exact ⟨_, rfl⟩
        | ok p => exact ⟨_, rfl⟩

/-! ### A cycle through two structs at the end of the input -/

theorem cycle_fill_none (n : Nat) :
    (∀ out, fill_primitive n (doc_schema cycle_call_doc) "S".toList [] out = none)
    ∧ (∀ out, fill_primitive n (doc_schema cycle_call_doc) "T".toList [] out = none)
    ∧ (∀ out, fill_structure n (doc_schema cycle_call_doc) out "S".toList [] = none)
    ∧ (∀ out, fill_structure n (doc_schema cycle_call_doc) out "T".toList [] = none)
    ∧ (∀ out, fill_fields n (doc_schema cycle_call_doc) ["t".toList]
        [("t".toList, "T".toList)] [] out = none)
    ∧ (∀ out, fill_fields n (doc_schema cycle_call_doc) ["s".toList]
        [("s".toList, "S".toList)] [] out = none) := by
  induction n with
  | zero => exact ⟨fun _ => rfl, fun _ => rfl, fun _ => rfl, fun _ => rfl, fun _ => rfl,
      fun _ => rfl⟩
  | succ n ih =>
    obtain ⟨hpS, hpT, hsS, hsT, hfS, hfT⟩ := ih
    refine ⟨fun out => ?_, fun out => ?_, fun out => ?_, fun out => ?_, fun out => ?_,
      fun out => ?_⟩
    · rw [fill_primitive, if_neg (by decide), if_neg (by decide)]
      exact hsS out
    · rw [fill_primitive, if_neg (by decide), if_neg (by decide)]
      exact hsT out
    · have hst : (doc_schema cycle_call_doc).find_struct "S".toList
          = some ⟨"S".toList, [⟨"t".toList, .user_of "T".toList⟩]⟩ := by decide
      rw [fill_structure]
      simp only [hst]
      rw [if_neg (by decide)]
      exact hfS _
    · have hst : (doc_schema cycle_call_doc).find_struct "T".toList
          = some ⟨"T".toList, [⟨"s".toList, .user_of "S".toList⟩]⟩ := by decide
      rw [fill_structure]
      simp only [hst]
      rw [if_neg (by decide)]
      exact hfT _
    · rw [fill_fields, if_neg (by decide), get_arg_eof]
      simp only
      have e : map_at "t".toList [("t".toList, "T".toList)] = "T".toList := by decide
      rw [e]
      have := hpT (append_if_missing [] '=' (out ++ "t".toList)).2.2
      exact (by simp only [append_if_missing] at this ⊢; rw [this])
    · rw [fill_fields, if_neg (by decide), get_arg_eof]
      simp only
      have e : map_at "s".toList [("s".toList, "S".toList)] = "S".toList := by decide
      rw [e]
      have := hpS (append_if_missing [] '=' (out ++ "s".toList)).2.2
      exact (by simp only [append_if_missing] at this ⊢; rw [this])

theorem cycle_loop_none (n : Nat) (out : Str) :
    parse_function_loop n (doc_schema cycle_call_doc) ["a".toList]
      [("a".toList, "S".toList)] [] out = none := by
  cases n with
  | zero => rfl
  | succ n =>
    rw [parse_function_loop, if_neg (by decide), get_arg_eof]
    simp only
    have e : map_at "a".toList [("a".toList, "S".toList)] = "S".toList := by decide
    rw [e]
    have := (cycle_fill_none n).1 (append_if_missing [] '=' (out ++ "a".toList)).2.2
    exact (by simp only [append_if_missing] at this ⊢; rw [this])

/-! ### The order of the set `remaining` -/

theorem char_eq_of_toNat {a b : Char} (h : a.toNat = b.toNat) : a = b := by
  rw [← Char.ofNat_toNat a, ← Char.ofNat_toNat b, h]

theorem str_lt_irrefl : ∀ a : Str, str_lt a a = false
  | [] => rfl
  | c :: cs => by simp [str_lt, str_lt_irrefl cs]

theorem str_lt_trans : ∀ a b c : Str, str_lt a b = true → str_lt b c = true → str_lt a c = true
  | [], [], _, h, _ => by simp [str_lt] at h
  | [], _ :: _, [], _, h => by simp [str_lt] at h
  | [], _ :: _, _ :: _, _, _ => rfl
  | _ :: _, [], _, h, _ => by simp [str_lt] at h
  | _ :: _, _ :: _, [], _, h => by simp [str_lt] at h
  | x :: xs, y :: ys, z :: zs, h₁, h₂ => by
    simp only [str_lt, Bool.or_eq_true, Bool.and_eq_true, decide_eq_true_eq] at h₁ h₂ ⊢
    rcases h₁ with h₁ | ⟨rfl, h₁⟩
    · rcases h₂ with h₂ | ⟨rfl, h₂⟩
      · exact Or.inl (by omega)
      · exact Or.inl h₁
    · rcases h₂ with h₂ | ⟨rfl, h₂⟩
      · exact Or.inl h₂
      · exact Or.inr ⟨rfl, str_lt_trans xs ys zs h₁ h₂⟩

theorem str_lt_total : ∀ a b : Str, a ≠ b → str_lt a b = false → str_lt b a = true
  | [], [], h, _ => absurd rfl h
  | [], _ :: _, _, h => by simp [str_lt] at h
  | _ :: _, [], _, _ => rfl
  | x :: xs, y :: ys, hne, h => by
    simp only [str_lt, Bool.or_eq_false_iff, decide_eq_false_iff_not, Bool.and_eq_false_imp,
      decide_eq_true_eq] at h
    simp only [str_lt, Bool.or_eq_true, Bool.and_eq_true, decide_eq_true_eq]
    obtain ⟨h₁, h₂⟩ := h
    by_cases hxy : x = y
    · subst hxy
      refine Or.inr ⟨rfl, str_lt_total xs ys (fun e => hne (by rw [e])) (h₂ rfl)⟩
    · left
      have : x.toNat ≠ y.toNat := fun e => hxy (char_eq_of_toNat e)
      omega

theorem str_lt_asymm (a b : Str) (h : str_lt a b = true) : str_lt b a = false := by
  by_contra hc
  have := str_lt_trans a b a h (by simpa using hc)
  rw [str_lt_irrefl] at this
  cases this

theorem str_lt_of_initial : ∀ token a : Str, token <+: a → token ≠ a → str_lt token a = true
  | [], [], _, h => absurd rfl h
  | [], _ :: _, _, _ => rfl
  | t :: ts, [], h, _ => by simp at h
  | t :: ts, x :: xs, h, hne => by
    rw [List.cons_prefix_cons] at h
    obtain ⟨rfl, h⟩ := h
    simp only [str_lt, Bool.or_eq_true, Bool.and_eq_true, decide_eq_true_eq]
    exact Or.inr ⟨trivial, str_lt_of_initial ts xs h (fun e => hne (by rw [e]))⟩

theorem set_insert_pairwise (x : Str) : ∀ (s : List Str),
    s.Pairwise (fun a b => str_lt a b = true) →
    (set_insert x s).Pairwise (fun a b => str_lt a b = true)
  | [], _ => by simp [set_insert]
  | y :: ys, h => by
    rw [List.pairwise_cons] at h
    simp only [set_insert]
    by_cases hxy : x = y
    · simp only [if_pos hxy]
      exact List.pairwise_cons.mpr h
    · simp only [if_neg hxy]
      by_cases hlt : str_lt x y = true
      · simp only [if_pos hlt]
        refine List.pairwise_cons.mpr ⟨fun a ha => ?_, List.pairwise_cons.mpr h⟩
        rcases List.mem_cons.mp ha with rfl | ha
        · exact hlt
        · exact str_lt_trans _ _ _ hlt (h.1 a ha)
      · simp only [if_neg hlt]
        refine List.pairwise_cons.mpr ⟨fun a ha => ?_, set_insert_pairwise x ys h.2⟩
        rcases set_insert_mem x ys a ha with rfl | ha
        · exact str_lt_total _ _ hxy (by simpa using hlt)
        · exact h.1 a ha

theorem remaining_of_pairwise (ms : List Field) :
    (remaining_of ms).Pairwise (fun a b => str_lt a b = true) := by
  have key : ∀ (l : List Field) (s : List Str), s.Pairwise (fun a b => str_lt a b = true) →
      (l.foldl (fun s f => set_insert f.name s) s).Pairwise (fun a b => str_lt a b = true) := by
    intro l
    induction l with
    | nil => exact fun s h => h
    | cons f l ih => exact fun s h => ih _ (set_insert_pairwise _ _ h)
  exact key ms [] List.Pairwise.nil

theorem set_insert_perm (x : Str) : ∀ (s : List Str), x ∉ s → (set_insert x s).Perm (x :: s)
  | [], _ => by simp [set_insert]
  | y :: ys, h => by
    have hxy : x ≠ y := fun e => h (e ▸ List.mem_cons_self _ _)
    have hys : x ∉ ys := fun hm => h (List.mem_cons_of_mem _ hm)
    simp only [set_insert, if_neg hxy]
    split_ifs
    · exact List.Perm.refl _
    · exact ((set_insert_perm x ys hys).cons y).trans (List.Perm.swap x y ys)

/-- The set `remaining` holds the declared names, once each, when they are different. -/
theorem remaining_of_perm (ms : List Field) (h : (ms.map Field.name).Nodup) :
    (remaining_of ms).Perm (ms.map Field.name) := by
  have key : ∀ (l : List Field) (s : List Str), (l.map Field.name).Nodup →
      (∀ a ∈ l.map Field.name, a ∉ s) →
      (l.foldl (fun s f => set_insert f.name s) s).Perm (s ++ l.map Field.name) := by
    intro l
    induction l with
    | nil => exact fun s _ _ => by simp
    | cons f l ih =>
      intro s hn hd
      simp only [List.map_cons, List.nodup_cons] at hn
      have hf : f.name ∉ s := hd _ (List.mem_cons_self _ _)
      have hp := set_insert_perm f.name s hf
      refine (ih (set_insert f.name s) hn.2 (fun a ha hm => ?_)).trans ?_
      · rcases set_insert_mem _ _ _ hm with rfl | hm
        · exact hn.1 ha
        · exact hd a (List.mem_cons_of_mem _ ha) hm
      · simp only [List.foldl_cons, List.map_cons]
        exact (hp.append_right _).trans (by
          simp only [List.cons_append]
          exact List.perm_middle.symm)
  simpa using key ms [] h (fun _ _ hm => absurd hm (List.not_mem_nil _))

/-- In the sorted set a written name that is in the set is the first element that
starts with it. -/
theorem find_starts_with : ∀ (l : List Str) (token : Str),
    l.Pairwise (fun a b => str_lt a b = true) → token ∈ l →
    l.find? (fun a => starts_with a token) = some token
  | [], _, _, h => absurd h (List.not_mem_nil _)
  | a :: rest, token, hp, hm => by
    rw [List.pairwise_cons] at hp
    by_cases ha : a = token
    · subst ha
      simp [List.find?_cons, starts_with]
    · have hmr : token ∈ rest := by
        rcases List.mem_cons.mp hm with h | h
        · exact absurd h.symm ha
        · exact h
      have hlt := hp.1 token hmr
      have hns : starts_with a token = false := by
        by_contra hs
        have hpre : token <+: a := by simpa [starts_with] using hs
        have := str_lt_of_initial token a hpre (fun e => ha e.symm)
        rw [str_lt_asymm a token hlt] at this
        cases this
      rw [List.find?_cons, hns]
      exact find_starts_with rest token hp.2 hmr

/-! ### The engine on a complete call -/

theorem ident_chars {name : Str} (h : valid_ident name = true) :
    ∀ a ∈ name, a ≠ '=' ∧ a ≠ '(' ∧ a ≠ '\x7b' := by
  obtain ⟨c, cs, rfl, -, -, -, hb, -, -, -, he, hp, hcs⟩ := valid_ident_head h
  intro a ha
  rcases List.mem_cons.mp ha with rfl | ha
  · exact ⟨he, hp, hb⟩
  · have := (List.all_eq_true.mp hcs) a ha
    simp only [Bool.or_eq_true, decide_eq_true_eq] at this
    refine ⟨?_, ?_, ?_⟩ <;>
      · rintro rfl
        rcases this with h | h
        · revert h; decide
        · revert h; decide

theorem skip_spaces_ident {name : Str} (h : valid_ident name = true) (rest : Str) :
    skip_spaces (name ++ rest) = name ++ rest := by
  obtain ⟨c, cs, rfl, -, hsp, -⟩ := valid_ident_head h
  simp only [List.cons_append, skip_spaces, hsp]
  rfl

/-- The function `get_arg` on a written name of the set. -/
theorem get_arg_name (name rest out : Str) (remaining : List Str)
    (hv : valid_ident name = true)
    (hp : remaining.Pairwise (fun a b => str_lt a b = true)) (hm : name ∈ remaining) :
    get_arg (name ++ '=' :: rest) remaining out
      = (some name, remaining.erase name, '=' :: rest, out) := by
  have hc := ident_chars hv
  have htake : (name ++ '=' :: rest).takeWhile (fun c => c != '=') = name := by
    rw [List.takeWhile_append_of_pos (fun a ha => by simpa using (hc a ha).1)]
    simp
  have hdrop : (name ++ '=' :: rest).dropWhile (fun c => c != '=') = '=' :: rest := by
    rw [List.dropWhile_append_of_pos (fun a ha => by simpa using (hc a ha).1)]
    simp
  unfold get_arg
  simp only [skip_spaces_ident hv, htake, hdrop, find_starts_with remaining name hp hm,
    List.drop_length, List.append_nil]

theorem field_named_some (ms : List Field) (name : Str) (f : Field)
    (h : field_named ms name = some f) : f ∈ ms ∧ f.name = name := by
  unfold field_named at h
  exact ⟨List.mem_of_find?_eq_some h, by simpa using List.find?_some h⟩

/-- The type text that `mapping` holds under a declared name, the names being different. -/
theorem map_at_field (ms : List Field) (name : Str) (f : Field)
    (hn : (ms.map Field.name).Nodup) (h : field_named ms name = some f) :
    map_at name (mapping_of ms) = f.type.str := by
  obtain ⟨hf, hname⟩ := field_named_some ms name f h
  have key : ∀ (l : List Field) (m : List (Str × Str)), (l.map Field.name).Nodup →
      (f ∈ l ∨ (name ∉ l.map Field.name ∧ map_find name m = some f.type.str)) →
      map_find name (l.foldl (fun m g => map_assign g.name g.type.str m) m)
        = some f.type.str := by
    intro l
    induction l with
    | nil =>
      intro m _ h
      rcases h with h | h
      · exact absurd h (List.not_mem_nil _)
      · exact h.2
    | cons g l ih =>
      intro m hnd h
      simp only [List.map_cons, List.nodup_cons] at hnd
      refine ih _ hnd.2 ?_
      rcases h with h | ⟨hnot, hm⟩
      · rcases List.mem_cons.mp h with rfl | h
        · refine Or.inr ⟨?_, by rw [map_find_assign, if_pos hname]⟩
          rw [← hname]
          exact hnd.1
        · exact Or.inl h
      · simp only [List.map_cons, List.mem_cons, not_or] at hnot
        exact Or.inr ⟨hnot.2, by
          rw [map_find_assign, if_neg (fun e => hnot.1 e.symm), hm]⟩
  have := key ms [] hn (Or.inl hf)
  unfold map_at mapping_of
  rw [this]
  rfl

theorem append_if_missing_hit (ch : Char) (rest out : Str) :
    append_if_missing (ch :: rest) ch out = (true, rest, out) := by
  simp only [append_if_missing, if_true]

/-- The integer arm of `fill_primitive` on the text of an integer literal. -/
theorem fill_integer_text (sign digits rest out : Str)
    (hsign : sign = [] ∨ sign = ['+'] ∨ sign = ['-'])
    (hd : digits.all isdigit = true) (hne : digits ≠ [])
    (hrest : ∃ c t, rest = c :: t ∧ c ∈ "\x7d),".toList) :
    fill_integer (sign ++ (digits ++ rest)) out = (.Finished, rest, out) := by
  obtain ⟨c, t, rfl, hc⟩ := hrest
  have hstop : ("\x7d),".toList.contains c) = true := by simpa using hc
  have hall : ∀ a ∈ sign ++ digits, (!"\x7d),".toList.contains a) = true := by
    intro a ha
    rcases List.mem_append.mp ha with ha | ha
    · rcases hsign with rfl | rfl | rfl
      · exact absurd ha (List.not_mem_nil _)
      · rw [List.mem_singleton] at ha
        subst ha
        decide
      · rw [List.mem_singleton] at ha
        subst ha
        decide
    · have hdig := (List.all_eq_true.mp hd) a ha
      have : a ∉ "\x7d),".toList := by
        intro hm
        simp only [String.toList, List.mem_cons, List.mem_singleton, List.not_mem_nil,
          or_false] at hm
        rcases hm with rfl | rfl | rfl <;> revert hdig <;> decide
      simpa using this
  have h1 : (sign ++ (digits ++ c :: t)).takeWhile (fun c => !"\x7d),".toList.contains c)
      = sign ++ digits := by
    rw [← List.append_assoc, List.takeWhile_append_of_pos hall]
    rw [List.takeWhile_cons, hstop]
    simp
  have h2 : (sign ++ (digits ++ c :: t)).dropWhile (fun c => !"\x7d),".toList.contains c)
      = c :: t := by
    rw [← List.append_assoc, List.dropWhile_append_of_pos hall]
    rw [List.dropWhile_cons, hstop]
    simp
  have h3 : sign ++ digits ≠ [] := by
    intro e
    exact hne (List.append_eq_nil.mp e).2
  simp only [fill_integer, collect_until_any, h1, h2]
  rw [if_pos ⟨by simp, h3⟩]

/-- The opening of `fill_structure` on a struct literal without a name or with the name of
the struct. -/
theorem fill_open_text (type hint rest out : Str)
    (h : hint = [] ∨ (hint = type ∧ valid_ident type = true)) :
    fill_open type (hint ++ '\x7b' :: rest) out = (rest, out) := by
  rcases h with rfl | ⟨rfl, hv⟩
  · simp [fill_open]
  · have hc := ident_chars hv
    obtain ⟨c, cs, hcs, -, -, -, hb, -⟩ := valid_ident_head hv
    have hall : ∀ a ∈ hint, (!"\x7b".toList.contains a) = true := by
      intro a ha
      simpa using (hc a ha).2.2
    have h1 : (hint ++ '\x7b' :: rest).takeWhile (fun c => !"\x7b".toList.contains c) = hint := by
      rw [List.takeWhile_append_of_pos hall]
      simp
    have h2 : (hint ++ '\x7b' :: rest).dropWhile (fun c => !"\x7b".toList.contains c)
        = '\x7b' :: rest := by
      rw [List.dropWhile_append_of_pos hall]
      simp
    have hs : starts_with hint hint = true := by simp [starts_with]
    have e : hint ++ '\x7b' :: rest = c :: (cs ++ '\x7b' :: rest) := by rw [hcs]; rfl
    have hstep : fill_open hint (c :: (cs ++ '\x7b' :: rest)) out
        = ((append_if_missing (collect_until_any (c :: (cs ++ '\x7b' :: rest)) "\x7b".toList).2
              '\x7b'
              (if starts_with hint (collect_until_any (c :: (cs ++ '\x7b' :: rest))
                  "\x7b".toList).1 = true
                then out ++ hint.drop (collect_until_any (c :: (cs ++ '\x7b' :: rest))
                  "\x7b".toList).1.length else out)).2.1,
            (append_if_missing (collect_until_any (c :: (cs ++ '\x7b' :: rest)) "\x7b".toList).2
              '\x7b'
              (if starts_with hint (collect_until_any (c :: (cs ++ '\x7b' :: rest))
                  "\x7b".toList).1 = true
                then out ++ hint.drop (collect_until_any (c :: (cs ++ '\x7b' :: rest))
                  "\x7b".toList).1.length else out)).2.2) := by
      simp only [fill_open, if_pos hb]
    rw [e, hstep, ← e]
    simp only [collect_until_any, h1, h2, hs, if_true, List.drop_length, List.append_nil,
      append_if_missing_hit]

theorem raw_body_no_quote (items : List StrItem) (hv : ∀ i ∈ items, i.valid)
    (hq : ∀ i ∈ items, i ≠ .esc '"') : '"' ∉ raw_body items := by
  intro hm
  simp only [raw_body, List.mem_flatten, List.mem_map] at hm
  obtain ⟨l, ⟨i, hi, rfl⟩, hl⟩ := hm
  cases i with
  | plain c =>
    simp only [StrItem.raw, List.mem_singleton] at hl
    exact (hv _ hi).1 hl.symm
  | esc e =>
    simp only [StrItem.raw, List.mem_cons, List.mem_singleton, List.not_mem_nil, or_false] at hl
    rcases hl with hl | hl
    · revert hl; decide
    · exact hq _ hi (by rw [hl])

theorem lit_text_pos : ∀ (v : Lit), v.wf = true → 1 ≤ v.text.length
  | .str ws items, _ => by
    simp only [Lit.text, List.length_append, List.length_cons]
    omega
  | .int ws sign gap digits, h => by
    simp only [Lit.wf, Bool.and_eq_true, Bool.not_eq_true', List.isEmpty_eq_false] at h
    obtain ⟨d, ds, hd⟩ := List.exists_cons_of_ne_nil h.1.2
    simp only [Lit.text, hd, List.length_append, List.length_cons]
    omega
  | .struct ws hint ws_hint ws_open entries, _ => by
    simp only [Lit.text, List.length_append, List.length_cons]
    omega

theorem entries_names_nil : ∀ (e : Entries), e.names = [] → e = .nil
  | .nil, _ => rfl
  | .cons s v r, h => by simp [Entries.names] at h

theorem entries_text_body (close : Char) : ∀ (e : Entries) (first : Bool),
    e.spaced first = true → e.isEmpty = false →
    e.text close = (if first then [] else [' ']) ++ e.body close
  | .nil, _, _, h => by simp [Entries.isEmpty] at h
  | .cons s v r, first, h, _ => by
    simp only [Entries.spaced, Bool.and_eq_true, decide_eq_true_eq] at h
    simp only [Entries.text, Entries.body, h.1.1.1.1]

/-- One round of the loop of `fill_structure` in which the value is reported finished. -/
theorem fill_fields_finished (fuel : Nat) (sch : Schema) (remaining : List Str)
    (mapping : List (Str × Str)) (txt : TextView) (out : Str) (chosen : Str)
    (remaining₁ : List Str) (txt₁ : TextView) (out₁ : Str) (txt₂ : TextView) (out₂ : Str)
    (hrem : remaining ≠ [])
    (hg : get_arg txt remaining out = (some chosen, remaining₁, txt₁, out₁))
    (hp : fill_primitive fuel sch (map_at chosen mapping)
        (append_if_missing txt₁ '=' out₁).2.1 (append_if_missing txt₁ '=' out₁).2.2
      = some (.ok (.Finished, txt₂, out₂))) :
    fill_fields (fuel + 1) sch remaining mapping txt out
      = if remaining₁ = [] then
          some (.ok (.Finished, (append_if_missing txt₂ '\x7d' out₂).2.1,
            (append_if_missing txt₂ '\x7d' out₂).2.2))
        else
          fill_fields fuel sch remaining₁ mapping
            (append_if_missing (append_if_missing txt₂ ',' out₂).2.1 ' '
              (append_if_missing txt₂ ',' out₂).2.2).2.1
            (append_if_missing (append_if_missing txt₂ ',' out₂).2.1 ' '
              (append_if_missing txt₂ ',' out₂).2.2).2.2 := by
  rw [fill_fields, if_neg hrem, hg]
  simp only [hp, if_true]

theorem erase_eq (a : Str) : ∀ l : List Str,
    l.erase a = @List.erase Str instBEqOfDecidableEq l a
  | [] => rfl
  | b :: l => by
    rw [List.erase_cons, @List.erase_cons Str instBEqOfDecidableEq, erase_eq a l]
    by_cases h : b = a
    · simp [h]
    · simp [h]

theorem perm_erase (a : Str) {l₁ l₂ : List Str} (h : l₁.Perm l₂) :
    (l₁.erase a).Perm (l₂.erase a) := by
  rw [erase_eq, erase_eq]
  exact h.erase a

theorem entries_tail_follows (close : Char) (hc : close ∈ "\x7d),".toList) (r : Entries)
    (rest : Str) :
    ∃ c t, (if r.isEmpty = true then r.text close else ',' :: r.text close) ++ rest = c :: t
      ∧ c ∈ "\x7d),".toList := by
  cases r with
  | nil => exact ⟨close, rest, by simp [Entries.isEmpty, Entries.text], hc⟩
  | cons s v r =>
    exact ⟨',', (Entries.cons s v r).text close ++ rest, by simp [Entries.isEmpty], by decide⟩

theorem entries_body_cons (close : Char) (s : Slot) (v : Lit) (r : Entries) (rest : Str)
    (h1 : s.ws_eq = []) (h2 : s.ws_end = []) :
    (Entries.cons s v r).body close ++ rest
      = s.name ++ '=' :: (v.text
          ++ ((if r.isEmpty = true then r.text close else ',' :: r.text close) ++ rest)) := by
  simp only [Entries.body, h1, h2, List.nil_append, List.append_assoc, List.cons_append]

theorem entries_body_length (close : Char) (s : Slot) (v : Lit) (r : Entries)
    (hs : valid_ident s.name = true) (hv : v.wf = true) (hr : r.spaced false = true) :
    v.text.length + 3 ≤ ((Entries.cons s v r).body close).length
    ∧ (r.isEmpty = false → (r.body close).length + 5 ≤ ((Entries.cons s v r).body close).length) := by
  have hn := valid_ident_length hs
  have hl := lit_text_pos v hv
  constructor
  · cases r with
    | nil =>
      simp only [Entries.body, Entries.isEmpty, Entries.text, if_true, List.length_append,
        List.length_cons, List.length_nil]
      omega
    | cons _ _ _ =>
      simp only [Entries.body, Entries.isEmpty, Bool.false_eq_true, if_false,
        List.length_append, List.length_cons]
      omega
  · intro hne
    rw [Entries.body, if_neg (by simp [hne]), entries_text_body close r false hr hne]
    simp only [List.length_append, List.length_cons, Bool.false_eq_true, if_false,
      List.length_nil]
    omega

mutual
/-- The function `fill_primitive` on the text of a complete value: the value is read, it is
reported finished and nothing is appended. -/
theorem fill_primitive_complete (sch : Schema) : ∀ (v : Lit) (fuel : Nat) (type rest out : Str),
    v.wf = true → v.spaced = true → v.fits sch type = true → v.text.length ≤ fuel →
    (∃ c t, rest = c :: t ∧ c ∈ "\x7d),".toList) →
    fill_primitive fuel sch type (v.text ++ rest) out = some (.ok (.Finished, rest, out))
  | .str ws items, fuel, type, rest, out, hwf, hsp, hfit, hfuel, _ => by
    simp only [Lit.wf, Bool.and_eq_true, decide_eq_true_eq, List.all_eq_true] at hwf
    simp only [Lit.spaced, List.isEmpty_iff] at hsp
    simp only [Lit.fits, Bool.and_eq_true, decide_eq_true_eq, List.all_eq_true] at hfit
    obtain ⟨rfl, hq⟩ := hfit
    subst hsp
    cases fuel with
    | zero => simp [Lit.text] at hfuel
    | succ f =>
      have hb := raw_body_no_quote items hwf.2 hq
      have e : Lit.text (.str [] items) ++ rest = '"' :: (raw_body items ++ '"' :: rest) := by
        simp [Lit.text]
      rw [e, fill_primitive, if_pos rfl, fill_string_closed _ _ _ hb]
  | .int ws sign gap digits, fuel, type, rest, out, hwf, hsp, hfit, hfuel, hrest => by
    simp only [Lit.wf, Bool.and_eq_true, decide_eq_true_eq, List.all_eq_true,
      Bool.not_eq_true', List.isEmpty_eq_false] at hwf
    obtain ⟨⟨⟨⟨⟨-, hsign⟩, -⟩, -⟩, hne⟩, hd⟩ := hwf
    simp only [Lit.spaced, Bool.and_eq_true, List.isEmpty_iff] at hsp
    obtain ⟨rfl, rfl⟩ := hsp
    simp only [Lit.fits, Bool.and_eq_true, decide_eq_true_eq] at hfit
    obtain ⟨hns, hi⟩ := hfit
    have hi' : type ∈ ["int32".toList, "uint32".toList, "int64".toList, "uint64".toList] := hi
    cases fuel with
    | zero =>
      obtain ⟨d, ds, rfl⟩ := List.exists_cons_of_ne_nil hne
      simp [Lit.text] at hfuel
    | succ f =>
      have e : Lit.text (.int [] sign [] digits) ++ rest = sign ++ (digits ++ rest) := by
        simp [Lit.text]
      rw [e, fill_primitive, if_neg hns, if_pos hi',
        fill_integer_text sign digits rest out hsign (List.all_eq_true.mpr hd) hne hrest]
  | .struct ws hint ws_hint ws_open entries, fuel, type, rest, out, hwf, hsp, hfit, hfuel, _ => by
    simp only [Lit.wf, Bool.and_eq_true, decide_eq_true_eq] at hwf
    obtain ⟨⟨⟨-, hhint⟩, -⟩, hewf⟩ := hwf
    simp only [Lit.spaced, Bool.and_eq_true, List.isEmpty_iff] at hsp
    obtain ⟨⟨⟨rfl, rfl⟩, rfl⟩, hesp⟩ := hsp
    simp only [Lit.fits, Bool.and_eq_true, decide_eq_true_eq] at hfit
    obtain ⟨⟨⟨hns, hni⟩, hh⟩, hfit⟩ := hfit
    have hni' : ¬ type ∈ ["int32".toList, "uint32".toList, "int64".toList, "uint64".toList] :=
      hni
    cases hst : sch.find_struct type with
    | none => simp [hst] at hfit
    | some st =>
      simp only [hst, Bool.and_eq_true, decide_eq_true_eq] at hfit
      obtain ⟨⟨hperm, hnd⟩, hefit⟩ := hfit
      have hndm : (st.fields.map Field.name).Nodup := (hperm.nodup_iff).mp hnd
      have hopen : hint = [] ∨ (hint = type ∧ valid_ident type = true) := by
        rcases hh with h | h
        · exact Or.inl h
        · by_cases hn : hint = []
          · exact Or.inl hn
          · rw [if_neg hn] at hhint
            simp only [Bool.and_eq_true, decide_eq_true_eq] at hhint
            exact Or.inr ⟨h, h ▸ hhint.1⟩
      have e : Lit.text (.struct [] hint [] [] entries) ++ rest
          = hint ++ '\x7b' :: (entries.text '\x7d' ++ rest) := by
        simp [Lit.text]
      have hlen : hint.length + 1 + (entries.text '\x7d').length ≤ fuel := by
        simp only [Lit.text, List.length_append, List.length_cons, List.length_nil] at hfuel
        omega
      have htpos : 1 ≤ (entries.text '\x7d').length := by
        cases entries with
        | nil => simp [Entries.text]
        | cons s v r =>
          simp only [Entries.text, List.length_append, List.length_cons]
          omega
      obtain ⟨f, rfl⟩ : ∃ f, fuel = f + 1 := ⟨fuel - 1, by omega⟩
      obtain ⟨g, rfl⟩ : ∃ g, f = g + 1 := ⟨f - 1, by omega⟩
      rw [e, fill_primitive, if_neg hns, if_neg hni', fill_structure]
      simp only [hst, fill_open_text type hint _ out hopen]
      by_cases hfields : st.fields = []
      · have hnil : entries = .nil := by
          apply entries_names_nil
          rw [hfields] at hperm
          exact List.Perm.eq_nil hperm
        subst hnil
        rw [if_pos hfields]
        simp only [Entries.text, List.singleton_append, append_if_missing_hit]
      · have hne : entries.isEmpty = false := by
          cases entries with
          | nil =>
            exfalso
            apply hfields
            have := (List.Perm.nil_eq hperm).symm
            exact List.map_eq_nil_iff.mp this
          | cons s v r => rfl
        rw [if_neg hfields, entries_text_body '\x7d' entries true hesp hne]
        simp only [if_true, List.nil_append]
        refine fill_fields_complete sch entries true g st.fields (remaining_of st.fields) rest out
          hewf hesp hefit hndm (remaining_of_pairwise _)
          ((remaining_of_perm _ hndm).trans hperm.symm) hne ?_
        have := entries_text_body '\x7d' entries true hesp hne
        simp only [if_true, List.nil_append] at this
        rw [← this]
        omega
/-- The loop of `fill_structure` on the text of entries that supply the names left in
`remaining`, each with a complete value: the entries and the closing brace are read,
the struct is reported finished and nothing is appended. -/
theorem fill_fields_complete (sch : Schema) : ∀ (e : Entries) (first : Bool) (fuel : Nat)
    (ms : List Field) (remaining : List Str) (rest out : Str),
    e.wf = true → e.spaced first = true → e.fit sch ms = true →
    (ms.map Field.name).Nodup → remaining.Pairwise (fun a b => str_lt a b = true) →
    remaining.Perm e.names → e.isEmpty = false → (e.body '\x7d').length ≤ fuel + 1 →
    fill_fields fuel sch remaining (mapping_of ms) (e.body '\x7d' ++ rest) out
      = some (.ok (.Finished, rest, out))
  | .nil, _, _, _, _, _, _, _, _, _, _, _, _, he, _ => by simp [Entries.isEmpty] at he
  | .cons s v r, first, fuel, ms, remaining, rest, out, hwf, hsp, hfit, hnd, hpw, hperm, _,
      hfuel => by
    simp only [Entries.wf, Bool.and_eq_true] at hwf
    obtain ⟨⟨hs, hv⟩, hr⟩ := hwf
    obtain ⟨-, hname, -, -⟩ := slot_wf hs
    simp only [Entries.spaced, Bool.and_eq_true, decide_eq_true_eq, List.isEmpty_iff] at hsp
    obtain ⟨⟨⟨⟨-, hweq⟩, hwend⟩, hvsp⟩, hrsp⟩ := hsp
    simp only [Entries.fit, Bool.and_eq_true] at hfit
    obtain ⟨hvfit, hrfit⟩ := hfit
    cases hfn : field_named ms s.name with
    | none => simp [hfn] at hvfit
    | some fld =>
      simp only [hfn] at hvfit
      simp only [Entries.names] at hperm
      have hmem : s.name ∈ remaining := hperm.mem_iff.mpr (List.mem_cons_self _ _)
      have hrem : remaining ≠ [] := fun e => by
        rw [e] at hmem
        exact absurd hmem (List.not_mem_nil _)
      obtain ⟨hl1, hl2⟩ := entries_body_length '\x7d' s v r hname hv hrsp
      obtain ⟨f, rfl⟩ : ∃ f, fuel = f + 1 := ⟨fuel - 1, by omega⟩
      rw [entries_body_cons '\x7d' s v r rest hweq hwend]
      have hg := get_arg_name s.name
        (v.text ++ ((if r.isEmpty = true then r.text '\x7d' else ',' :: r.text '\x7d') ++ rest))
        out remaining hname hpw hmem
      have hp : fill_primitive f sch (map_at s.name (mapping_of ms))
          (append_if_missing ('=' :: (v.text
            ++ ((if r.isEmpty = true then r.text '\x7d' else ',' :: r.text '\x7d') ++ rest)))
            '=' out).2.1
          (append_if_missing ('=' :: (v.text
            ++ ((if r.isEmpty = true then r.text '\x7d' else ',' :: r.text '\x7d') ++ rest)))
            '=' out).2.2
          = some (.ok (.Finished,
              (if r.isEmpty = true then r.text '\x7d' else ',' :: r.text '\x7d') ++ rest, out)) := by
        rw [append_if_missing_hit, map_at_field ms s.name fld hnd hfn]
        exact fill_primitive_complete sch v f _ _ out hv hvsp hvfit (by omega)
          (entries_tail_follows '\x7d' (by decide) r rest)
      rw [fill_fields_finished f sch remaining (mapping_of ms) _ out s.name _ _ _ _ _ hrem hg hp]
      have hperm₁ : (remaining.erase s.name).Perm r.names := by
        have := perm_erase s.name hperm
        rwa [List.erase_cons_head] at this
      cases hre : r.isEmpty with
      | true =>
        have hnil : r = .nil := by
          cases r with
          | nil => rfl
          | cons _ _ _ => simp [Entries.isEmpty] at hre
        subst hnil
        have : remaining.erase s.name = [] := List.Perm.eq_nil hperm₁
        rw [if_pos this]
        simp only [Entries.text, if_true, List.singleton_append, append_if_missing_hit]
      | false =>
        have hne₁ : remaining.erase s.name ≠ [] := by
          intro e
          rw [e] at hperm₁
          have := entries_names_nil r (List.Perm.nil_eq hperm₁).symm
          rw [this] at hre
          simp [Entries.isEmpty] at hre
        rw [if_neg hne₁, entries_text_body '\x7d' r false hrsp hre]
        simp only [Bool.false_eq_true, if_false, List.cons_append, List.nil_append,
          append_if_missing_hit]
        exact fill_fields_complete sch r false f ms (remaining.erase s.name) rest out hr hrsp
          hrfit hnd (List.Pairwise.sublist (List.erase_sublist _ _) hpw) hperm₁ hre
          (by have := hl2 hre; omega)
end

/-- The loop of `parse_function` on the text of entries that supply the names left in
`remaining`, each with a complete value: the entries and the closing bracket are
read and nothing is appended. -/
theorem parse_function_loop_complete (sch : Schema) : ∀ (e : Entries) (first : Bool)
    (fuel : Nat) (ms : List Field) (remaining : List Str) (rest out : Str),
    e.wf = true → e.spaced first = true → e.fit sch ms = true →
    (ms.map Field.name).Nodup → remaining.Pairwise (fun a b => str_lt a b = true) →
    remaining.Perm e.names → e.isEmpty = false → (e.body ')').length ≤ fuel + 1 →
    parse_function_loop fuel sch remaining (mapping_of ms) (e.body ')' ++ rest) out
      = some (.ok (rest, out))
  | .nil, _, _, _, _, _, _, _, _, _, _, _, _, he, _ => by simp [Entries.isEmpty] at he
  | .cons s v r, first, fuel, ms, remaining, rest, out, hwf, hsp, hfit, hnd, hpw, hperm, _,
      hfuel => by
    simp only [Entries.wf, Bool.and_eq_true] at hwf
    obtain ⟨⟨hs, hv⟩, hr⟩ := hwf
    obtain ⟨-, hname, -, -⟩ := slot_wf hs
    simp only [Entries.spaced, Bool.and_eq_true, decide_eq_true_eq, List.isEmpty_iff] at hsp
    obtain ⟨⟨⟨⟨-, hweq⟩, hwend⟩, hvsp⟩, hrsp⟩ := hsp
    simp only [Entries.fit, Bool.and_eq_true] at hfit
    obtain ⟨hvfit, hrfit⟩ := hfit
    cases hfn : field_named ms s.name with
    | none => simp [hfn] at hvfit
    | some fld =>
      simp only [hfn] at hvfit
      simp only [Entries.names] at hperm
      have hmem : s.name ∈ remaining := hperm.mem_iff.mpr (List.mem_cons_self _ _)
      have hrem : remaining ≠ [] := fun e => by
        rw [e] at hmem
        exact absurd hmem (List.not_mem_nil _)
      obtain ⟨hl1, hl2⟩ := entries_body_length ')' s v r hname hv hrsp
      obtain ⟨f, rfl⟩ : ∃ f, fuel = f + 1 := ⟨fuel - 1, by omega⟩
      rw [entries_body_cons ')' s v r rest hweq hwend]
      have hg := get_arg_name s.name
        (v.text ++ ((if r.isEmpty = true then r.text ')' else ',' :: r.text ')') ++ rest))
        out remaining hname hpw hmem
      have hp : fill_primitive f sch (map_at s.name (mapping_of ms))
          (append_if_missing ('=' :: (v.text
            ++ ((if r.isEmpty = true then r.text ')' else ',' :: r.text ')') ++ rest)))
            '=' out).2.1
          (append_if_missing ('=' :: (v.text
            ++ ((if r.isEmpty = true then r.text ')' else ',' :: r.text ')') ++ rest)))
            '=' out).2.2
          = some (.ok (.Finished,
              (if r.isEmpty = true then r.text ')' else ',' :: r.text ')') ++ rest, out)) := by
        rw [append_if_missing_hit, map_at_field ms s.name fld hnd hfn]
        exact fill_primitive_complete sch v f _ _ out hv hvsp hvfit (by omega)
          (entries_tail_follows ')' (by decide) r rest)
      rw [parse_function_loop_finished f sch remaining (mapping_of ms) _ out s.name _ _ _ _ _
        hrem hg hp]
      have hperm₁ : (remaining.erase s.name).Perm r.names := by
        have := perm_erase s.name hperm
        rwa [List.erase_cons_head] at this
      cases hre : r.isEmpty with
      | true =>
        have hnil : r = .nil := by
          cases r with
          | nil => rfl
          | cons _ _ _ => simp [Entries.isEmpty] at hre
        subst hnil
        have : remaining.erase s.name = [] := List.Perm.eq_nil hperm₁
        rw [if_pos this]
        simp only [Entries.text, if_true, List.singleton_append, append_if_missing_hit]
      | false =>
        have hne₁ : remaining.erase s.name ≠ [] := by
          intro e
          rw [e] at hperm₁
          have := entries_names_nil r (List.Perm.nil_eq hperm₁).symm
          rw [this] at hre
          simp [Entries.isEmpty] at hre
        rw [if_neg hne₁, entries_text_body ')' r false hrsp hre]
        simp only [Bool.false_eq_true, if_false, List.cons_append, List.nil_append,
          append_if_missing_hit]
        exact parse_function_loop_complete sch r false f ms (remaining.erase s.name) rest out
          hr hrsp hrfit hnd (List.Pairwise.sublist (List.erase_sublist _ _) hpw) hperm₁ hre
          (by have := hl2 hre; omega)

/-- The engine on the text of a complete call. -/
theorem autocomplete_complete (sch : Schema) (c : CallText) (fuel : Nat)
    (hwf : c.wf = true) (hsp : c.spaced = true)
    (hfirst : (sch.functions.map Prod.fst).find? (fun g => starts_with g c.name) = some c.name)
    (hfits : c.fits sch = true) (hfuel : c.text.length ≤ fuel) :
    autocomplete fuel c.text sch = some (.ok c.text) := by
  obtain ⟨ws_name, name, ws_paren, ws_open, entries, ws_end⟩ := c
  simp only [CallText.wf, Bool.and_eq_true, decide_eq_true_eq] at hwf
  obtain ⟨⟨⟨⟨⟨-, hname⟩, -⟩, -⟩, hewf⟩, -⟩ := hwf
  simp only [CallText.spaced, Bool.and_eq_true, List.isEmpty_iff] at hsp
  obtain ⟨⟨⟨⟨rfl, rfl⟩, rfl⟩, hesp⟩, rfl⟩ := hsp
  simp only [CallText.fits] at hfits
  simp only at hfirst
  cases hfn : sch.find_function name with
  | none => simp [hfn] at hfits
  | some fn =>
    simp only [hfn, Bool.and_eq_true, decide_eq_true_eq] at hfits
    obtain ⟨⟨hperm, hnd⟩, hefit⟩ := hfits
    have hndm : (fn.args.map Field.name).Nodup := (hperm.nodup_iff).mp hnd
    have htext : CallText.text ⟨[], name, [], [], entries, []⟩
        = name ++ '(' :: entries.text ')' := by
      simp [CallText.text]
    have hc := ident_chars hname
    have htake : (name ++ '(' :: entries.text ')').takeWhile (fun c => c != '(') = name := by
      rw [List.takeWhile_append_of_pos (fun a ha => by simpa using (hc a ha).2.1)]
      simp
    have hdrop : (name ++ '(' :: entries.text ')').dropWhile (fun c => c != '(')
        = '(' :: entries.text ')' := by
      rw [List.dropWhile_append_of_pos (fun a ha => by simpa using (hc a ha).2.1)]
      simp
    have hlead : leading_token (name ++ '(' :: entries.text ')') = name := by
      rw [leading_token, skip_spaces_ident hname, htake]
    have hg := get_func_some (name ++ '(' :: entries.text ')') (sch.functions.map Prod.fst) []
      name (by rw [hlead]; exact hfirst)
    rw [hlead, skip_spaces_ident hname, hdrop, List.drop_length, List.append_nil] at hg
    have hlen : name.length + 1 + (entries.text ')').length ≤ fuel := by
      rw [htext] at hfuel
      simp only [List.length_append, List.length_cons] at hfuel
      omega
    rw [htext, autocomplete, hg]
    simp only [parse_function, hfn, append_if_missing_hit]
    by_cases hargs : fn.args = []
    · have hnil : entries = .nil := by
        apply entries_names_nil
        rw [hargs] at hperm
        exact List.Perm.eq_nil hperm
      subst hnil
      rw [if_pos hargs]
      simp only [Entries.text, append_if_missing_hit, List.append_nil]
    · have hne : entries.isEmpty = false := by
        cases entries with
        | nil =>
          exfalso
          apply hargs
          have := (List.Perm.nil_eq hperm).symm
          exact List.map_eq_nil_iff.mp this
        | cons s v r => rfl
      have hbody := entries_text_body ')' entries true hesp hne
      simp only [if_true, List.nil_append] at hbody
      have hloop := parse_function_loop_complete sch entries true fuel fn.args
        (remaining_of fn.args) [] [] hewf hesp hefit hndm (remaining_of_pairwise _)
        ((remaining_of_perm _ hndm).trans hperm.symm) hne (by rw [← hbody]; omega)
      rw [List.append_nil, ← hbody] at hloop
      rw [if_neg hargs, hloop]
      simp only [List.append_nil]

/-- C40 (counterexample): with the schema of `fn f->int32{int32 a; int32 b;}` the complete call
`f(a=1,b=2)`, written without white space, is not returned unchanged: `autocomplete` appends
a space, the one that it expects after the comma. Two more complete calls that
are changed: `sum()` when the function map is iterated with `summarize` before `sum`, and
a string value with an escaped double quote. -/
theorem autocomplete_complete_call_changed :
    autocomplete 3 "f(a=1,b=2)".toList two_int_schema = some (.ok "f(a=1,b=2) ".toList)
    ∧ autocomplete 3 "f(a=1,b=2)".toList two_int_schema ≠ some (.ok "f(a=1,b=2)".toList)
    ∧ autocomplete 0 "sum()".toList summarize_first_schema = some (.ok "sum()marize".toList)
    ∧ autocomplete 2 "f(a=\"x\\\"y\")".toList string_arg_schema
        = some (.ok "f(a=\"x\\\"y\"))".toList) := by
  decide

/-- C40 (amended): a complete call written with one space after each comma and no other
white space is a fixed point of `autocomplete`. For every schema and every call text
that is written so, whose function name is the first declared function name, in
the iteration order of the function map, that starts with it, and that supplies
every declared argument and every struct field once, by its full name, with a
complete value of the declared type (an integer literal, a string literal
without an escaped double quote, a struct literal without a name or with the
name of the struct), closed by `)`, `autocomplete` returns the text unchanged, under every
bound that is not less than the length of the text. -/
theorem autocomplete_fixed_point (sch : Schema) (c : CallText) (fuel : Nat)
    (hwf : c.wf = true) (hsp : c.spaced = true)
    (hfirst : (sch.functions.map Prod.fst).find? (fun g => starts_with g c.name) = some c.name)
    (hfits : c.fits sch = true) (hfuel : c.text.length ≤ fuel) :
    autocomplete fuel c.text sch = some (.ok c.text) :=
  autocomplete_complete sch c fuel hwf hsp hfirst hfits hfuel

theorem autocomplete_fixed_point_witness :
    comma_space_call_text.text = "sum(p=\x7bx=1, y=2\x7d)".toList
    ∧ autocomplete 17 "sum(p=\x7bx=1, y=2\x7d)".toList point_schema
        = some (.ok "sum(p=\x7bx=1, y=2\x7d)".toList)
    ∧ two_int_call_text.text = "f(a=1, b=2)".toList
    ∧ autocomplete 11 "f(a=1, b=2)".toList two_int_schema = some (.ok "f(a=1, b=2)".toList) :=
  ⟨by decide, autocomplete_fixed_point point_schema comma_space_call_text 17 (by decide)
    (by decide) (by decide) (by decide) (by decide),
    by decide, autocomplete_fixed_point two_int_schema two_int_call_text 11 (by decide)
    (by decide) (by decide) (by decide) (by decide)⟩

/-! ### A read succeeds when the buffer holds the encoding -/

theorem Cursor.get8_ok (c : Cursor) (h : c.i < c.n) :
    c.get8 = .ok (c.p.getD c.i 0, { c with i := c.i + 1 }) := by
  unfold Cursor.get8
  rw [if_neg (by omega)]

theorem Cursor.get_be_loop_ok (size : Nat) : ∀ (k v : Nat) (c : Cursor), c.i + k ≤ c.n →
    ∃ v' c', Cursor.get_be_loop size k v c = .ok (v', c') ∧ c'.i = c.i + k ∧ c'.p = c.p
      ∧ c'.n = c.n
  | 0, v, c, _ => ⟨v, c, rfl, rfl, rfl, rfl⟩
  | k + 1, v, c, h => by
    obtain ⟨v', c', h1, h2, h3, h4⟩ := Cursor.get_be_loop_ok size k
      (((v <<< 8) ||| c.p.getD c.i 0) % 2 ^ (8 * size)) { c with i := c.i + 1 }
      (by simp only; omega)
    refine ⟨v', c', ?_, ?_, h3, h4⟩
    · simp only [Cursor.get_be_loop, Cursor.get8_ok c (by omega), h1]
    · rw [h2]
      simp only
      omega

theorem Cursor.get_be_ok (signed : Bool) (size : Nat) (c : Cursor) (h : c.i + size ≤ c.n) :
    ∃ x c', c.get_be signed size = .ok (x, c') ∧ c'.i = c.i + size ∧ c'.p = c.p
      ∧ c'.n = c.n := by
  obtain ⟨v', c', h1, h2, h3, h4⟩ := Cursor.get_be_loop_ok size size 0 c h
  simp only [Cursor.get_be, h1]
  exact ⟨_, c', rfl, h2, h3, h4⟩

theorem Cursor.get_string_loop_ok : ∀ (k : Nat) (s : Str) (c : Cursor), c.i + k ≤ c.n →
    ∃ s' c', Cursor.get_string_loop k s c = .ok (s', c') ∧ c'.i = c.i + k ∧ c'.p = c.p
      ∧ c'.n = c.n
  | 0, s, c, _ => ⟨s, c, rfl, rfl, rfl, rfl⟩
  | k + 1, s, c, h => by
    obtain ⟨s', c', h1, h2, h3, h4⟩ := Cursor.get_string_loop_ok k
      (s ++ [Char.ofNat (c.p.getD c.i 0)]) { c with i := c.i + 1 } (by simp only; omega)
    refine ⟨s', c', ?_, ?_, h3, h4⟩
    · simp only [Cursor.get_string_loop, Cursor.get8_ok c (by omega), h1]
    · rw [h2]
      simp only
      omega

theorem drop_take_of_append {α : Type} (l bs rest : List α) (k : Nat) (h : l = bs ++ rest)
    (hl : bs.length = k) : l.take k = bs ∧ l.drop k = rest := by
  subst h
  subst hl
  simp

theorem Cursor.get_string_ok (c : Cursor) (hn : c.n = c.p.length) (hb : ∀ x ∈ c.p, x < 256)
    (h4 : ¬ (c.p.drop c.i).length < 4)
    (hlen : ¬ ((c.p.drop c.i).drop 4).length < be_unsigned ((c.p.drop c.i).take 4)) :
    ∃ s c', c.get_string = .ok (s, c') ∧ c'.i ≤ c'.n := by
  simp only [List.length_drop] at h4 hlen
  obtain ⟨x, c₁, h1, hi, hp, hn1⟩ := Cursor.get_be_ok false 4 c (by omega)
  obtain ⟨bs, hl, hd, -, -, hx⟩ := Cursor.get_be_inv false 4 c c₁ x hn hb h1
  obtain ⟨e1, -⟩ := drop_take_of_append _ _ _ 4 hd hl
  simp only [Bool.false_eq_true, if_false] at hx
  rw [e1] at hlen
  obtain ⟨s, c', h2, hi', hp', hn'⟩ := Cursor.get_string_loop_ok x.toNat [] c₁ (by
    rw [hx, hi, hn1]
    simp only [Int.toNat_ofNat]
    omega)
  refine ⟨s, c', by simp only [Cursor.get_string, h1, h2], ?_⟩
  rw [hi', hn', hx, hi, hn1]
  simp only [Int.toNat_ofNat]
  omega

/-- The builtin arm of `read_value` succeeds when the bytes of the encoding are there. -/
theorem read_builtin_ok (b : Builtin) (out : Str) (c : Cursor) (r : Str × List Byte)
    (hn : c.n = c.p.length) (hb : ∀ x ∈ c.p, x < 256)
    (h : rendered_builtin b (c.p.drop c.i) = some r) :
    ∃ c' o, read_builtin c b out = .ok (c', o) ∧ c'.i ≤ c'.n := by
  cases b with
  | String =>
    simp only [rendered_builtin] at h
    split_ifs at h with h4 hlen
    obtain ⟨s, c', h1, hi⟩ := Cursor.get_string_ok c hn hb h4 hlen
    simp only [read_builtin, h1]
    exact ⟨c', _, rfl, hi⟩
  | Int32 =>
    simp only [rendered_builtin] at h
    split_ifs at h with h4
    simp only [List.length_drop] at h4
    obtain ⟨x, c', h1, hi, -, hn'⟩ := Cursor.get_be_ok true 4 c (by omega)
    simp only [read_builtin, h1]
    exact ⟨c', _, rfl, by omega⟩
  | Int64 =>
    simp only [rendered_builtin] at h
    split_ifs at h with h4
    simp only [List.length_drop] at h4
    obtain ⟨x, c', h1, hi, -, hn'⟩ := Cursor.get_be_ok true 8 c (by omega)
    simp only [read_builtin, h1]
    exact ⟨c', _, rfl, by omega⟩
  | Uint32 =>
    simp only [rendered_builtin] at h
    split_ifs at h with h4
    simp only [List.length_drop] at h4
    obtain ⟨x, c', h1, hi, -, hn'⟩ := Cursor.get_be_ok false 4 c (by omega)
    simp only [read_builtin, h1]
    exact ⟨c', _, rfl, by omega⟩
  | Uint64 =>
    simp only [rendered_builtin] at h
    split_ifs at h with h4
    simp only [List.length_drop] at h4
    obtain ⟨x, c', h1, hi, -, hn'⟩ := Cursor.get_be_ok false 8 c (by omega)
    simp only [read_builtin, h1]
    exact ⟨c', _, rfl, by omega⟩

/-- The loop of `read_struct` succeeds when the bytes of the fields are there. -/
theorem read_fields_ok
    (rv : Cursor → Ty → Str → Option (Except Error (Cursor × Str)))
    (sv : Ty → List Byte → Option (Str × List Byte))
    (hok : ∀ (c : Cursor) (t : Ty) (out : Str) (r : Str × List Byte), c.n = c.p.length →
      (∀ x ∈ c.p, x < 256) → c.i ≤ c.n → sv t (c.p.drop c.i) = some r →
      ∃ c' o, rv c t out = some (.ok (c', o)) ∧ c'.i ≤ c'.n)
    (hrv : ∀ (c c' : Cursor) (t : Ty) (out o : Str), c.n = c.p.length → (∀ x ∈ c.p, x < 256) →
      rv c t out = some (.ok (c', o)) →
      ∃ txt, sv t (c.p.drop c.i) = some (txt, c'.p.drop c'.i) ∧ o = out ++ txt
        ∧ c'.p = c.p ∧ c'.n = c.n) :
    ∀ (fields : List Field) (first : Bool) (c : Cursor) (out : Str)
      (r : List Str × List Byte), c.n = c.p.length → (∀ x ∈ c.p, x < 256) → c.i ≤ c.n →
      rendered_fields sv fields (c.p.drop c.i) = some r →
      ∃ c' o, read_fields rv fields first c out = some (.ok (c', o)) ∧ c'.i ≤ c'.n
  | [], first, c, out, r, _, _, hi, _ => ⟨c, out, rfl, hi⟩
  | f :: rest, first, c, out, r, hn, hb, hi, h => by
    simp only [rendered_fields] at h
    cases h1 : sv f.type (c.p.drop c.i) with
    | none => simp only [h1, reduceCtorEq] at h
    | some p =>
      obtain ⟨txt, bs'⟩ := p
      simp only [h1] at h
      cases h2 : rendered_fields sv rest bs' with
      | none => simp only [h2, reduceCtorEq] at h
      | some q =>
        obtain ⟨c₁, o₁, hr, hi₁⟩ := hok c f.type
          ((if first = true then out else out ++ ", ".toList) ++ f.name ++ "=".toList)
          (txt, bs') hn hb hi h1
        obtain ⟨txt', hs, -, hp, hn1⟩ := hrv c c₁ f.type _ o₁ hn hb hr
        rw [h1] at hs
        simp only [Option.some.injEq, Prod.mk.injEq] at hs
        obtain ⟨-, hbs⟩ := hs
        rw [hbs] at h2
        obtain ⟨c', o, hr', hi'⟩ := read_fields_ok rv sv hok hrv rest false c₁ o₁ q
          (by rw [hn1, hp, hn]) (by rw [hp]; exact hb) hi₁ h2
        simp only [read_fields, hr, hr']
        exact ⟨c', o, rfl, hi'⟩

/-- The function `read_value` succeeds when the bytes of the encoding are there. -/
theorem read_value_ok (sch : Schema) : ∀ (fuel : Nat) (c : Cursor) (t : Ty) (out : Str)
    (r : Str × List Byte), c.n = c.p.length → (∀ x ∈ c.p, x < 256) → c.i ≤ c.n →
    rendered fuel sch t (c.p.drop c.i) = some r →
    ∃ c' o, read_value fuel c sch t out = some (.ok (c', o)) ∧ c'.i ≤ c'.n
  | 0, _, _, _, _, _, _, _, h => by simp only [rendered, reduceCtorEq] at h
  | fuel + 1, c, .builtin_of b, out, r, hn, hb, _, h => by
    simp only [rendered] at h
    obtain ⟨c', o, h1, hi⟩ := read_builtin_ok b out c r hn hb h
    simp only [read_value, h1]
    exact ⟨c', o, rfl, hi⟩
  | fuel + 1, c, .user_of user, out, r, hn, hb, hi, h => by
    simp only [rendered] at h
    cases hst : sch.find_struct user with
    | none => simp only [hst, reduceCtorEq] at h
    | some st =>
      simp only [hst] at h
      cases h1 : rendered_fields (fun t' bs' => rendered fuel sch t' bs') st.fields
          (c.p.drop c.i) with
      | none => simp only [h1, reduceCtorEq] at h
      | some q =>
        obtain ⟨c', o, hr, hi'⟩ := read_fields_ok
          (fun c' t' out' => read_value fuel c' sch t' out')
          (fun t' bs' => rendered fuel sch t' bs')
          (fun c t out r hn hb hle hs => read_value_ok sch fuel c t out r hn hb hle hs)
          (fun c c' t out o hn hb h => read_value_rendered sch fuel c c' t out o hn hb h)
          st.fields true c (out ++ st.name ++ "\x7b".toList) q hn hb hi h1
        simp only [read_value, hst, read_struct, hr]
        exact ⟨c', _, rfl, hi'⟩

/-- The function `deserialize_response_to_string` on a buffer that starts with the encoding of a
value of the return type: the text of the value when the encoding is the whole
buffer, `DeserError` when bytes are left. -/
theorem deserialize_of_rendered (fuel : Nat) (sch : Schema) (fn : Function)
    (bytes : List Byte) (txt : Str) (rest : List Byte) (hb : ∀ x ∈ bytes, x < 256)
    (h : rendered fuel sch fn.return_type bytes = some (txt, rest)) :
    deserialize_response_to_string fuel sch fn bytes
        = some (if rest = [] then .ok txt else .error .DeserError)
      ∧ rest.length ≤ bytes.length := by
  obtain ⟨c', o, hr, hi⟩ := read_value_ok sch fuel ⟨bytes, bytes.length, 0⟩ fn.return_type []
    (txt, rest) rfl hb (Nat.zero_le _) h
  obtain ⟨txt', hs, ho, hp, hn⟩ := read_value_rendered sch fuel ⟨bytes, bytes.length, 0⟩ c'
    fn.return_type [] o rfl hb hr
  have hs' : rendered fuel sch fn.return_type bytes = some (txt', c'.p.drop c'.i) := hs
  rw [h] at hs'
  simp only [Option.some.injEq, Prod.mk.injEq] at hs'
  obtain ⟨rfl, rfl⟩ := hs'
  have hp' : c'.p = bytes := hp
  have hn' : c'.n = bytes.length := hn
  simp only [List.nil_append] at ho
  refine ⟨?_, by rw [hp', List.length_drop]; omega⟩
  simp only [deserialize_response_to_string, hr, ho]
  by_cases hfull : c'.i = c'.n
  · rw [if_neg (by simpa using hfull), if_pos (by
      rw [hp']
      exact List.drop_eq_nil_of_le (by omega))]
  · rw [if_pos hfull, if_neg (by
      rw [hp']
      intro hnil
      have := List.drop_eq_nil_iff.mp hnil
      omega)]

/-! ### How the loops of the completion engine end -/

/-- The loop of `parse_function` with no name left: it ends and nothing is appended. -/
theorem parse_function_loop_done (fuel : Nat) (sch : Schema) (mapping : List (Str × Str))
    (txt : TextView) (out : Str) :
    parse_function_loop (fuel + 1) sch [] mapping txt out = some (.ok (txt, out)) := by
  rw [parse_function_loop, if_pos rfl]

/-- One round of the loop of `parse_function` in which the value is not reported finished:
the loop ends at the end of the input, and goes on with the names left otherwise. -/
theorem parse_function_loop_unfinished (fuel : Nat) (sch : Schema) (remaining : List Str)
    (mapping : List (Str × Str)) (txt : TextView) (out : Str) (chosen : Str)
    (remaining₁ : List Str) (txt₁ : TextView) (out₁ : Str) (txt₂ : TextView) (out₂ : Str)
    (hrem : remaining ≠ [])
    (hg : get_arg txt remaining out = (some chosen, remaining₁, txt₁, out₁))
    (hp : fill_primitive fuel sch (map_at chosen mapping)
        (append_if_missing txt₁ '=' out₁).2.1 (append_if_missing txt₁ '=' out₁).2.2
      = some (.ok (.Incomplete, txt₂, out₂))) :
    parse_function_loop (fuel + 1) sch remaining mapping txt out
      = if txt₂ = [] then some (.ok (txt₂, out₂))
        else parse_function_loop fuel sch remaining₁ mapping txt₂ out₂ := by
  rw [parse_function_loop, if_neg hrem, hg]
  simp only [hp, reduceCtorEq, if_false]

/-- One round of the loop of `parse_function` in which no name left starts with the token:
the value of an empty optional is taken. -/
theorem parse_function_loop_lookup (fuel : Nat) (sch : Schema) (remaining : List Str)
    (mapping : List (Str × Str)) (txt : TextView) (out : Str)
    (remaining₁ : List Str) (txt₁ : TextView) (out₁ : Str) (hrem : remaining ≠ [])
    (hg : get_arg txt remaining out = (none, remaining₁, txt₁, out₁)) :
    parse_function_loop (fuel + 1) sch remaining mapping txt out
      = some (.error .empty_optional) := by
  rw [parse_function_loop, if_neg hrem, hg]

/-- The loop of `fill_structure` with no name left: it ends, the struct is reported
incomplete and nothing is appended. -/
theorem fill_fields_done (fuel : Nat) (sch : Schema) (mapping : List (Str × Str))
    (txt : TextView) (out : Str) :
    fill_fields (fuel + 1) sch [] mapping txt out = some (.ok (.Incomplete, txt, out)) := by
  rw [fill_fields, if_pos rfl]

/-- One round of the loop of `fill_structure` in which the value is not reported finished:
the loop ends at the end of the input, the struct being reported incomplete, and
goes on with the names left otherwise. -/
theorem fill_fields_unfinished (fuel : Nat) (sch : Schema) (remaining : List Str)
    (mapping : List (Str × Str)) (txt : TextView) (out : Str) (chosen : Str)
    (remaining₁ : List Str) (txt₁ : TextView) (out₁ : Str) (txt₂ : TextView) (out₂ : Str)
    (hrem : remaining ≠ [])
    (hg : get_arg txt remaining out = (some chosen, remaining₁, txt₁, out₁))
    (hp : fill_primitive fuel sch (map_at chosen mapping)
        (append_if_missing txt₁ '=' out₁).2.1 (append_if_missing txt₁ '=' out₁).2.2
      = some (.ok (.Incomplete, txt₂, out₂))) :
    fill_fields (fuel + 1) sch remaining mapping txt out
      = if txt₂ = [] then some (.ok (.Incomplete, txt₂, out₂))
        else fill_fields fuel sch remaining₁ mapping txt₂ out₂ := by
  rw [fill_fields, if_neg hrem, hg]
  simp only [hp, reduceCtorEq, if_false]

/-- One round of the loop of `fill_structure` in which no name left starts with the token. -/
theorem fill_fields_lookup (fuel : Nat) (sch : Schema) (remaining : List Str)
    (mapping : List (Str × Str)) (txt : TextView) (out : Str)
    (remaining₁ : List Str) (txt₁ : TextView) (out₁ : Str) (hrem : remaining ≠ [])
    (hg : get_arg txt remaining out = (none, remaining₁, txt₁, out₁)) :
    fill_fields (fuel + 1) sch remaining mapping txt out = some (.error .empty_optional) := by
  rw [fill_fields, if_neg hrem, hg]

/-- One round of the loops of `parse_function` and `fill_structure` in which the value stops at
a lookup without a result: so does the loop. -/
theorem loop_round_undefined (fuel : Nat) (sch : Schema) (remaining : List Str)
    (mapping : List (Str × Str)) (txt : TextView) (out : Str) (chosen : Str)
    (remaining₁ : List Str) (txt₁ : TextView) (out₁ : Str) (e : Undefined)
    (hrem : remaining ≠ [])
    (hg : get_arg txt remaining out = (some chosen, remaining₁, txt₁, out₁))
    (hp : fill_primitive fuel sch (map_at chosen mapping)
        (append_if_missing txt₁ '=' out₁).2.1 (append_if_missing txt₁ '=' out₁).2.2
      = some (.error e)) :
    parse_function_loop (fuel + 1) sch remaining mapping txt out = some (.error e)
      ∧ fill_fields (fuel + 1) sch remaining mapping txt out = some (.error e) := by
  constructor
  · rw [parse_function_loop, if_neg hrem, hg]
    simp only [hp]
  · rw [fill_fields, if_neg hrem, hg]
    simp only [hp]

/-- C33 (counterexample): the schema text `struct S{T t;} struct T{S s;} fn f->int32{S a;}` is
accepted by `parse_schema_text`, and on the input `f(` the run of `autocomplete` with the
schema returned does not end: whatever the bound on the nested calls and loop
rounds, the bound is reached. And a loop can end before the end of the input
without its closing delimiter: with the schema of `fn f->int32{int32 a;}` on the input `f(a=)`
the loop of `parse_function` ends with `)` unread and nothing appended. -/
theorem autocomplete_cycle_diverges :
    parse_schema_text
        "struct S\x7bT t;\x7d struct T\x7bS s;\x7d fn f->int32\x7bS a;\x7d".toList
      = some (.ok (doc_schema cycle_call_doc))
    ∧ (∀ fuel : Nat, autocomplete fuel "f(".toList (doc_schema cycle_call_doc) = none)
    ∧ parse_schema_text "fn f->int32\x7bint32 a;\x7d".toList = some (.ok int_arg_schema)
    ∧ parse_function_loop 2 int_arg_schema ["a".toList] [("a".toList, "int32".toList)]
        "a=)".toList [] = some (.ok (")".toList, []))
    ∧ autocomplete 2 "f(a=)".toList int_arg_schema = some (.ok "f(a=)".toList) := by
  refine ⟨by decide, fun fuel => ?_, by decide, by decide, by decide⟩
  have hg : get_func "f(".toList ((doc_schema cycle_call_doc).functions.map Prod.fst) []
      = (some "f".toList, "(".toList, []) := by decide
  have hfn : (doc_schema cycle_call_doc).find_function "f".toList
      = some ⟨"f".toList, .builtin_of .Int32, [⟨"a".toList, .user_of "S".toList⟩]⟩ := by decide
  have hl := cycle_loop_none fuel []
  rw [autocomplete, hg]
  simp only [parse_function, hfn]
  rw [if_neg (by decide)]
  have e : parse_function_loop fuel (doc_schema cycle_call_doc)
      (remaining_of [⟨"a".toList, .user_of "S".toList⟩])
      (mapping_of [⟨"a".toList, .user_of "S".toList⟩])
      (append_if_missing "(".toList '(' []).2.1 (append_if_missing "(".toList '(' []).2.2
      = none := hl
  rw [e]

/-- C33 (amended): for every schema in which no struct is reachable from itself through
field types and for every input text, the run of `autocomplete` ends after finitely many
steps: under some bound on the nested calls and loop rounds, and under every larger
one, it returns one and the same text or stops at a lookup without a result. Each argument loop and each nested
struct-field loop runs at most one round for each name left, every round taking
one name out of the set, and ends in one of these ways: no name is left (nothing
is appended); a value is finished and no name is left (the closing delimiter is
passed or appended); a value is not finished and the input is at its end; a
lookup has no result. After a value that is not finished, with input left, the
loop goes on with the names left. -/
theorem autocomplete_terminates :
    (∀ (sch : Schema) (input : Str), sch.acyclic →
      ∃ fuel r, ∀ k, fuel ≤ k → autocomplete k input sch = some r)
    ∧ (∀ (sch : Schema) (ms : List Field) (N : Nat) (remaining : List Str) (txt : TextView)
        (out : Str),
      (∀ f ∈ ms, ∀ txt out, ∃ r, fill_primitive N sch f.type.str txt out = some r) →
      (∀ a ∈ remaining, a ∈ ms.map Field.name) →
      (∃ r, parse_function_loop (N + remaining.length + 1) sch remaining (mapping_of ms) txt out
        = some r)
      ∧ ∃ r, fill_fields (N + remaining.length + 1) sch remaining (mapping_of ms) txt out
        = some r)
    ∧ (∀ (txt : TextView) (remaining : List Str) (out chosen : Str) (remaining₁ : List Str)
        (txt₁ : TextView) (out₁ : Str),
      get_arg txt remaining out = (some chosen, remaining₁, txt₁, out₁) →
      chosen ∈ remaining ∧ remaining₁ = remaining.erase chosen
        ∧ remaining₁.length + 1 = remaining.length)
    ∧ (∀ (fuel : Nat) (sch : Schema) (mapping : List (Str × Str)) (txt : TextView) (out : Str),
      parse_function_loop (fuel + 1) sch [] mapping txt out = some (.ok (txt, out))
      ∧ fill_fields (fuel + 1) sch [] mapping txt out = some (.ok (.Incomplete, txt, out)))
    ∧ (∀ (fuel : Nat) (sch : Schema) (remaining : List Str) (mapping : List (Str × Str))
        (txt : TextView) (out : Str) (remaining₁ : List Str) (txt₁ : TextView) (out₁ : Str),
      remaining ≠ [] → get_arg txt remaining out = (none, remaining₁, txt₁, out₁) →
      parse_function_loop (fuel + 1) sch remaining mapping txt out
        = some (.error .empty_optional)
      ∧ fill_fields (fuel + 1) sch remaining mapping txt out = some (.error .empty_optional))
    ∧ (∀ (fuel : Nat) (sch : Schema) (remaining : List Str) (mapping : List (Str × Str))
        (txt : TextView) (out : Str) (chosen : Str) (remaining₁ : List Str) (txt₁ : TextView)
        (out₁ : Str) (txt₂ : TextView) (out₂ : Str),
      remaining ≠ [] →
      get_arg txt remaining out = (some chosen, remaining₁, txt₁, out₁) →
      fill_primitive fuel sch (map_at chosen mapping)
          (append_if_missing txt₁ '=' out₁).2.1 (append_if_missing txt₁ '=' out₁).2.2
        = some (.ok (.Finished, txt₂, out₂)) →
      parse_function_loop (fuel + 1) sch remaining mapping txt out
        = (if remaining₁ = [] then
            some (.ok ((append_if_missing txt₂ ')' out₂).2.1,
              (append_if_missing txt₂ ')' out₂).2.2))
          else
            parse_function_loop fuel sch remaining₁ mapping
              (append_if_missing (append_if_missing txt₂ ',' out₂).2.1 ' '
                (append_if_missing txt₂ ',' out₂).2.2).2.1
              (append_if_missing (append_if_missing txt₂ ',' out₂).2.1 ' '
                (append_if_missing txt₂ ',' out₂).2.2).2.2)
      ∧ fill_fields (fuel + 1) sch remaining mapping txt out
        = (if remaining₁ = [] then
            some (.ok (.Finished, (append_if_missing txt₂ '\x7d' out₂).2.1,
              (append_if_missing txt₂ '\x7d' out₂).2.2))
          else
            fill_fields fuel sch remaining₁ mapping
              (append_if_missing (append_if_missing txt₂ ',' out₂).2.1 ' '
                (append_if_missing txt₂ ',' out₂).2.2).2.1
              (append_if_missing (append_if_missing txt₂ ',' out₂).2.1 ' '
                (append_if_missing txt₂ ',' out₂).2.2).2.2))
    ∧ (∀ (fuel : Nat) (sch : Schema) (remaining : List Str) (mapping : List (Str × Str))
        (txt : TextView) (out : Str) (chosen : Str) (remaining₁ : List Str) (txt₁ : TextView)
        (out₁ : Str) (txt₂ : TextView) (out₂ : Str),
      remaining ≠ [] →
      get_arg txt remaining out = (some chosen, remaining₁, txt₁, out₁) →
      fill_primitive fuel sch (map_at chosen mapping)
          (append_if_missing txt₁ '=' out₁).2.1 (append_if_missing txt₁ '=' out₁).2.2
        = some (.ok (.Incomplete, txt₂, out₂)) →
      parse_function_loop (fuel + 1) sch remaining mapping txt out
        = (if txt₂ = [] then some (.ok (txt₂, out₂))
          else parse_function_loop fuel sch remaining₁ mapping txt₂ out₂)
      ∧ fill_fields (fuel + 1) sch remaining mapping txt out
        = (if txt₂ = [] then some (.ok (.Incomplete, txt₂, out₂))
          else fill_fields fuel sch remaining₁ mapping txt₂ out₂))
    ∧ (∀ (fuel : Nat) (sch : Schema) (remaining : List Str) (mapping : List (Str × Str))
        (txt : TextView) (out : Str) (chosen : Str) (remaining₁ : List Str) (txt₁ : TextView)
        (out₁ : Str) (e : Undefined),
      remaining ≠ [] →
      get_arg txt remaining out = (some chosen, remaining₁, txt₁, out₁) →
      fill_primitive fuel sch (map_at chosen mapping)
          (append_if_missing txt₁ '=' out₁).2.1 (append_if_missing txt₁ '=' out₁).2.2
        = some (.error e) →
      parse_function_loop (fuel + 1) sch remaining mapping txt out = some (.error e)
      ∧ fill_fields (fuel + 1) sch remaining mapping txt out = some (.error e)) := by
  refine ⟨fun sch input h => ?_, ?_, ?_, ?_, ?_, ?_, ?_, loop_round_undefined⟩
  · obtain ⟨fuel, r, hr⟩ := autocomplete_some sch h input
    exact ⟨fuel, r, fun k hk => autocomplete_mono fuel k input sch r hr hk⟩
  · intro sch ms N remaining txt out hN hsub
    exact ⟨parse_function_loop_some sch ms N hN _ remaining (Nat.le_refl _) hsub txt out,
      fill_fields_some sch ms N hN _ remaining (Nat.le_refl _) hsub txt out⟩
  · intro txt remaining out chosen remaining₁ txt₁ out₁ hg
    obtain ⟨hm, he⟩ := get_arg_some _ _ _ _ _ _ _ hg
    refine ⟨hm, he, ?_⟩
    have hpos : 0 < remaining.length := List.length_pos_of_mem hm
    rw [he, List.length_erase_of_mem hm]
    omega
  · intro fuel sch mapping txt out
    exact ⟨parse_function_loop_done fuel sch mapping txt out,
      fill_fields_done fuel sch mapping txt out⟩
  · intro fuel sch remaining mapping txt out remaining₁ txt₁ out₁ hrem hg
    exact ⟨parse_function_loop_lookup fuel sch remaining mapping txt out _ _ _ hrem hg,
      fill_fields_lookup fuel sch remaining mapping txt out _ _ _ hrem hg⟩
  · intro fuel sch remaining mapping txt out chosen remaining₁ txt₁ out₁ txt₂ out₂ hrem hg hp
    exact ⟨parse_function_loop_finished fuel sch remaining mapping txt out chosen _ _ _ _ _
        hrem hg hp,
      fill_fields_finished fuel sch remaining mapping txt out chosen _ _ _ _ _ hrem hg hp⟩
  · intro fuel sch remaining mapping txt out chosen remaining₁ txt₁ out₁ txt₂ out₂ hrem hg hp
    exact ⟨parse_function_loop_unfinished fuel sch remaining mapping txt out chosen _ _ _ _ _
        hrem hg hp,
      fill_fields_unfinished fuel sch remaining mapping txt out chosen _ _ _ _ _ hrem hg hp⟩

theorem autocomplete_terminates_witness :
    point_schema.acyclic
    ∧ (∃ fuel r, ∀ k, fuel ≤ k →
        autocomplete k "sum(p=\x7bx=1,".toList point_schema = some r)
    ∧ autocomplete 6 "sum(p=\x7bx=1,".toList point_schema
        = some (.ok "sum(p=\x7bx=1, y=".toList)
    ∧ (∃ r, parse_function_loop (1 + 1 + 1) int_arg_schema ["a".toList]
        (mapping_of [⟨"a".toList, .builtin_of .Int32⟩]) "a=)".toList [] = some r)
    ∧ parse_function_loop (1 + 1) int_arg_schema ["a".toList]
        [("a".toList, "int32".toList)] "a=)".toList []
      = parse_function_loop 1 int_arg_schema [] [("a".toList, "int32".toList)] ")".toList []
    ∧ parse_function_loop (0 + 1) int_arg_schema [] [("a".toList, "int32".toList)]
        ")".toList [] = some (.ok (")".toList, []))
    ∧ parse_function_loop (1 + 1) int_arg_schema ["a".toList]
        [("a".toList, "int32".toList)] "a=".toList [] = some (.ok ([], []))
    ∧ fill_fields (1 + 1) point_schema ["y".toList]
        [("x".toList, "int32".toList), ("y".toList, "int32".toList)] "y=2\x7d)".toList []
      = some (.ok (.Finished, ")".toList, [])) :=
  ⟨acyclic_of_depth _ 2 (by decide),
    autocomplete_terminates.1 point_schema _ (acyclic_of_depth _ 2 (by decide)),
    by decide,
    (autocomplete_terminates.2.1 int_arg_schema [⟨"a".toList, .builtin_of .Int32⟩] 1
      ["a".toList] "a=)".toList []
      (by
        intro f hf txt out
        rw [List.mem_singleton] at hf
        subst hf
        exact ⟨_, rfl⟩)
      (by decide)).1,
    (autocomplete_terminates.2.2.2.2.2.2.1 1 int_arg_schema ["a".toList]
      [("a".toList, "int32".toList)] "a=)".toList [] "a".toList [] "=)".toList []
      ")".toList [] (by decide) (by decide) (by decide)).1,
    (autocomplete_terminates.2.2.2.1 0 int_arg_schema [("a".toList, "int32".toList)]
      ")".toList []).1,
    (autocomplete_terminates.2.2.2.2.2.2.1 1 int_arg_schema ["a".toList]
      [("a".toList, "int32".toList)] "a=".toList [] "a".toList [] "=".toList []
      [] [] (by decide) (by decide) (by decide)).1,
    (autocomplete_terminates.2.2.2.2.2.1 1 point_schema ["y".toList]
      [("x".toList, "int32".toList), ("y".toList, "int32".toList)] "y=2\x7d)".toList []
      "y".toList [] "=2\x7d)".toList [] "\x7d)".toList [] (by decide) (by decide)
      (by decide)).2⟩

/-! ### The size of an encoding -/

theorem rendered_builtin_suffix (b : Builtin) (bs : List Byte) (r : Str × List Byte)
    (h : rendered_builtin b bs = some r) : ∃ n, n ≤ bs.length ∧ r.2 = bs.drop n := by
  cases b
  all_goals simp only [rendered_builtin] at h
  all_goals split_ifs at h
  all_goals simp only [Option.some.injEq] at h
  all_goals subst h
  · exact ⟨4, by omega, rfl⟩
  · exact ⟨8, by omega, rfl⟩
  · exact ⟨4, by omega, rfl⟩
  · exact ⟨8, by omega, rfl⟩
  · rename_i h1 h2
    rw [List.length_drop] at h2
    exact ⟨4 + be_unsigned (bs.take 4), by omega, by simp only [List.drop_drop]⟩

theorem rendered_fields_suffix (rv : Ty → List Byte → Option (Str × List Byte))
    (hrv : ∀ t bs r, rv t bs = some r → ∃ n, n ≤ bs.length ∧ r.2 = bs.drop n) :
    ∀ (fs : List Field) (bs : List Byte) (r : List Str × List Byte),
      rendered_fields rv fs bs = some r → ∃ n, n ≤ bs.length ∧ r.2 = bs.drop n
  | [], bs, r, h => by
    simp only [rendered_fields, Option.some.injEq] at h
    subst h
    exact ⟨0, Nat.zero_le _, rfl⟩
  | f :: rest, bs, r, h => by
    cases h1 : rv f.type bs with
    | none => simp only [rendered_fields, h1, reduceCtorEq] at h
    | some p =>
      obtain ⟨txt, bs'⟩ := p
      obtain ⟨n, hn, e⟩ := hrv _ _ _ h1
      simp only at e
      cases h2 : rendered_fields rv rest bs' with
      | none => simp only [rendered_fields, h1, h2, reduceCtorEq] at h
      | some q =>
        obtain ⟨parts, bs''⟩ := q
        obtain ⟨m, hm, e'⟩ := rendered_fields_suffix rv hrv rest bs' _ h2
        simp only [rendered_fields, h1, h2, Option.some.injEq] at h
        subst h
        simp only at e' ⊢
        subst e
        rw [List.length_drop] at hm
        exact ⟨n + m, by omega, by rw [e', List.drop_drop]⟩

theorem rendered_suffix (sch : Schema) : ∀ (fuel : Nat) (t : Ty) (bs : List Byte)
    (r : Str × List Byte), rendered fuel sch t bs = some r →
    ∃ n, n ≤ bs.length ∧ r.2 = bs.drop n
  | 0, t, bs, r, h => by simp only [rendered, reduceCtorEq] at h
  | fuel + 1, .builtin_of b, bs, r, h => by
    simp only [rendered] at h
    exact rendered_builtin_suffix b bs r h
  | fuel + 1, .user_of u, bs, r, h => by
    simp only [rendered] at h
    cases hst : sch.find_struct u with
    | none => simp only [hst, reduceCtorEq] at h
    | some st =>
      simp only [hst] at h
      cases hf : rendered_fields (fun t' bs' => rendered fuel sch t' bs') st.fields bs with
      | none => simp only [hf, reduceCtorEq] at h
      | some q =>
        obtain ⟨parts, rest⟩ := q
        simp only [hf, Option.some.injEq] at h
        subst h
        exact rendered_fields_suffix _ (fun t bs r hr => rendered_suffix sch fuel t bs r hr)
          st.fields bs _ hf

/-- The bytes that `rendered_fields` takes from the buffer are those of the fields, one after
the other. -/
theorem rendered_fields_size (rv : Ty → List Byte → Option (Str × List Byte))
    (hrv : ∀ t bs r, rv t bs = some r → ∃ n, n ≤ bs.length ∧ r.2 = bs.drop n) :
    ∀ (fs : List Field) (bs : List Byte),
      (rendered_fields rv fs bs).map (fun r => bs.length - r.2.length)
        = fields_size (fun t b => (rv t b).map (fun r => b.length - r.2.length)) fs bs
  | [], bs => by
    simp only [rendered_fields, fields_size, Option.map_some', Nat.sub_self]
  | f :: rest, bs => by
    cases h1 : rv f.type bs with
    | none => simp only [rendered_fields, fields_size, h1, Option.map_none']
    | some p =>
      obtain ⟨txt, bs'⟩ := p
      obtain ⟨n, hn, e⟩ := hrv _ _ _ h1
      simp only at e
      subst e
      have ih := rendered_fields_size rv hrv rest (bs.drop n)
      have hsz : bs.length - (bs.drop n).length = n := by
        rw [List.length_drop]
        omega
      cases h2 : rendered_fields rv rest (bs.drop n) with
      | none =>
        rw [h2] at ih
        simp only [Option.map_none'] at ih
        simp only [rendered_fields, fields_size, h1, h2, Option.map_none', Option.map_some',
          hsz, ← ih]
      | some q =>
        obtain ⟨parts, bs''⟩ := q
        obtain ⟨m, hm, e'⟩ := rendered_fields_suffix rv hrv rest _ _ h2
        rw [h2] at ih
        simp only [Option.map_some'] at ih
        simp only at e'
        subst e'
        simp only [rendered_fields, fields_size, h1, h2, Option.map_some', hsz, ← ih,
          Option.some.injEq]
        rw [List.length_drop] at hm
        simp only [List.length_drop]
        omega

/-- The size of the encoding of a struct: the sizes of the encodings of its declared
fields, one after the other; there is none for a name that the schema does not declare. -/
theorem encoded_size_struct (fuel : Nat) (sch : Schema) (user : Str) (bs : List Byte) :
    encoded_size (fuel + 1) sch (.user_of user) bs
      = match sch.find_struct user with
        | none => none
        | some st => fields_size (fun t b => encoded_size fuel sch t b) st.fields bs := by
  cases hst : sch.find_struct user with
  | none => simp only [encoded_size, rendered, hst, Option.map_none']
  | some st =>
    have h := rendered_fields_size (fun t' bs' => rendered fuel sch t' bs')
      (fun t bs r hr => rendered_suffix sch fuel t bs r hr) st.fields bs
    simp only [encoded_size, rendered, hst]
    rw [← h]
    cases rendered_fields (fun t' bs' => rendered fuel sch t' bs') st.fields bs with
    | none => rfl
    | some q => rfl

/-- The result of `deserialize_response_to_string`, when there is one, is a text or `DeserError`. -/
theorem deserialize_error (fuel : Nat) (sch : Schema) (fn : Function) (bytes : List Byte)
    (e : Error) (h : deserialize_response_to_string fuel sch fn bytes = some (.error e)) :
    e = .DeserError := by
  have herr := (read_value_widen [] sch fuel ⟨bytes, bytes.length, 0⟩ fn.return_type []
    (Nat.le_refl _)).2.2
  unfold deserialize_response_to_string at h
  cases h1 : read_value fuel ⟨bytes, bytes.length, 0⟩ sch fn.return_type [] with
  | none => rw [h1] at h; cases h
  | some r =>
    cases r with
    | error e' =>
      rw [h1] at h
      simp only [Option.some.injEq, Except.error.injEq] at h
      subst h
      exact herr _ h1
    | ok p =>
      obtain ⟨cur, o⟩ := p
      rw [h1] at h
      by_cases hi : cur.i = cur.n
      · simp only [hi, ne_eq, not_true_eq_false, if_false, Option.some.injEq,
          reduceCtorEq] at h
      · simp only [ne_eq, hi, not_false_eq_true, if_true, Option.some.injEq,
          Except.error.injEq] at h
        exact h.symm

/-- C12: `deserialize_response_to_string` succeeds only on a buffer that has exactly the number of
bytes that the encoding of the return type occupies, `encoded_size`, and every other
result that it gives is `DeserError`; when the encoding stands at the head of the
buffer, the buffer is accepted if its length is that number and rejected with
`DeserError` if bytes are left; the encoding of `int32` and `uint32` occupies 4 bytes, of
`int64` and `uint64` 8 bytes, of a string 4 bytes and the announced length, of a struct
what the encodings of its declared fields occupy one after the other, and no
encoding is there when the buffer ends before that or the struct is not declared;
and when a buffer is accepted, every proper prefix of it and every extension of
it by further bytes is rejected with `DeserError`. -/
theorem deserialize_exact_length :
    (∀ (fuel : Nat) (sch : Schema) (fn : Function) (bytes : List Byte) (out : Str),
      (∀ x ∈ bytes, x < 256) →
      deserialize_response_to_string fuel sch fn bytes = some (.ok out) →
      encoded_size fuel sch fn.return_type bytes = some bytes.length)
    ∧ (∀ (fuel : Nat) (sch : Schema) (fn : Function) (bytes : List Byte)
        (r : Except Error Str),
      (∀ x ∈ bytes, x < 256) →
      deserialize_response_to_string fuel sch fn bytes = some r →
      encoded_size fuel sch fn.return_type bytes ≠ some bytes.length →
      r = .error .DeserError)
    ∧ (∀ (fuel : Nat) (sch : Schema) (fn : Function) (bytes : List Byte) (n : Nat),
      (∀ x ∈ bytes, x < 256) →
      encoded_size fuel sch fn.return_type bytes = some n →
      n ≤ bytes.length
      ∧ (n = bytes.length → ∃ out, deserialize_response_to_string fuel sch fn bytes = some (.ok out))
      ∧ (n < bytes.length →
          deserialize_response_to_string fuel sch fn bytes = some (.error .DeserError)))
    ∧ (∀ (fuel : Nat) (sch : Schema) (bs : List Byte),
      encoded_size (fuel + 1) sch (.builtin_of .Int32) bs
          = (if bs.length < 4 then none else some 4)
      ∧ encoded_size (fuel + 1) sch (.builtin_of .Uint32) bs
          = (if bs.length < 4 then none else some 4)
      ∧ encoded_size (fuel + 1) sch (.builtin_of .Int64) bs
          = (if bs.length < 8 then none else some 8)
      ∧ encoded_size (fuel + 1) sch (.builtin_of .Uint64) bs
          = (if bs.length < 8 then none else some 8)
      ∧ encoded_size (fuel + 1) sch (.builtin_of .String) bs
          = (if bs.length < 4 then none
            else if bs.length - 4 < be_unsigned (bs.take 4) then none
            else some (4 + be_unsigned (bs.take 4))))
    ∧ (∀ (fuel : Nat) (sch : Schema) (user : Str) (bs : List Byte),
      encoded_size (fuel + 1) sch (.user_of user) bs
        = match sch.find_struct user with
          | none => none
          | some st => fields_size (fun t b => encoded_size fuel sch t b) st.fields bs)
    ∧ (∀ (fuel : Nat) (sch : Schema) (fn : Function) (bytes : List Byte) (out : Str),
      deserialize_response_to_string fuel sch fn bytes = some (.ok out) →
      (∀ extra : List Byte, extra ≠ [] →
        deserialize_response_to_string fuel sch fn (bytes ++ extra) = some (.error .DeserError))
      ∧ (∀ pre suf : List Byte, suf ≠ [] → bytes = pre ++ suf →
        deserialize_response_to_string fuel sch fn pre = some (.error .DeserError))) := by
  have h1 : ∀ (fuel : Nat) (sch : Schema) (fn : Function) (bytes : List Byte) (out : Str),
      (∀ x ∈ bytes, x < 256) →
      deserialize_response_to_string fuel sch fn bytes = some (.ok out) →
      encoded_size fuel sch fn.return_type bytes = some bytes.length := by
    intro fuel sch fn bytes out hb h
    obtain ⟨cur, h1, -⟩ := deserialize_ok_inv fuel sch fn bytes out h
    obtain ⟨txt, hs, -, hp, hn⟩ := read_value_rendered sch fuel ⟨bytes, bytes.length, 0⟩ cur
      fn.return_type [] out rfl hb h1
    have hs' : rendered fuel sch fn.return_type bytes = some (txt, cur.p.drop cur.i) := hs
    obtain ⟨hd, -⟩ := deserialize_of_rendered fuel sch fn bytes txt _ hb hs'
    rw [h] at hd
    have hnil : cur.p.drop cur.i = [] := by
      by_contra hne
      rw [if_neg hne] at hd
      simp only [Option.some.injEq, reduceCtorEq] at hd
    simp only [encoded_size, hs', hnil, Option.map_some', List.length_nil, Nat.sub_zero]
  refine ⟨h1, ?_, ?_, ?_, encoded_size_struct, deserialize_extend_cut⟩
  · intro fuel sch fn bytes r hb h hne
    cases r with
    | ok out => exact absurd (h1 fuel sch fn bytes out hb h) hne
    | error e => rw [deserialize_error fuel sch fn bytes e h]
  · intro fuel sch fn bytes n hb h
    simp only [encoded_size, Option.map_eq_some'] at h
    obtain ⟨⟨txt, rest⟩, hr, rfl⟩ := h
    obtain ⟨hd, hle⟩ := deserialize_of_rendered fuel sch fn bytes txt rest hb hr
    simp only at hle ⊢
    refine ⟨by omega, fun hfull => ?_, fun hless => ?_⟩
    · have : rest = [] := List.length_eq_zero.mp (by omega)
      exact ⟨txt, by rw [hd, if_pos this]⟩
    · have : rest ≠ [] := fun e => by
        rw [e] at hless
        simp at hless
      rw [hd, if_neg this]
  · intro fuel sch bs
    refine ⟨?_, ?_, ?_, ?_, ?_⟩
    · simp only [encoded_size, rendered, rendered_builtin]
      split_ifs with h
      · rfl
      · simp only [Option.map_some', List.length_drop, Option.some.injEq]
        omega
    · simp only [encoded_size, rendered, rendered_builtin]
      split_ifs with h
      · rfl
      · simp only [Option.map_some', List.length_drop, Option.some.injEq]
        omega
    · simp only [encoded_size, rendered, rendered_builtin]
      split_ifs with h
      · rfl
      · simp only [Option.map_some', List.length_drop, Option.some.injEq]
        omega
    · simp only [encoded_size, rendered, rendered_builtin]
      split_ifs with h
      · rfl
      · simp only [Option.map_some', List.length_drop, Option.some.injEq]
        omega
    · simp only [encoded_size, rendered, rendered_builtin, List.length_drop]
      split_ifs with h h'
      · rfl
      · rfl
      · simp only [Option.map_some', List.length_drop, Option.some.injEq]
        omega

theorem deserialize_exact_length_witness :
    encoded_size 2 point_schema (.user_of "Point".toList) [0, 0, 0, 3, 255, 255, 255, 254]
      = some 8
    ∧ deserialize_response_to_string 2 point_schema
        ⟨"origin".toList, .user_of "Point".toList, []⟩ [0, 0, 0, 3, 255, 255, 255, 254]
      = some (.ok "Point\x7bx=3, y=-2\x7d".toList)
    ∧ (∃ out, deserialize_response_to_string 2 point_schema
        ⟨"origin".toList, .user_of "Point".toList, []⟩ [0, 0, 0, 3, 255, 255, 255, 254]
      = some (.ok out))
    ∧ encoded_size 2 point_schema (.user_of "Point".toList)
        [0, 0, 0, 3, 255, 255, 255, 254, 0] = some 8
    ∧ deserialize_response_to_string 2 point_schema
        ⟨"origin".toList, .user_of "Point".toList, []⟩ [0, 0, 0, 3, 255, 255, 255, 254, 0]
      = some (.error .DeserError)
    ∧ encoded_size 2 point_schema (.user_of "Point".toList) [0, 0, 0, 3, 255] = none
    ∧ deserialize_response_to_string 2 point_schema
        ⟨"origin".toList, .user_of "Point".toList, []⟩ [0, 0, 0, 3, 255]
      = some (.error .DeserError)
    ∧ deserialize_response_to_string 2 point_schema
        ⟨"origin".toList, .user_of "Point".toList, []⟩
        ([0, 0, 0, 3, 255, 255, 255, 254] ++ [7, 7])
      = some (.error .DeserError) :=
  ⟨deserialize_exact_length.1 2 point_schema ⟨"origin".toList, .user_of "Point".toList, []⟩
      [0, 0, 0, 3, 255, 255, 255, 254] "Point\x7bx=3, y=-2\x7d".toList (by decide) (by decide),
    by decide,
    (deserialize_exact_length.2.2.1 2 point_schema
      ⟨"origin".toList, .user_of "Point".toList, []⟩ [0, 0, 0, 3, 255, 255, 255, 254] 8
      (by decide) (by decide)).2.1 rfl,
    by decide,
    (deserialize_exact_length.2.2.1 2 point_schema
      ⟨"origin".toList, .user_of "Point".toList, []⟩ [0, 0, 0, 3, 255, 255, 255, 254, 0] 8
      (by decide) (by decide)).2.2 (by decide),
    by decide,
    (deserialize_exact_length.2.2.2.2.2 2 point_schema
      ⟨"origin".toList, .user_of "Point".toList, []⟩ [0, 0, 0, 3, 255, 255, 255, 254]
      "Point\x7bx=3, y=-2\x7d".toList (by decide)).2 [0, 0, 0, 3, 255] [255, 255, 254]
      (by decide) rfl,
    (deserialize_exact_length.2.2.2.2.2 2 point_schema
      ⟨"origin".toList, .user_of "Point".toList, []⟩ [0, 0, 0, 3, 255, 255, 255, 254]
      "Point\x7bx=3, y=-2\x7d".toList (by decide)).1 [7, 7] (by decide)⟩

end ct
